import Mathlib

/-!
# JSON core of cpp-rpg-inventory-system (`src/json.hpp`)

A shallow embedding of the header-only JSON implementation: the tagged-union value
`class json`, its accessors, the recursive-descent `json::parse` and the serializer
`json::dump`.

Conventions of the embedding.

* A C++ `char` is a Lean `Char`; `std::string` is `List Char`.  The code only ever
  compares characters with ASCII constants or classifies them with `<cctype>` in the
  "C" locale, so nothing depends on the codes above 255 that `Char` also has.
* `int64_t` payloads are `Int`; the range is part of the predicate
  `json.well_formed`, and narrowing casts are written out with modular arithmetic.
* `double` is the type `Double` below: sign, integer mantissa and binary exponent
  of a finite binary64 number, or an infinity, or NaN.
* `json_object` (`std::unordered_map<std::string, json>`) is an association list
  whose order stands for the iteration order of the container, which C++ leaves
  unspecified.  Keys are unique (`json.well_formed`); insertion appends.
* Exceptions are values of `Exn`; functions that throw return `Except Exn _`.
* The parser cursor `(str, pos)` is the unread suffix `str.drop pos`.
* The mutually recursive parser functions take a `fuel` argument, a budget of calls
  and loop iterations that makes the recursion structural; `json.parse` supplies
  `3 * length + 3`, which is never used up (`parse_not_exhausted`).
* These functions run as on a call stack without a limit.  `json.on_stack` has the
  same functions on a stack with room for a given number of nested calls.
-/

/-! ## Exceptions -/

/-- The C++ exception classes the JSON core can throw, with their `what()` text. -/
inductive Exn where
  | runtime_error (what : String)
  | out_of_range (what : String)
  | invalid_argument (what : String)
  deriving DecidableEq

/-! ## `<cctype>` in the "C" locale -/

/-- The classifier `std::isspace`: space, `\t`, `\n`, `\v`, `\f`, `\r`. -/
def isspace (c : Char) : Bool :=
  c == ' ' || c == '\t' || c == '\n' || c == '\x0b' || c == '\x0c' || c == '\r'

/-- The classifier `std::isdigit`: `'0'..'9'`. -/
def isdigit (c : Char) : Bool :=
  decide (48 ≤ c.toNat) && decide (c.toNat ≤ 57)

/-- The classifier `std::isxdigit`: `'0'..'9'`, `'a'..'f'`, `'A'..'F'`. -/
def isxdigit (c : Char) : Bool :=
  isdigit c || (decide (97 ≤ c.toNat) && decide (c.toNat ≤ 102))
    || (decide (65 ≤ c.toNat) && decide (c.toNat ≤ 70))

/-! ## Machine integers -/

def INT64_MIN : Int := -9223372036854775808
def INT64_MAX : Int := 9223372036854775807
def INT_MIN : Int := -2147483648
def INT_MAX : Int := 2147483647

/-- A value representable in `int64_t`. -/
def inInt64 (i : Int) : Prop := INT64_MIN ≤ i ∧ i ≤ INT64_MAX

/-- A value representable in `int` (32 bits). -/
def inInt32 (i : Int) : Prop := INT_MIN ≤ i ∧ i ≤ INT_MAX

instance (i : Int) : Decidable (inInt64 i) := by unfold inInt64; infer_instance
instance (i : Int) : Decidable (inInt32 i) := by unfold inInt32; infer_instance

/-- The cast `static_cast<int>(int64_t)`: reduction modulo 2^32 into `[-2^31, 2^31)`. -/
def int64_to_int (i : Int) : Int := (i + 2147483648) % 4294967296 - 2147483648

/-! ## `double` -/

/-- A binary64 value: `finite neg m e` is `(-1)^neg * m * 2^e`. -/
inductive Double where
  | finite (neg : Bool) (mant : Nat) (exp : Int)
  | inf (neg : Bool)
  | nan
  deriving DecidableEq

def bitLenAux : Nat → Nat → Nat
  | 0, _ => 0
  | fuel + 1, n => if n = 0 then 0 else bitLenAux fuel (n / 2) + 1

/-- Number of binary digits of `n`. -/
def bitLen (n : Nat) : Nat := bitLenAux n n

namespace Double

/-- The integer part of a finite value, rounding toward zero; `none` for
infinities and NaN. -/
def trunc : Double → Option Int
  | finite neg m e =>
    let mag : Nat := if 0 ≤ e then m * 2 ^ e.toNat else m / 2 ^ (-e).toNat
    some (if neg then -(mag : Int) else (mag : Int))
  | inf _ => none
  | nan => none

/-- The cast `static_cast<int64_t>(double)`: truncation toward zero.  When the truncated
value is not representable the C++ standard leaves the behaviour undefined; the
embedding then returns `INT64_MIN`, the result of the x86-64 conversion. -/
def to_int64 (d : Double) : Int :=
  match d.trunc with
  | some t => if INT64_MIN ≤ t ∧ t ≤ INT64_MAX then t else INT64_MIN
  | none => INT64_MIN

/-- The cast `static_cast<int>(double)`: as `to_int64`, for the 32-bit `int`. -/
def to_int (d : Double) : Int :=
  match d.trunc with
  | some t => if INT_MIN ≤ t ∧ t ≤ INT_MAX then t else INT_MIN
  | none => INT_MIN

/-- Outcome of rounding a positive rational to binary64. -/
structure Rounded where
  mant : Nat
  exp : Int
  inexact : Bool

/-- Round the rational `num / den` (`num, den > 0`) to the nearest binary64
magnitude, ties to even: the result is `mant * 2^exp` with `mant < 2^53` and
`exp ≥ -1074`. -/
def roundNearest (num den : Nat) : Rounded :=
  let e0 : Int := (bitLen num : Int) - (bitLen den : Int) - 53
  let e1 : Int :=
    if num * 2 ^ (-e0).toNat / (den * 2 ^ e0.toNat) < 2 ^ 53 then e0 else e0 + 1
  let e : Int := max e1 (-1074)
  let n := num * 2 ^ (-e).toNat
  let d := den * 2 ^ e.toNat
  let q := n / d
  let r := n % d
  let up : Bool := decide (d < 2 * r) || (decide (2 * r = d) && decide (q % 2 = 1))
  let m := if up then q + 1 else q
  if m = 2 ^ 53 then ⟨2 ^ 52, e + 1, decide (r ≠ 0)⟩ else ⟨m, e, decide (r ≠ 0)⟩

/-- The cast `static_cast<double>(int64_t)`: the nearest binary64 value. -/
def of_int64 (i : Int) : Double :=
  if i = 0 then finite false 0 0
  else
    let r := roundNearest i.natAbs 1
    finite (decide (i < 0)) r.mant r.exp

end Double

/-! ## The value model -/

/-- The variant `json::value_type`: `nullptr_t`, `bool`, `int64_t`, `double`,
`std::string`, `json_array`, `json_object`. -/
inductive json where
  | null
  | bool (b : Bool)
  | int (i : Int)
  | float (d : Double)
  | str (s : List Char)
  | arr (a : List json)
  | obj (o : List (List Char × json))

abbrev json_array := List json
abbrev json_object := List (List Char × json)

namespace json_object

/-- The lookup `unordered_map::find`: the entry stored under `key`, if any. -/
def find : json_object → List Char → Option json
  | [], _ => none
  | (k, v) :: rest, key => if k = key then some v else find rest key

/-- The insertion `unordered_map::emplace`: insert only if the key is absent. -/
def emplace (o : json_object) (key : List Char) (val : json) : json_object :=
  match find o key with
  | some _ => o
  | none => o ++ [(key, val)]

/-- The accessor `unordered_map::operator[]`: a default-constructed (`null`) entry is inserted
when the key is absent. -/
def subscript (o : json_object) (key : List Char) : json_object :=
  match find o key with
  | some _ => o
  | none => o ++ [(key, json.null)]

end json_object

namespace json

/-! ### Type queries -/

def is_null : json → Bool
  | null => true
  | _ => false

def is_bool : json → Bool
  | bool _ => true
  | _ => false

def is_number_integer : json → Bool
  | int _ => true
  | _ => false

def is_number_float : json → Bool
  | float _ => true
  | _ => false

def is_number (v : json) : Bool := v.is_number_integer || v.is_number_float

def is_string : json → Bool
  | str _ => true
  | _ => false

def is_array : json → Bool
  | arr _ => true
  | _ => false

def is_object : json → Bool
  | obj _ => true
  | _ => false

def size : json → Nat
  | arr a => a.length
  | obj o => o.length
  | _ => 0

def contains : json → List Char → Bool
  | obj o, key => (json_object.find o key).isSome
  | _, _ => false

/-! ### Element access -/

/-- The mutable `operator[]`: the first component is the value of `*this` after
the call, the second the entry the returned reference designates. -/
def subscript_mut (v : json) (key : List Char) : json × json :=
  let o : json_object := match v with
    | obj o => o
    | _ => []
  let o' := json_object.subscript o key
  (obj o', (json_object.find o' key).getD null)

/-- The `const` overload of `operator[]`. -/
def subscript_const (v : json) (key : List Char) : Except Exn json :=
  match v with
  | obj o =>
    match json_object.find o key with
    | some e => .ok e
    | none => .error (.out_of_range ("key not found: " ++ String.mk key))
  | _ => .error (.out_of_range "json is not an object")

/-- The `const` overload of `at`. -/
def at_const (v : json) (key : List Char) : Except Exn json := subscript_const v key

/-- The mutable overload of `at`. -/
def at_mut (v : json) (key : List Char) : json × json := subscript_mut v key

/-! ### `get<T>()` for the primitive `T` -/

def get_int : json → Except Exn Int
  | int i => .ok (int64_to_int i)
  | float d => .ok d.to_int
  | _ => .error (.runtime_error "type mismatch (int)")

def get_int64 : json → Except Exn Int
  | int i => .ok i
  | float d => .ok d.to_int64
  | _ => .error (.runtime_error "type mismatch (int64)")

def get_double : json → Except Exn Double
  | float d => .ok d
  | int i => .ok (Double.of_int64 i)
  | _ => .error (.runtime_error "type mismatch (double)")

def get_bool : json → Except Exn Bool
  | bool b => .ok b
  | _ => .error (.runtime_error "type mismatch (bool)")

def get_string : json → Except Exn (List Char)
  | str s => .ok s
  | _ => .error (.runtime_error "type mismatch (string)")

def as_string (v : json) : Except Exn (List Char) := v.get_string

/-- The member template `value<T>(key, def)`; `get` is the instance `get<T>`. -/
def value {T : Type} (get : json → Except Exn T) (v : json) (key : List Char) (dflt : T) :
    Except Exn T :=
  match v with
  | obj o =>
    match json_object.find o key with
    | some e => get e
    | none => .ok dflt
  | _ => .ok dflt

end json

/-! ## Text conversions of the standard library -/

def digit_value (c : Char) : Nat := c.toNat - 48

/-- Value of a string of decimal digits, most significant first. -/
def digits_value (ds : List Char) : Nat :=
  ds.foldl (fun acc c => acc * 10 + digit_value c) 0

/-- Sign prefix accepted by `strtoll` / `strtod`: `(negative, remaining text)`. -/
def read_sign : List Char → Bool × List Char
  | [] => (false, [])
  | c :: t => if c = '-' then (true, t) else if c = '+' then (false, t) else (false, c :: t)

/-- The conversion `std::stoll(str)` (base 10): leading whitespace, an optional
sign, decimal digits; `invalid_argument` without digits, `out_of_range` when the
value does not fit `long long`. -/
def stoll (s : List Char) : Except Exn Int :=
  let p := read_sign (s.dropWhile isspace)
  let ds := p.2.takeWhile isdigit
  if ds = [] then .error (.invalid_argument "stoll")
  else
    let v : Int := if p.1 then -(digits_value ds : Int) else (digits_value ds : Int)
    if INT64_MIN ≤ v ∧ v ≤ INT64_MAX then .ok v else .error (.out_of_range "stoll")

/-- The conversion `std::stod(str)` on the texts `parse_number` hands to it
(optional sign, digits, optional `.` and digits): the correctly rounded binary64
value; `invalid_argument` without any digit, `out_of_range` when `strtod` reports
`ERANGE` (overflow, or a subnormal inexact result). -/
def stod (s : List Char) : Except Exn Double :=
  let p := read_sign (s.dropWhile isspace)
  let ip := p.2.takeWhile isdigit
  let fp : List Char := match p.2.dropWhile isdigit with
    | [] => []
    | c :: t => if c = '.' then t.takeWhile isdigit else []
  if ip = [] ∧ fp = [] then .error (.invalid_argument "stod")
  else
    let num := digits_value (ip ++ fp)
    if num = 0 then .ok (.finite p.1 0 0)
    else
      let r := Double.roundNearest num (10 ^ fp.length)
      if 971 < r.exp then .error (.out_of_range "stod")
      else if r.mant < 2 ^ 52 ∧ r.inexact = true then .error (.out_of_range "stod")
      else .ok (.finite p.1 r.mant r.exp)

def decimal_digits_aux : Nat → Nat → List Char → List Char
  | 0, _, acc => acc
  | fuel + 1, n, acc =>
    if n / 10 = 0 then Char.ofNat (48 + n % 10) :: acc
    else decimal_digits_aux fuel (n / 10) (Char.ofNat (48 + n % 10) :: acc)

/-- Decimal digits of a natural number, without leading zeros (`"0"` for 0). -/
def decimal_digits (n : Nat) : List Char := decimal_digits_aux (n + 1) n []

/-- The text `ostream << int64_t` writes. -/
def int64_to_chars (i : Int) : List Char :=
  if i < 0 then '-' :: decimal_digits i.natAbs else decimal_digits i.natAbs

/-! ## The parser -/

/-- Result of a parser function: a value and the unread input, a thrown
exception, or the budget of the embedding used up. -/
inductive PResult (α : Type) where
  | ok (val : α) (rest : List Char)
  | error (e : Exn)
  | exhausted

namespace json
namespace parser

def skip_ws : List Char → List Char
  | [] => []
  | c :: s => if isspace c then skip_ws s else c :: s

def peek : List Char → Char
  | [] => '\x00'
  | c :: _ => c

/-- The member `get()`: the character read and the input left. -/
def get : List Char → Char × List Char
  | [] => ('\x00', [])
  | c :: s => (c, s)

def eof : List Char → Bool
  | [] => true
  | _ :: _ => false

def expect (ch : Char) (s : List Char) : PResult Unit :=
  if (get (skip_ws s)).1 ≠ ch then
    .error (.runtime_error (("expected \x27".push ch).push '\x27'))
  else .ok () (get (skip_ws s)).2

/-- The `while (true)` loop of `parse_string`, after the opening quote. -/
def parse_string_loop : List Char → List Char → PResult json
  | _, [] => .error (.runtime_error "unterminated string")
  | out, c :: s =>
    if c = '"' then .ok (.str out) s
    else if c = '\\' then
      match s with
      | [] => .error (.runtime_error "unterminated escape")
      | esc :: s1 =>
        if esc = '"' then parse_string_loop (out ++ ['"']) s1
        else if esc = '\\' then parse_string_loop (out ++ ['\\']) s1
        else if esc = '/' then parse_string_loop (out ++ ['/']) s1
        else if esc = 'b' then parse_string_loop (out ++ ['\x08']) s1
        else if esc = 'f' then parse_string_loop (out ++ ['\x0c']) s1
        else if esc = 'n' then parse_string_loop (out ++ ['\n']) s1
        else if esc = 'r' then parse_string_loop (out ++ ['\r']) s1
        else if esc = 't' then parse_string_loop (out ++ ['\t']) s1
        else if esc = 'u' then
          match s1 with
          | h1 :: h2 :: h3 :: h4 :: s2 =>
            if isxdigit h1 && isxdigit h2 && isxdigit h3 && isxdigit h4 then
              parse_string_loop (out ++ ['?']) s2
            else .error (.runtime_error "invalid \\u escape")
          | _ => .error (.runtime_error "invalid \\u escape")
        else .error (.runtime_error ("invalid escape \\".push esc))
    else parse_string_loop (out ++ [c]) s

def parse_string (s : List Char) : PResult json :=
  match expect '"' s with
  | .ok _ s1 => parse_string_loop [] s1
  | .error e => .error e
  | .exhausted => .exhausted

def parse_number (s : List Char) : PResult json :=
  let sign : List Char := if peek s = '-' then ['-'] else []
  let s1 := if peek s = '-' then (get s).2 else s
  let ip := s1.takeWhile isdigit
  let s2 := s1.dropWhile isdigit
  if peek s2 = '.' then
    let s3 := (get s2).2
    match stod (sign ++ ip ++ '.' :: s3.takeWhile isdigit) with
    | .ok d => .ok (.float d) (s3.dropWhile isdigit)
    | .error e => .error e
  else
    match stoll (sign ++ ip) with
    | .ok i => .ok (.int i) s2
    | .error e => .error e

def parse_bool (s : List Char) : PResult json :=
  if s.take 4 = ['t', 'r', 'u', 'e'] then .ok (.bool true) (s.drop 4)
  else if s.take 5 = ['f', 'a', 'l', 's', 'e'] then .ok (.bool false) (s.drop 5)
  else .error (.runtime_error "invalid boolean literal")

def parse_null (s : List Char) : PResult json :=
  if s.take 4 = ['n', 'u', 'l', 'l'] then .ok .null (s.drop 4)
  else .error (.runtime_error "invalid null literal")

mutual

def parse_value : Nat → List Char → PResult json
  | 0, _ => .exhausted
  | fuel + 1, s =>
    let c := peek (skip_ws s)
    if c = '{' then parse_object fuel (skip_ws s)
    else if c = '[' then parse_array fuel (skip_ws s)
    else if c = '"' then parse_string (skip_ws s)
    else if c = 't' ∨ c = 'f' then parse_bool (skip_ws s)
    else if c = 'n' then parse_null (skip_ws s)
    else if c = '-' ∨ isdigit c = true then parse_number (skip_ws s)
    else .error (.runtime_error (("unexpected character \x27".push c).push '\x27'))

def parse_object : Nat → List Char → PResult json
  | 0, _ => .exhausted
  | fuel + 1, s =>
    match expect '{' s with
    | .ok _ s1 =>
      if peek (skip_ws s1) = '}' then .ok (.obj []) (get (skip_ws s1)).2
      else parse_object_loop fuel [] (skip_ws s1)
    | .error e => .error e
    | .exhausted => .exhausted

/-- The `while (true)` loop of `parse_object`; `o` is the local `obj`. -/
def parse_object_loop : Nat → json_object → List Char → PResult json
  | 0, _, _ => .exhausted
  | fuel + 1, o, s =>
    match parse_string (skip_ws s) with
    | .ok k s1 =>
      match k.as_string with
      | .ok key =>
        match expect ':' (skip_ws s1) with
        | .ok _ s2 =>
          match parse_value fuel s2 with
          | .ok val s3 =>
            if (get (skip_ws s3)).1 = '}' then
              .ok (.obj (json_object.emplace o key val)) (get (skip_ws s3)).2
            else if (get (skip_ws s3)).1 ≠ ',' then
              .error (.runtime_error "expected \x27,\x27 or \x27\x7d\x27 in object")
            else parse_object_loop fuel (json_object.emplace o key val) (get (skip_ws s3)).2
          | .error e => .error e
          | .exhausted => .exhausted
        | .error e => .error e
        | .exhausted => .exhausted
      | .error e => .error e
    | .error e => .error e
    | .exhausted => .exhausted

def parse_array : Nat → List Char → PResult json
  | 0, _ => .exhausted
  | fuel + 1, s =>
    match expect '[' s with
    | .ok _ s1 =>
      if peek (skip_ws s1) = ']' then .ok (.arr []) (get (skip_ws s1)).2
      else parse_array_loop fuel [] (skip_ws s1)
    | .error e => .error e
    | .exhausted => .exhausted

/-- The `while (true)` loop of `parse_array`; `a` is the local `arr`. -/
def parse_array_loop : Nat → json_array → List Char → PResult json
  | 0, _, _ => .exhausted
  | fuel + 1, a, s =>
    match parse_value fuel s with
    | .ok val s1 =>
      if (get (skip_ws s1)).1 = ']' then .ok (.arr (a ++ [val])) (get (skip_ws s1)).2
      else if (get (skip_ws s1)).1 ≠ ',' then
        .error (.runtime_error "expected \x27,\x27 or \x27]\x27 in array")
      else parse_array_loop fuel (a ++ [val]) (get (skip_ws s1)).2
    | .error e => .error e
    | .exhausted => .exhausted

end

end parser

/-- Outcome of `json::parse`: the document, a thrown exception, or the budget of
the embedding used up. -/
inductive ParseOutcome where
  | ok (val : json)
  | error (e : Exn)
  | exhausted

/-- The static member `json::parse`. -/
def parse (s : List Char) : ParseOutcome :=
  match parser.parse_value (3 * s.length + 3) s with
  | .ok result rest =>
    if parser.eof (parser.skip_ws rest) then .ok result
    else .error (.runtime_error "extra characters after JSON document")
  | .error e => .error e
  | .exhausted => .exhausted

/-! ## The parser on a call stack of limited size

`parse_value`, `parse_object` and `parse_array` call one another once for each level
of nesting, and the source sets no limit to the depth.  The functions below are the
same member functions with the call stack made explicit: `frames` is the number of
nested calls of these three functions that the stack still has room for.  A call
takes one frame for as long as it runs, the `while (true)` loops run in the frame of
their function, and a call made when no frame is left is a stack overflow, which
ends the program.  The members that do not recurse (`skip_ws`, `expect`,
`parse_string`, ...) are counted with the frame of their caller. -/

/-- Outcome of a call on a stack of limited size: what the call gives, or the stack
overflow. -/
inductive OnStack (α : Type) where
  | ret (r : α)
  | stack_overflow

namespace on_stack

mutual

def parse_value : Nat → Nat → List Char → OnStack (PResult json)
  | 0, _, _ => .ret .exhausted
  | _ + 1, 0, _ => .stack_overflow
  | fuel + 1, frames + 1, s =>
    let c := parser.peek (parser.skip_ws s)
    if c = '{' then parse_object fuel frames (parser.skip_ws s)
    else if c = '[' then parse_array fuel frames (parser.skip_ws s)
    else if c = '"' then .ret (parser.parse_string (parser.skip_ws s))
    else if c = 't' ∨ c = 'f' then .ret (parser.parse_bool (parser.skip_ws s))
    else if c = 'n' then .ret (parser.parse_null (parser.skip_ws s))
    else if c = '-' ∨ isdigit c = true then .ret (parser.parse_number (parser.skip_ws s))
    else .ret (.error (.runtime_error (("unexpected character \x27".push c).push '\x27')))

def parse_object : Nat → Nat → List Char → OnStack (PResult json)
  | 0, _, _ => .ret .exhausted
  | _ + 1, 0, _ => .stack_overflow
  | fuel + 1, frames + 1, s =>
    match parser.expect '{' s with
    | .ok _ s1 =>
      if parser.peek (parser.skip_ws s1) = '}' then
        .ret (.ok (.obj []) (parser.get (parser.skip_ws s1)).2)
      else parse_object_loop fuel frames [] (parser.skip_ws s1)
    | .error e => .ret (.error e)
    | .exhausted => .ret .exhausted

/-- The `while (true)` loop of `parse_object`, in the frame of `parse_object`:
`frames` is what is left for the calls of `parse_value`. -/
def parse_object_loop : Nat → Nat → json_object → List Char → OnStack (PResult json)
  | 0, _, _, _ => .ret .exhausted
  | fuel + 1, frames, o, s =>
    match parser.parse_string (parser.skip_ws s) with
    | .ok k s1 =>
      match k.as_string with
      | .ok key =>
        match parser.expect ':' (parser.skip_ws s1) with
        | .ok _ s2 =>
          match parse_value fuel frames s2 with
          | .ret (.ok val s3) =>
            if (parser.get (parser.skip_ws s3)).1 = '}' then
              .ret (.ok (.obj (json_object.emplace o key val)) (parser.get (parser.skip_ws s3)).2)
            else if (parser.get (parser.skip_ws s3)).1 ≠ ',' then
              .ret (.error (.runtime_error "expected \x27,\x27 or \x27\x7d\x27 in object"))
            else
              parse_object_loop fuel frames (json_object.emplace o key val)
                (parser.get (parser.skip_ws s3)).2
          | .ret (.error e) => .ret (.error e)
          | .ret .exhausted => .ret .exhausted
          | .stack_overflow => .stack_overflow
        | .error e => .ret (.error e)
        | .exhausted => .ret .exhausted
      | .error e => .ret (.error e)
    | .error e => .ret (.error e)
    | .exhausted => .ret .exhausted

def parse_array : Nat → Nat → List Char → OnStack (PResult json)
  | 0, _, _ => .ret .exhausted
  | _ + 1, 0, _ => .stack_overflow
  | fuel + 1, frames + 1, s =>
    match parser.expect '[' s with
    | .ok _ s1 =>
      if parser.peek (parser.skip_ws s1) = ']' then
        .ret (.ok (.arr []) (parser.get (parser.skip_ws s1)).2)
      else parse_array_loop fuel frames [] (parser.skip_ws s1)
    | .error e => .ret (.error e)
    | .exhausted => .ret .exhausted

/-- The `while (true)` loop of `parse_array`, in the frame of `parse_array`. -/
def parse_array_loop : Nat → Nat → json_array → List Char → OnStack (PResult json)
  | 0, _, _, _ => .ret .exhausted
  | fuel + 1, frames, a, s =>
    match parse_value fuel frames s with
    | .ret (.ok val s1) =>
      if (parser.get (parser.skip_ws s1)).1 = ']' then
        .ret (.ok (.arr (a ++ [val])) (parser.get (parser.skip_ws s1)).2)
      else if (parser.get (parser.skip_ws s1)).1 ≠ ',' then
        .ret (.error (.runtime_error "expected \x27,\x27 or \x27]\x27 in array"))
      else parse_array_loop fuel frames (a ++ [val]) (parser.get (parser.skip_ws s1)).2
    | .ret (.error e) => .ret (.error e)
    | .ret .exhausted => .ret .exhausted
    | .stack_overflow => .stack_overflow

end

/-- The static member `json::parse` on a stack with room for `frames` nested calls
of the parser functions. -/
def parse (frames : Nat) (s : List Char) : OnStack ParseOutcome :=
  match parse_value (3 * s.length + 3) frames s with
  | .ret (.ok result rest) =>
    if parser.eof (parser.skip_ws rest) then .ret (.ok result)
    else .ret (.error (.runtime_error "extra characters after JSON document"))
  | .ret (.error e) => .ret (.error e)
  | .ret .exhausted => .ret .exhausted
  | .stack_overflow => .stack_overflow

end on_stack

/-! ## The serializer -/

def hex_digit (n : Nat) : Char :=
  if n < 10 then Char.ofNat (48 + n) else Char.ofNat (87 + n)

/-- The text `snprintf` writes for the conversion `%04x` (values below 65536). -/
def hex04 (n : Nat) : List Char :=
  [hex_digit (n / 4096 % 16), hex_digit (n / 256 % 16), hex_digit (n / 16 % 16),
    hex_digit (n % 16)]

/-- The body of the loop of `escape_str`: the text appended for one character. -/
def escape_char (c : Char) : List Char :=
  if c = '"' then ['\\', '"']
  else if c = '\\' then ['\\', '\\']
  else if c = '\x08' then ['\\', 'b']
  else if c = '\x0c' then ['\\', 'f']
  else if c = '\n' then ['\\', 'n']
  else if c = '\r' then ['\\', 'r']
  else if c = '\t' then ['\\', 't']
  else if c.toNat < 0x20 then '\\' :: 'u' :: hex04 c.toNat
  else [c]

def escape_str : List Char → List Char
  | [] => []
  | c :: s => escape_char c ++ escape_str s

/-- The string `std::string(n, ' ')` for an `int` count. -/
def spaces (n : Int) : List Char := List.replicate n.toNat ' '

mutual

/-- The member `dump_impl`, returning the text written to the stream.  `fmt` is
the text `ostream << double` writes. -/
def dump_impl (fmt : Double → List Char) : json → Int → Int → List Char
  | null, _, _ => ['n', 'u', 'l', 'l']
  | bool b, _, _ => if b then ['t', 'r', 'u', 'e'] else ['f', 'a', 'l', 's', 'e']
  | int i, _, _ => int64_to_chars i
  | float d, _, _ => fmt d
  | str s, _, _ => '"' :: escape_str s ++ ['"']
  | arr a, curIndent, indent =>
    '[' :: (if !a.isEmpty then
        (if 0 ≤ indent then ['\n'] else []) ++ dump_array fmt a curIndent indent
          ++ (if 0 ≤ indent then spaces curIndent else [])
      else []) ++ [']']
  | obj o, curIndent, indent =>
    '{' :: (if !o.isEmpty then
        (if 0 ≤ indent then ['\n'] else []) ++ dump_object fmt o curIndent indent
          ++ (if 0 ≤ indent then spaces curIndent else [])
      else []) ++ ['}']

/-- The `for` loop over the elements of an array. -/
def dump_array (fmt : Double → List Char) : List json → Int → Int → List Char
  | [], _, _ => []
  | x :: rest, curIndent, indent =>
    (if 0 ≤ indent then spaces (curIndent + indent) else [])
      ++ dump_impl fmt x (curIndent + indent) indent
      ++ (if !rest.isEmpty then [','] else [])
      ++ (if 0 ≤ indent then ['\n'] else [])
      ++ dump_array fmt rest curIndent indent

/-- The `for` loop over the members of an object. -/
def dump_object (fmt : Double → List Char) : List (List Char × json) → Int → Int → List Char
  | [], _, _ => []
  | (k, x) :: rest, curIndent, indent =>
    (if 0 ≤ indent then spaces (curIndent + indent) else [])
      ++ ('"' :: escape_str k ++ ['"', ':', ' '])
      ++ dump_impl fmt x (curIndent + indent) indent
      ++ (if !rest.isEmpty then [','] else [])
      ++ (if 0 ≤ indent then ['\n'] else [])
      ++ dump_object fmt rest curIndent indent

end

/-- The member `dump(indent)`. -/
def dump (fmt : Double → List Char) (v : json) (indent : Int) : List Char :=
  dump_impl fmt v 0 indent

end json

/-! ## Decidable equality of values -/

namespace json

mutual

def beq : json → json → Bool
  | null, null => true
  | bool a, bool b => a == b
  | int a, int b => a == b
  | float a, float b => a == b
  | str a, str b => a == b
  | arr a, arr b => beq_array a b
  | obj a, obj b => beq_object a b
  | _, _ => false

def beq_array : List json → List json → Bool
  | [], [] => true
  | x :: xs, y :: ys => beq x y && beq_array xs ys
  | _, _ => false

def beq_object : List (List Char × json) → List (List Char × json) → Bool
  | [], [] => true
  | (k, x) :: xs, (l, y) :: ys => k == l && beq x y && beq_object xs ys
  | _, _ => false

end

mutual

theorem beq_eq : ∀ a b : json, beq a b = true ↔ a = b
  | null, b => by cases b <;> simp [beq]
  | bool _, b => by cases b <;> simp [beq]
  | int _, b => by cases b <;> simp [beq]
  | float _, b => by cases b <;> simp [beq]
  | str _, b => by cases b <;> simp [beq]
  | arr a, b => by
    cases b <;> simp [beq]
    exact beq_array_eq a _
  | obj a, b => by
    cases b <;> simp [beq]
    exact beq_object_eq a _

theorem beq_array_eq : ∀ a b : List json, beq_array a b = true ↔ a = b
  | [], b => by cases b <;> simp [beq_array]
  | x :: xs, b => by
    cases b with
    | nil => simp [beq_array]
    | cons y ys => simp [beq_array, beq_eq x y, beq_array_eq xs ys]

theorem beq_object_eq : ∀ a b : List (List Char × json), beq_object a b = true ↔ a = b
  | [], b => by cases b <;> simp [beq_object]
  | (k, x) :: xs, b => by
    cases b with
    | nil => simp [beq_object]
    | cons y ys =>
      obtain ⟨l, y⟩ := y
      simp [beq_object, beq_eq x y, beq_object_eq xs ys, and_assoc]

end

instance : DecidableEq json := fun a b => decidable_of_iff _ (beq_eq a b)

end json

deriving instance DecidableEq for PResult
deriving instance DecidableEq for json.ParseOutcome

namespace json

instance : Inhabited json := ⟨null⟩

/-- The object a mutable access works on: the value itself when it is an Object, the
empty Object otherwise. -/
def object_base : json → json_object
  | obj o => o
  | _ => []

end json

/-! ## Predicates used in the statements -/

/-- The sixteen lowercase hexadecimal digits. -/
def hex_lower : List Char := "0123456789abcdef".toList

/-- A character `escape_str` writes either unchanged or as a two-character escape:
code at least 0x20, or one of backspace, form feed, newline, carriage return, tab. -/
def lossless_char (c : Char) : Bool :=
  decide (0x20 ≤ c.toNat) || c == '\x08' || c == '\x0c' || c == '\n' || c == '\r' || c == '\t'

/-- The input after a number literal cannot extend it: it is empty or starts with a
character that is neither a digit nor the decimal point. -/
def num_end : List Char → Bool
  | [] => true
  | c :: _ => !isdigit c && c != '.'

/-- The text `t` denotes the value `v`: whatever follows it (anything that cannot
extend a number literal), `parse_value` reads exactly `t` and yields `v`, given the
budget `json.parse` supplies for a text of this length. -/
def value_text (t : List Char) (v : json) : Prop :=
  ∀ (fuel : Nat) (rest : List Char), 3 * t.length ≤ fuel → num_end rest = true →
    json.parser.parse_value fuel (t ++ rest) = .ok v rest

/-- The text `t` is a string literal for the key `k`: whatever follows it,
`parse_string` reads exactly `t` and yields `k`. -/
def key_text (t : List Char) (k : List Char) : Prop :=
  ∀ rest : List Char, json.parser.parse_string (t ++ rest) = .ok (.str k) rest

/-- Texts joined by single commas. -/
def join_comma : List (List Char) → List Char
  | [] => []
  | [t] => t
  | t :: u :: ts => t ++ ',' :: join_comma (u :: ts)

/-- One object member in the source text: the text of its key, the key it denotes,
the text of its value and the value it denotes. -/
structure member where
  key_src : List Char
  key : List Char
  val_src : List Char
  val : json

/-- The source text of a member: key text, colon, value text. -/
def member.text (m : member) : List Char := m.key_src ++ ':' :: m.val_src

/-- The object text with the given members, in source order. -/
def object_text (ms : List member) : List Char :=
  '{' :: join_comma (ms.map member.text) ++ ['}']

/-- The array text with the given element texts, in source order. -/
def array_text (ts : List (List Char)) : List Char :=
  '[' :: join_comma ts ++ [']']

/-- The object obtained by `emplace`-ing the pairs in order into `o`. -/
def emplace_all (o : json_object) (kvs : List (List Char × json)) : json_object :=
  kvs.foldl (fun acc kv => json_object.emplace acc kv.1 kv.2) o

namespace json

mutual

/-- No Float anywhere in the tree. -/
def float_free : json → Bool
  | float _ => false
  | arr a => float_free_array a
  | obj o => float_free_object o
  | _ => true

def float_free_array : List json → Bool
  | [] => true
  | x :: rest => float_free x && float_free_array rest

def float_free_object : List (List Char × json) → Bool
  | [] => true
  | (_, x) :: rest => float_free x && float_free_object rest

end

mutual

/-- The invariants the C++ types give a value: every Integer fits `int64_t` and the
keys of every Object are pairwise distinct. -/
def well_formed : json → Bool
  | int i => decide (inInt64 i)
  | arr a => well_formed_array a
  | obj o => well_formed_object o
  | _ => true

def well_formed_array : List json → Bool
  | [] => true
  | x :: rest => well_formed x && well_formed_array rest

def well_formed_object : List (List Char × json) → Bool
  | [] => true
  | (k, x) :: rest =>
    (json_object.find rest k).isNone && well_formed x && well_formed_object rest

end

mutual

/-- Every String and every Object key consists of lossless characters. -/
def lossless : json → Bool
  | str s => s.all lossless_char
  | arr a => lossless_array a
  | obj o => lossless_object o
  | _ => true

def lossless_array : List json → Bool
  | [] => true
  | x :: rest => lossless x && lossless_array rest

def lossless_object : List (List Char × json) → Bool
  | [] => true
  | (k, x) :: rest => k.all lossless_char && lossless x && lossless_object rest

end

end json

/-- The member text `dump` writes in compact mode for an entry of an Object: the
quoted key, a colon, one space and the value. -/
def compact_member (fmt : Double → List Char) (cur indent : Int) (kv : List Char × json) :
    member :=
  ⟨'"' :: json.escape_str kv.1 ++ ['"'], kv.1, ' ' :: json.dump_impl fmt kv.2 (cur + indent) indent, kv.2⟩

/-- The rational number a finite binary64 value stands for (0 for the others). -/
def Double.toRat : Double → ℚ
  | .finite neg m e => (if neg then -1 else 1) * ((m : ℚ) * (2 : ℚ) ^ e)
  | _ => 0

/-- Rounding of a rational toward zero. -/
def toward_zero (q : ℚ) : Int := if 0 ≤ q then ⌊q⌋ else ⌈q⌉

/-- The members of the object text `{"x":1,"x":2}`. -/
def duplicate_x : List member :=
  [⟨['"', 'x', '"'], ['x'], ['1'], .int 1⟩, ⟨['"', 'x', '"'], ['x'], ['2'], .int 2⟩]

/-- A document with every Float-free variant, nested, with escapes in a key and in a
String. -/
def sample_document : json :=
  .obj [(['a', '\n'], .arr [.int 1, .int (-20), .str ['q', '"', '\\', '\t', '/'], .null, .bool true]),
    (['b'], .obj [([], .arr [])]), (['c'], .bool false)]

/-- The characters `parse_value` dispatches on: an opening brace or bracket, a
quote, `t`, `f`, `n`, a minus sign or a decimal digit. -/
def dispatch_char (c : Char) : Bool :=
  c == '{' || c == '[' || c == '"' || c == 't' || c == 'f' || c == 'n' || c == '-' || isdigit c

/-- The text of an integer literal: a minus sign when `n` is negative, `k` zeros,
then the decimal digits of the absolute value of `n`. -/
def integer_literal (n : Int) (k : Nat) : List Char :=
  (if n < 0 then ['-'] else []) ++ (List.replicate k '0' ++ decimal_digits n.natAbs)

/-! ## The two output forms, written from their description -/

/-- Lines joined by a comma and a newline. -/
def join_lines : List (List Char) → List Char
  | [] => []
  | [t] => t
  | t :: u :: ts => t ++ ',' :: '\n' :: join_lines (u :: ts)

namespace json

mutual

/-- The compact form as described: scalars as they are, the members of a collection
between the brackets, separated by single commas, each object member written as
its quoted key, a colon, one space and the value; no other character. -/
def compact_text (fmt : Double → List Char) : json → List Char
  | null => ['n', 'u', 'l', 'l']
  | bool b => if b then ['t', 'r', 'u', 'e'] else ['f', 'a', 'l', 's', 'e']
  | int i => int64_to_chars i
  | float d => fmt d
  | str s => '"' :: escape_str s ++ ['"']
  | arr a => '[' :: join_comma (compact_elements fmt a) ++ [']']
  | obj o => '{' :: join_comma (compact_members fmt o) ++ ['}']

def compact_elements (fmt : Double → List Char) : List json → List (List Char)
  | [] => []
  | x :: rest => compact_text fmt x :: compact_elements fmt rest

def compact_members (fmt : Double → List Char) : List (List Char × json) → List (List Char)
  | [] => []
  | (k, x) :: rest =>
    ('"' :: escape_str k ++ ['"', ':', ' '] ++ compact_text fmt x) :: compact_members fmt rest

end

mutual

/-- The pretty form as described, for a value at nesting depth `lvl` (0 for the
root): an empty collection is its two brackets; otherwise the opening bracket and a
newline, the members (which are at depth `lvl + 1`) each on a line of its own after
`n * (lvl + 1)` spaces, separated by a comma at the end of the line, then a newline
and the closing bracket after `n * lvl` spaces. -/
def pretty_text (fmt : Double → List Char) (n : Nat) : Nat → json → List Char
  | _, null => ['n', 'u', 'l', 'l']
  | _, bool b => if b then ['t', 'r', 'u', 'e'] else ['f', 'a', 'l', 's', 'e']
  | _, int i => int64_to_chars i
  | _, float d => fmt d
  | _, str s => '"' :: escape_str s ++ ['"']
  | lvl, arr a =>
    if a.isEmpty then ['[', ']']
    else '[' :: '\n' :: join_lines (pretty_elements fmt n lvl a)
      ++ '\n' :: (List.replicate (n * lvl) ' ' ++ [']'])
  | lvl, obj o =>
    if o.isEmpty then ['{', '}']
    else '{' :: '\n' :: join_lines (pretty_members fmt n lvl o)
      ++ '\n' :: (List.replicate (n * lvl) ' ' ++ ['}'])

/-- The lines of the elements of an Array at depth `lvl`. -/
def pretty_elements (fmt : Double → List Char) (n : Nat) : Nat → List json → List (List Char)
  | _, [] => []
  | lvl, x :: rest =>
    (List.replicate (n * (lvl + 1)) ' ' ++ pretty_text fmt n (lvl + 1) x)
      :: pretty_elements fmt n lvl rest

/-- The lines of the members of an Object at depth `lvl`. -/
def pretty_members (fmt : Double → List Char) (n : Nat) :
    Nat → List (List Char × json) → List (List Char)
  | _, [] => []
  | lvl, (k, x) :: rest =>
    (List.replicate (n * (lvl + 1)) ' ' ++ ('"' :: escape_str k ++ ['"', ':', ' '])
        ++ pretty_text fmt n (lvl + 1) x)
      :: pretty_members fmt n lvl rest

end

end json

/-- The text `s` with its leading and trailing whitespace removed. -/
def strip_ws (s : List Char) : List Char :=
  ((s.dropWhile isspace).reverse.dropWhile isspace).reverse

/-- The source text of the members that precede another member of an object text:
each member followed by a comma. -/
def members_lead : List member → List Char
  | [] => []
  | m :: ms => m.text ++ ',' :: members_lead ms

/-- The part of `parse_number` after the optional minus sign: `sign` is the text
already read, `s1` the input left. -/
def number_body (sign s1 : List Char) : PResult json :=
  if json.parser.peek (s1.dropWhile isdigit) = '.' then
    match stod (sign ++ s1.takeWhile isdigit
        ++ '.' :: (json.parser.get (s1.dropWhile isdigit)).2.takeWhile isdigit) with
    | .ok d => .ok (.float d) ((json.parser.get (s1.dropWhile isdigit)).2.dropWhile isdigit)
    | .error e => .error e
  else
    match stoll (sign ++ s1.takeWhile isdigit) with
    | .ok i => .ok (.int i) (s1.dropWhile isdigit)
    | .error e => .error e

/-! ## String literals: bodies and escapes -/

/-- The text `t` is a piece of the inside of a string literal that decodes to `k`:
wherever it stands in the loop of `parse_string`, the loop reads exactly `t` and
appends `k` to the string built so far. -/
def string_body (t k : List Char) : Prop :=
  ∀ out rest : List Char,
    json.parser.parse_string_loop out (t ++ rest) = json.parser.parse_string_loop (out ++ k) rest

/-- The table of the two-character escapes: the character that a backslash followed
by `e` stands for (quote, backslash, slash, backspace, form feed, newline, carriage
return, tab), if `e` is one of the eight. -/
def unescape (e : Char) : Option Char :=
  if e = '"' then some '"'
  else if e = '\\' then some '\\'
  else if e = '/' then some '/'
  else if e = 'b' then some '\x08'
  else if e = 'f' then some '\x0c'
  else if e = 'n' then some '\n'
  else if e = 'r' then some '\r'
  else if e = 't' then some '\t'
  else none

/-- The text starts with four hexadecimal digits. -/
def four_hex : List Char → Bool
  | h1 :: h2 :: h3 :: h4 :: _ => isxdigit h1 && isxdigit h2 && isxdigit h3 && isxdigit h4
  | _ => false

/-- The source text of the elements that precede another element of an array text:
each element text followed by a comma. -/
def texts_lead : List (List Char) → List Char
  | [] => []
  | t :: ts => t ++ ',' :: texts_lead ts

/-! ## What a dumped value reads back as -/

/-- The character a character of a String reads back as after `dump` and `parse`:
itself when `escape_str` writes it unchanged or as a two-character escape, `?` when
it is written as a `\u` escape. -/
def reparse_char (c : Char) : Char := if lossless_char c then c else '?'

namespace json

mutual

/-- The value a value reads back as after `dump` and `parse`: every String and
every key with its characters read back, the members of an Object inserted again in
their order (`emplace`, so of two keys that read back equal the first stays). -/
def reparsed : json → json
  | null => null
  | bool b => bool b
  | int i => int i
  | float d => float d
  | str s => str (s.map reparse_char)
  | arr a => arr (reparsed_array a)
  | obj o => obj (emplace_all [] (reparsed_object o))

def reparsed_array : List json → List json
  | [] => []
  | x :: rest => reparsed x :: reparsed_array rest

def reparsed_object : List (List Char × json) → List (List Char × json)
  | [] => []
  | (k, x) :: rest => (k.map reparse_char, reparsed x) :: reparsed_object rest

end

end json

/-! # Items (`src/enums.hpp`, `src/item.hpp`)

The enumerations, the payload structs and `Item`, with their conversions to and
from `json`.  A C++ `int` is an `Int`; the range is part of `Item.valid`.  The
free functions `to_json` / `from_json` are overloaded in C++ and are named after the
type they convert here; `from_json` fills a default-constructed object and may
throw, so it returns `Except Exn _`. -/

inductive ItemType where
  | Weapon | Armor | Consumable | Material | Misc
  deriving DecidableEq

inductive Rarity where
  | Common | Uncommon | Rare | Epic | Legendary
  deriving DecidableEq

/-- The overload `toString(ItemType)`. -/
def ItemType.toString : ItemType → List Char
  | .Weapon => "Weapon".toList
  | .Armor => "Armor".toList
  | .Consumable => "Consumable".toList
  | .Material => "Material".toList
  | .Misc => "Misc".toList

def stringToItemType (s : List Char) : ItemType :=
  if s = "Weapon".toList then .Weapon
  else if s = "Armor".toList then .Armor
  else if s = "Consumable".toList then .Consumable
  else if s = "Material".toList then .Material
  else .Misc

/-- The overload `toString(Rarity)`. -/
def Rarity.toString : Rarity → List Char
  | .Common => "Common".toList
  | .Uncommon => "Uncommon".toList
  | .Rare => "Rare".toList
  | .Epic => "Epic".toList
  | .Legendary => "Legendary".toList

def stringToRarity (s : List Char) : Rarity :=
  if s = "Common".toList then .Common
  else if s = "Uncommon".toList then .Uncommon
  else if s = "Rare".toList then .Rare
  else if s = "Epic".toList then .Epic
  else if s = "Legendary".toList then .Legendary
  else .Common

structure WeaponData where
  damage : Int
  durability : Int
  weight : Int
  deriving DecidableEq

structure ArmorData where
  defense : Int
  weight : Int
  deriving DecidableEq

structure ConsumableData where
  healAmount : Int
  weight : Int
  deriving DecidableEq

structure MaterialData where
  weight : Int
  deriving DecidableEq

structure MiscData where
  weight : Int
  deriving DecidableEq

/-- The variant `ItemPayload`. -/
inductive ItemPayload where
  | weapon (d : WeaponData)
  | armor (d : ArmorData)
  | consumable (d : ConsumableData)
  | material (d : MaterialData)
  | misc (d : MiscData)
  deriving DecidableEq

structure Item where
  id : List Char
  name : List Char
  type : ItemType
  rarity : Rarity
  levelReq : Int
  stackSize : Int
  maxStack : Int
  data : ItemPayload
  deriving DecidableEq

namespace json

/-- The constructor `json(std::initializer_list<kv_pair>)`: an Object into which the
pairs are `emplace`d in order. -/
def of_pairs (init : List (List Char × json)) : json := obj (emplace_all [] init)

/-- The statement `j[key] = val`: the mutable `operator[]` followed by an assignment
through the reference it returns. -/
def subscript_assign (j : json) (key : List Char) (val : json) : json :=
  match (subscript_mut j key).1 with
  | obj o => obj (o.map fun kv => if kv.1 = key then (kv.1, val) else kv)
  | other => other

end json

def WeaponData.to_json (w : WeaponData) : json :=
  json.of_pairs [("damage".toList, .int w.damage), ("durability".toList, .int w.durability),
    ("weight".toList, .int w.weight)]

def WeaponData.from_json (j : json) : Except Exn WeaponData := do
  let damage ← j.value json.get_int "damage".toList 0
  let durability ← j.value json.get_int "durability".toList (-1)
  let weight ← j.value json.get_int "weight".toList 0
  pure ⟨damage, durability, weight⟩

def ArmorData.to_json (a : ArmorData) : json :=
  json.of_pairs [("defense".toList, .int a.defense), ("weight".toList, .int a.weight)]

def ArmorData.from_json (j : json) : Except Exn ArmorData := do
  let defense ← j.value json.get_int "defense".toList 0
  let weight ← j.value json.get_int "weight".toList 0
  pure ⟨defense, weight⟩

def ConsumableData.to_json (c : ConsumableData) : json :=
  json.of_pairs [("healAmount".toList, .int c.healAmount), ("weight".toList, .int c.weight)]

def ConsumableData.from_json (j : json) : Except Exn ConsumableData := do
  let healAmount ← j.value json.get_int "healAmount".toList 0
  let weight ← j.value json.get_int "weight".toList 0
  pure ⟨healAmount, weight⟩

def MaterialData.to_json (m : MaterialData) : json :=
  json.of_pairs [("weight".toList, .int m.weight)]

def MaterialData.from_json (j : json) : Except Exn MaterialData := do
  let weight ← j.value json.get_int "weight".toList 0
  pure ⟨weight⟩

def MiscData.to_json (m : MiscData) : json :=
  json.of_pairs [("weight".toList, .int m.weight)]

def MiscData.from_json (j : json) : Except Exn MiscData := do
  let weight ← j.value json.get_int "weight".toList 0
  pure ⟨weight⟩

/-- The visitor of `to_json(json&, const Item&)`: `to_json` of the alternative the
payload holds. -/
def ItemPayload.to_json : ItemPayload → json
  | .weapon d => d.to_json
  | .armor d => d.to_json
  | .consumable d => d.to_json
  | .material d => d.to_json
  | .misc d => d.to_json

def Item.to_json (i : Item) : json :=
  json.subscript_assign
    (json.of_pairs [("id".toList, .str i.id), ("name".toList, .str i.name),
      ("type".toList, .str i.type.toString), ("rarity".toList, .str i.rarity.toString),
      ("levelReq".toList, .int i.levelReq), ("stackSize".toList, .int i.stackSize),
      ("maxStack".toList, .int i.maxStack)])
    "data".toList i.data.to_json

def Item.from_json (j : json) : Except Exn Item := do
  let id ← (← j.at_const "id".toList).get_string
  let name ← (← j.at_const "name".toList).get_string
  let type := stringToItemType (← (← j.at_const "type".toList).get_string)
  let rarity := stringToRarity (← (← j.at_const "rarity".toList).get_string)
  let levelReq ← (← j.at_const "levelReq".toList).get_int
  let stackSize ← (← j.at_const "stackSize".toList).get_int
  let maxStack ← (← j.at_const "maxStack".toList).get_int
  let d ← j.at_const "data".toList
  let data ← match type with
    | .Weapon => ItemPayload.weapon <$> WeaponData.from_json d
    | .Armor => ItemPayload.armor <$> ArmorData.from_json d
    | .Consumable => ItemPayload.consumable <$> ConsumableData.from_json d
    | .Material => ItemPayload.material <$> MaterialData.from_json d
    | .Misc => ItemPayload.misc <$> MiscData.from_json d
  pure ⟨id, name, type, rarity, levelReq, stackSize, maxStack, data⟩

/-- The payload alternative is the one that goes with the type of the item. -/
def Item.payload_matches (i : Item) : Bool :=
  match i.type, i.data with
  | .Weapon, .weapon _ => true
  | .Armor, .armor _ => true
  | .Consumable, .consumable _ => true
  | .Material, .material _ => true
  | .Misc, .misc _ => true
  | _, _ => false

/-- Every `int` field of the payload is within the range of the 32-bit `int`. -/
def ItemPayload.valid : ItemPayload → Prop
  | .weapon d => inInt32 d.damage ∧ inInt32 d.durability ∧ inInt32 d.weight
  | .armor d => inInt32 d.defense ∧ inInt32 d.weight
  | .consumable d => inInt32 d.healAmount ∧ inInt32 d.weight
  | .material d => inInt32 d.weight
  | .misc d => inInt32 d.weight

/-- Every `int` field of the item is within the range of the 32-bit `int`. -/
def Item.valid (i : Item) : Prop :=
  inInt32 i.levelReq ∧ inInt32 i.stackSize ∧ inInt32 i.maxStack ∧ i.data.valid

/-! # Inventory (`src/result.hpp`, `src/inventory.hpp`, `src/crafting.hpp`, `src/item_factory.hpp`)

The class `Inventory` is a record of its data members and every member function
takes the record and gives back the record after the call.

* An `int` is an `Int`.  The two sums that stack sizes within the range of `int`
  can push past `INT_MAX`, the running sum of `count` and `remaining + maxStack - 1`
  of the slot checks, are reduced to 32 bits as the compiled program does
  (`wrap_int`; in C++ itself signed overflow is undefined).  The other `int`
  arithmetic is exact.  A `std::size_t` is a `Nat` below `2 ^ 64`; the cast
  `static_cast<std::size_t>(int)` and the sum `items_.size() + neededSlots` wrap.
* `assert(stackSize > 0)` of `Item::weightPerUnit` is taken as checked: a call that
  fails it ends the program (`Run.assert_failed`).
* The `while` loop of `addItem` has no bound in the source, so the embedding runs
  it on a budget of iterations; `Run.no_return` is the budget used up.
* `equipped_` maps a slot to the item its pointer holds; a missing entry and a
  null pointer are both `none`.
* An iterator into `items_` is the position it designates, as long as the vector
  is not reallocated.  The record does not hold the capacity of the vector, so
  `equip`, which keeps an iterator across a call that appends, takes the capacity
  as an argument; using the iterator after a reallocation is undefined behaviour
  (`Run.undefined`).
* `Log::info` only prints and is left out. -/

inductive EquipSlot where
  | Head | Chest | Legs | Weapon | Shield | Accessory | None
  deriving DecidableEq

/-- The class template `Result<T>`: a value or an error text; `Result<void>` is
`Result Unit`. -/
abbrev Result (α : Type) := Except (List Char) α

/-- The member `Item::getWeight`. -/
def Item.getWeight (i : Item) : Int :=
  match i.data with
  | .weapon w => w.weight * i.stackSize
  | .armor a => a.weight * i.stackSize
  | .consumable c => c.weight * i.stackSize
  | .material m => m.weight * i.stackSize
  | .misc m => m.weight * i.stackSize

/-- The member `Item::weightPerUnit`; `none` when the assertion fails. -/
def Item.weightPerUnit (i : Item) : Option Int :=
  if i.stackSize > 0 then some (Int.tdiv i.getWeight i.stackSize) else none

/-- The value `SIZE_MAX + 1` of a 64-bit `std::size_t`. -/
def SIZE_MOD : Nat := 18446744073709551616

/-- The `int` that holds the result `i` of an `int` operation: `i` reduced modulo
`2 ^ 32` into the range from `INT_MIN` to `INT_MAX`. -/
def wrap_int (i : Int) : Int := (i + 2147483648) % 4294967296 - 2147483648

/-- The cast `static_cast<std::size_t>(int)`. -/
def to_size_t (i : Int) : Nat := (i % 18446744073709551616).toNat

/-- The test `s.find(sub) == 0` on the text that is left. -/
def starts_with : List Char → List Char → Bool
  | _, [] => true
  | [], _ :: _ => false
  | c :: s, d :: sub => c == d && starts_with s sub

/-- The test `s.find(sub) != std::string::npos`. -/
def has_substring : List Char → List Char → Bool
  | [], sub => starts_with [] sub
  | c :: s, sub => starts_with (c :: s) sub || has_substring s sub

structure Inventory where
  slotLimit : Nat
  weightLimit : Int
  totalWeight : Int
  items : List Item
  equipped : EquipSlot → Option Item

/-- How a call of a member function ends: it returns a `Result<void>` and leaves
the inventory `inv`, or an assertion fails, or the iterations allowed are used up,
or the call uses an iterator that a reallocation has invalidated. -/
inductive Run where
  | ret (r : Result Unit) (inv : Inventory)
  | assert_failed
  | no_return
  | undefined

namespace Inventory

/-- The constructor `Inventory(slotLimit, weightLimit)`. -/
def create (slotLimit : Nat) (weightLimit : Int) : Inventory :=
  ⟨slotLimit, weightLimit, 0, [], fun _ => none⟩

/-- The first `for` loop of `addItem`: what is left of `remaining` after the free
room of the stacks with the same id is used. -/
def addItem_plan (id : List Char) : List Item → Int → Int
  | [], remaining => remaining
  | existing :: rest, remaining =>
    if existing.id = id ∧ existing.stackSize < existing.maxStack then
      let freeSpace := existing.maxStack - existing.stackSize
      let use := min freeSpace remaining
      if remaining - use = 0 then remaining - use
      else addItem_plan id rest (remaining - use)
    else addItem_plan id rest remaining

/-- The second `for` loop of `addItem`: fills the stacks with the same id.  Gives
the stacks, `toAdd.stackSize` and `totalWeight_` after the loop. -/
def addItem_fill (id : List Char) : List Item → Int → Int → Option (List Item × Int × Int)
  | [], stackSize, totalWeight => some ([], stackSize, totalWeight)
  | existing :: rest, stackSize, totalWeight =>
    if existing.id = id ∧ existing.stackSize < existing.maxStack then
      let freeSpace := existing.maxStack - existing.stackSize
      let transfer := min freeSpace stackSize
      let grown : Item := { existing with stackSize := existing.stackSize + transfer }
      match grown.weightPerUnit with
      | none => none
      | some unit =>
        if stackSize - transfer = 0 then
          some (grown :: rest, stackSize - transfer, totalWeight + unit * transfer)
        else
          match addItem_fill id rest (stackSize - transfer) (totalWeight + unit * transfer) with
          | none => none
          | some (out, s, w) => some (grown :: out, s, w)
    else
      match addItem_fill id rest stackSize totalWeight with
      | none => none
      | some (out, s, w) => some (existing :: out, s, w)

/-- The `while` loop of `addItem` on a budget of `fuel` iterations: appends new
stacks until `toAdd.stackSize` is used up.  Gives the stacks and `totalWeight_`. -/
def addItem_push : Nat → Item → List Item → Int → Option (List Item × Int)
  | 0, toAdd, items, totalWeight =>
    if toAdd.stackSize > 0 then none else some (items, totalWeight)
  | fuel + 1, toAdd, items, totalWeight =>
    if toAdd.stackSize > 0 then
      let thisStackSize := min toAdd.stackSize toAdd.maxStack
      let singleStack : Item := { toAdd with stackSize := thisStackSize }
      addItem_push fuel { toAdd with stackSize := toAdd.stackSize - thisStackSize }
        (items ++ [singleStack]) (totalWeight + singleStack.getWeight)
    else some (items, totalWeight)

/-- The variable `neededSlots` of `addItem` when the slot check reads it. -/
def addItem_neededSlots (inv : Inventory) (toAdd : Item) : Nat :=
  if toAdd.maxStack > 1 then
    let remaining := addItem_plan toAdd.id inv.items toAdd.stackSize
    if remaining > 0 then
      to_size_t (Int.tdiv (wrap_int (wrap_int (remaining + toAdd.maxStack) - 1)) toAdd.maxStack)
    else 0
  else to_size_t toAdd.stackSize

/-- The member `addItem` with `fuel` iterations allowed to its `while` loop. -/
def addItem_fuel (fuel : Nat) (inv : Inventory) (item : Item) : Run :=
  let toAdd := item
  let neededWeight := toAdd.getWeight
  if inv.totalWeight + neededWeight > inv.weightLimit then
    .ret (.error "weight limit exceeded".toList) inv
  else
    let neededSlots := addItem_neededSlots inv toAdd
    if (inv.items.length + neededSlots) % SIZE_MOD > inv.slotLimit then
      .ret (.error "slot limit reached".toList) inv
    else
      let filled :=
        if toAdd.maxStack > 1 then
          addItem_fill toAdd.id inv.items toAdd.stackSize inv.totalWeight
        else some (inv.items, toAdd.stackSize, inv.totalWeight)
      match filled with
      | none => .assert_failed
      | some (items, stackSize, totalWeight) =>
        match addItem_push fuel { toAdd with stackSize := stackSize } items totalWeight with
        | none => .no_return
        | some (items, totalWeight) =>
          .ret (.ok ()) { inv with items := items, totalWeight := totalWeight }

/-- The member `addItem`: the `while` loop gets `stackSize` iterations, which is
enough for every item whose loop ends at all (`addItem_eq_fuel`,
`addItem_no_return`). -/
def addItem (inv : Inventory) (item : Item) : Run :=
  addItem_fuel item.stackSize.toNat inv item

/-- The loop of `removeItem`.  Gives the stacks, `remaining` and `totalWeight_`
after the loop. -/
def removeItem_loop (id : List Char) : List Item → Int → Int → Option (List Item × Int × Int)
  | [], remaining, totalWeight => some ([], remaining, totalWeight)
  | it :: rest, remaining, totalWeight =>
    if remaining > 0 then
      if it.id = id then
        if it.stackSize > remaining then
          match it.weightPerUnit with
          | none => none
          | some unitWeight =>
            some ({ it with stackSize := it.stackSize - remaining } :: rest, 0,
              totalWeight - unitWeight * remaining)
        else
          removeItem_loop id rest (remaining - it.stackSize) (totalWeight - it.getWeight)
      else
        match removeItem_loop id rest remaining totalWeight with
        | none => none
        | some (out, r, w) => some (it :: out, r, w)
    else some (it :: rest, remaining, totalWeight)

/-- The member `removeItem`. -/
def removeItem (inv : Inventory) (id : List Char) (quantity : Int) : Run :=
  if quantity ≤ 0 then .ret (.ok ()) inv
  else
    match removeItem_loop id inv.items quantity inv.totalWeight with
    | none => .assert_failed
    | some (items, remaining, totalWeight) =>
      if remaining > 0 then
        .ret (.error "item not found in inventory".toList)
          { inv with items := items, totalWeight := totalWeight }
      else .ret (.ok ()) { inv with items := items, totalWeight := totalWeight }

/-- The loop of `count` from the running value `sum`. -/
def count_loop (id : List Char) : List Item → Int → Int
  | [], sum => sum
  | it :: rest, sum =>
    count_loop id rest (if it.id = id then wrap_int (sum + it.stackSize) else sum)

/-- The member `count`. -/
def count (inv : Inventory) (id : List Char) : Int :=
  count_loop id inv.items 0

/-- The member `usedSlots`; `totalWeight()` is the field `totalWeight`. -/
def usedSlots (inv : Inventory) : Nat := inv.items.length

/-- The static member `slotForItem`. -/
def slotForItem (it : Item) : EquipSlot :=
  if it.type = .Weapon then .Weapon
  else if it.type = .Armor then
    if has_substring it.id "helmet".toList ∨ has_substring it.id "head".toList then .Head
    else if has_substring it.id "chest".toList ∨ has_substring it.id "armor".toList then .Chest
    else if has_substring it.id "leg".toList ∨ has_substring it.id "boots".toList then .Legs
    else .Chest
  else if has_substring it.id "shield".toList then .Shield
  else if has_substring it.id "ring".toList ∨ has_substring it.id "amulet".toList then .Accessory
  else .None

/-- The call of `std::find_if` in `equip`: the position of the first stack with
the id and the stack there; `none` is `items_.end()`. -/
def find_id (id : List Char) : List Item → Option (Nat × Item)
  | [] => none
  | it :: rest =>
    if it.id = id then some (0, it)
    else (find_id id rest).map (fun p => (p.1 + 1, p.2))

/-- The assignment `equipped_[slot] = p`. -/
def set_slot (eq : EquipSlot → Option Item) (slot : EquipSlot) (p : Option Item) :
    EquipSlot → Option Item :=
  fun s => if s = slot then p else eq s

/-- The last part of `equip`: the stack at position `k` (one unit of it when it is
a stack of several) goes to `slot`. -/
def equip_move (inv : Inventory) (k : Nat) (it : Item) (slot : EquipSlot) : Run :=
  if it.maxStack > 1 ∧ it.stackSize > 1 then
    let one : Item := { it with stackSize := 1 }
    match it.weightPerUnit with
    | none => .assert_failed
    | some unitWeight =>
      .ret (.ok ())
        { inv with
          items := inv.items.set k { it with stackSize := it.stackSize - 1 }
          totalWeight := inv.totalWeight - unitWeight + unitWeight
          equipped := set_slot inv.equipped slot (some one) }
  else
    let itemWeight := it.getWeight
    .ret (.ok ())
      { inv with
        items := inv.items.eraseIdx k
        totalWeight := inv.totalWeight - itemWeight + itemWeight
        equipped := set_slot inv.equipped slot (some it) }

/-- The member `equip`; `capacity` is `items_.capacity()` at the call.  The
iterator `it` is the position `k`.  The call `addItem(*cur)` appends to `items_`:
when the vector then holds more than `capacity` stacks it has been reallocated and
`it`, which `equip` goes on to read, write and erase through, is invalid.
Otherwise the stack is read at the position again. -/
def equip (inv : Inventory) (capacity : Nat) (id : List Char) (playerLevel : Int) : Run :=
  match find_id id inv.items with
  | none => .ret (.error "item not in inventory".toList) inv
  | some (k, it) =>
    if it.levelReq > playerLevel then
      .ret (.error "your level is too low to equip this item".toList) inv
    else
      let slot := slotForItem it
      if slot = .None then .ret (.error "item not equipable".toList) inv
      else
        match inv.equipped slot with
        | some cur =>
          match addItem { inv with totalWeight := inv.totalWeight - cur.getWeight } cur with
          | .ret (.error e) back =>
            .ret (.error ("cannot unequip existing item: ".toList ++ e))
              { back with totalWeight := back.totalWeight + cur.getWeight }
          | .ret (.ok ()) back =>
            if back.items.length > capacity then .undefined
            else equip_move back k (back.items.getD k it) slot
          | .assert_failed => .assert_failed
          | .no_return => .no_return
          | .undefined => .undefined
        | none => equip_move inv k it slot

/-- The member `unequip`. -/
def unequip (inv : Inventory) (slot : EquipSlot) : Run :=
  match inv.equipped slot with
  | none => .ret (.error "slot empty".toList) inv
  | some cur =>
    let eqWeight := cur.getWeight
    match addItem { inv with totalWeight := inv.totalWeight - eqWeight } cur with
    | .ret (.error e) back =>
      .ret (.error ("cannot unequip: ".toList ++ e))
        { back with totalWeight := back.totalWeight + eqWeight }
    | .ret (.ok ()) back =>
      .ret (.ok ()) { back with equipped := set_slot back.equipped slot none }
    | .assert_failed => .assert_failed
    | .no_return => .no_return
    | .undefined => .undefined

/-- The first `for` loop of `canAdd` (the same walk as in `addItem`). -/
def canAdd_plan (id : List Char) : List Item → Int → Int
  | [], remaining => remaining
  | existing :: rest, remaining =>
    if existing.id = id ∧ existing.stackSize < existing.maxStack then
      let freeSpace := existing.maxStack - existing.stackSize
      let use := min freeSpace remaining
      if remaining - use = 0 then remaining - use
      else canAdd_plan id rest (remaining - use)
    else canAdd_plan id rest remaining

/-- The member `canAdd` (it is `const`: the inventory stays as it is). -/
def canAdd (inv : Inventory) (item : Item) : Result Unit :=
  if inv.totalWeight + item.getWeight > inv.weightLimit then
    .error "weight limit would be exceeded".toList
  else
    let neededSlots : Nat :=
      if item.maxStack > 1 then
        let remaining := canAdd_plan item.id inv.items item.stackSize
        if remaining > 0 then
          to_size_t (Int.tdiv (wrap_int (wrap_int (remaining + item.maxStack) - 1)) item.maxStack)
        else 0
      else to_size_t item.stackSize
    if (inv.items.length + neededSlots) % SIZE_MOD > inv.slotLimit then
      .error "no free inventory slot for the item".toList
    else .ok ()

end Inventory

structure Recipe where
  resultId : List Char
  resultCount : Int
  ingredients : List (List Char × Int)

/-- The map `recipes_` of `CraftingSystem`, from the result id to the recipe. -/
structure CraftingSystem where
  recipes : List (List Char × Recipe)

/-- The member `CraftingSystem::get`; a null pointer is `none`. -/
def CraftingSystem.get (c : CraftingSystem) (resultId : List Char) : Option Recipe :=
  (c.recipes.find? (fun kv => kv.1 = resultId)).map (·.2)

/-- The map `templates_` of `ItemFactory`, from the id to the template. -/
structure ItemFactory where
  templates : List (List Char × Item)

/-- What the random generator and the `float` arithmetic give to one call of
`ItemFactory::create`: the draw `randInt(-1, 2)`, the rarity of `randomRarity()`
and the scaled statistic `static_cast<int>(x * rarityMul)`. -/
structure Draw where
  lvlVar : Int
  rarity : Rarity
  scale : Int → Int

def rarityPrefix : Rarity → List Char
  | .Common => []
  | .Uncommon => "Uncommon".toList
  | .Rare => "Rare".toList
  | .Epic => "Epic".toList
  | .Legendary => "Legendary".toList

/-- The member `ItemFactory::create`. -/
def ItemFactory.create (f : ItemFactory) (d : Draw) (id : List Char) (playerLevel : Int) :
    Result Item :=
  match f.templates.find? (fun kv => kv.1 = id) with
  | none => .error ("Unknown item id \x27".toList ++ id ++ "\x27".toList)
  | some kv =>
    let result : Item := kv.2
    let result := { result with levelReq := max 1 (playerLevel - 2 + d.lvlVar) }
    let result := { result with rarity := d.rarity }
    let data : ItemPayload :=
      match result.data with
      | .weapon w =>
        .weapon { w with
          damage := d.scale w.damage
          durability := if w.durability > 0 then d.scale w.durability else w.durability }
      | .armor a => .armor { a with defense := d.scale a.defense }
      | .consumable c => .consumable { c with healAmount := d.scale c.healAmount }
      | other => other
    let result := { result with data := data }
    let result :=
      if rarityPrefix result.rarity ≠ [] then
        { result with name := rarityPrefix result.rarity ++ " ".toList ++ result.name }
      else result
    let result :=
      if result.type = .Material ∨ result.type = .Consumable then
        { result with maxStack := 20 }
      else { result with maxStack := 1 }
    .ok result

namespace Inventory

end Inventory

/-! ## Notions the statements about the inventory use -/

/-- The member `weight` of the payload, whichever alternative it is. -/
def ItemPayload.weight : ItemPayload → Int
  | .weapon w => w.weight
  | .armor a => a.weight
  | .consumable c => c.weight
  | .material m => m.weight
  | .misc m => m.weight

namespace Inventory

/-- The sum of `getWeight()` over the stacks. -/
def stacks_weight (items : List Item) : Int := (items.map Item.getWeight).sum

/-- The capacity of a `std::vector` after `push_back` on `size` elements: a vector
that is full is reallocated to twice its size (to 1 when it is empty), as libstdc++
and libc++ do; `erase` leaves the capacity as it is. -/
def push_back_capacity (capacity size : Nat) : Nat :=
  if size < capacity then capacity else size + max size 1

/-- The capacity after `n` calls of `push_back`. -/
def grown_capacity : Nat → Nat → Nat → Nat
  | capacity, _, 0 => capacity
  | capacity, size, n + 1 => grown_capacity (push_back_capacity capacity size) (size + 1) n

/-- The states a program can bring an inventory into from the constructor with
`addItem` (of an item with `stackSize ≥ 1` and `maxStack ≥ 1`), `removeItem`,
`equip` and `unequip`, whatever result the calls return, each state with the
capacity of its vector `items_`.  A call that does not return (a failed assertion,
an invalidated iterator) leads to no state. -/
inductive Reachable : Inventory → Nat → Prop where
  | create (slotLimit : Nat) (weightLimit : Int) : Reachable (create slotLimit weightLimit) 0
  | addItem {inv : Inventory} {capacity : Nat} (item : Item) {r : Result Unit}
      {inv1 : Inventory} :
      Reachable inv capacity → 1 ≤ item.stackSize → 1 ≤ item.maxStack →
      inv.addItem item = .ret r inv1 →
      Reachable inv1
        (grown_capacity capacity inv.items.length (inv1.items.length - inv.items.length))
  | removeItem {inv : Inventory} {capacity : Nat} (id : List Char) (quantity : Int)
      {r : Result Unit} {inv1 : Inventory} :
      Reachable inv capacity → inv.removeItem id quantity = .ret r inv1 →
      Reachable inv1 capacity
  | equip {inv : Inventory} {capacity : Nat} (id : List Char) (playerLevel : Int)
      {r : Result Unit} {inv1 : Inventory} :
      Reachable inv capacity → inv.equip capacity id playerLevel = .ret r inv1 →
      Reachable inv1 capacity
  | unequip {inv : Inventory} {capacity : Nat} (slot : EquipSlot) {r : Result Unit}
      {inv1 : Inventory} :
      Reachable inv capacity → inv.unequip slot = .ret r inv1 →
      Reachable inv1
        (grown_capacity capacity inv.items.length (inv1.items.length - inv.items.length))

/-- The stacks `new` are the stacks `old` in the same order, each one the same
item with a size that may have changed. -/
def same_stacks (old new : List Item) : Prop :=
  List.Forall₂ (fun a b => b = { a with stackSize := b.stackSize }) old new

/-- The number of units of `id` that the stacks hold: the sum that `count` forms,
without the limit of an `int`. -/
def units (id : List Char) : List Item → Int
  | [] => 0
  | it :: rest => (if it.id = id then it.stackSize else 0) + units id rest

/-- A `std::vector` holds fewer than `2 ^ 63` elements. -/
def fits (inv : Inventory) : Prop := inv.items.length < 9223372036854775808

end Inventory

/-- The number of stacks of at most `maxStack` units that `stackSize` units make,
`⌈stackSize / maxStack⌉`; none when there is nothing to place. -/
def Inventory.stacks_needed (stackSize maxStack : Int) : Nat :=
  ((stackSize + maxStack - 1) / maxStack).toNat

/-! ## Sample values -/

/-- A stack of iron ore with the unit weight, the size and the capacity given. -/
def sample_ore (weight stackSize maxStack : Int) : Item :=
  ⟨"iron_ore".toList, "Iron Ore".toList, .Material, .Common, 1, stackSize, maxStack,
    .material ⟨weight⟩⟩

/-- A full stack of `2 ^ 30` units of weightless ore. -/
def sample_bulk : Item := sample_ore 0 1073741824 1073741824

/-- A sword of weight 7 that does not stack. -/
def sample_sword : Item :=
  ⟨"iron_sword".toList, "Iron Sword".toList, .Weapon, .Common, 1, 1, 1, .weapon ⟨12, 50, 7⟩⟩

/-- The inventory of 30 slots and weight limit 300 with the stacks given in its
vector, nothing equipped, and `totalWeight_` as given. -/
def sample_inventory (totalWeight : Int) (items : List Item) : Inventory :=
  ⟨30, 300, totalWeight, items, fun _ => none⟩

/-- An axe of weight 9 that does not stack. -/
def sample_axe : Item :=
  ⟨"battle_axe".toList, "Battle Axe".toList, .Weapon, .Common, 1, 1, 1, .weapon ⟨20, 40, 9⟩⟩

namespace json

/-! ## Accessors -/

theorem find_append_single (o : json_object) (k k2 : List Char) (x : json) :
    json_object.find (o ++ [(k, x)]) k2 =
      match json_object.find o k2 with
      | some e => some e
      | none => if k = k2 then some x else none := by
  induction o with
  | nil => simp [json_object.find]
  | cons p rest ih =>
    obtain ⟨a, b⟩ := p
    by_cases h : a = k2 <;> simp [json_object.find, h, ih]

/-- C3: the mutable `operator[]` (and the mutable `at`, the same operation) never
fails and leaves an Object that is the base (the value itself if it was an Object,
the empty Object otherwise) with `k ↦ null` added when `k` was absent: every key
other than `k` maps as before, a present `k` keeps its entry, `contains k` holds
afterwards, the size grows by one exactly when `k` was absent, and the returned
reference designates the entry under `k`. -/
theorem subscript_mut_spec (v : json) (k : List Char) :
    at_mut v k = subscript_mut v k ∧
    ∃ o2 : json_object, (subscript_mut v k).1 = obj o2 ∧
      (∀ k2, k2 ≠ k → json_object.find o2 k2 = json_object.find (object_base v) k2) ∧
      (∀ e, json_object.find (object_base v) k = some e → json_object.find o2 k = some e) ∧
      (json_object.find (object_base v) k = none → json_object.find o2 k = some null) ∧
      contains (obj o2) k = true ∧
      json_object.find o2 k = some (subscript_mut v k).2 ∧
      size (obj o2) =
        size (obj (object_base v)) + (if (json_object.find (object_base v) k).isSome then 0 else 1) := by
  refine ⟨rfl, json_object.subscript (object_base v) k, ?_, ?_⟩
  · cases v <;> rfl
  · have hb : (subscript_mut v k).2 =
        (json_object.find (json_object.subscript (object_base v) k) k).getD null := by
      cases v <;> rfl
    rw [hb]
    cases hf : json_object.find (object_base v) k with
    | none =>
      have hs : json_object.subscript (object_base v) k = object_base v ++ [(k, null)] := by
        simp [json_object.subscript, hf]
      rw [hs]
      refine ⟨?_, ?_, ?_, ?_, ?_, ?_⟩
      · intro k2 hk
        rw [find_append_single]
        cases json_object.find (object_base v) k2 with
        | none => simp [Ne.symm hk]
        | some e => rfl
      · intro e he; cases he
      · intro _; rw [find_append_single, hf]; simp
      · simp [contains, find_append_single, hf]
      · rw [find_append_single, hf]; simp
      · simp [size]
    | some e =>
      have hs : json_object.subscript (object_base v) k = object_base v := by
        simp [json_object.subscript, hf]
      rw [hs]
      refine ⟨fun _ _ => rfl, ?_, ?_, ?_, ?_, ?_⟩
      · intro e2 he; rw [hf]; exact he
      · intro h; cases h
      · simp [contains, hf]
      · simp [hf]
      · simp [size]

/-- C4: the read-only `operator[]` and `at` return the stored entry exactly when the
value is an Object containing the key, throw "json is not an object" on every
other variant and "key not found" on an Object without the key; on the empty
Object `at("missing")` throws key-not-found and the Object still has no entry. -/
theorem subscript_const_spec (v : json) (k : List Char) :
    at_const v k = subscript_const v k ∧
    (∀ e, subscript_const v k = .ok e ↔ ∃ o, v = obj o ∧ json_object.find o k = some e) ∧
    (is_object v = false →
      subscript_const v k = .error (.out_of_range "json is not an object")) ∧
    (is_object v = true → contains v k = false →
      subscript_const v k = .error (.out_of_range ("key not found: " ++ String.mk k))) ∧
    at_const (obj []) ['m', 'i', 's', 's', 'i', 'n', 'g'] =
      .error (.out_of_range "key not found: missing") ∧
    contains (obj []) ['m', 'i', 's', 's', 'i', 'n', 'g'] = false ∧ size (obj []) = 0 := by
  refine ⟨rfl, ?_, ?_, ?_, rfl, rfl, rfl⟩
  · intro e
    cases v
    case obj o =>
      constructor
      · intro h
        refine ⟨o, rfl, ?_⟩
        cases hf : json_object.find o k with
        | none => simp [subscript_const, hf] at h
        | some x => simpa [subscript_const, hf] using h
      · rintro ⟨o2, ho, hf⟩
        cases ho
        simp [subscript_const, hf]
    all_goals exact ⟨fun h => by simp [subscript_const] at h, fun ⟨_, h, _⟩ => by cases h⟩
  · intro h
    cases v
    case obj o => simp [is_object] at h
    all_goals rfl
  · intro h hc
    cases v
    case obj o =>
      simp only [contains] at hc
      cases hf : json_object.find o k with
      | none => simp [subscript_const, hf]
      | some e => simp [hf] at hc
    all_goals simp [is_object] at h

/-- C5: `value<T>(key, default)` is `get<T>()` of the entry under `key` when the
value is an Object containing `key` (a type mismatch of that call included), and
`default` in every other case; a Null entry or a String entry makes
`value<int>` throw instead of returning the default. -/
theorem value_spec {T : Type} (get : json → Except Exn T) (v : json) (k : List Char) (d : T) :
    (contains v k = true → ∃ e, at_const v k = .ok e ∧ value get v k d = get e) ∧
    (contains v k = false → value get v k d = .ok d) ∧
    value get_int (obj [(['a'], null)]) ['a'] 7 = .error (.runtime_error "type mismatch (int)") ∧
    value get_int (obj [(['a'], str ['1'])]) ['a'] 7 =
      .error (.runtime_error "type mismatch (int)") ∧
    value get_int (obj [(['a'], null)]) ['b'] 7 = .ok 7 ∧
    value get_int (str ['a']) ['a'] 7 = .ok 7 := by
  refine ⟨?_, ?_, rfl, rfl, rfl, rfl⟩
  · intro h
    cases v
    case obj o =>
      simp only [contains] at h
      cases hf : json_object.find o k with
      | none => simp [hf] at h
      | some e => exact ⟨e, by simp [at_const, subscript_const, hf], by simp [value, hf]⟩
    all_goals simp [contains] at h
  · intro h
    cases v
    case obj o =>
      simp only [contains] at h
      cases hf : json_object.find o k with
      | none => simp [value, hf]
      | some e => simp [hf] at h
    all_goals rfl

/-- C6: `get<T>()` for a primitive `T` returns a value exactly when the variant can
satisfy `T` (`bool` from a Boolean, `string` from a String, `int`, `int64_t` and
`double` from an Integer or a Float) and throws the type-mismatch error of `T` on
every other variant. -/
theorem get_succeeds_iff (v : json) :
    ((∃ b, get_bool v = .ok b) ↔ is_bool v = true) ∧
    ((∃ s, get_string v = .ok s) ↔ is_string v = true) ∧
    ((∃ i, get_int v = .ok i) ↔ is_number v = true) ∧
    ((∃ i, get_int64 v = .ok i) ↔ is_number v = true) ∧
    ((∃ x, get_double v = .ok x) ↔ is_number v = true) ∧
    (is_bool v = false → get_bool v = .error (.runtime_error "type mismatch (bool)")) ∧
    (is_string v = false → get_string v = .error (.runtime_error "type mismatch (string)")) ∧
    (is_number v = false → get_int v = .error (.runtime_error "type mismatch (int)")) ∧
    (is_number v = false → get_int64 v = .error (.runtime_error "type mismatch (int64)")) ∧
    (is_number v = false → get_double v = .error (.runtime_error "type mismatch (double)")) := by
  cases v <;>
    simp [get_bool, get_string, get_int, get_int64, get_double, is_bool, is_string, is_number,
      is_number_integer, is_number_float]

/-- C7 as stated fails: the Integer 2147483648 is a signed 64-bit number, yet
`get<int>()` returns -2147483648, not the stored value. -/
theorem get_int_narrows :
    inInt64 2147483648 ∧ get_int (int 2147483648) = .ok (-2147483648) ∧
      get_int (int 2147483648) ≠ .ok 2147483648 := by
  refine ⟨by decide, rfl, ?_⟩
  simp [get_int, int64_to_int]

/-- C7, amended: on an Integer `n`, `get<int64_t>()` returns `n`; `get<int>()`
returns `n` when `n` fits the 32-bit `int`, and in general the value of the 32-bit
range congruent to `n` modulo 2^32. -/
theorem get_integer_of_int (n : Int) :
    get_int64 (int n) = .ok n ∧
    (inInt32 n → get_int (int n) = .ok n) ∧
    ∃ r, get_int (int n) = .ok r ∧ inInt32 r ∧ (r - n) % 4294967296 = 0 := by
  refine ⟨rfl, ?_, int64_to_int n, rfl, ?_, ?_⟩
  · intro h
    simp only [inInt32, INT_MIN, INT_MAX] at h
    simp only [get_int, int64_to_int]
    congr 1
    omega
  · simp only [inInt32, INT_MIN, INT_MAX, int64_to_int]
    omega
  · simp only [int64_to_int]
    omega

end json
namespace json

/-! ## Escaping -/

theorem escape_char_control (c : Char) (h : c.toNat < 0x20) :
    c ≠ '\x08' → c ≠ '\x0c' → c ≠ '\n' → c ≠ '\r' → c ≠ '\t' →
      escape_char c =
        ['\\', 'u', '0', '0', hex_lower.getD (c.toNat / 16) '0', hex_lower.getD (c.toNat % 16) '0'] := by
  obtain ⟨n, hn, rfl⟩ : ∃ n, n < 0x20 ∧ c = Char.ofNat n := ⟨c.toNat, h, (Char.ofNat_toNat c).symm⟩
  interval_cases n <;> decide

theorem escape_char_plain (c : Char) (h : 0x20 ≤ c.toNat) (hq : c ≠ '"') (hb : c ≠ '\\') :
    escape_char c = [c] := by
  have h1 : c ≠ '\x08' := fun e => by rw [e] at h; revert h; decide
  have h2 : c ≠ '\x0c' := fun e => by rw [e] at h; revert h; decide
  have h3 : c ≠ '\n' := fun e => by rw [e] at h; revert h; decide
  have h4 : c ≠ '\r' := fun e => by rw [e] at h; revert h; decide
  have h5 : c ≠ '\t' := fun e => by rw [e] at h; revert h; decide
  have h6 : ¬ c.toNat < 0x20 := by omega
  simp [escape_char, hq, hb, h1, h2, h3, h4, h5, h6]

theorem escape_str_flatMap (s : List Char) : escape_str s = s.flatMap escape_char := by
  induction s with
  | nil => rfl
  | cons c s ih => simp [escape_str, ih]

/-- C9: `escape_str` works character by character: the quote, the backslash,
backspace, form feed, newline, carriage return and tab become their two-character
escapes; every other character below 0x20 becomes `\u00XX` with two lowercase
hexadecimal digits; every other character (code at least 0x20, `/`, 0x7f and the
codes from 0x80 included) is copied unchanged; `dump` wraps the result in one pair
of double quotes. -/
theorem escape_str_spec (c : Char) (s : List Char) :
    escape_char '"' = ['\\', '"'] ∧ escape_char '\\' = ['\\', '\\'] ∧
    escape_char '\x08' = ['\\', 'b'] ∧ escape_char '\x0c' = ['\\', 'f'] ∧
    escape_char '\n' = ['\\', 'n'] ∧ escape_char '\r' = ['\\', 'r'] ∧
    escape_char '\t' = ['\\', 't'] ∧
    (c.toNat < 0x20 → c ≠ '\x08' → c ≠ '\x0c' → c ≠ '\n' → c ≠ '\r' → c ≠ '\t' →
      escape_char c =
        ['\\', 'u', '0', '0', hex_lower.getD (c.toNat / 16) '0',
          hex_lower.getD (c.toNat % 16) '0']) ∧
    escape_char '\x01' = ['\\', 'u', '0', '0', '0', '1'] ∧
    escape_char '\x1f' = ['\\', 'u', '0', '0', '1', 'f'] ∧
    (0x20 ≤ c.toNat → c ≠ '"' → c ≠ '\\' → escape_char c = [c]) ∧
    escape_char '/' = ['/'] ∧ escape_char '\x7f' = ['\x7f'] ∧ escape_char '\x80' = ['\x80'] ∧
    escape_str s = s.flatMap escape_char ∧
    ∀ (fmt : Double → List Char) (indent : Int),
      dump fmt (str s) indent = ['"'] ++ escape_str s ++ ['"'] := by
  refine ⟨rfl, rfl, rfl, rfl, rfl, rfl, rfl, escape_char_control c, rfl, rfl,
    escape_char_plain c, rfl, rfl, rfl, escape_str_flatMap s, fun _ _ => ?_⟩
  simp [dump, dump_impl]

end json
namespace json

/-! ## Strings: the parser inverts `escape_str` on lossless characters -/

theorem skip_ws_cons (c : Char) (s : List Char) (h : isspace c = false) :
    parser.skip_ws (c :: s) = c :: s := by
  simp [parser.skip_ws, h]

theorem parse_string_loop_quote (out s : List Char) :
    parser.parse_string_loop out ('"' :: s) = .ok (str out) s := by
  rw [parser.parse_string_loop.eq_def]; simp

theorem parse_string_loop_plain (c : Char) (hq : c ≠ '"') (hb : c ≠ '\\') (out s : List Char) :
    parser.parse_string_loop out (c :: s) = parser.parse_string_loop (out ++ [c]) s := by
  rw [parser.parse_string_loop.eq_def]; simp [hq, hb]

theorem parse_string_loop_two_char (out s : List Char) :
    parser.parse_string_loop out ('\\' :: '"' :: s) = parser.parse_string_loop (out ++ ['"']) s ∧
    parser.parse_string_loop out ('\\' :: '\\' :: s) = parser.parse_string_loop (out ++ ['\\']) s ∧
    parser.parse_string_loop out ('\\' :: '/' :: s) = parser.parse_string_loop (out ++ ['/']) s ∧
    parser.parse_string_loop out ('\\' :: 'b' :: s) = parser.parse_string_loop (out ++ ['\x08']) s ∧
    parser.parse_string_loop out ('\\' :: 'f' :: s) = parser.parse_string_loop (out ++ ['\x0c']) s ∧
    parser.parse_string_loop out ('\\' :: 'n' :: s) = parser.parse_string_loop (out ++ ['\n']) s ∧
    parser.parse_string_loop out ('\\' :: 'r' :: s) = parser.parse_string_loop (out ++ ['\r']) s ∧
    parser.parse_string_loop out ('\\' :: 't' :: s) = parser.parse_string_loop (out ++ ['\t']) s := by
  refine ⟨?_, ?_, ?_, ?_, ?_, ?_, ?_, ?_⟩ <;>
    (conv => lhs; rw [parser.parse_string_loop.eq_def]) <;> simp

theorem parse_string_loop_escape_char (c : Char) (h : lossless_char c = true)
    (out t : List Char) :
    parser.parse_string_loop out (escape_char c ++ t) = parser.parse_string_loop (out ++ [c]) t := by
  obtain ⟨e1, e2, -, e4, e5, e6, e7, e8⟩ := parse_string_loop_two_char out t
  by_cases hq : c = '"'
  · subst hq; exact e1
  by_cases hb : c = '\\'
  · subst hb; exact e2
  by_cases h1 : c = '\x08'
  · subst h1; exact e4
  by_cases h2 : c = '\x0c'
  · subst h2; exact e5
  by_cases h3 : c = '\n'
  · subst h3; exact e6
  by_cases h4 : c = '\r'
  · subst h4; exact e7
  by_cases h5 : c = '\t'
  · subst h5; exact e8
  have hge : 0x20 ≤ c.toNat := by simpa [lossless_char, h1, h2, h3, h4, h5] using h
  rw [escape_char_plain c hge hq hb]
  exact parse_string_loop_plain c hq hb out t

theorem parse_string_loop_escape_str (s : List Char) (h : s.all lossless_char = true) :
    ∀ out rest : List Char,
      parser.parse_string_loop out (escape_str s ++ '"' :: rest) = .ok (str (out ++ s)) rest := by
  induction s with
  | nil => intro out rest; simp [escape_str, parse_string_loop_quote]
  | cons c s ih =>
    intro out rest
    simp only [List.all_cons, Bool.and_eq_true] at h
    rw [escape_str, List.append_assoc, parse_string_loop_escape_char c h.1, ih h.2]
    simp

theorem parse_string_quoted (s : List Char) (h : s.all lossless_char = true) (rest : List Char) :
    parser.parse_string ('"' :: (escape_str s ++ '"' :: rest)) = .ok (str s) rest := by
  have hq : parser.expect '"' ('"' :: (escape_str s ++ '"' :: rest))
      = .ok () (escape_str s ++ '"' :: rest) := by
    simp [parser.expect, skip_ws_cons _ _ (show isspace '"' = false by decide), parser.get]
  simp [parser.parse_string, hq, parse_string_loop_escape_str s h]

end json
/-! ## Integers: `stoll` inverts the decimal output -/

theorem digit_char_spec (k : Nat) (h : k < 10) :
    isdigit (Char.ofNat (48 + k)) = true ∧ digit_value (Char.ofNat (48 + k)) = k ∧
      isspace (Char.ofNat (48 + k)) = false ∧ Char.ofNat (48 + k) ≠ '-' ∧
      Char.ofNat (48 + k) ≠ '+' := by
  interval_cases k <;> decide

theorem digits_value_snoc (ds : List Char) (d : Char) :
    digits_value (ds ++ [d]) = digits_value ds * 10 + digit_value d := by
  simp [digits_value, List.foldl_append]

theorem decimal_digits_aux_spec :
    ∀ (fuel n : Nat) (acc : List Char), n < fuel →
      ∃ ds : List Char, ds ≠ [] ∧ (∀ c ∈ ds, isdigit c = true) ∧ digits_value ds = n ∧
        decimal_digits_aux fuel n acc = ds ++ acc := by
  intro fuel
  induction fuel with
  | zero => intro n acc h; omega
  | succ fuel ih =>
    intro n acc h
    have hd := digit_char_spec (n % 10) (Nat.mod_lt _ (by decide))
    by_cases hn : n / 10 = 0
    · refine ⟨[Char.ofNat (48 + n % 10)], by simp, ?_, ?_, ?_⟩
      · intro c hc; simp at hc; rw [hc]; exact hd.1
      · have : digits_value [Char.ofNat (48 + n % 10)] = digit_value (Char.ofNat (48 + n % 10)) := by
          simp [digits_value]
        rw [this, hd.2.1]; omega
      · simp [decimal_digits_aux, hn]
    · obtain ⟨ds, hne, hall, hval, heq⟩ :=
        ih (n / 10) (Char.ofNat (48 + n % 10) :: acc) (by omega)
      refine ⟨ds ++ [Char.ofNat (48 + n % 10)], by simp, ?_, ?_, ?_⟩
      · intro c hc
        rcases List.mem_append.1 hc with h1 | h1
        · exact hall c h1
        · simp at h1; rw [h1]; exact hd.1
      · rw [digits_value_snoc, hval, hd.2.1]; omega
      · simp [decimal_digits_aux, hn, heq]

theorem decimal_digits_spec (n : Nat) :
    decimal_digits n ≠ [] ∧ (∀ c ∈ decimal_digits n, isdigit c = true) ∧
      digits_value (decimal_digits n) = n := by
  obtain ⟨ds, hne, hall, hval, heq⟩ := decimal_digits_aux_spec (n + 1) n [] (by omega)
  have : decimal_digits n = ds := by simp [decimal_digits, heq]
  rw [this]; exact ⟨hne, hall, hval⟩

theorem isdigit_not_special (c : Char) (h : isdigit c = true) :
    isspace c = false ∧ c ≠ '-' ∧ c ≠ '+' ∧ c ≠ '.' ∧ c ≠ '{' ∧ c ≠ '[' ∧ c ≠ '"' ∧ c ≠ 't' ∧
      c ≠ 'f' ∧ c ≠ 'n' := by
  simp only [isdigit, Bool.and_eq_true, decide_eq_true_eq] at h
  obtain ⟨n, hn, rfl⟩ : ∃ n, (48 ≤ n ∧ n ≤ 57) ∧ c = Char.ofNat n :=
    ⟨c.toNat, h, (Char.ofNat_toNat c).symm⟩
  obtain ⟨h1, h2⟩ := hn
  interval_cases n <;> decide

theorem takeWhile_digits_append (ds rest : List Char) (h : ∀ c ∈ ds, isdigit c = true)
    (hr : num_end rest = true) :
    (ds ++ rest).takeWhile isdigit = ds ∧ (ds ++ rest).dropWhile isdigit = rest := by
  have h1 : rest.takeWhile isdigit = [] ∧ rest.dropWhile isdigit = rest := by
    cases rest with
    | nil => simp
    | cons c t =>
      simp only [num_end, Bool.and_eq_true, Bool.not_eq_true'] at hr
      simp [List.takeWhile_cons, List.dropWhile_cons, hr.1]
  constructor
  · rw [List.takeWhile_append_of_pos h, h1.1, List.append_nil]
  · rw [List.dropWhile_append_of_pos h, h1.2]

theorem stoll_digits (ds : List Char) (hne : ds ≠ []) (h : ∀ c ∈ ds, isdigit c = true) :
    stoll ds =
      (if (digits_value ds : Int) ≤ INT64_MAX then Except.ok (digits_value ds : Int)
      else Except.error (Exn.out_of_range "stoll")) ∧
    stoll ('-' :: ds) =
      (if INT64_MIN ≤ -(digits_value ds : Int) then Except.ok (-(digits_value ds : Int))
      else Except.error (Exn.out_of_range "stoll")) := by
  obtain ⟨c, t, rfl⟩ := List.exists_cons_of_ne_nil hne
  have hc := isdigit_not_special c (h c (by simp))
  have htw : (c :: t).takeWhile isdigit = c :: t := by
    have := (takeWhile_digits_append (c :: t) [] h rfl).1
    simpa using this
  have hnn : (0 : Int) ≤ (digits_value (c :: t) : Int) := Int.ofNat_nonneg _
  constructor
  · have hs : read_sign ((c :: t).dropWhile isspace) = (false, c :: t) := by
      simp [List.dropWhile_cons, hc.1, read_sign, hc.2.1, hc.2.2.1]
    simp only [stoll, hs, htw]
    have hmin : INT64_MIN ≤ (digits_value (c :: t) : Int) := by
      have : INT64_MIN ≤ 0 := by decide
      omega
    simp [hmin]
  · have hs : read_sign (('-' :: c :: t).dropWhile isspace) = (true, c :: t) := by
      simp [List.dropWhile_cons, read_sign, show isspace '-' = false by decide]
    simp only [stoll, hs, htw]
    have hmax : -(digits_value (c :: t) : Int) ≤ INT64_MAX := by
      have : (0 : Int) ≤ INT64_MAX := by decide
      omega
    simp [hmax]

theorem stoll_int64_to_chars (i : Int) (h : inInt64 i) : stoll (int64_to_chars i) = .ok i := by
  obtain ⟨hne, hall, hval⟩ := decimal_digits_spec i.natAbs
  obtain ⟨h1, h2⟩ := stoll_digits (decimal_digits i.natAbs) hne hall
  simp only [inInt64] at h
  by_cases hneg : i < 0
  · simp only [int64_to_chars, hneg, if_true, h2, hval]
    have : -((i.natAbs : Nat) : Int) = i := by omega
    rw [this]; simp [h.1]
  · simp only [int64_to_chars, hneg, if_false, h1, hval]
    have : ((i.natAbs : Nat) : Int) = i := by omega
    rw [this]; simp [h.2]

namespace json

theorem parse_number_int (i : Int) (h : inInt64 i) (rest : List Char) (hr : num_end rest = true) :
    parser.parse_number (int64_to_chars i ++ rest) = .ok (int i) rest := by
  obtain ⟨hne, hall, hval⟩ := decimal_digits_spec i.natAbs
  obtain ⟨c, t, hct⟩ := List.exists_cons_of_ne_nil hne
  have hc := isdigit_not_special c (hall c (by rw [hct]; simp))
  obtain ⟨htw, hdw⟩ := takeWhile_digits_append (decimal_digits i.natAbs) rest hall hr
  have hpk : parser.peek rest ≠ '.' := by
    cases rest with
    | nil => simp [parser.peek]
    | cons d r =>
      simp only [num_end, Bool.and_eq_true, Bool.not_eq_true', bne_iff_ne] at hr
      simpa [parser.peek] using hr.2
  have hst := stoll_int64_to_chars i h
  by_cases hneg : i < 0
  · simp only [int64_to_chars, hneg, if_true] at hst ⊢
    have hp : parser.peek ('-' :: (decimal_digits i.natAbs ++ rest)) = '-' := rfl
    have hg : (parser.get ('-' :: (decimal_digits i.natAbs ++ rest))).2
        = decimal_digits i.natAbs ++ rest := rfl
    simp [parser.parse_number, hp, hg, htw, hdw, hpk, hst]
  · simp only [int64_to_chars, hneg, if_false] at hst ⊢
    have hp : parser.peek (decimal_digits i.natAbs ++ rest) ≠ '-' := by
      rw [hct]; simpa [parser.peek] using hc.2.1
    simp [parser.parse_number, hp, htw, hdw, hpk, hst]

end json
namespace json

/-! ## Scalars -/

theorem parse_value_dispatch (fuel : Nat) (c : Char) (s : List Char) (h : isspace c = false) :
    parser.parse_value (fuel + 1) (c :: s) =
      if c = '{' then parser.parse_object fuel (c :: s)
      else if c = '[' then parser.parse_array fuel (c :: s)
      else if c = '"' then parser.parse_string (c :: s)
      else if c = 't' ∨ c = 'f' then parser.parse_bool (c :: s)
      else if c = 'n' then parser.parse_null (c :: s)
      else if c = '-' ∨ isdigit c = true then parser.parse_number (c :: s)
      else .error (.runtime_error (("unexpected character \x27".push c).push '\x27')) := by
  rw [parser.parse_value]
  simp only [skip_ws_cons c s h, parser.peek]

theorem parse_value_skip_ws (fuel : Nat) (s : List Char) :
    parser.parse_value fuel (parser.skip_ws s) = parser.parse_value fuel s := by
  have hidem : ∀ t : List Char, parser.skip_ws (parser.skip_ws t) = parser.skip_ws t := by
    intro t
    induction t with
    | nil => rfl
    | cons c t ih =>
      by_cases hc : isspace c = true
      · simpa [parser.skip_ws, hc] using ih
      · simp [parser.skip_ws, hc]
  cases fuel with
  | zero => simp [parser.parse_value]
  | succ fuel => rw [parser.parse_value, parser.parse_value, hidem]

theorem value_text_null : value_text ['n', 'u', 'l', 'l'] null := by
  intro fuel rest hf _
  obtain ⟨f, rfl⟩ : ∃ f, fuel = f + 1 := ⟨fuel - 1, by simp at hf; omega⟩
  simp [parse_value_dispatch _ _ _ (show isspace 'n' = false by decide), parser.parse_null]

theorem value_text_bool (b : Bool) :
    value_text (if b then ['t', 'r', 'u', 'e'] else ['f', 'a', 'l', 's', 'e']) (bool b) := by
  intro fuel rest hf _
  obtain ⟨f, rfl⟩ : ∃ f, fuel = f + 1 := ⟨fuel - 1, by cases b <;> simp at hf <;> omega⟩
  cases b
  · simp [parse_value_dispatch _ _ _ (show isspace 'f' = false by decide), parser.parse_bool]
  · simp [parse_value_dispatch _ _ _ (show isspace 't' = false by decide), parser.parse_bool]

theorem value_text_int (i : Int) (h : inInt64 i) : value_text (int64_to_chars i) (int i) := by
  intro fuel rest hf hr
  obtain ⟨hne, hall, -⟩ := decimal_digits_spec i.natAbs
  have hlen : 0 < (int64_to_chars i).length := by
    unfold int64_to_chars
    split
    · simp
    · exact List.length_pos.2 hne
  obtain ⟨f, rfl⟩ : ∃ f, fuel = f + 1 := ⟨fuel - 1, by omega⟩
  have hpn := parse_number_int i h rest hr
  by_cases hneg : i < 0
  · simp only [int64_to_chars, hneg, if_true, List.cons_append] at hpn ⊢
    rw [parse_value_dispatch _ _ _ (show isspace '-' = false by decide)]
    simpa using hpn
  · obtain ⟨c, t, hct⟩ := List.exists_cons_of_ne_nil hne
    have hd : isdigit c = true := hall c (by rw [hct]; simp)
    have hc := isdigit_not_special c hd
    simp only [int64_to_chars, hneg, if_false, hct, List.cons_append] at hpn ⊢
    rw [parse_value_dispatch _ _ _ hc.1]
    simp [hc, hd, hpn]

theorem key_text_quoted (s : List Char) (h : s.all lossless_char = true) :
    key_text ('"' :: escape_str s ++ ['"']) s := by
  intro rest
  have := parse_string_quoted s h rest
  simpa using this

theorem value_text_str (s : List Char) (h : s.all lossless_char = true) :
    value_text ('"' :: escape_str s ++ ['"']) (str s) := by
  intro fuel rest hf _
  obtain ⟨f, rfl⟩ : ∃ f, fuel = f + 1 := ⟨fuel - 1, by simp at hf; omega⟩
  have := parse_string_quoted s h rest
  simp only [List.cons_append, List.append_assoc]
  rw [parse_value_dispatch _ _ _ (show isspace '"' = false by decide)]
  simpa using this

end json
namespace json

/-! ## Collections: the loops of `parse_array` and `parse_object` -/

theorem skip_ws_idem (t : List Char) : parser.skip_ws (parser.skip_ws t) = parser.skip_ws t := by
  induction t with
  | nil => rfl
  | cons c t ih =>
    by_cases hc : isspace c = true
    · simpa [parser.skip_ws, hc] using ih
    · simp [parser.skip_ws, hc]

theorem peek_eq_get (s : List Char) : parser.peek s = (parser.get s).1 := by
  cases s <;> rfl

theorem parse_string_skip_ws (s : List Char) :
    parser.parse_string (parser.skip_ws s) = parser.parse_string s := by
  simp [parser.parse_string, parser.expect, skip_ws_idem]

theorem value_text_ne_nil {t : List Char} {v : json} (h : value_text t v) : 0 < t.length := by
  rcases Nat.eq_zero_or_pos t.length with h0 | h0
  · have := h 0 [] (by omega) rfl
    simp [parser.parse_value] at this
  · exact h0

theorem parse_value_ok_peek {fuel : Nat} {s rest : List Char} {v : json}
    (h : parser.parse_value fuel s = .ok v rest) :
    parser.peek (parser.skip_ws s) ≠ ']' ∧ parser.peek (parser.skip_ws s) ≠ '}' := by
  cases fuel with
  | zero => simp [parser.parse_value] at h
  | succ f =>
    rw [parser.parse_value] at h
    constructor <;> intro hc <;>
      simp [hc, show isdigit ']' = false by decide, show isdigit '}' = false by decide] at h

theorem key_text_peek {t k rest : List Char} (h : key_text t k) :
    parser.peek (parser.skip_ws (t ++ rest)) = '"' := by
  have := h rest
  simp only [parser.parse_string, parser.expect] at this
  rw [peek_eq_get]
  by_contra hc
  simp [hc] at this

theorem parse_array_loop_skip_ws (fuel : Nat) (a : json_array) (s : List Char) :
    parser.parse_array_loop fuel a (parser.skip_ws s) = parser.parse_array_loop fuel a s := by
  cases fuel with
  | zero => simp [parser.parse_array_loop]
  | succ f => rw [parser.parse_array_loop, parser.parse_array_loop, parse_value_skip_ws]

theorem parse_object_loop_skip_ws (fuel : Nat) (o : json_object) (s : List Char) :
    parser.parse_object_loop fuel o (parser.skip_ws s) = parser.parse_object_loop fuel o s := by
  cases fuel with
  | zero => simp [parser.parse_object_loop]
  | succ f => rw [parser.parse_object_loop, parser.parse_object_loop, skip_ws_idem]

theorem parse_array_loop_texts :
    ∀ (es : List (List Char × json)), es ≠ [] → (∀ e ∈ es, value_text e.1 e.2) →
      ∀ (fuel : Nat) (a : json_array) (rest : List Char),
        3 * (join_comma (es.map Prod.fst)).length + 1 ≤ fuel →
        parser.parse_array_loop fuel a (join_comma (es.map Prod.fst) ++ ']' :: rest) =
          .ok (arr (a ++ es.map Prod.snd)) rest := by
  intro es
  induction es with
  | nil => intro h; exact absurd rfl h
  | cons e es ih =>
    intro _ hall fuel a rest hf
    obtain ⟨t, v⟩ := e
    have hv : value_text t v := hall (t, v) (by simp)
    have htl := value_text_ne_nil hv
    obtain ⟨f, rfl⟩ : ∃ f, fuel = f + 1 := ⟨fuel - 1, by omega⟩
    cases es with
    | nil =>
      simp only [List.map, join_comma] at hf ⊢
      rw [parser.parse_array_loop, hv f (']' :: rest) (by omega) rfl]
      simp [skip_ws_cons _ _ (show isspace ']' = false by decide), parser.get]
    | cons e2 es2 =>
      have hlen : (join_comma (List.map Prod.fst ((t, v) :: e2 :: es2))).length =
          t.length + 1 + (join_comma (List.map Prod.fst (e2 :: es2))).length := by
        simp [join_comma]; omega
      have hrec := ih (by simp) (fun e he => hall e (by simp [he]))
        f (a ++ [v]) rest (by omega)
      have htxt : join_comma (List.map Prod.fst ((t, v) :: e2 :: es2)) ++ ']' :: rest =
          t ++ (',' :: (join_comma (List.map Prod.fst (e2 :: es2)) ++ ']' :: rest)) := by
        simp [join_comma]
      rw [htxt, parser.parse_array_loop,
        hv f (',' :: (join_comma (List.map Prod.fst (e2 :: es2)) ++ ']' :: rest)) (by omega) rfl]
      simp only [skip_ws_cons _ _ (show isspace ',' = false by decide), parser.get]
      rw [hrec]
      simp

theorem parse_array_loop_ok_peek {fuel : Nat} {a : json_array} {s rest : List Char} {v : json}
    (h : parser.parse_array_loop fuel a s = .ok v rest) :
    parser.peek (parser.skip_ws s) ≠ ']' := by
  cases fuel with
  | zero => simp [parser.parse_array_loop] at h
  | succ f =>
    rw [parser.parse_array_loop] at h
    cases hpv : parser.parse_value f s with
    | ok val s1 => exact (parse_value_ok_peek hpv).1
    | error e => simp [hpv] at h
    | exhausted => simp [hpv] at h

theorem value_text_array (es : List (List Char × json)) (hne : es ≠ [])
    (hall : ∀ e ∈ es, value_text e.1 e.2) :
    value_text (array_text (es.map Prod.fst)) (arr (es.map Prod.snd)) := by
  intro fuel rest hf _
  have hlen : (array_text (List.map Prod.fst es)).length =
      (join_comma (List.map Prod.fst es)).length + 2 := by
    simp [array_text]
  obtain ⟨f, rfl⟩ : ∃ f, fuel = f + 2 := ⟨fuel - 2, by omega⟩
  have hloop := parse_array_loop_texts es hne hall f [] rest (by omega)
  have hpk := parse_array_loop_ok_peek hloop
  simp only [array_text, List.cons_append, List.append_assoc, List.singleton_append,
    List.nil_append]
  rw [parse_value_dispatch _ _ _ (show isspace '[' = false by decide)]
  simp only [show ¬ ('[' = '{') by decide, if_false, if_true]
  have hexp : parser.expect '[' ('[' :: (join_comma (List.map Prod.fst es) ++ ']' :: rest)) =
      .ok () (join_comma (List.map Prod.fst es) ++ ']' :: rest) := by
    simp [parser.expect, skip_ws_cons _ _ (show isspace '[' = false by decide), parser.get]
  rw [parser.parse_array, hexp]
  simp only []
  rw [if_neg hpk, parse_array_loop_skip_ws]
  simpa using hloop

end json
namespace json

theorem expect_here (c : Char) (h : isspace c = false) (s : List Char) :
    parser.expect c (c :: s) = .ok () s ∧ parser.expect c (parser.skip_ws (c :: s)) = .ok () s := by
  simp [parser.expect, skip_ws_cons c s h, parser.get]

theorem parse_object_loop_members :
    ∀ (ms : List member), ms ≠ [] →
      (∀ m ∈ ms, key_text m.key_src m.key ∧ value_text m.val_src m.val) →
      ∀ (fuel : Nat) (o : json_object) (rest : List Char),
        3 * (join_comma (ms.map member.text)).length + 1 ≤ fuel →
        parser.parse_object_loop fuel o (join_comma (ms.map member.text) ++ '}' :: rest) =
          .ok (obj (emplace_all o (ms.map fun m => (m.key, m.val)))) rest := by
  intro ms
  induction ms with
  | nil => intro h; exact absurd rfl h
  | cons m ms ih =>
    intro _ hall fuel o rest hf
    obtain ⟨hk, hv⟩ := hall m (by simp)
    obtain ⟨f, rfl⟩ : ∃ f, fuel = f + 1 := ⟨fuel - 1, by omega⟩
    have hmlen : m.text.length = m.key_src.length + 1 + m.val_src.length := by
      simp [member.text]; omega
    cases ms with
    | nil =>
      simp only [List.map, join_comma] at hf ⊢
      have htxt : m.text ++ '}' :: rest = m.key_src ++ (':' :: (m.val_src ++ '}' :: rest)) := by
        simp [member.text]
      rw [htxt, parser.parse_object_loop, parse_string_skip_ws, hk]
      simp only [as_string, get_string, (expect_here ':' (by decide) _).2]
      rw [hv f ('}' :: rest) (by omega) rfl]
      simp [skip_ws_cons _ _ (show isspace '}' = false by decide), parser.get, emplace_all]
    | cons m2 ms2 =>
      have hlen : (join_comma (List.map member.text (m :: m2 :: ms2))).length =
          m.text.length + 1 + (join_comma (List.map member.text (m2 :: ms2))).length := by
        simp [join_comma]; omega
      have hrec := ih (by simp) (fun x hx => hall x (by simp [hx]))
        f (json_object.emplace o m.key m.val) rest (by omega)
      have htxt : join_comma (List.map member.text (m :: m2 :: ms2)) ++ '}' :: rest =
          m.key_src ++ (':' :: (m.val_src ++
            (',' :: (join_comma (List.map member.text (m2 :: ms2)) ++ '}' :: rest)))) := by
        simp [join_comma, member.text]
      rw [htxt, parser.parse_object_loop, parse_string_skip_ws, hk]
      simp only [as_string, get_string, (expect_here ':' (by decide) _).2]
      rw [hv f (',' :: (join_comma (List.map member.text (m2 :: ms2)) ++ '}' :: rest))
        (by omega) rfl]
      simp only [skip_ws_cons _ _ (show isspace ',' = false by decide), parser.get]
      rw [hrec]
      simp [emplace_all]

theorem parse_object_loop_ok_peek {fuel : Nat} {o : json_object} {s rest : List Char} {v : json}
    (h : parser.parse_object_loop fuel o s = .ok v rest) :
    parser.peek (parser.skip_ws s) ≠ '}' := by
  cases fuel with
  | zero => simp [parser.parse_object_loop] at h
  | succ f =>
    rw [parser.parse_object_loop] at h
    intro hc
    have : parser.parse_string (parser.skip_ws s) =
        .error (.runtime_error (("expected \x27".push '"').push '\x27')) := by
      simp [parser.parse_string, parser.expect, skip_ws_idem, ← peek_eq_get, hc]
    simp [this] at h

theorem value_text_object (ms : List member) (hne : ms ≠ [])
    (hall : ∀ m ∈ ms, key_text m.key_src m.key ∧ value_text m.val_src m.val) :
    value_text (object_text ms) (obj (emplace_all [] (ms.map fun m => (m.key, m.val)))) := by
  intro fuel rest hf _
  have hlen : (object_text ms).length = (join_comma (ms.map member.text)).length + 2 := by
    simp [object_text]
  obtain ⟨f, rfl⟩ : ∃ f, fuel = f + 2 := ⟨fuel - 2, by omega⟩
  have hloop := parse_object_loop_members ms hne hall f [] rest (by omega)
  have hpk := parse_object_loop_ok_peek hloop
  simp only [object_text, List.cons_append, List.append_assoc, List.singleton_append,
    List.nil_append]
  rw [parse_value_dispatch _ _ _ (show isspace '{' = false by decide)]
  simp only [if_true]
  rw [parser.parse_object, (expect_here '{' (by decide) _).1]
  simp only []
  rw [if_neg hpk, parse_object_loop_skip_ws]
  exact hloop

end json
namespace json

/-! ## From texts to documents; the object built by `emplace` -/

theorem parse_of_value_text {t : List Char} {v : json} (h : value_text t v) :
    parse t = .ok v := by
  have := h (3 * t.length + 3) [] (by omega) rfl
  simp only [List.append_nil] at this
  simp [parse, this, parser.skip_ws, parser.eof]

theorem find_emplace (o : json_object) (k1 : List Char) (v1 : json) (k : List Char) :
    json_object.find (json_object.emplace o k1 v1) k =
      match json_object.find o k with
      | some e => some e
      | none => if k1 = k then some v1 else none := by
  unfold json_object.emplace
  cases h1 : json_object.find o k1 with
  | none => simp only []; exact find_append_single o k1 k v1
  | some e1 =>
    simp only []
    cases hk : json_object.find o k with
    | some e => rfl
    | none =>
      have : k1 ≠ k := fun e => by rw [e] at h1; rw [h1] at hk; cases hk
      simp [this]

theorem find_emplace_all (kvs : List (List Char × json)) :
    ∀ (o : json_object) (k : List Char),
      json_object.find (emplace_all o kvs) k =
        match json_object.find o k with
        | some e => some e
        | none => json_object.find kvs k := by
  induction kvs with
  | nil => intro o k; cases h : json_object.find o k <;> simp [emplace_all, json_object.find, h]
  | cons kv kvs ih =>
    intro o k
    obtain ⟨k1, v1⟩ := kv
    have hstep : emplace_all o ((k1, v1) :: kvs) = emplace_all (json_object.emplace o k1 v1) kvs := by
      simp [emplace_all]
    rw [hstep, ih, find_emplace]
    cases h : json_object.find o k with
    | some e => rfl
    | none =>
      by_cases hk : k1 = k <;> simp [json_object.find, hk]

theorem find_isSome_iff (o : json_object) (k : List Char) :
    (json_object.find o k).isSome = true ↔ k ∈ o.map Prod.fst := by
  induction o with
  | nil => simp [json_object.find]
  | cons p o ih =>
    obtain ⟨a, b⟩ := p
    by_cases h : a = k
    · simp [json_object.find, h]
    · simp only [json_object.find, h, if_false, ih, List.map_cons, List.mem_cons]
      constructor
      · intro hm; exact Or.inr hm
      · rintro (hm | hm)
        · exact absurd hm.symm h
        · exact hm

theorem emplace_keys (o : json_object) (k : List Char) (v : json)
    (hnd : (o.map Prod.fst).Nodup) :
    ((json_object.emplace o k v).map Prod.fst).Nodup ∧
      ∀ x, x ∈ (json_object.emplace o k v).map Prod.fst ↔ x ∈ o.map Prod.fst ∨ x = k := by
  unfold json_object.emplace
  cases h : json_object.find o k with
  | some e =>
    have hm : k ∈ o.map Prod.fst := (find_isSome_iff o k).1 (by simp [h])
    refine ⟨hnd, fun x => ⟨Or.inl, ?_⟩⟩
    rintro (hx | hx)
    · exact hx
    · rw [hx]; exact hm
  | none =>
    have hm : k ∉ o.map Prod.fst := fun hc => by
      have := (find_isSome_iff o k).2 hc
      simp [h] at this
    constructor
    · simp only [List.map_append, List.map_cons, List.map_nil]
      exact List.Nodup.append hnd (by simp) (by simpa using hm)
    · intro x; simp

theorem emplace_all_keys (kvs : List (List Char × json)) :
    ∀ o : json_object, (o.map Prod.fst).Nodup →
      ((emplace_all o kvs).map Prod.fst).Nodup ∧
        ∀ x, x ∈ (emplace_all o kvs).map Prod.fst ↔ x ∈ o.map Prod.fst ∨ x ∈ kvs.map Prod.fst := by
  induction kvs with
  | nil => intro o h; simp [emplace_all, h]
  | cons kv kvs ih =>
    intro o h
    obtain ⟨k1, v1⟩ := kv
    have hstep : emplace_all o ((k1, v1) :: kvs) = emplace_all (json_object.emplace o k1 v1) kvs := by
      simp [emplace_all]
    obtain ⟨hnd, hmem⟩ := emplace_keys o k1 v1 h
    obtain ⟨h1, h2⟩ := ih _ hnd
    rw [hstep]
    refine ⟨h1, fun x => ?_⟩
    rw [h2, hmem]
    simp only [List.map_cons, List.mem_cons]
    tauto

theorem emplace_all_length (kvs : List (List Char × json)) :
    (emplace_all [] kvs).length = (kvs.map Prod.fst).dedup.length := by
  obtain ⟨hnd, hmem⟩ := emplace_all_keys kvs [] (by simp)
  have h1 : (emplace_all [] kvs).length = ((emplace_all [] kvs).map Prod.fst).length := by simp
  rw [h1, ← List.toFinset_card_of_nodup hnd, ← List.card_toFinset]
  congr 1
  ext x
  simp [hmem]

theorem emplace_all_unique (kvs : List (List Char × json)) :
    ∀ o : json_object, (∀ kv ∈ kvs, json_object.find o kv.1 = none) →
      ((kvs.map Prod.fst).Nodup) → emplace_all o kvs = o ++ kvs := by
  induction kvs with
  | nil => intro o _ _; simp [emplace_all]
  | cons kv kvs ih =>
    intro o ho hnd
    obtain ⟨k1, v1⟩ := kv
    have hstep : emplace_all o ((k1, v1) :: kvs) = emplace_all (json_object.emplace o k1 v1) kvs := by
      simp [emplace_all]
    have h1 : json_object.emplace o k1 v1 = o ++ [(k1, v1)] := by
      simp [json_object.emplace, ho (k1, v1) (by simp)]
    simp only [List.map_cons, List.nodup_cons] at hnd
    rw [hstep, h1, ih (o ++ [(k1, v1)]) ?_ hnd.2]
    · simp
    · intro kv hkv
      rw [find_append_single, ho kv (by simp [hkv])]
      have : k1 ≠ kv.1 := fun e => hnd.1 (by rw [e]; exact List.mem_map_of_mem _ hkv)
      simp [this]

end json
namespace json

/-! ## The compact output as element and member texts -/

theorem dump_array_compact (fmt : Double → List Char) (indent : Int) (hi : indent < 0) :
    ∀ (a : List json) (cur : Int),
      dump_array fmt a cur indent =
        join_comma (a.map fun x => dump_impl fmt x (cur + indent) indent) := by
  have hn : ¬ (0 ≤ indent) := not_le.2 hi
  intro a
  induction a with
  | nil => intro cur; simp [dump_array, join_comma]
  | cons x rest ih =>
    intro cur
    cases rest with
    | nil => simp [dump_array, join_comma, hn]
    | cons y r =>
      rw [dump_array, ih cur]
      simp [join_comma, hn]

theorem dump_object_compact (fmt : Double → List Char) (indent : Int) (hi : indent < 0) :
    ∀ (o : List (List Char × json)) (cur : Int),
      dump_object fmt o cur indent =
        join_comma ((o.map (compact_member fmt cur indent)).map member.text) := by
  have hn : ¬ (0 ≤ indent) := not_le.2 hi
  intro o
  induction o with
  | nil => intro cur; simp [dump_object, join_comma]
  | cons kv rest ih =>
    intro cur
    obtain ⟨k, x⟩ := kv
    cases rest with
    | nil => simp [dump_object, join_comma, hn, compact_member, member.text]
    | cons y r =>
      rw [dump_object, ih cur]
      simp [join_comma, hn, compact_member, member.text]

theorem value_text_space {t : List Char} {v : json} (h : value_text t v) :
    value_text (' ' :: t) v := by
  intro fuel rest hf hr
  have h1 := h fuel rest (by simp at hf; omega) hr
  rw [← parse_value_skip_ws] at h1 ⊢
  have : parser.skip_ws (' ' :: t ++ rest) = parser.skip_ws (t ++ rest) := by
    simp [parser.skip_ws, isspace]
  rw [this]; exact h1

theorem value_text_empty_array : value_text ['[', ']'] (arr []) := by
  intro fuel rest hf _
  obtain ⟨f, rfl⟩ : ∃ f, fuel = f + 2 := ⟨fuel - 2, by simp at hf; omega⟩
  simp only [List.cons_append, List.nil_append]
  rw [parse_value_dispatch _ _ _ (show isspace '[' = false by decide)]
  simp only [show ¬ ('[' = '{') by decide, if_false, if_true]
  rw [parser.parse_array, (expect_here '[' (by decide) _).1]
  simp [skip_ws_cons _ _ (show isspace ']' = false by decide), parser.peek, parser.get]

theorem value_text_empty_object : value_text ['{', '}'] (obj []) := by
  intro fuel rest hf _
  obtain ⟨f, rfl⟩ : ∃ f, fuel = f + 2 := ⟨fuel - 2, by simp at hf; omega⟩
  simp only [List.cons_append, List.nil_append]
  rw [parse_value_dispatch _ _ _ (show isspace '{' = false by decide)]
  simp only [if_true]
  rw [parser.parse_object, (expect_here '{' (by decide) _).1]
  simp [skip_ws_cons _ _ (show isspace '}' = false by decide), parser.peek, parser.get]

theorem well_formed_object_nodup :
    ∀ o : List (List Char × json), well_formed_object o = true → (o.map Prod.fst).Nodup := by
  intro o
  induction o with
  | nil => intro _; simp
  | cons kv rest ih =>
    intro h
    obtain ⟨k, x⟩ := kv
    simp only [well_formed_object, Bool.and_eq_true] at h
    simp only [List.map_cons, List.nodup_cons]
    refine ⟨fun hm => ?_, ih h.2⟩
    have := (find_isSome_iff rest k).2 hm
    cases hf : json_object.find rest k with
    | none => simp [hf] at this
    | some e => simp [hf] at h

mutual

theorem value_text_dump (fmt : Double → List Char) (indent : Int) (hi : indent < 0) :
    ∀ (v : json) (cur : Int), float_free v = true → well_formed v = true → lossless v = true →
      value_text (dump_impl fmt v cur indent) v
  | null, cur, _, _, _ => by simpa [dump_impl] using value_text_null
  | bool b, cur, _, _, _ => by simpa [dump_impl] using value_text_bool b
  | int i, cur, _, hw, _ => by
    simp only [well_formed, decide_eq_true_eq] at hw
    simpa [dump_impl] using value_text_int i hw
  | float d, cur, hf, _, _ => by simp [float_free] at hf
  | str s, cur, _, _, hl => by
    simp only [lossless] at hl
    simpa [dump_impl] using value_text_str s hl
  | arr a, cur, hf, hw, hl => by
    simp only [float_free, well_formed, lossless] at hf hw hl
    have hn : ¬ (0 ≤ indent) := not_le.2 hi
    cases a with
    | nil => simpa [dump_impl] using value_text_empty_array
    | cons x rest =>
      have hall := value_text_dump_array fmt indent hi (x :: rest) (cur + indent) hf hw hl
      have := value_text_array
        ((x :: rest).map fun y => (dump_impl fmt y (cur + indent) indent, y)) (by simp)
        (by
          intro e he
          obtain ⟨y, hy, rfl⟩ := List.mem_map.1 he
          exact hall y hy)
      simp only [List.map_map] at this
      have e1 : (Prod.snd ∘ fun y => (dump_impl fmt y (cur + indent) indent, y)) = id := rfl
      have e2 : (Prod.fst ∘ fun y => (dump_impl fmt y (cur + indent) indent, y))
          = fun y => dump_impl fmt y (cur + indent) indent := rfl
      rw [e1, e2, List.map_id] at this
      rw [dump_impl, dump_array_compact fmt indent hi]
      simpa [array_text, hn] using this
  | obj o, cur, hf, hw, hl => by
    simp only [float_free, well_formed, lossless] at hf hw hl
    have hn : ¬ (0 ≤ indent) := not_le.2 hi
    cases o with
    | nil => simpa [dump_impl] using value_text_empty_object
    | cons kv rest =>
      have hall := value_text_dump_object fmt indent hi (kv :: rest) (cur + indent) hf hw hl
      have := value_text_object ((kv :: rest).map (compact_member fmt cur indent)) (by simp)
        (by
          intro m hm
          obtain ⟨y, hy, rfl⟩ := List.mem_map.1 hm
          exact ⟨key_text_quoted y.1 (hall y hy).1, value_text_space (hall y hy).2⟩)
      simp only [List.map_map] at this
      have e1 : ((fun m : member => (m.key, m.val)) ∘ compact_member fmt cur indent) = id := rfl
      rw [e1, List.map_id,
        emplace_all_unique (kv :: rest) [] (fun _ _ => rfl) (well_formed_object_nodup _ hw)] at this
      rw [dump_impl, dump_object_compact fmt indent hi]
      simpa [object_text, hn] using this

theorem value_text_dump_array (fmt : Double → List Char) (indent : Int) (hi : indent < 0) :
    ∀ (a : List json) (cur : Int), float_free_array a = true → well_formed_array a = true →
      lossless_array a = true → ∀ x ∈ a, value_text (dump_impl fmt x cur indent) x
  | [], _, _, _, _ => by intro x hx; cases hx
  | y :: rest, cur, hf, hw, hl => by
    simp only [float_free_array, well_formed_array, lossless_array, Bool.and_eq_true] at hf hw hl
    intro x hx
    rcases List.mem_cons.1 hx with rfl | hx
    · exact value_text_dump fmt indent hi x cur hf.1 hw.1 hl.1
    · exact value_text_dump_array fmt indent hi rest cur hf.2 hw.2 hl.2 x hx

theorem value_text_dump_object (fmt : Double → List Char) (indent : Int) (hi : indent < 0) :
    ∀ (o : List (List Char × json)) (cur : Int), float_free_object o = true →
      well_formed_object o = true → lossless_object o = true →
      ∀ kv ∈ o, kv.1.all lossless_char = true ∧ value_text (dump_impl fmt kv.2 cur indent) kv.2
  | [], _, _, _, _ => by intro x hx; cases hx
  | (k, y) :: rest, cur, hf, hw, hl => by
    simp only [float_free_object, well_formed_object, lossless_object, Bool.and_eq_true] at hf hw hl
    intro x hx
    rcases List.mem_cons.1 hx with rfl | hx
    · exact ⟨hl.1.1, value_text_dump fmt indent hi y cur hf.1 hw.1.2 hl.1.2⟩
    · exact value_text_dump_object fmt indent hi rest cur hf.2 hw.2 hl.2 x hx

end

end json
/-! ## Floating point: conversion to an integer truncates -/

theorem floor_mul_two_zpow (m : Nat) (e : Int) :
    ⌊(m : ℚ) * (2 : ℚ) ^ e⌋ =
      ((if 0 ≤ e then m * 2 ^ e.toNat else m / 2 ^ (-e).toNat : Nat) : Int) := by
  by_cases he : 0 ≤ e
  · obtain ⟨k, rfl⟩ := Int.eq_ofNat_of_zero_le he
    simp only [he, if_true, Int.toNat_ofNat, zpow_natCast]
    have : (m : ℚ) * 2 ^ k = ((m * 2 ^ k : Nat) : ℚ) := by push_cast; ring
    rw [this]
    exact_mod_cast Int.floor_natCast (m * 2 ^ k)
  · obtain ⟨k, hk⟩ : ∃ k : Nat, e = -(k : Int) := ⟨(-e).toNat, by omega⟩
    subst hk
    simp only [he, if_false, neg_neg, Int.toNat_ofNat, zpow_neg, zpow_natCast]
    have : (m : ℚ) * ((2 : ℚ) ^ k)⁻¹ = ((m : Int) : ℚ) / ((2 ^ k : Nat) : ℚ) := by
      push_cast; ring
    rw [this, Rat.floor_intCast_div_natCast]
    push_cast
    rfl

theorem Double.trunc_spec (neg : Bool) (m : Nat) (e : Int) :
    (Double.finite neg m e).trunc = some (toward_zero (Double.finite neg m e).toRat) := by
  have hnn : (0 : ℚ) ≤ (m : ℚ) * (2 : ℚ) ^ e := by positivity
  have hfl := floor_mul_two_zpow m e
  cases neg
  · simp only [Double.trunc, Double.toRat, toward_zero, Bool.false_eq_true, if_false, one_mul,
      hnn, if_true, hfl]
  · simp only [Double.trunc, Double.toRat, toward_zero, if_true, neg_one_mul, Int.ceil_neg, hfl]
    by_cases h0 : (0 : ℚ) ≤ -((m : ℚ) * (2 : ℚ) ^ e)
    · have hz : (m : ℚ) * (2 : ℚ) ^ e = 0 := le_antisymm (by linarith) hnn
      have : ((if 0 ≤ e then m * 2 ^ e.toNat else m / 2 ^ (-e).toNat : Nat) : Int) = 0 := by
        rw [← hfl, hz]; simp
      simp [h0, this, hz]
    · simp [h0]

namespace json

/-- C8: requesting an integer from a Float truncates toward zero: for every finite
Float `x` whose truncation fits the requested type, `get<int64_t>()` and
`get<int>()` return `x` rounded toward zero; `parse("3.9")` is a Float within
2^-52 of 3.9 on which both return 3, and `parse("-3.9")` gives -3. -/
theorem get_integer_of_float (neg : Bool) (m : Nat) (e : Int) :
    (inInt64 (toward_zero (Double.finite neg m e).toRat) →
      get_int64 (float (.finite neg m e)) = .ok (toward_zero (Double.finite neg m e).toRat)) ∧
    (inInt32 (toward_zero (Double.finite neg m e).toRat) →
      get_int (float (.finite neg m e)) = .ok (toward_zero (Double.finite neg m e).toRat)) ∧
    parse ['3', '.', '9'] = .ok (float (.finite false 8782019273372467 (-51))) ∧
    |(Double.finite false 8782019273372467 (-51)).toRat - 39 / 10| ≤ 1 / 2 ^ 52 ∧
    get_int64 (float (.finite false 8782019273372467 (-51))) = .ok 3 ∧
    get_int (float (.finite false 8782019273372467 (-51))) = .ok 3 ∧
    get_double (float (.finite false 8782019273372467 (-51))) =
      .ok (.finite false 8782019273372467 (-51)) ∧
    parse ['-', '3', '.', '9'] = .ok (float (.finite true 8782019273372467 (-51))) ∧
    get_int64 (float (.finite true 8782019273372467 (-51))) = .ok (-3) ∧
    get_int (float (.finite true 8782019273372467 (-51))) = .ok (-3) := by
  refine ⟨?_, ?_, by rfl, ?_, by rfl, by rfl, rfl, by rfl, by rfl, by rfl⟩
  · intro h
    simp only [inInt64] at h
    simp [get_int64, Double.to_int64, Double.trunc_spec, h]
  · intro h
    simp only [inInt32] at h
    simp [get_int, Double.to_int, Double.trunc_spec, h]
  · simp only [Double.toRat]
    norm_num [abs_le]

end json
namespace json

/-! ## Round trip and duplicate keys -/

/-- C1 as stated fails: the String holding the single control character 0x01 is
Float-free, yet its compact serialization `"\u0001"` parses back to the String
`"?"`, because the parser replaces every `\uXXXX` escape by a placeholder. -/
theorem roundtrip_fails_on_control_char :
    float_free (str ['\x01']) = true ∧ well_formed (str ['\x01']) = true ∧
    dump (fun _ => []) (str ['\x01']) (-1) = ['"', '\\', 'u', '0', '0', '0', '1', '"'] ∧
    parse (dump (fun _ => []) (str ['\x01']) (-1)) = .ok (str ['?']) ∧
    parse (dump (fun _ => []) (str ['\x01']) (-1)) ≠ .ok (str ['\x01']) := by
  decide

/-- C1, amended: for every Float-free value (Integers within `int64_t`, Object keys
distinct) whose Strings and keys contain no control character below 0x20 other
than backspace, form feed, newline, carriage return and tab, parsing the compact
serialization gives the value back: `parse(dump(v, -1)) = v`. -/
theorem parse_dump_roundtrip (fmt : Double → List Char) (v : json)
    (hf : float_free v = true) (hw : well_formed v = true) (hl : lossless v = true) :
    parse (dump fmt v (-1)) = .ok v :=
  parse_of_value_text (value_text_dump fmt (-1) (by decide) v 0 hf hw hl)

theorem parse_dump_roundtrip_witness :
    float_free sample_document = true ∧ well_formed sample_document = true ∧
    lossless sample_document = true ∧
    parse (dump (fun _ => []) sample_document (-1)) = .ok sample_document :=
  ⟨by decide, by decide, by decide,
    parse_dump_roundtrip (fun _ => []) sample_document (by decide) (by decide) (by decide)⟩

theorem find_members (ms : List member) (k : List Char) :
    json_object.find (ms.map fun m => (m.key, m.val)) k =
      (ms.find? fun m => decide (m.key = k)).map member.val := by
  induction ms with
  | nil => rfl
  | cons m ms ih =>
    by_cases h : m.key = k <;> simp [json_object.find, List.find?, h, ih]

/-- C2: parsing an object text whose members are `(k1,v1),...,(kn,vn)` in source
order (each key text a string literal for `ki`, each value text a text for `vi`)
yields an Object that maps every key to the value of its first occurrence in the
source and whose size is the number of distinct keys. -/
theorem parse_object_first_wins (ms : List member)
    (h : ∀ m ∈ ms, key_text m.key_src m.key ∧ value_text m.val_src m.val) :
    ∃ o : json_object, parse (object_text ms) = .ok (obj o) ∧
      (∀ k, json_object.find o k = (ms.find? fun m => decide (m.key = k)).map member.val) ∧
      size (obj o) = (ms.map member.key).dedup.length := by
  refine ⟨emplace_all [] (ms.map fun m => (m.key, m.val)), ?_, ?_, ?_⟩
  · cases ms with
    | nil => exact parse_of_value_text value_text_empty_object
    | cons m rest => exact parse_of_value_text (value_text_object (m :: rest) (by simp) h)
  · intro k
    rw [find_emplace_all, ← find_members]
    rfl
  · rw [size, emplace_all_length, List.map_map]
    rfl

theorem parse_object_first_wins_witness :
    object_text duplicate_x = ['{', '"', 'x', '"', ':', '1', ',', '"', 'x', '"', ':', '2', '}'] ∧
    (∀ m ∈ duplicate_x, key_text m.key_src m.key ∧ value_text m.val_src m.val) ∧
    parse (object_text duplicate_x) = .ok (obj [(['x'], int 1)]) ∧
    ∃ o : json_object, parse (object_text duplicate_x) = .ok (obj o) ∧
      (∀ k, json_object.find o k =
        (duplicate_x.find? fun m => decide (m.key = k)).map member.val) ∧
      size (obj o) = (duplicate_x.map member.key).dedup.length := by
  have hall : ∀ m ∈ duplicate_x, key_text m.key_src m.key ∧ value_text m.val_src m.val := by
    intro m hm
    simp only [duplicate_x, List.mem_cons, List.mem_singleton, List.not_mem_nil, or_false] at hm
    rcases hm with rfl | rfl
    · exact ⟨key_text_quoted ['x'] (by decide), value_text_int 1 (by decide)⟩
    · exact ⟨key_text_quoted ['x'] (by decide), value_text_int 2 (by decide)⟩
  exact ⟨by decide, hall, by decide, parse_object_first_wins duplicate_x hall⟩

/-- C10: for every String whose characters are each either at least 0x20 or one of
backspace, form feed, newline, carriage return and tab, parsing the compact
serialization gives the String back; a String of one newline dumps to a quoted
backslash-n and parses back to exactly one newline character. -/
theorem parse_dump_string (fmt : Double → List Char) (s : List Char)
    (h : s.all lossless_char = true) :
    parse (dump fmt (str s) (-1)) = .ok (str s) ∧
    dump fmt (str ['\n']) (-1) = ['"', '\\', 'n', '"'] ∧
    parse ['"', '\\', 'n', '"'] = .ok (str ['\n']) := by
  refine ⟨?_, by simp [dump, dump_impl, escape_str, escape_char], by decide⟩
  have := parse_of_value_text (value_text_str s h)
  simpa [dump, dump_impl] using this

theorem parse_dump_string_witness :
    ['a', '"', '\\', '/', '\x08', '\x0c', '\n', '\r', '\t', '\x7f'].all lossless_char = true ∧
    parse (dump (fun _ => [])
      (str ['a', '"', '\\', '/', '\x08', '\x0c', '\n', '\r', '\t', '\x7f']) (-1)) =
      .ok (str ['a', '"', '\\', '/', '\x08', '\x0c', '\n', '\r', '\t', '\x7f']) :=
  ⟨by decide, (parse_dump_string (fun _ => []) _ (by decide)).1⟩

end json
namespace json

/-! ## Dispatch, empty collections, integer literals -/

theorem skip_ws_eq_dropWhile (s : List Char) : parser.skip_ws s = s.dropWhile isspace := by
  induction s with
  | nil => rfl
  | cons c s ih =>
    by_cases h : isspace c = true
    · simp [parser.skip_ws, List.dropWhile_cons, h, ih]
    · simp [parser.skip_ws, List.dropWhile_cons, h]

theorem skip_ws_append_ws (w s : List Char) (h : ∀ c ∈ w, isspace c = true) :
    parser.skip_ws (w ++ s) = parser.skip_ws s := by
  induction w with
  | nil => rfl
  | cons c w ih =>
    have hc : isspace c = true := h c (by simp)
    simp only [List.cons_append, parser.skip_ws, hc, if_true]
    exact ih (fun x hx => h x (by simp [hx]))

theorem skip_ws_all_ws (w : List Char) (h : ∀ c ∈ w, isspace c = true) :
    parser.skip_ws w = [] := by
  have := skip_ws_append_ws w [] h
  simpa [parser.skip_ws] using this

/-- C13: an empty Array is written as `[]` and an empty Object as `{}` for every
indent, negative, zero or positive, and at every nesting position (every current
indentation), so a nested empty collection contributes exactly these two
characters. -/
theorem dump_empty_collections (fmt : Double → List Char) (cur indent : Int) :
    dump fmt (arr []) indent = ['[', ']'] ∧ dump fmt (obj []) indent = ['{', '}'] ∧
    dump_impl fmt (arr []) cur indent = ['[', ']'] ∧
    dump_impl fmt (obj []) cur indent = ['{', '}'] ∧
    dump fmt (arr [arr [], obj []]) 2 = "[\n  [],\n  \x7b\x7d\n]".toList ∧
    dump fmt (obj [(['a'], arr []), (['b'], obj [])]) 0 = "\x7b\n\"a\": [],\n\"b\": \x7b\x7d\n\x7d".toList ∧
    dump fmt (arr [arr [], obj []]) (-1) = "[[],\x7b\x7d]".toList := by
  refine ⟨?_, ?_, ?_, ?_, by rfl, by rfl, by rfl⟩ <;> simp [dump, dump_impl]

/-- C17: an input whose first non-whitespace character is none of the characters
`parse_value` dispatches on (an opening brace or bracket, a quote, `t`, `f`, `n`, a
minus sign or a decimal digit), the empty input and the inputs made only of
whitespace included, makes `parse` throw "unexpected character". -/
theorem parse_dispatch_failure (s : List Char)
    (h : ∀ c, (s.dropWhile isspace).head? = some c → dispatch_char c = false) :
    parse s =
      .error (.runtime_error
        (("unexpected character \x27".push (parser.peek (parser.skip_ws s))).push '\x27')) := by
  have hd : dispatch_char (parser.peek (parser.skip_ws s)) = false := by
    rw [skip_ws_eq_dropWhile]
    cases hs : s.dropWhile isspace with
    | nil => rfl
    | cons c t => exact h c (by simp [hs])
  simp only [dispatch_char, Bool.or_eq_false_iff, beq_eq_false_iff_ne, ne_eq] at hd
  obtain ⟨⟨⟨⟨⟨⟨⟨h1, h2⟩, h3⟩, h4⟩, h5⟩, h6⟩, h7⟩, h8⟩ := hd
  have hpv : parser.parse_value (3 * s.length + 3) s =
      .error (.runtime_error
        (("unexpected character \x27".push (parser.peek (parser.skip_ws s))).push '\x27')) := by
    rw [show 3 * s.length + 3 = (3 * s.length + 2) + 1 from rfl, parser.parse_value]
    simp [h1, h2, h3, h4, h5, h6, h7, h8]
  simp [parse, hpv]

theorem parse_dispatch_failure_witness :
    (∀ c, ([' ', 'x', '1'].dropWhile isspace).head? = some c → dispatch_char c = false) ∧
    (∀ c, (([] : List Char).dropWhile isspace).head? = some c → dispatch_char c = false) ∧
    (∀ c, ([' ', '\n', '\t'].dropWhile isspace).head? = some c → dispatch_char c = false) ∧
    parse [' ', 'x', '1'] = .error (.runtime_error "unexpected character \x27x\x27") ∧
    (∃ e, parse [] = .error (.runtime_error e)) ∧
    (∃ e, parse [' ', '\n', '\t'] = .error (.runtime_error e)) := by
  have h1 : ∀ c, ([' ', 'x', '1'].dropWhile isspace).head? = some c → dispatch_char c = false := by
    intro c hc
    have : c = 'x' := by
      have e : ([' ', 'x', '1'].dropWhile isspace) = ['x', '1'] := by decide
      rw [e] at hc; simpa using hc.symm
    rw [this]; decide
  have h2 : ∀ c, (([] : List Char).dropWhile isspace).head? = some c → dispatch_char c = false := by
    intro c hc; simp at hc
  have h3 : ∀ c, ([' ', '\n', '\t'].dropWhile isspace).head? = some c →
      dispatch_char c = false := by
    intro c hc
    have e : ([' ', '\n', '\t'].dropWhile isspace) = [] := by decide
    rw [e] at hc; simp at hc
  exact ⟨h1, h2, h3, parse_dispatch_failure _ h1, ⟨_, parse_dispatch_failure _ h2⟩,
    ⟨_, parse_dispatch_failure _ h3⟩⟩

end json
namespace json

theorem parse_value_append_ws (fuel : Nat) (w s : List Char) (h : ∀ c ∈ w, isspace c = true) :
    parser.parse_value fuel (w ++ s) = parser.parse_value fuel s := by
  rw [← parse_value_skip_ws, skip_ws_append_ws w s h, parse_value_skip_ws]

theorem parse_of_parse_value {s rest : List Char} {v : json}
    (h : parser.parse_value (3 * s.length + 3) s = .ok v rest)
    (hr : ∀ c ∈ rest, isspace c = true) : parse s = .ok v := by
  simp [parse, h, skip_ws_all_ws rest hr, parser.eof]

/-- C14: for all whitespace strings `w1`, `w2`, `w3`, the text `w1 { w2 } w3`
parses to the Object of size 0 and `w1 [ w2 ] w3` to the Array of size 0, two
different variants. -/
theorem parse_empty_collections (w1 w2 w3 : List Char)
    (h1 : ∀ c ∈ w1, isspace c = true) (h2 : ∀ c ∈ w2, isspace c = true)
    (h3 : ∀ c ∈ w3, isspace c = true) :
    parse (w1 ++ '{' :: (w2 ++ '}' :: w3)) = .ok (obj []) ∧
    parse (w1 ++ '[' :: (w2 ++ ']' :: w3)) = .ok (arr []) ∧
    size (obj []) = 0 ∧ size (arr []) = 0 ∧
    is_object (obj []) = true ∧ is_array (obj []) = false ∧
    is_array (arr []) = true ∧ is_object (arr []) = false ∧ obj [] ≠ arr [] := by
  refine ⟨?_, ?_, rfl, rfl, rfl, rfl, rfl, rfl, by decide⟩
  · refine @parse_of_parse_value _ w3 _ ?_ h3
    rw [parse_value_append_ws _ _ _ h1,
      show 3 * (w1 ++ '{' :: (w2 ++ '}' :: w3)).length + 3
        = (3 * (w1 ++ '{' :: (w2 ++ '}' :: w3)).length + 1) + 1 + 1 from rfl,
      parse_value_dispatch _ _ _ (show isspace '{' = false by decide)]
    simp only [if_true]
    rw [parser.parse_object, (expect_here '{' (by decide) _).1]
    simp [skip_ws_append_ws w2 _ h2, skip_ws_cons _ _ (show isspace '}' = false by decide),
      parser.peek, parser.get]
  · refine @parse_of_parse_value _ w3 _ ?_ h3
    rw [parse_value_append_ws _ _ _ h1,
      show 3 * (w1 ++ '[' :: (w2 ++ ']' :: w3)).length + 3
        = (3 * (w1 ++ '[' :: (w2 ++ ']' :: w3)).length + 1) + 1 + 1 from rfl,
      parse_value_dispatch _ _ _ (show isspace '[' = false by decide)]
    simp only [show ¬ ('[' = '{') by decide, if_false, if_true]
    rw [parser.parse_array, (expect_here '[' (by decide) _).1]
    simp [skip_ws_append_ws w2 _ h2, skip_ws_cons _ _ (show isspace ']' = false by decide),
      parser.peek, parser.get]

theorem parse_empty_collections_witness :
    (∀ c ∈ [' ', '\n'], isspace c = true) ∧ (∀ c ∈ ['\t'], isspace c = true) ∧
    (∀ c ∈ ['\r', '\n'], isspace c = true) ∧
    parse " \n\x7b\t\x7d\r\n".toList = .ok (obj []) ∧ parse " \n[\t]\r\n".toList = .ok (arr []) ∧
    parse ['{', '}'] = .ok (obj []) ∧ parse ['[', ']'] = .ok (arr []) := by
  have h1 : ∀ c ∈ [' ', '\n'], isspace c = true := by decide
  have h2 : ∀ c ∈ ['\t'], isspace c = true := by decide
  have h3 : ∀ c ∈ ['\r', '\n'], isspace c = true := by decide
  have h0 : ∀ c ∈ ([] : List Char), isspace c = true := by decide
  have a := parse_empty_collections [' ', '\n'] ['\t'] ['\r', '\n'] h1 h2 h3
  have b := parse_empty_collections [] [] [] h0 h0 h0
  exact ⟨h1, h2, h3, a.1, a.2.1, b.1, b.2.1⟩

/-! ### Integer literals with leading zeros -/

theorem digits_value_zeros (k : Nat) (ds : List Char) :
    digits_value (List.replicate k '0' ++ ds) = digits_value ds := by
  have h : ∀ (l : List Char) (a : Nat),
      List.foldl (fun acc c => acc * 10 + digit_value c) a l
        = a * 10 ^ l.length + List.foldl (fun acc c => acc * 10 + digit_value c) 0 l := by
    intro l
    induction l with
    | nil => intro a; simp
    | cons c l ih =>
      intro a
      simp only [List.foldl_cons, List.length_cons]
      rw [ih (a * 10 + digit_value c), ih (0 * 10 + digit_value c)]
      ring
  induction k with
  | zero => simp
  | succ k ih =>
    simp only [List.replicate_succ, List.cons_append]
    simp only [digits_value, List.foldl_cons] at ih ⊢
    simpa [digit_value] using ih

theorem parse_number_digits (ds : List Char) (hne : ds ≠ []) (hall : ∀ c ∈ ds, isdigit c = true)
    (rest : List Char) (hr : num_end rest = true) :
    parser.parse_number (ds ++ rest) =
      (match stoll ds with
        | .ok i => .ok (int i) rest
        | .error e => .error e) ∧
    parser.parse_number ('-' :: (ds ++ rest)) =
      (match stoll ('-' :: ds) with
        | .ok i => .ok (int i) rest
        | .error e => .error e) := by
  obtain ⟨c, t, hct⟩ := List.exists_cons_of_ne_nil hne
  have hc := isdigit_not_special c (hall c (by rw [hct]; simp))
  obtain ⟨htw, hdw⟩ := takeWhile_digits_append ds rest hall hr
  have hpk : parser.peek rest ≠ '.' := by
    cases rest with
    | nil => simp [parser.peek]
    | cons d r =>
      simp only [num_end, Bool.and_eq_true, Bool.not_eq_true', bne_iff_ne] at hr
      simpa [parser.peek] using hr.2
  constructor
  · have hp : parser.peek (ds ++ rest) ≠ '-' := by
      rw [hct]; simpa [parser.peek] using hc.2.1
    simp only [parser.parse_number, hp, htw, hdw, hpk, if_false, List.nil_append]
  · have hp : parser.peek ('-' :: (ds ++ rest)) = '-' := rfl
    have hg : (parser.get ('-' :: (ds ++ rest))).2 = ds ++ rest := rfl
    simp only [parser.parse_number, hp, hg, htw, hdw, hpk, if_true, if_false,
      List.singleton_append]

theorem parse_integer_literal_aux (n : Int) (k : Nat) (h : inInt64 n) :
    parser.parse_value (3 * (integer_literal n k).length + 3) (integer_literal n k)
      = .ok (int n) [] := by
  obtain ⟨hne, hall, hval⟩ := decimal_digits_spec n.natAbs
  have hall2 : ∀ c ∈ List.replicate k '0' ++ decimal_digits n.natAbs, isdigit c = true := by
    intro c hc
    rcases List.mem_append.1 hc with h1 | h1
    · rw [List.eq_of_mem_replicate h1]; decide
    · exact hall c h1
  have hne2 : List.replicate k '0' ++ decimal_digits n.natAbs ≠ [] := by simp [hne]
  obtain ⟨c, t, hct⟩ := List.exists_cons_of_ne_nil hne2
  have hd : isdigit c = true := hall2 c (by rw [hct]; simp)
  have hc := isdigit_not_special c hd
  obtain ⟨p1, p2⟩ := parse_number_digits _ hne2 hall2 [] rfl
  obtain ⟨s1, s2⟩ := stoll_digits _ hne2 hall2
  rw [digits_value_zeros, hval] at s1 s2
  simp only [inInt64] at h
  simp only [List.append_nil] at p1 p2
  rw [show 3 * (integer_literal n k).length + 3 = (3 * (integer_literal n k).length + 2) + 1
    from rfl]
  by_cases hneg : n < 0
  · have e : integer_literal n k = '-' :: (List.replicate k '0' ++ decimal_digits n.natAbs) := by
      simp [integer_literal, hneg]
    have hn : -((n.natAbs : Nat) : Int) = n := by omega
    rw [e, parse_value_dispatch _ _ _ (show isspace '-' = false by decide)]
    simp only [show ¬ ('-' = '{') by decide, show ¬ ('-' = '[') by decide,
      show ¬ ('-' = '"') by decide, show ¬ ('-' = 't' ∨ '-' = 'f') by decide,
      show ¬ ('-' = 'n') by decide, if_false, true_or, if_true]
    rw [p2, s2, hn]
    simp [h.1]
  · have e : integer_literal n k = List.replicate k '0' ++ decimal_digits n.natAbs := by
      simp [integer_literal, hneg]
    have hn : ((n.natAbs : Nat) : Int) = n := by omega
    rw [e]
    conv => lhs; rw [hct]
    rw [parse_value_dispatch _ _ _ hc.1]
    simp only [hc, hd, if_false, or_true, if_true, false_or]
    rw [← hct, p1, s1, hn]
    simp [h.2]

/-- C20: for every signed 64-bit integer `n` and every `k`, the literal made of a
minus sign (only when `n` is negative), `k` zeros and the decimal digits of the
absolute value parses to the Integer `n`; `007` parses to 7 and the two extremes
parse to themselves. -/
theorem parse_integer_literal (n : Int) (k : Nat) (h : inInt64 n) :
    parse (integer_literal n k) = .ok (int n) ∧
    parse ['0', '0', '7'] = .ok (int 7) ∧
    parse "-9223372036854775808".toList = .ok (int (-9223372036854775808)) ∧
    parse "9223372036854775807".toList = .ok (int 9223372036854775807) := by
  refine ⟨?_, by rfl, by rfl, by rfl⟩
  exact parse_of_parse_value (parse_integer_literal_aux n k h) (by simp)

theorem parse_integer_literal_witness :
    inInt64 (-45) ∧ integer_literal (-45) 3 = "-00045".toList ∧
    parse "-00045".toList = .ok (int (-45)) := by
  have h : inInt64 (-45) := by decide
  have e : integer_literal (-45) 3 = "-00045".toList := by rfl
  refine ⟨h, e, ?_⟩
  rw [← e]
  exact (parse_integer_literal (-45) 3 h).1

end json
namespace json

/-! ## Pretty and compact output -/

theorem spaces_natCast (k : Nat) : spaces (k : Int) = List.replicate k ' ' := by
  simp [spaces]

mutual

theorem dump_impl_pretty (fmt : Double → List Char) (n : Nat) :
    ∀ (v : json) (lvl : Nat),
      dump_impl fmt v ((n * lvl : Nat) : Int) (n : Int) = pretty_text fmt n lvl v
  | null, _ => by simp only [dump_impl, pretty_text]
  | bool b, _ => by simp only [dump_impl, pretty_text]
  | int i, _ => by simp only [dump_impl, pretty_text]
  | float d, _ => by simp only [dump_impl, pretty_text]
  | str s, _ => by simp only [dump_impl, pretty_text]
  | arr a, lvl => by
    have hn : (0 : Int) ≤ (n : Int) := Int.ofNat_nonneg n
    cases a with
    | nil => simp [dump_impl, pretty_text]
    | cons x rest =>
      have h := dump_array_pretty fmt n (x :: rest) lvl (by simp)
      simp only [dump_impl, pretty_text, h, spaces_natCast, hn, if_true, List.isEmpty_cons,
        Bool.not_false, Bool.false_eq_true, if_false, List.append_assoc, List.singleton_append,
        List.cons_append, List.nil_append]
  | obj o, lvl => by
    have hn : (0 : Int) ≤ (n : Int) := Int.ofNat_nonneg n
    cases o with
    | nil => simp [dump_impl, pretty_text]
    | cons kv rest =>
      have h := dump_object_pretty fmt n (kv :: rest) lvl (by simp)
      simp only [dump_impl, pretty_text, h, spaces_natCast, hn, if_true, List.isEmpty_cons,
        Bool.not_false, Bool.false_eq_true, if_false, List.append_assoc, List.singleton_append,
        List.cons_append, List.nil_append]

theorem dump_array_pretty (fmt : Double → List Char) (n : Nat) :
    ∀ (a : List json) (lvl : Nat), a ≠ [] →
      dump_array fmt a ((n * lvl : Nat) : Int) (n : Int)
        = join_lines (pretty_elements fmt n lvl a) ++ ['\n']
  | [], _, h => absurd rfl h
  | [x], lvl, _ => by
    have hn : (0 : Int) ≤ (n : Int) := Int.ofNat_nonneg n
    have hx := dump_impl_pretty fmt n x (lvl + 1)
    have hc : ((n * lvl : Nat) : Int) + (n : Int) = ((n * (lvl + 1) : Nat) : Int) := by
      push_cast; ring
    simp only [dump_array, pretty_elements, join_lines, hc, hx, spaces_natCast, hn, if_true,
      List.isEmpty_nil, Bool.not_true, Bool.false_eq_true, if_false, List.append_nil,
      List.append_assoc]
  | x :: y :: rest, lvl, _ => by
    have hn : (0 : Int) ≤ (n : Int) := Int.ofNat_nonneg n
    have hx := dump_impl_pretty fmt n x (lvl + 1)
    have hr := dump_array_pretty fmt n (y :: rest) lvl (by simp)
    have hc : ((n * lvl : Nat) : Int) + (n : Int) = ((n * (lvl + 1) : Nat) : Int) := by
      push_cast; ring
    rw [dump_array, hr, hc, hx]
    simp only [pretty_elements, join_lines, spaces_natCast, hn, if_true, List.isEmpty_cons,
      Bool.not_false, List.append_assoc, List.singleton_append, List.cons_append,
      List.nil_append]

theorem dump_object_pretty (fmt : Double → List Char) (n : Nat) :
    ∀ (o : List (List Char × json)) (lvl : Nat), o ≠ [] →
      dump_object fmt o ((n * lvl : Nat) : Int) (n : Int)
        = join_lines (pretty_members fmt n lvl o) ++ ['\n']
  | [], _, h => absurd rfl h
  | [(k, x)], lvl, _ => by
    have hn : (0 : Int) ≤ (n : Int) := Int.ofNat_nonneg n
    have hx := dump_impl_pretty fmt n x (lvl + 1)
    have hc : ((n * lvl : Nat) : Int) + (n : Int) = ((n * (lvl + 1) : Nat) : Int) := by
      push_cast; ring
    simp only [dump_object, pretty_members, join_lines, hc, hx, spaces_natCast, hn, if_true,
      List.isEmpty_nil, Bool.not_true, Bool.false_eq_true, if_false, List.append_nil,
      List.append_assoc, List.cons_append]
  | (k, x) :: y :: rest, lvl, _ => by
    have hn : (0 : Int) ≤ (n : Int) := Int.ofNat_nonneg n
    have hx := dump_impl_pretty fmt n x (lvl + 1)
    have hr := dump_object_pretty fmt n (y :: rest) lvl (by simp)
    have hc : ((n * lvl : Nat) : Int) + (n : Int) = ((n * (lvl + 1) : Nat) : Int) := by
      push_cast; ring
    rw [dump_object, hr, hc, hx]
    simp only [pretty_members, join_lines, spaces_natCast, hn, if_true, List.isEmpty_cons,
      Bool.not_false, List.append_assoc, List.singleton_append, List.cons_append,
      List.nil_append]

end

end json
namespace json

mutual

theorem dump_impl_compact (fmt : Double → List Char) (i : Int) (hi : i < 0) :
    ∀ (v : json) (cur : Int), dump_impl fmt v cur i = compact_text fmt v
  | null, _ => by simp only [dump_impl, compact_text]
  | bool b, _ => by simp only [dump_impl, compact_text]
  | int n, _ => by simp only [dump_impl, compact_text]
  | float d, _ => by simp only [dump_impl, compact_text]
  | str s, _ => by simp only [dump_impl, compact_text]
  | arr a, cur => by
    have hn : ¬ (0 ≤ i) := not_le.2 hi
    rw [dump_impl, dump_array_compact fmt i hi, dump_elements_compact fmt i hi a (cur + i)]
    cases a <;> simp [compact_text, compact_elements, join_comma, hn]
  | obj o, cur => by
    have hn : ¬ (0 ≤ i) := not_le.2 hi
    rw [dump_impl, dump_object_compact fmt i hi, dump_members_compact fmt i hi o cur]
    cases o <;> simp [compact_text, compact_members, join_comma, hn]

theorem dump_elements_compact (fmt : Double → List Char) (i : Int) (hi : i < 0) :
    ∀ (a : List json) (cur : Int),
      (a.map fun x => dump_impl fmt x cur i) = compact_elements fmt a
  | [], _ => rfl
  | x :: rest, cur => by
    simp only [List.map_cons, compact_elements, dump_impl_compact fmt i hi x cur,
      dump_elements_compact fmt i hi rest cur]

theorem dump_members_compact (fmt : Double → List Char) (i : Int) (hi : i < 0) :
    ∀ (o : List (List Char × json)) (cur : Int),
      (o.map (compact_member fmt cur i)).map member.text = compact_members fmt o
  | [], _ => rfl
  | (k, x) :: rest, cur => by
    simp only [List.map_cons, compact_members, compact_member, member.text,
      dump_impl_compact fmt i hi x (cur + i), dump_members_compact fmt i hi rest cur]
    simp

end

theorem mem_join_comma {c : Char} :
    ∀ {ts : List (List Char)}, c ∈ join_comma ts → c = ',' ∨ ∃ t ∈ ts, c ∈ t
  | [], h => by simp [join_comma] at h
  | [t], h => Or.inr ⟨t, by simp, by simpa [join_comma] using h⟩
  | t :: u :: ts, h => by
    simp only [join_comma, List.mem_append, List.mem_cons] at h
    rcases h with h | h | h
    · exact Or.inr ⟨t, by simp, h⟩
    · exact Or.inl h
    · rcases mem_join_comma h with h2 | ⟨t2, ht2, hc⟩
      · exact Or.inl h2
      · exact Or.inr ⟨t2, by simp [List.mem_cons] at ht2 ⊢; tauto, hc⟩

theorem join_comma_length :
    ∀ ts : List (List Char),
      (join_comma ts).length = (ts.map List.length).sum + (ts.length - 1)
  | [] => rfl
  | [t] => by simp [join_comma]
  | t :: u :: ts => by
    have := join_comma_length (u :: ts)
    simp only [List.length_cons, List.map_cons, List.sum_cons] at this
    simp only [join_comma, List.length_append, List.length_cons, List.map_cons, List.sum_cons,
      this]
    omega

theorem escape_char_space (c : Char) :
    ∀ x ∈ escape_char c, isspace x = true → x = ' ' := by
  by_cases hlt : c.toNat < 0x20
  · obtain ⟨n, hn, rfl⟩ : ∃ n, n < 0x20 ∧ c = Char.ofNat n :=
      ⟨c.toNat, hlt, (Char.ofNat_toNat c).symm⟩
    interval_cases n <;> decide
  · by_cases hq : c = '"'
    · subst hq; decide
    by_cases hb : c = '\\'
    · subst hb; decide
    intro x hx hs
    rw [escape_char_plain c (by omega) hq hb] at hx
    simp only [List.mem_singleton] at hx
    subst hx
    simp only [isspace, Bool.or_eq_true, beq_iff_eq] at hs
    rcases hs with ((((h | h) | h) | h) | h) | h
    · exact h
    all_goals (exfalso; rw [h] at hlt; revert hlt; decide)

theorem escape_str_space (s : List Char) (x : Char) (hx : x ∈ escape_str s)
    (hs : isspace x = true) : x = ' ' := by
  induction s with
  | nil => simp [escape_str] at hx
  | cons c s ih =>
    simp only [escape_str, List.mem_append] at hx
    rcases hx with h | h
    · exact escape_char_space c x h hs
    · exact ih h

theorem int64_to_chars_space (i : Int) (x : Char) (hx : x ∈ int64_to_chars i) :
    isspace x = false := by
  obtain ⟨-, hall, -⟩ := decimal_digits_spec i.natAbs
  unfold int64_to_chars at hx
  split at hx
  · simp only [List.mem_cons] at hx
    rcases hx with h | h
    · rw [h]; decide
    · exact (isdigit_not_special x (hall x h)).1
  · exact (isdigit_not_special x (hall x hx)).1

mutual

theorem compact_text_space (fmt : Double → List Char) :
    ∀ (v : json), float_free v = true →
      ∀ x ∈ compact_text fmt v, isspace x = true → x = ' '
  | null, _ => by simp only [compact_text]; decide
  | bool true, _ => by simp only [compact_text]; decide
  | bool false, _ => by simp only [compact_text]; decide
  | int i, _ => by
    intro x hx hs
    simp only [compact_text] at hx
    rw [int64_to_chars_space i x hx] at hs
    cases hs
  | float d, hf => by simp [float_free] at hf
  | str s, _ => by
    intro x hx hs
    simp only [compact_text, List.mem_cons, List.mem_append, List.mem_singleton,
      List.not_mem_nil, or_false] at hx
    rcases hx with (h | h) | h
    · rw [h] at hs; exact absurd hs (by decide)
    · exact escape_str_space s x h hs
    · rw [h] at hs; exact absurd hs (by decide)
  | arr a, hf => by
    intro x hx hs
    simp only [float_free] at hf
    simp only [compact_text, List.mem_cons, List.mem_append, List.mem_singleton,
      List.not_mem_nil, or_false] at hx
    rcases hx with (h | h) | h
    · rw [h] at hs; exact absurd hs (by decide)
    · rcases mem_join_comma h with h2 | ⟨t, ht, hxt⟩
      · rw [h2] at hs; exact absurd hs (by decide)
      · exact compact_elements_space fmt a hf t ht x hxt hs
    · rw [h] at hs; exact absurd hs (by decide)
  | obj o, hf => by
    intro x hx hs
    simp only [float_free] at hf
    simp only [compact_text, List.mem_cons, List.mem_append, List.mem_singleton,
      List.not_mem_nil, or_false] at hx
    rcases hx with (h | h) | h
    · rw [h] at hs; exact absurd hs (by decide)
    · rcases mem_join_comma h with h2 | ⟨t, ht, hxt⟩
      · rw [h2] at hs; exact absurd hs (by decide)
      · exact compact_members_space fmt o hf t ht x hxt hs
    · rw [h] at hs; exact absurd hs (by decide)

theorem compact_elements_space (fmt : Double → List Char) :
    ∀ (a : List json), float_free_array a = true →
      ∀ t ∈ compact_elements fmt a, ∀ x ∈ t, isspace x = true → x = ' '
  | [], _ => by intro t ht; simp [compact_elements] at ht
  | y :: rest, hf => by
    intro t ht
    simp only [float_free_array, Bool.and_eq_true] at hf
    simp only [compact_elements, List.mem_cons] at ht
    rcases ht with rfl | ht
    · exact compact_text_space fmt y hf.1
    · exact compact_elements_space fmt rest hf.2 t ht

theorem compact_members_space (fmt : Double → List Char) :
    ∀ (o : List (List Char × json)), float_free_object o = true →
      ∀ t ∈ compact_members fmt o, ∀ x ∈ t, isspace x = true → x = ' '
  | [], _ => by intro t ht; simp [compact_members] at ht
  | (k, y) :: rest, hf => by
    intro t ht
    simp only [float_free_object, Bool.and_eq_true] at hf
    simp only [compact_members, List.mem_cons] at ht
    rcases ht with rfl | ht
    · intro x hx hs
      simp only [List.mem_cons, List.mem_append, List.mem_singleton, List.cons_append,
        List.not_mem_nil, or_false] at hx
      rcases hx with h | (h | h | h | h) | h
      · rw [h] at hs; exact absurd hs (by decide)
      · exact escape_str_space k x h hs
      · rw [h] at hs; exact absurd hs (by decide)
      · rw [h] at hs; exact absurd hs (by decide)
      · exact h
      · exact compact_text_space fmt y hf.1 x h hs
    · exact compact_members_space fmt rest hf.2 t ht

end

/-- C12: for every Float-free value and every negative indent, `dump(v, i)` equals
`dump(v, -1)` and is the compact form: the members of a collection between the
brackets, `n` members separated by `n - 1` commas and none before the closing
bracket, each object member as quoted key, colon, one space, value; scalars and the
separators contain no whitespace, so the only whitespace character anywhere in the
output is the space (after a colon or inside a string literal), never a newline. -/
theorem dump_compact (fmt : Double → List Char) (v : json) (i : Int) (hi : i < 0)
    (hf : float_free v = true) :
    dump fmt v i = dump fmt v (-1) ∧ dump fmt v i = compact_text fmt v ∧
    (∀ c ∈ dump fmt v i, isspace c = true → c = ' ') ∧ '\n' ∉ dump fmt v i ∧
    (∀ ts : List (List Char),
      (join_comma ts).length = (ts.map List.length).sum + (ts.length - 1)) := by
  have h1 : dump fmt v i = compact_text fmt v := dump_impl_compact fmt i hi v 0
  have h2 : dump fmt v (-1) = compact_text fmt v := dump_impl_compact fmt (-1) (by decide) v 0
  have h3 : ∀ c ∈ dump fmt v i, isspace c = true → c = ' ' := by
    rw [h1]; exact compact_text_space fmt v hf
  refine ⟨by rw [h1, h2], h1, h3, fun hc => ?_, join_comma_length⟩
  have := h3 '\n' hc (by decide)
  revert this; decide

theorem dump_compact_witness :
    (-5 : Int) < 0 ∧ float_free sample_document = true ∧
    dump (fun _ => []) sample_document (-5) = dump (fun _ => []) sample_document (-1) ∧
    dump (fun _ => []) sample_document (-5) =
      "\x7b\"a\\n\": [1,-20,\"q\\\"\\\\\\t/\",null,true],\"b\": \x7b\"\": []\x7d,\"c\": false\x7d".toList := by
  have h := dump_compact (fun _ => []) sample_document (-5) (by decide) (by decide)
  exact ⟨by decide, by decide, h.1, by rfl⟩

end json
namespace json

/-! ## The literals `true`, `false`, `null` -/

theorem parse_ok_iff (s : List Char) (v : json) :
    parse s = .ok v ↔
      ∃ r, parser.parse_value (3 * s.length + 3) s = .ok v r ∧ parser.skip_ws r = [] := by
  unfold parse
  cases h : parser.parse_value (3 * s.length + 3) s with
  | ok val rest =>
    cases hr : parser.skip_ws rest with
    | nil =>
      simp only [parser.eof, hr, if_true]
      constructor
      · intro hc; cases hc; exact ⟨rest, rfl, hr⟩
      · rintro ⟨r, h1, _⟩; cases h1; rfl
    | cons c t =>
      simp only [parser.eof, hr, Bool.false_eq_true, if_false]
      constructor
      · intro hc; cases hc
      · rintro ⟨r, h1, h2⟩
        cases h1
        rw [hr] at h2; cases h2
  | error e => simp
  | exhausted => simp

theorem strip_ws_eq_iff (s lit : List Char) (hne : lit ≠ [])
    (hl : ∀ x ∈ lit, isspace x = false) :
    strip_ws s = lit ↔
      ∃ w, (∀ x ∈ w, isspace x = true) ∧ s.dropWhile isspace = lit ++ w := by
  unfold strip_ws
  constructor
  · intro h
    refine ⟨((s.dropWhile isspace).reverse.takeWhile isspace).reverse, ?_, ?_⟩
    · intro x hx
      exact List.mem_takeWhile_imp (List.mem_reverse.1 hx)
    · rw [← h, ← List.reverse_append, List.takeWhile_append_dropWhile, List.reverse_reverse]
  · rintro ⟨w, hw, ht⟩
    rw [ht, List.reverse_append,
      List.dropWhile_append_of_pos (fun a ha => hw a (List.mem_reverse.1 ha))]
    have hrev : lit.reverse ≠ [] := by simpa using hne
    obtain ⟨x, xs, hx⟩ := List.exists_cons_of_ne_nil hrev
    have hxs : isspace x = false := hl x (by
      have : x ∈ lit.reverse := by rw [hx]; simp
      exact List.mem_reverse.1 this)
    rw [hx, List.dropWhile_cons, hxs]
    simp only [Bool.false_eq_true, if_false]
    rw [← hx, List.reverse_reverse]

theorem literal_take_iff (t lit : List Char) :
    (t.take lit.length = lit ∧ parser.skip_ws (t.drop lit.length) = []) ↔
      ∃ w, (∀ x ∈ w, isspace x = true) ∧ t = lit ++ w := by
  constructor
  · rintro ⟨h1, h2⟩
    refine ⟨t.drop lit.length, ?_, ?_⟩
    · rw [skip_ws_eq_dropWhile, List.dropWhile_eq_nil_iff] at h2
      exact h2
    · conv => lhs; rw [← List.take_append_drop lit.length t]
      rw [h1]
  · rintro ⟨w, hw, rfl⟩
    simp [skip_ws_all_ws w hw]

end json
namespace json

theorem parse_literal_core (s t lit : List Char) (val v : json) (e : Exn)
    (hpv : parser.parse_value (3 * s.length + 3) s =
      if t.take lit.length = lit then .ok val (t.drop lit.length) else .error e) :
    (parse s = .ok v ↔
      (∃ w, (∀ x ∈ w, isspace x = true) ∧ t = lit ++ w) ∧ v = val) ∧
    parse s ≠ .exhausted := by
  constructor
  · rw [parse_ok_iff, hpv, ← literal_take_iff]
    by_cases h : t.take lit.length = lit
    · simp only [h, if_true, true_and]
      constructor
      · rintro ⟨r, h1, h2⟩
        cases h1
        exact ⟨h2, rfl⟩
      · rintro ⟨h2, rfl⟩
        exact ⟨_, rfl, h2⟩
    · simp only [h, if_false, false_and]
      constructor
      · rintro ⟨r, h1, _⟩; cases h1
      · intro hc; exact hc.elim
  · unfold parse
    rw [hpv]
    by_cases h : t.take lit.length = lit
    · simp only [h, if_true]; split <;> simp
    · simp [h]

theorem head_dropWhile_skip_ws {s : List Char} {c : Char}
    (hc : (s.dropWhile isspace).head? = some c) :
    ∃ t, s.dropWhile isspace = c :: t ∧ parser.skip_ws s = c :: t ∧ isspace c = false := by
  cases hs : s.dropWhile isspace with
  | nil => rw [hs] at hc; cases hc
  | cons d t =>
    rw [hs] at hc
    simp only [List.head?_cons, Option.some.injEq] at hc
    subst hc
    refine ⟨t, rfl, by rw [skip_ws_eq_dropWhile, hs], ?_⟩
    have := List.head_dropWhile_not isspace s (by rw [hs]; simp)
    simpa [hs] using this

/-- C19: for every input whose first non-whitespace character is `t`, `f` or `n`,
`parse` succeeds exactly when the input with its leading and trailing whitespace
removed is `true`, `false` or `null`, and then yields Boolean true, Boolean false
or Null; otherwise it throws, as on `tru`, `truex`, `nulll`, `fals`, `falsetrue`. -/
theorem parse_literal_iff (s : List Char) (c : Char) (v : json)
    (hc : (s.dropWhile isspace).head? = some c) (htfn : c = 't' ∨ c = 'f' ∨ c = 'n') :
    (parse s = .ok v ↔
      (strip_ws s = ['t', 'r', 'u', 'e'] ∧ v = bool true) ∨
      (strip_ws s = ['f', 'a', 'l', 's', 'e'] ∧ v = bool false) ∨
      (strip_ws s = ['n', 'u', 'l', 'l'] ∧ v = null)) ∧
    parse s ≠ .exhausted ∧
    parse ['t', 'r', 'u'] = .error (.runtime_error "invalid boolean literal") ∧
    parse ['t', 'r', 'u', 'e', 'x'] =
      .error (.runtime_error "extra characters after JSON document") ∧
    parse ['n', 'u', 'l', 'l', 'l'] =
      .error (.runtime_error "extra characters after JSON document") ∧
    parse ['f', 'a', 'l', 's'] = .error (.runtime_error "invalid boolean literal") ∧
    parse "falsetrue".toList = .error (.runtime_error "extra characters after JSON document") := by
  refine ⟨?_, ?_, by rfl, by rfl, by rfl, by rfl, by rfl⟩
  all_goals
    obtain ⟨t, ht, hsk, hsp⟩ := head_dropWhile_skip_ws hc
    have e1 := strip_ws_eq_iff s ['t', 'r', 'u', 'e'] (by simp) (by decide)
    have e2 := strip_ws_eq_iff s ['f', 'a', 'l', 's', 'e'] (by simp) (by decide)
    have e3 := strip_ws_eq_iff s ['n', 'u', 'l', 'l'] (by simp) (by decide)
    rw [ht] at e1 e2 e3
    have hpv0 : parser.parse_value (3 * s.length + 3) s
        = parser.parse_value (3 * s.length + 2 + 1) (c :: t) := by
      rw [← parse_value_skip_ws, hsk]
    rw [parse_value_dispatch _ _ _ hsp] at hpv0
  · rcases htfn with rfl | rfl | rfl
    · have hpv : parser.parse_value (3 * s.length + 3) s =
          if ('t' :: t).take (['t', 'r', 'u', 'e'] : List Char).length = ['t', 'r', 'u', 'e']
          then .ok (bool true) (('t' :: t).drop (['t', 'r', 'u', 'e'] : List Char).length)
          else .error (.runtime_error "invalid boolean literal") := by
        rw [hpv0]
        simp [parser.parse_bool]
      rw [(parse_literal_core s ('t' :: t) _ (bool true) v _ hpv).1, e1, e2, e3]
      simp
    · have hpv : parser.parse_value (3 * s.length + 3) s =
          if ('f' :: t).take (['f', 'a', 'l', 's', 'e'] : List Char).length
            = ['f', 'a', 'l', 's', 'e']
          then .ok (bool false) (('f' :: t).drop (['f', 'a', 'l', 's', 'e'] : List Char).length)
          else .error (.runtime_error "invalid boolean literal") := by
        rw [hpv0]
        simp [parser.parse_bool]
      rw [(parse_literal_core s ('f' :: t) _ (bool false) v _ hpv).1, e1, e2, e3]
      simp
    · have hpv : parser.parse_value (3 * s.length + 3) s =
          if ('n' :: t).take (['n', 'u', 'l', 'l'] : List Char).length = ['n', 'u', 'l', 'l']
          then .ok null (('n' :: t).drop (['n', 'u', 'l', 'l'] : List Char).length)
          else .error (.runtime_error "invalid null literal") := by
        rw [hpv0]
        simp [parser.parse_null]
      rw [(parse_literal_core s ('n' :: t) _ null v _ hpv).1, e1, e2, e3]
      simp
  · rcases htfn with rfl | rfl | rfl
    · have hpv : parser.parse_value (3 * s.length + 3) s =
          if ('t' :: t).take (['t', 'r', 'u', 'e'] : List Char).length = ['t', 'r', 'u', 'e']
          then .ok (bool true) (('t' :: t).drop (['t', 'r', 'u', 'e'] : List Char).length)
          else .error (.runtime_error "invalid boolean literal") := by
        rw [hpv0]
        simp [parser.parse_bool]
      exact (parse_literal_core s ('t' :: t) _ (bool true) v _ hpv).2
    · have hpv : parser.parse_value (3 * s.length + 3) s =
          if ('f' :: t).take (['f', 'a', 'l', 's', 'e'] : List Char).length
            = ['f', 'a', 'l', 's', 'e']
          then .ok (bool false) (('f' :: t).drop (['f', 'a', 'l', 's', 'e'] : List Char).length)
          else .error (.runtime_error "invalid boolean literal") := by
        rw [hpv0]
        simp [parser.parse_bool]
      exact (parse_literal_core s ('f' :: t) _ (bool false) v _ hpv).2
    · have hpv : parser.parse_value (3 * s.length + 3) s =
          if ('n' :: t).take (['n', 'u', 'l', 'l'] : List Char).length = ['n', 'u', 'l', 'l']
          then .ok null (('n' :: t).drop (['n', 'u', 'l', 'l'] : List Char).length)
          else .error (.runtime_error "invalid null literal") := by
        rw [hpv0]
        simp [parser.parse_null]
      exact (parse_literal_core s ('n' :: t) _ null v _ hpv).2

end json

namespace json

theorem parse_literal_iff_witness :
    ([' ', 't', 'r', 'u', 'e', ' ', '\n'].dropWhile isspace).head? = some 't' ∧
    strip_ws [' ', 't', 'r', 'u', 'e', ' ', '\n'] = ['t', 'r', 'u', 'e'] ∧
    parse [' ', 't', 'r', 'u', 'e', ' ', '\n'] = .ok (bool true) ∧
    ¬ parse [' ', 't', 'r', 'u', 'e', ' ', '\n'] = .ok (bool false) := by
  have hc : ([' ', 't', 'r', 'u', 'e', ' ', '\n'].dropWhile isspace).head? = some 't' := by
    decide
  have hs : strip_ws [' ', 't', 'r', 'u', 'e', ' ', '\n'] = ['t', 'r', 'u', 'e'] := by decide
  refine ⟨hc, hs, ?_, ?_⟩
  · exact (parse_literal_iff _ 't' (bool true) hc (Or.inl rfl)).1.2 (Or.inl ⟨hs, rfl⟩)
  · intro h
    have := (parse_literal_iff _ 't' (bool false) hc (Or.inl rfl)).1.1 h
    rw [hs] at this
    simp at this

end json
namespace json

/-! ## A member without a value -/

theorem parse_value_unexpected (f : Nat) (s : List Char)
    (hd : dispatch_char (parser.peek (parser.skip_ws s)) = false) :
    parser.parse_value (f + 1) s =
      .error (.runtime_error
        (("unexpected character \x27".push (parser.peek (parser.skip_ws s))).push '\x27')) := by
  simp only [dispatch_char, Bool.or_eq_false_iff, beq_eq_false_iff_ne, ne_eq] at hd
  obtain ⟨⟨⟨⟨⟨⟨⟨h1, h2⟩, h3⟩, h4⟩, h5⟩, h6⟩, h7⟩, h8⟩ := hd
  rw [parser.parse_value]
  simp [h1, h2, h3, h4, h5, h6, h7, h8]

theorem parse_of_parse_value_error {s : List Char} {e : Exn}
    (h : parser.parse_value (3 * s.length + 3) s = .error e) : parse s = .error e := by
  unfold parse
  rw [h]

theorem members_lead_length (ms : List member) :
    2 * ms.length ≤ (members_lead ms).length := by
  induction ms with
  | nil => simp [members_lead]
  | cons m ms ih =>
    simp only [members_lead, member.text, List.length_append, List.length_cons]
    omega

theorem parse_object_loop_lead :
    ∀ (ms : List member),
      (∀ m ∈ ms, key_text m.key_src m.key ∧ value_text m.val_src m.val) →
      ∀ (fuel : Nat) (o : json_object) (rest : List Char),
        3 * (members_lead ms).length + 1 ≤ fuel →
        parser.parse_object_loop fuel o (members_lead ms ++ rest) =
          parser.parse_object_loop (fuel - ms.length)
            (emplace_all o (ms.map fun m => (m.key, m.val))) rest := by
  intro ms
  induction ms with
  | nil => intro _ fuel o rest _; simp [members_lead, emplace_all]
  | cons m ms ih =>
    intro hall fuel o rest hf
    obtain ⟨hk, hv⟩ := hall m (by simp)
    obtain ⟨f, rfl⟩ : ∃ f, fuel = f + 1 := ⟨fuel - 1, by omega⟩
    have hlen : (members_lead (m :: ms)).length =
        m.key_src.length + 1 + m.val_src.length + 1 + (members_lead ms).length := by
      simp [members_lead, member.text]; omega
    have hrec := ih (fun x hx => hall x (by simp [hx]))
      f (json_object.emplace o m.key m.val) rest (by omega)
    have htxt : members_lead (m :: ms) ++ rest =
        m.key_src ++ (':' :: (m.val_src ++ (',' :: (members_lead ms ++ rest)))) := by
      simp [members_lead, member.text]
    rw [htxt, parser.parse_object_loop, parse_string_skip_ws, hk]
    simp only [as_string, get_string, (expect_here ':' (by decide) _).2]
    rw [hv f (',' :: (members_lead ms ++ rest)) (by omega) rfl]
    simp only [skip_ws_cons _ _ (show isspace ',' = false by decide), parser.get]
    rw [hrec]
    simp [emplace_all]

theorem members_lead_peek (ms : List member) (key_src key rest : List Char)
    (hms : ∀ m ∈ ms, key_text m.key_src m.key ∧ value_text m.val_src m.val)
    (hk : key_text key_src key) :
    parser.peek (parser.skip_ws (members_lead ms ++ (key_src ++ rest))) = '"' := by
  cases ms with
  | nil => simpa [members_lead] using @key_text_peek _ _ rest hk
  | cons m ms =>
    have := @key_text_peek _ _ (':' :: (m.val_src ++ (',' :: (members_lead ms
      ++ (key_src ++ rest))))) (hms m (by simp)).1
    simpa [members_lead, member.text] using this

/-- C18: an object text in which the colon of a member (after any number of
complete members) is followed, after optional whitespace, by a closing brace, a
comma or the end of the input makes `parse` throw "unexpected character": the
outcome is an exception and carries no value. -/
theorem parse_missing_member_value (ms : List member) (key_src key ws0 ws1 X : List Char)
    (hms : ∀ m ∈ ms, key_text m.key_src m.key ∧ value_text m.val_src m.val)
    (hk : key_text key_src key)
    (h0 : ∀ c ∈ ws0, isspace c = true) (h1 : ∀ c ∈ ws1, isspace c = true)
    (hX : X = [] ∨ X.head? = some '}' ∨ X.head? = some ',') :
    parse ('{' :: (members_lead ms ++ (key_src ++ (ws0 ++ ':' :: (ws1 ++ X))))) =
      .error (.runtime_error (("unexpected character \x27".push (parser.peek X)).push '\x27')) := by
  have hXs : parser.skip_ws X = X ∧ dispatch_char (parser.peek X) = false := by
    rcases hX with rfl | h | h
    · exact ⟨rfl, by decide⟩
    all_goals
      cases X with
      | nil => cases h
      | cons c t =>
        simp only [List.head?_cons, Option.some.injEq] at h
        subst h
        exact ⟨skip_ws_cons _ _ (by decide), by rfl⟩
  generalize htext : '{' :: (members_lead ms ++ (key_src ++ (ws0 ++ ':' :: (ws1 ++ X)))) = text
  have hlen : (members_lead ms).length + 2 ≤ text.length := by
    rw [← htext]; simp; omega
  have hpl := members_lead_length ms
  have hloop := parse_object_loop_lead ms hms (3 * text.length + 1) []
    (key_src ++ (ws0 ++ ':' :: (ws1 ++ X))) (by omega)
  obtain ⟨g, hg⟩ : ∃ g, 3 * text.length + 1 - ms.length = g + 2 :=
    ⟨3 * text.length + 1 - ms.length - 2, by omega⟩
  have hfail : parser.parse_object_loop (g + 2)
      (emplace_all [] (ms.map fun m => (m.key, m.val)))
      (key_src ++ (ws0 ++ ':' :: (ws1 ++ X))) =
      .error (.runtime_error (("unexpected character \x27".push (parser.peek X)).push '\x27')) := by
    rw [parser.parse_object_loop, parse_string_skip_ws, hk]
    simp only [as_string, get_string]
    have hexp : parser.expect ':' (parser.skip_ws (ws0 ++ ':' :: (ws1 ++ X)))
        = .ok () (ws1 ++ X) := by
      rw [skip_ws_append_ws _ _ h0]
      exact (expect_here ':' (by decide) _).2
    rw [hexp]
    simp only []
    have hd : dispatch_char (parser.peek (parser.skip_ws (ws1 ++ X))) = false := by
      rw [skip_ws_append_ws _ _ h1, hXs.1]; exact hXs.2
    rw [parse_value_unexpected g _ hd, skip_ws_append_ws _ _ h1, hXs.1]
  have hpk := members_lead_peek ms key_src key (ws0 ++ ':' :: (ws1 ++ X)) hms hk
  subst htext
  have hpv : parser.parse_value
      (3 * ('{' :: (members_lead ms ++ (key_src ++ (ws0 ++ ':' :: (ws1 ++ X))))).length + 3)
      ('{' :: (members_lead ms ++ (key_src ++ (ws0 ++ ':' :: (ws1 ++ X))))) =
      .error (.runtime_error (("unexpected character \x27".push (parser.peek X)).push '\x27')) := by
    rw [show 3 * ('{' :: (members_lead ms ++ (key_src ++ (ws0 ++ ':' :: (ws1 ++ X))))).length + 3
        = (3 * ('{' :: (members_lead ms ++ (key_src ++ (ws0 ++ ':' :: (ws1 ++ X))))).length + 1)
          + 1 + 1 from rfl,
      parse_value_dispatch _ _ _ (show isspace '{' = false by decide)]
    simp only [if_true]
    rw [parser.parse_object, (expect_here '{' (by decide) _).1]
    simp only []
    rw [if_neg (by rw [hpk]; decide), parse_object_loop_skip_ws, hloop, hg, hfail]
  exact parse_of_parse_value_error hpv

theorem parse_missing_member_value_witness :
    key_text ['"', 'a', '"'] ['a'] ∧
    parse ['{', '"', 'a', '"', ':', '}'] = .error (.runtime_error "unexpected character \x27\x7d\x27") ∧
    parse "\x7b\"b\":1,\"a\" : ,\"c\":2\x7d".toList =
      .error (.runtime_error "unexpected character \x27,\x27") ∧
    (∃ e, parse ['{', '"', 'a', '"', ':'] = .error (.runtime_error e)) := by
  have hk : key_text ['"', 'a', '"'] ['a'] := key_text_quoted ['a'] (by decide)
  have hm : ∀ m ∈ [(⟨['"', 'b', '"'], ['b'], ['1'], int 1⟩ : member)],
      key_text m.key_src m.key ∧ value_text m.val_src m.val := by
    intro m hm
    simp only [List.mem_singleton] at hm
    subst hm
    exact ⟨key_text_quoted ['b'] (by decide), value_text_int 1 (by decide)⟩
  have hnil : ∀ m ∈ ([] : List member),
      key_text m.key_src m.key ∧ value_text m.val_src m.val := by
    intro m hm; cases hm
  have hws : ∀ c ∈ ([] : List Char), isspace c = true := by intro c hc; cases hc
  have a := parse_missing_member_value [] ['"', 'a', '"'] ['a'] [] [] ['}'] hnil hk hws hws
    (Or.inr (Or.inl rfl))
  have b := parse_missing_member_value [⟨['"', 'b', '"'], ['b'], ['1'], int 1⟩]
    ['"', 'a', '"'] ['a'] [' '] [' '] ",\"c\":2\x7d".toList hm hk (by decide) (by decide)
    (Or.inr (Or.inr rfl))
  have c := parse_missing_member_value [] ['"', 'a', '"'] ['a'] [] [] [] hnil hk hws hws
    (Or.inl rfl)
  exact ⟨hk, a, b, ⟨_, c⟩⟩

end json
namespace json

/-! ## More fuel never changes a result -/

theorem fuel_mono_step : ∀ f : Nat,
    (∀ s, parser.parse_value f s ≠ .exhausted →
      parser.parse_value (f + 1) s = parser.parse_value f s) ∧
    (∀ s, parser.parse_object f s ≠ .exhausted →
      parser.parse_object (f + 1) s = parser.parse_object f s) ∧
    (∀ o s, parser.parse_object_loop f o s ≠ .exhausted →
      parser.parse_object_loop (f + 1) o s = parser.parse_object_loop f o s) ∧
    (∀ s, parser.parse_array f s ≠ .exhausted →
      parser.parse_array (f + 1) s = parser.parse_array f s) ∧
    (∀ a s, parser.parse_array_loop f a s ≠ .exhausted →
      parser.parse_array_loop (f + 1) a s = parser.parse_array_loop f a s) := by
  intro f
  induction f with
  | zero =>
    refine ⟨?_, ?_, ?_, ?_, ?_⟩ <;> intros <;> rename_i h <;>
      first
        | exact absurd (by rw [parser.parse_value]) h
        | exact absurd (by rw [parser.parse_object]) h
        | exact absurd (by rw [parser.parse_object_loop]) h
        | exact absurd (by rw [parser.parse_array]) h
        | exact absurd (by rw [parser.parse_array_loop]) h
  | succ f ih =>
    obtain ⟨ihv, iho, ihol, iha, ihal⟩ := ih
    refine ⟨?_, ?_, ?_, ?_, ?_⟩
    · intro s h
      rw [parser.parse_value] at h
      rw [parser.parse_value, parser.parse_value]
      by_cases h1 : parser.peek (parser.skip_ws s) = '{'
      · simp only [h1, if_true] at h ⊢
        exact iho _ h
      by_cases h2 : parser.peek (parser.skip_ws s) = '['
      · simp only [h1, h2, if_true, if_false] at h ⊢
        exact iha _ h
      simp only [h1, h2, if_false]
    · intro s h
      rw [parser.parse_object] at h
      rw [parser.parse_object, parser.parse_object]
      cases he : parser.expect '{' s with
      | ok u s1 =>
        simp only [he] at h ⊢
        by_cases hp : parser.peek (parser.skip_ws s1) = '}'
        · simp only [hp, if_true]
        · simp only [hp, if_false] at h ⊢
          exact ihol _ _ h
      | error e => rfl
      | exhausted => rfl
    · intro o s h
      rw [parser.parse_object_loop] at h
      rw [parser.parse_object_loop, parser.parse_object_loop]
      cases hps : parser.parse_string (parser.skip_ws s) with
      | ok k s1 =>
        simp only [hps] at h ⊢
        cases hk : k.as_string with
        | ok key =>
          simp only [hk] at h ⊢
          cases he : parser.expect ':' (parser.skip_ws s1) with
          | ok u s2 =>
            simp only [he] at h ⊢
            by_cases hx : parser.parse_value f s2 = .exhausted
            · simp [hx] at h
            · rw [ihv s2 hx]
              cases hpv : parser.parse_value f s2 with
              | ok val s3 =>
                simp only [hpv] at h ⊢
                by_cases c1 : (parser.get (parser.skip_ws s3)).1 = '}'
                · simp only [c1, if_true]
                · by_cases c2 : (parser.get (parser.skip_ws s3)).1 ≠ ','
                  · rw [if_neg c1, if_neg c1, if_pos c2, if_pos c2]
                  · rw [if_neg c1, if_neg c2] at h
                    rw [if_neg c1, if_neg c1, if_neg c2, if_neg c2]
                    exact ihol _ _ h
              | error e => rfl
              | exhausted => exact absurd hpv hx
          | error e => rfl
          | exhausted => rfl
        | error e => rfl
      | error e => rfl
      | exhausted => rfl
    · intro s h
      rw [parser.parse_array] at h
      rw [parser.parse_array, parser.parse_array]
      cases he : parser.expect '[' s with
      | ok u s1 =>
        simp only [he] at h ⊢
        by_cases hp : parser.peek (parser.skip_ws s1) = ']'
        · simp only [hp, if_true]
        · simp only [hp, if_false] at h ⊢
          exact ihal _ _ h
      | error e => rfl
      | exhausted => rfl
    · intro a s h
      rw [parser.parse_array_loop] at h
      rw [parser.parse_array_loop, parser.parse_array_loop]
      by_cases hx : parser.parse_value f s = .exhausted
      · simp [hx] at h
      · rw [ihv s hx]
        cases hpv : parser.parse_value f s with
        | ok val s1 =>
          simp only [hpv] at h ⊢
          by_cases c1 : (parser.get (parser.skip_ws s1)).1 = ']'
          · simp only [c1, if_true]
          · by_cases c2 : (parser.get (parser.skip_ws s1)).1 ≠ ','
            · rw [if_neg c1, if_neg c1, if_pos c2, if_pos c2]
            · rw [if_neg c1, if_neg c2] at h
              rw [if_neg c1, if_neg c1, if_neg c2, if_neg c2]
              exact ihal _ _ h
        | error e => rfl
        | exhausted => exact absurd hpv hx

theorem parse_value_fuel_mono {f g : Nat} (hfg : f ≤ g) {s : List Char}
    (h : parser.parse_value f s ≠ .exhausted) :
    parser.parse_value g s = parser.parse_value f s := by
  induction g with
  | zero =>
    have : f = 0 := by omega
    rw [this]
  | succ g ih =>
    rcases Nat.eq_or_lt_of_le hfg with h1 | h1
    · rw [h1]
    · have h2 := ih (by omega)
      rw [← h2] at h
      rw [(fuel_mono_step g).1 s h, h2]

end json
namespace json

/-! ## Locality: what a parser function reads does not depend on what follows -/

theorem skip_ws_spec (s : List Char) :
    ∃ w, (∀ x ∈ w, isspace x = true) ∧ s = w ++ parser.skip_ws s ∧
      ∀ c t, parser.skip_ws s = c :: t → isspace c = false := by
  induction s with
  | nil => exact ⟨[], by simp, rfl, fun c t h => by simp [parser.skip_ws] at h⟩
  | cons a s ih =>
    by_cases ha : isspace a = true
    · obtain ⟨w, hw, hs, hh⟩ := ih
      have e : parser.skip_ws (a :: s) = parser.skip_ws s := by simp [parser.skip_ws, ha]
      refine ⟨a :: w, ?_, ?_, ?_⟩
      · intro x hx
        rcases List.mem_cons.1 hx with rfl | hx
        · exact ha
        · exact hw x hx
      · rw [e, List.cons_append, ← hs]
      · rw [e]; exact hh
    · have ha2 : isspace a = false := by simpa using ha
      have e : parser.skip_ws (a :: s) = a :: s := skip_ws_cons a s ha2
      refine ⟨[], by simp, by rw [e]; rfl, ?_⟩
      intro c t h
      rw [e] at h
      cases h
      exact ha2

theorem get_skip_ws_spec (s : List Char) (ch : Char) (h : (parser.get (parser.skip_ws s)).1 = ch)
    (hch : ch ≠ '\x00') :
    ∃ w, (∀ x ∈ w, isspace x = true) ∧ s = w ++ ch :: (parser.get (parser.skip_ws s)).2 ∧
      isspace ch = false := by
  obtain ⟨w, hw, hs, hh⟩ := skip_ws_spec s
  cases hsk : parser.skip_ws s with
  | nil => rw [hsk] at h; exact absurd h.symm hch
  | cons c t =>
    rw [hsk] at h hs
    simp only [parser.get] at h ⊢
    subst h
    exact ⟨w, hw, hs, hh _ t hsk⟩

theorem expect_spec (ch : Char) (s r : List Char) (u : Unit) (hch : ch ≠ '\x00')
    (h : parser.expect ch s = .ok u r) :
    ∃ w, (∀ x ∈ w, isspace x = true) ∧ s = w ++ ch :: r ∧ isspace ch = false ∧
      ∀ r', parser.expect ch (w ++ ch :: r') = .ok () r' := by
  unfold parser.expect at h
  by_cases hc : (parser.get (parser.skip_ws s)).1 = ch
  · simp only [hc, ne_eq, not_true_eq_false, if_false, PResult.ok.injEq] at h
    obtain ⟨w, hw, hs, hsp⟩ := get_skip_ws_spec s ch hc hch
    rw [h.2] at hs
    refine ⟨w, hw, hs, hsp, fun r' => ?_⟩
    have := (expect_here ch hsp r').2
    unfold parser.expect at this ⊢
    rw [skip_ws_append_ws _ _ hw]
    rw [skip_ws_idem] at this
    exact this
  · simp [hc] at h

theorem parse_string_loop_cases (out s : List Char) :
    (∀ v r, parser.parse_string_loop out s ≠ .ok v r) ∨
    (∃ r0, s = '"' :: r0 ∧ ∀ x, parser.parse_string_loop out ('"' :: x) = .ok (str out) x) ∨
    (∃ p out2 s1, p ≠ [] ∧ s = p ++ s1 ∧
      ∀ x, parser.parse_string_loop out (p ++ x) = parser.parse_string_loop out2 x) := by
  cases s with
  | nil => left; intro v r; rw [parser.parse_string_loop.eq_def]; simp
  | cons c s2 =>
    by_cases hq : c = '"'
    · subst hq
      exact Or.inr (Or.inl ⟨s2, rfl, fun x => parse_string_loop_quote out x⟩)
    by_cases hb : c = '\\'
    · subst hb
      cases s2 with
      | nil => left; intro v r; rw [parser.parse_string_loop.eq_def]; simp
      | cons esc s1 =>
        by_cases e1 : esc = '"'
        · subst e1
          exact Or.inr (Or.inr ⟨['\\', '"'], _, s1, by simp, rfl,
            fun x => (parse_string_loop_two_char out x).1⟩)
        by_cases e2 : esc = '\\'
        · subst e2
          exact Or.inr (Or.inr ⟨['\\', '\\'], _, s1, by simp, rfl,
            fun x => (parse_string_loop_two_char out x).2.1⟩)
        by_cases e3 : esc = '/'
        · subst e3
          exact Or.inr (Or.inr ⟨['\\', '/'], _, s1, by simp, rfl,
            fun x => (parse_string_loop_two_char out x).2.2.1⟩)
        by_cases e4 : esc = 'b'
        · subst e4
          exact Or.inr (Or.inr ⟨['\\', 'b'], _, s1, by simp, rfl,
            fun x => (parse_string_loop_two_char out x).2.2.2.1⟩)
        by_cases e5 : esc = 'f'
        · subst e5
          exact Or.inr (Or.inr ⟨['\\', 'f'], _, s1, by simp, rfl,
            fun x => (parse_string_loop_two_char out x).2.2.2.2.1⟩)
        by_cases e6 : esc = 'n'
        · subst e6
          exact Or.inr (Or.inr ⟨['\\', 'n'], _, s1, by simp, rfl,
            fun x => (parse_string_loop_two_char out x).2.2.2.2.2.1⟩)
        by_cases e7 : esc = 'r'
        · subst e7
          exact Or.inr (Or.inr ⟨['\\', 'r'], _, s1, by simp, rfl,
            fun x => (parse_string_loop_two_char out x).2.2.2.2.2.2.1⟩)
        by_cases e8 : esc = 't'
        · subst e8
          exact Or.inr (Or.inr ⟨['\\', 't'], _, s1, by simp, rfl,
            fun x => (parse_string_loop_two_char out x).2.2.2.2.2.2.2⟩)
        by_cases eu : esc = 'u'
        · subst eu
          rcases s1 with _ | ⟨h1, _ | ⟨h2, _ | ⟨h3, _ | ⟨h4, s3⟩⟩⟩⟩
          · left; intro v r; rw [parser.parse_string_loop.eq_def]; simp
          · left; intro v r; rw [parser.parse_string_loop.eq_def]; simp
          · left; intro v r; rw [parser.parse_string_loop.eq_def]; simp
          · left; intro v r; rw [parser.parse_string_loop.eq_def]; simp
          · by_cases hx : (isxdigit h1 && isxdigit h2 && isxdigit h3 && isxdigit h4) = true
            · refine Or.inr (Or.inr ⟨['\\', 'u', h1, h2, h3, h4], out ++ ['?'], s3, by simp, rfl,
                fun x => ?_⟩)
              conv => lhs; rw [parser.parse_string_loop.eq_def]
              simp only [List.cons_append, List.nil_append]
              simp [hx]
            · left; intro v r; rw [parser.parse_string_loop.eq_def]
              simp only []
              simp [hx]
        · left; intro v r; rw [parser.parse_string_loop.eq_def]
          simp [e1, e2, e3, e4, e5, e6, e7, e8, eu]
    · exact Or.inr (Or.inr ⟨[c], out ++ [c], s2, by simp, rfl,
        fun x => parse_string_loop_plain c hq hb out x⟩)

theorem parse_string_loop_local : ∀ (n : Nat) (s : List Char), s.length ≤ n →
    ∀ (out : List Char) (v : json) (r : List Char),
      parser.parse_string_loop out s = .ok v r →
      is_number v = false ∧
      ∃ c, c ≠ [] ∧ s = c ++ r ∧ ∀ r', parser.parse_string_loop out (c ++ r') = .ok v r' := by
  intro n
  induction n with
  | zero =>
    intro s hs out v r h
    have : s = [] := List.length_eq_zero.1 (by omega)
    subst this
    rw [parser.parse_string_loop.eq_def] at h
    simp at h
  | succ n ih =>
    intro s hs out v r h
    rcases parse_string_loop_cases out s with hno | ⟨r0, rfl, hq⟩ | ⟨p, out2, s1, hp, rfl, hstep⟩
    · exact absurd h (hno v r)
    · rw [hq r0] at h
      cases h
      exact ⟨rfl, ['"'], by simp, rfl, fun r' => hq r'⟩
    · rw [hstep s1] at h
      have hlen : s1.length ≤ n := by
        have : 0 < p.length := List.length_pos.2 hp
        simp only [List.length_append] at hs
        omega
      obtain ⟨hv, c, _, hc, hext⟩ := ih s1 hlen out2 v r h
      refine ⟨hv, p ++ c, by simp [hp], by rw [hc, List.append_assoc], fun r' => ?_⟩
      rw [List.append_assoc, hstep]
      exact hext r'

theorem parse_string_local {s r : List Char} {v : json} (h : parser.parse_string s = .ok v r) :
    is_number v = false ∧
    ∃ c, c ≠ [] ∧ s = c ++ r ∧ ∀ r', parser.parse_string (c ++ r') = .ok v r' := by
  unfold parser.parse_string at h
  cases he : parser.expect '"' s with
  | ok u s1 =>
    simp only [he] at h
    obtain ⟨w, hw, hs, -, hexp⟩ := expect_spec '"' s s1 u (by decide) he
    obtain ⟨hv, c, hc, hs1, hext⟩ := parse_string_loop_local s1.length s1 (le_refl _) [] v r h
    constructor
    · exact hv
    · refine ⟨w ++ '"' :: c, by simp, by rw [hs, hs1]; simp, fun r' => ?_⟩
      unfold parser.parse_string
      have := hexp (c ++ r')
      simp only [List.append_assoc, List.cons_append] at this ⊢
      rw [this]
      exact hext r'
  | error e => simp [he] at h
  | exhausted => simp [he] at h

end json
namespace json

theorem parse_number_eq_body (s : List Char) :
    parser.parse_number s =
      number_body (if parser.peek s = '-' then ['-'] else [])
        (if parser.peek s = '-' then (parser.get s).2 else s) := by
  unfold parser.parse_number number_body
  by_cases h : parser.peek s = '-'
  · simp only [h, if_true]
  · simp only [h, if_false]

theorem span_digits (ds rest : List Char) (h : ∀ c ∈ ds, isdigit c = true)
    (hr : ∀ c t, rest = c :: t → isdigit c = false) :
    (ds ++ rest).takeWhile isdigit = ds ∧ (ds ++ rest).dropWhile isdigit = rest := by
  have h1 : rest.takeWhile isdigit = [] ∧ rest.dropWhile isdigit = rest := by
    cases rest with
    | nil => simp
    | cons c t => simp [List.takeWhile_cons, List.dropWhile_cons, hr c t rfl]
  constructor
  · rw [List.takeWhile_append_of_pos h, h1.1, List.append_nil]
  · rw [List.dropWhile_append_of_pos h, h1.2]

theorem dropWhile_digits_head (s : List Char) :
    ∀ c t, s.dropWhile isdigit = c :: t → isdigit c = false := by
  induction s with
  | nil => intro c t h; simp at h
  | cons a s ih =>
    intro c t h
    by_cases ha : isdigit a = true
    · rw [List.dropWhile_cons, if_pos ha] at h
      exact ih c t h
    · rw [List.dropWhile_cons, if_neg ha] at h
      cases h
      simpa using ha

theorem num_end_head {r : List Char} (h : num_end r = true) :
    (∀ c t, r = c :: t → isdigit c = false) ∧ parser.peek r ≠ '.' := by
  cases r with
  | nil => exact ⟨fun c t h => (by cases h), by simp [parser.peek]⟩
  | cons d t =>
    simp only [num_end, Bool.and_eq_true, Bool.not_eq_true', bne_iff_ne] at h
    exact ⟨fun c t2 hc => (by cases hc; exact h.1), by simpa [parser.peek] using h.2⟩

theorem number_body_local {sign s1 r : List Char} {v : json}
    (h : number_body sign s1 = .ok v r) :
    is_number v = true ∧ ∃ c1, sign ++ c1 ≠ [] ∧ s1 = c1 ++ r ∧
      ∀ r', num_end r' = true → number_body sign (c1 ++ r') = .ok v r' := by
  have hip : ∀ c ∈ s1.takeWhile isdigit, isdigit c = true :=
    fun c hc => List.mem_takeWhile_imp hc
  have hs1 : s1 = s1.takeWhile isdigit ++ s1.dropWhile isdigit :=
    (List.takeWhile_append_dropWhile isdigit s1).symm
  unfold number_body at h
  by_cases hd : parser.peek (s1.dropWhile isdigit) = '.'
  · simp only [hd, if_true] at h
    obtain ⟨s3, hs3⟩ : ∃ s3, s1.dropWhile isdigit = '.' :: s3 := by
      cases hdw : s1.dropWhile isdigit with
      | nil => rw [hdw] at hd; simp [parser.peek] at hd
      | cons c t => rw [hdw] at hd; simp only [parser.peek] at hd; exact ⟨t, by rw [hd]⟩
    rw [hs3] at h
    simp only [parser.get, List.append_assoc] at h
    have hfp : ∀ c ∈ s3.takeWhile isdigit, isdigit c = true :=
      fun c hc => List.mem_takeWhile_imp hc
    have hs3' : s3 = s3.takeWhile isdigit ++ s3.dropWhile isdigit :=
      (List.takeWhile_append_dropWhile isdigit s3).symm
    cases hst : stod (sign ++ (s1.takeWhile isdigit ++ '.' :: s3.takeWhile isdigit)) with
    | error e => simp [hst] at h
    | ok d =>
      simp only [hst, PResult.ok.injEq] at h
      obtain ⟨hv, hr⟩ := h
      refine ⟨by rw [← hv]; rfl,
        s1.takeWhile isdigit ++ '.' :: s3.takeWhile isdigit, by simp, ?_, ?_⟩
      · rw [← hr]
        conv => lhs; rw [hs1, hs3, hs3']
        simp
      · intro r' hr'
        obtain ⟨hrd, -⟩ := num_end_head hr'
        have e1 := span_digits (s1.takeWhile isdigit) ('.' :: (s3.takeWhile isdigit ++ r')) hip
          (fun c t hc => by cases hc; decide)
        have e2 := span_digits (s3.takeWhile isdigit) r' hfp hrd
        unfold number_body
        simp only [List.append_assoc, List.cons_append] at e1 ⊢
        simp only [e1.1, e1.2, parser.peek, parser.get, if_true, e2.1, e2.2]
        rw [hst]
        simp only []
        rw [hv]
  · simp only [hd, if_false] at h
    cases hst : stoll (sign ++ s1.takeWhile isdigit) with
    | error e => simp [hst] at h
    | ok i =>
      simp only [hst, PResult.ok.injEq] at h
      obtain ⟨hv, hr⟩ := h
      refine ⟨by rw [← hv]; rfl, s1.takeWhile isdigit, ?_, ?_, ?_⟩
      · intro hnil
        rw [hnil] at hst
        simp [stoll, read_sign] at hst
      · rw [← hr]; exact hs1
      · intro r' hr'
        obtain ⟨hrd, hrp⟩ := num_end_head hr'
        have e1 := span_digits (s1.takeWhile isdigit) r' hip hrd
        unfold number_body
        simp only [e1.1, e1.2, hrp, if_false, hst, hv]

theorem parse_number_local {s r : List Char} {v : json} (h : parser.parse_number s = .ok v r) :
    is_number v = true ∧ ∃ c, c ≠ [] ∧ s = c ++ r ∧
      ∀ r', num_end r' = true → parser.parse_number (c ++ r') = .ok v r' := by
  rw [parse_number_eq_body] at h
  by_cases hm : parser.peek s = '-'
  · simp only [hm, if_true] at h
    obtain ⟨s1, rfl⟩ : ∃ s1, s = '-' :: s1 := by
      cases s with
      | nil => simp [parser.peek] at hm
      | cons c t => simp only [parser.peek] at hm; exact ⟨t, by rw [hm]⟩
    simp only [parser.get] at h
    obtain ⟨hnum, c1, _, hs1, hext⟩ := number_body_local h
    refine ⟨hnum, '-' :: c1, by simp, by rw [hs1]; rfl, fun r' hr' => ?_⟩
    rw [parse_number_eq_body]
    simp only [List.cons_append, parser.peek, parser.get, if_true]
    exact hext r' hr'
  · simp only [hm, if_false] at h
    obtain ⟨hnum, c1, hne, hs1, hext⟩ := number_body_local h
    simp only [List.nil_append] at hne
    refine ⟨hnum, c1, hne, hs1, fun r' hr' => ?_⟩
    rw [parse_number_eq_body]
    obtain ⟨a, t, rfl⟩ := List.exists_cons_of_ne_nil hne
    have ha : a ≠ '-' := by
      rw [hs1] at hm
      simpa [parser.peek] using hm
    simp only [List.cons_append, parser.peek, ha, if_false]
    exact hext r' hr'

theorem parse_bool_local {s r : List Char} {v : json} (h : parser.parse_bool s = .ok v r) :
    is_number v = false ∧
    ∃ c, c ≠ [] ∧ s = c ++ r ∧ ∀ r', parser.parse_bool (c ++ r') = .ok v r' := by
  unfold parser.parse_bool at h
  by_cases h4 : s.take 4 = ['t', 'r', 'u', 'e']
  · simp only [h4, if_true, PResult.ok.injEq] at h
    refine ⟨by rw [← h.1]; rfl, ['t', 'r', 'u', 'e'], by simp, ?_, fun r' => ?_⟩
    · rw [← h.2, ← h4, List.take_append_drop]
    · rw [← h.1]; simp [parser.parse_bool]
  · by_cases h5 : s.take 5 = ['f', 'a', 'l', 's', 'e']
    · simp only [h4, h5, if_true, if_false, PResult.ok.injEq] at h
      refine ⟨by rw [← h.1]; rfl, ['f', 'a', 'l', 's', 'e'], by simp, ?_, fun r' => ?_⟩
      · rw [← h.2, ← h5, List.take_append_drop]
      · rw [← h.1]; simp [parser.parse_bool]
    · simp [h4, h5] at h

theorem parse_null_local {s r : List Char} {v : json} (h : parser.parse_null s = .ok v r) :
    is_number v = false ∧
    ∃ c, c ≠ [] ∧ s = c ++ r ∧ ∀ r', parser.parse_null (c ++ r') = .ok v r' := by
  unfold parser.parse_null at h
  by_cases h4 : s.take 4 = ['n', 'u', 'l', 'l']
  · simp only [h4, if_true, PResult.ok.injEq] at h
    refine ⟨by rw [← h.1]; rfl, ['n', 'u', 'l', 'l'], by simp, ?_, fun r' => ?_⟩
    · rw [← h.2, ← h4, List.take_append_drop]
    · rw [← h.1]; simp [parser.parse_null]
  · simp [h4] at h

end json
namespace json

theorem expect_skip_ws (ch : Char) (s : List Char) :
    parser.expect ch (parser.skip_ws s) = parser.expect ch s := by
  simp [parser.expect, skip_ws_idem]

theorem isspace_not_digit (a : Char) (h : isspace a = true) : isdigit a = false ∧ a ≠ '.' := by
  simp only [isspace, Bool.or_eq_true, beq_iff_eq] at h
  rcases h with ((((h | h) | h) | h) | h) | h <;> subst h <;> decide

theorem num_end_ws_sep (w : List Char) (hw : ∀ x ∈ w, isspace x = true) (ch : Char)
    (hch : isdigit ch = false ∧ ch ≠ '.') (x : List Char) : num_end (w ++ ch :: x) = true := by
  cases w with
  | nil => simp [num_end, hch.1, hch.2]
  | cons a w2 =>
    have := isspace_not_digit a (hw a (by simp))
    simp [num_end, this.1, this.2]

/-- Replacing the tail after a value that `parse_value` dispatched on `c0`. -/
theorem parse_value_branch (f : Nat) (P : List Char → PResult json) (cond : List Char → Prop)
    (s w t r : List Char) (c0 : Char) (v : json)
    (hw : ∀ x ∈ w, isspace x = true) (hs : s = w ++ c0 :: t) (hsp : isspace c0 = false)
    (hdisp : ∀ x, parser.parse_value (f + 1) (c0 :: x) = P (c0 :: x))
    (hloc : ∃ c, c ≠ [] ∧ c0 :: t = c ++ r ∧ ∀ r', cond r' → P (c ++ r') = .ok v r') :
    ∃ c, c ≠ [] ∧ s = c ++ r ∧ ∀ r', cond r' → parser.parse_value (f + 1) (c ++ r') = .ok v r' := by
  obtain ⟨c, hc, hct, hext⟩ := hloc
  obtain ⟨a, c2, rfl⟩ := List.exists_cons_of_ne_nil hc
  have ha : a = c0 := by
    simp only [List.cons_append, List.cons.injEq] at hct
    exact hct.1.symm
  subst ha
  refine ⟨w ++ a :: c2, by simp, by rw [hs, hct]; simp, fun r' hr' => ?_⟩
  rw [List.append_assoc, parse_value_append_ws _ _ _ hw, List.cons_append, hdisp]
  exact hext r' hr'

theorem parse_local : ∀ f : Nat,
    (∀ s v r, parser.parse_value f s = .ok v r →
      ∃ c, c ≠ [] ∧ s = c ++ r ∧
        ∀ r', (is_number v = true → num_end r' = true) →
          parser.parse_value f (c ++ r') = .ok v r') ∧
    (∀ s v r, parser.parse_object f s = .ok v r →
      is_number v = false ∧
      ∃ c, c ≠ [] ∧ s = c ++ r ∧ ∀ r', parser.parse_object f (c ++ r') = .ok v r') ∧
    (∀ o s v r, parser.parse_object_loop f o s = .ok v r →
      is_number v = false ∧
      ∃ c, c ≠ [] ∧ s = c ++ r ∧ ∀ r', parser.parse_object_loop f o (c ++ r') = .ok v r') ∧
    (∀ s v r, parser.parse_array f s = .ok v r →
      is_number v = false ∧
      ∃ c, c ≠ [] ∧ s = c ++ r ∧ ∀ r', parser.parse_array f (c ++ r') = .ok v r') ∧
    (∀ a s v r, parser.parse_array_loop f a s = .ok v r →
      is_number v = false ∧
      ∃ c, c ≠ [] ∧ s = c ++ r ∧ ∀ r', parser.parse_array_loop f a (c ++ r') = .ok v r') := by
  intro f
  induction f with
  | zero =>
    refine ⟨?_, ?_, ?_, ?_, ?_⟩
    · intro s v r h; rw [parser.parse_value] at h; cases h
    · intro s v r h; rw [parser.parse_object] at h; cases h
    · intro o s v r h; rw [parser.parse_object_loop] at h; cases h
    · intro s v r h; rw [parser.parse_array] at h; cases h
    · intro a s v r h; rw [parser.parse_array_loop] at h; cases h
  | succ f ih =>
    obtain ⟨ihv, iho, ihol, iha, ihal⟩ := ih
    refine ⟨?_, ?_, ?_, ?_, ?_⟩
    · -- parse_value
      intro s v r h
      obtain ⟨w, hw, hs, hh⟩ := skip_ws_spec s
      cases hsk : parser.skip_ws s with
      | nil =>
        rw [parse_value_unexpected f s (by rw [hsk]; rfl)] at h
        cases h
      | cons c0 t =>
        have hsp := hh c0 t hsk
        rw [hsk] at hs
        rw [← parse_value_skip_ws, hsk, parse_value_dispatch _ _ _ hsp] at h
        by_cases h1 : c0 = '{'
        · simp only [h1, if_true] at h
          obtain ⟨-, hloc⟩ := iho _ v r h
          subst h1
          obtain ⟨c, hc, hct, hext⟩ := hloc
          exact parse_value_branch f (parser.parse_object f) _ s w t r '{' v hw hs hsp
            (fun x => by rw [parse_value_dispatch _ _ _ hsp]; simp)
            ⟨c, hc, hct, fun r' _ => hext r'⟩
        by_cases h2 : c0 = '['
        · simp only [h1, h2, if_true, if_false] at h
          obtain ⟨-, hloc⟩ := iha _ v r h
          subst h2
          obtain ⟨c, hc, hct, hext⟩ := hloc
          exact parse_value_branch f (parser.parse_array f) _ s w t r '[' v hw hs hsp
            (fun x => by rw [parse_value_dispatch _ _ _ hsp]; simp)
            ⟨c, hc, hct, fun r' _ => hext r'⟩
        by_cases h3 : c0 = '"'
        · subst h3
          rw [if_neg (by decide), if_neg (by decide), if_pos rfl] at h
          obtain ⟨-, hloc⟩ := parse_string_local h
          obtain ⟨c, hc, hct, hext⟩ := hloc
          exact parse_value_branch f parser.parse_string _ s w t r '"' v hw hs hsp
            (fun x => by rw [parse_value_dispatch _ _ _ hsp]; simp)
            ⟨c, hc, hct, fun r' _ => hext r'⟩
        by_cases h4 : c0 = 't' ∨ c0 = 'f'
        · simp only [h1, h2, h3, h4, if_true, if_false] at h
          obtain ⟨-, c, hc, hct, hext⟩ := parse_bool_local h
          exact parse_value_branch f parser.parse_bool _ s w t r c0 v hw hs hsp
            (fun x => by rw [parse_value_dispatch _ _ _ hsp]; simp [h1, h2, h3, h4])
            ⟨c, hc, hct, fun r' _ => hext r'⟩
        by_cases h5 : c0 = 'n'
        · subst h5
          rw [if_neg (by decide), if_neg (by decide), if_neg (by decide), if_neg (by decide),
            if_pos rfl] at h
          obtain ⟨-, c, hc, hct, hext⟩ := parse_null_local h
          exact parse_value_branch f parser.parse_null _ s w t r 'n' v hw hs hsp
            (fun x => by rw [parse_value_dispatch _ _ _ hsp]; simp)
            ⟨c, hc, hct, fun r' _ => hext r'⟩
        by_cases h6 : c0 = '-' ∨ isdigit c0 = true
        · simp only [h1, h2, h3, h4, h5, h6, if_true, if_false] at h
          obtain ⟨hnum, c, hc, hct, hext⟩ := parse_number_local h
          exact parse_value_branch f parser.parse_number _ s w t r c0 v hw hs hsp
            (fun x => by rw [parse_value_dispatch _ _ _ hsp]; simp [h1, h2, h3, h4, h5, h6])
            ⟨c, hc, hct, fun r' hr' => hext r' (hr' hnum)⟩
        · simp only [h1, h2, h3, h4, h5, h6, if_false] at h
          cases h
    · -- parse_object
      intro s v r h
      rw [parser.parse_object] at h
      cases he : parser.expect '{' s with
      | error e => simp [he] at h
      | exhausted => simp [he] at h
      | ok u s1 =>
        simp only [he] at h
        obtain ⟨w, hw, hs, hsp, hexp⟩ := expect_spec '{' s s1 u (by decide) he
        by_cases hp : parser.peek (parser.skip_ws s1) = '}'
        · simp only [hp, if_true, PResult.ok.injEq] at h
          obtain ⟨hv, hr⟩ := h
          obtain ⟨w2, hw2, hs1, hsp2⟩ := get_skip_ws_spec s1 '}' (by rw [← peek_eq_get]; exact hp)
            (by decide)
          rw [hr] at hs1
          refine ⟨by rw [← hv]; rfl, w ++ '{' :: (w2 ++ ['}']), by simp,
            by rw [hs, hs1]; simp, fun r' => ?_⟩
          have e : (w ++ '{' :: (w2 ++ ['}'])) ++ r' = w ++ '{' :: (w2 ++ '}' :: r') := by simp
          rw [e, parser.parse_object, hexp]
          simp only [skip_ws_append_ws _ _ hw2, skip_ws_cons _ _ hsp2, parser.peek, parser.get,
            if_true, hv]
        · simp only [hp, if_false] at h
          obtain ⟨hnum, c, hc, hct, hext⟩ := ihol _ _ v r h
          obtain ⟨w2, hw2, hs1, -⟩ := skip_ws_spec s1
          rw [hct] at hs1
          refine ⟨hnum, w ++ '{' :: (w2 ++ c), by simp, by rw [hs, hs1]; simp, fun r' => ?_⟩
          have e : (w ++ '{' :: (w2 ++ c)) ++ r' = w ++ '{' :: (w2 ++ (c ++ r')) := by simp
          have hpk := parse_object_loop_ok_peek (hext r')
          rw [e, parser.parse_object, hexp]
          simp only [skip_ws_append_ws _ _ hw2]
          rw [if_neg hpk, parse_object_loop_skip_ws]
          exact hext r'
    · -- parse_object_loop
      intro o s v r h
      rw [parser.parse_object_loop, parse_string_skip_ws] at h
      cases hps : parser.parse_string s with
      | error e => simp [hps] at h
      | exhausted => simp [hps] at h
      | ok k s1 =>
        simp only [hps] at h
        obtain ⟨-, ck, hck, hsk, hextk⟩ := parse_string_local hps
        cases hk : k.as_string with
        | error e => simp [hk] at h
        | ok key =>
          simp only [hk] at h
          rw [expect_skip_ws] at h
          cases he : parser.expect ':' s1 with
          | error e => simp [he] at h
          | exhausted => simp [he] at h
          | ok u s2 =>
            simp only [he] at h
            obtain ⟨w1, hw1, hs1, -, hexp1⟩ := expect_spec ':' s1 s2 u (by decide) he
            cases hpv : parser.parse_value f s2 with
            | error e => simp [hpv] at h
            | exhausted => simp [hpv] at h
            | ok val s3 =>
              simp only [hpv] at h
              obtain ⟨cv, hcv, hs2, hextv⟩ := ihv s2 val s3 hpv
              have hstart : ∀ Y, parser.parse_object_loop (f + 1) o
                  (ck ++ (w1 ++ ':' :: (cv ++ Y))) =
                  (if (parser.get (parser.skip_ws Y)).1 = '}' then
                    .ok (.obj (json_object.emplace o key val)) (parser.get (parser.skip_ws Y)).2
                  else if (parser.get (parser.skip_ws Y)).1 ≠ ',' then
                    .error (.runtime_error "expected \x27,\x27 or \x27\x7d\x27 in object")
                  else parser.parse_object_loop f (json_object.emplace o key val)
                    (parser.get (parser.skip_ws Y)).2) ∨
                  ¬ (is_number val = true → num_end Y = true) := by
                intro Y
                by_cases hY : is_number val = true → num_end Y = true
                · left
                  rw [parser.parse_object_loop, parse_string_skip_ws, hextk]
                  simp only [hk]
                  rw [expect_skip_ws, hexp1]
                  simp only []
                  rw [hextv Y hY]
                · exact Or.inr hY
              by_cases c1 : (parser.get (parser.skip_ws s3)).1 = '}'
              · simp only [c1, if_true, PResult.ok.injEq] at h
                obtain ⟨hv, hr⟩ := h
                obtain ⟨w3, hw3, hs3, hsp3⟩ := get_skip_ws_spec s3 '}' c1 (by decide)
                rw [hr] at hs3
                refine ⟨by rw [← hv]; rfl, ck ++ (w1 ++ ':' :: (cv ++ (w3 ++ ['}']))), by simp [hck],
                  by rw [hsk, hs1, hs2, hs3]; simp, fun r' => ?_⟩
                have e : (ck ++ (w1 ++ ':' :: (cv ++ (w3 ++ ['}'])))) ++ r'
                    = ck ++ (w1 ++ ':' :: (cv ++ (w3 ++ '}' :: r'))) := by simp
                rw [e]
                rcases hstart (w3 ++ '}' :: r') with hgo | hno
                · rw [hgo]
                  simp only [skip_ws_append_ws _ _ hw3, skip_ws_cons _ _ hsp3, parser.get,
                    if_true, hv]
                · exact absurd (fun _ => num_end_ws_sep w3 hw3 '}' (by decide) r') hno
              · by_cases c2 : (parser.get (parser.skip_ws s3)).1 ≠ ','
                · rw [if_neg c1, if_pos c2] at h
                  cases h
                · rw [if_neg c1, if_neg c2] at h
                  have c2' : (parser.get (parser.skip_ws s3)).1 = ',' := by
                    simpa using c2
                  obtain ⟨hnum, c4, hc4, hs4, hext4⟩ := ihol _ _ v r h
                  obtain ⟨w3, hw3, hs3, hsp3⟩ := get_skip_ws_spec s3 ',' c2' (by decide)
                  rw [hs4] at hs3
                  refine ⟨hnum, ck ++ (w1 ++ ':' :: (cv ++ (w3 ++ ',' :: c4))), by simp [hck],
                    by rw [hsk, hs1, hs2, hs3]; simp, fun r' => ?_⟩
                  have e : (ck ++ (w1 ++ ':' :: (cv ++ (w3 ++ ',' :: c4)))) ++ r'
                      = ck ++ (w1 ++ ':' :: (cv ++ (w3 ++ ',' :: (c4 ++ r')))) := by simp
                  rw [e]
                  rcases hstart (w3 ++ ',' :: (c4 ++ r')) with hgo | hno
                  · rw [hgo]
                    simp only [skip_ws_append_ws _ _ hw3, skip_ws_cons _ _ hsp3, parser.get]
                    rw [if_neg (by decide), if_neg (by decide)]
                    exact hext4 r'
                  · exact absurd (fun _ => num_end_ws_sep w3 hw3 ',' (by decide) _) hno
    · -- parse_array
      intro s v r h
      rw [parser.parse_array] at h
      cases he : parser.expect '[' s with
      | error e => simp [he] at h
      | exhausted => simp [he] at h
      | ok u s1 =>
        simp only [he] at h
        obtain ⟨w, hw, hs, hsp, hexp⟩ := expect_spec '[' s s1 u (by decide) he
        by_cases hp : parser.peek (parser.skip_ws s1) = ']'
        · simp only [hp, if_true, PResult.ok.injEq] at h
          obtain ⟨hv, hr⟩ := h
          obtain ⟨w2, hw2, hs1, hsp2⟩ := get_skip_ws_spec s1 ']' (by rw [← peek_eq_get]; exact hp)
            (by decide)
          rw [hr] at hs1
          refine ⟨by rw [← hv]; rfl, w ++ '[' :: (w2 ++ [']']), by simp,
            by rw [hs, hs1]; simp, fun r' => ?_⟩
          have e : (w ++ '[' :: (w2 ++ [']'])) ++ r' = w ++ '[' :: (w2 ++ ']' :: r') := by simp
          rw [e, parser.parse_array, hexp]
          simp only [skip_ws_append_ws _ _ hw2, skip_ws_cons _ _ hsp2, parser.peek, parser.get,
            if_true, hv]
        · simp only [hp, if_false] at h
          obtain ⟨hnum, c, hc, hct, hext⟩ := ihal _ _ v r h
          obtain ⟨w2, hw2, hs1, -⟩ := skip_ws_spec s1
          rw [hct] at hs1
          refine ⟨hnum, w ++ '[' :: (w2 ++ c), by simp, by rw [hs, hs1]; simp, fun r' => ?_⟩
          have e : (w ++ '[' :: (w2 ++ c)) ++ r' = w ++ '[' :: (w2 ++ (c ++ r')) := by simp
          have hpk := parse_array_loop_ok_peek (hext r')
          rw [e, parser.parse_array, hexp]
          simp only [skip_ws_append_ws _ _ hw2]
          rw [if_neg hpk, parse_array_loop_skip_ws]
          exact hext r'
    · -- parse_array_loop
      intro a s v r h
      rw [parser.parse_array_loop] at h
      cases hpv : parser.parse_value f s with
      | error e => simp [hpv] at h
      | exhausted => simp [hpv] at h
      | ok val s1 =>
        simp only [hpv] at h
        obtain ⟨cv, hcv, hs0, hextv⟩ := ihv s val s1 hpv
        have hstart : ∀ Y, (is_number val = true → num_end Y = true) →
            parser.parse_array_loop (f + 1) a (cv ++ Y) =
            (if (parser.get (parser.skip_ws Y)).1 = ']' then
              .ok (.arr (a ++ [val])) (parser.get (parser.skip_ws Y)).2
            else if (parser.get (parser.skip_ws Y)).1 ≠ ',' then
              .error (.runtime_error "expected \x27,\x27 or \x27]\x27 in array")
            else parser.parse_array_loop f (a ++ [val]) (parser.get (parser.skip_ws Y)).2) := by
          intro Y hY
          rw [parser.parse_array_loop, hextv Y hY]
        by_cases c1 : (parser.get (parser.skip_ws s1)).1 = ']'
        · simp only [c1, if_true, PResult.ok.injEq] at h
          obtain ⟨hv, hr⟩ := h
          obtain ⟨w3, hw3, hs3, hsp3⟩ := get_skip_ws_spec s1 ']' c1 (by decide)
          rw [hr] at hs3
          refine ⟨by rw [← hv]; rfl, cv ++ (w3 ++ [']']), by simp [hcv],
            by rw [hs0, hs3]; simp, fun r' => ?_⟩
          have e : (cv ++ (w3 ++ [']'])) ++ r' = cv ++ (w3 ++ ']' :: r') := by simp
          rw [e, hstart _ (fun _ => num_end_ws_sep w3 hw3 ']' (by decide) r')]
          simp only [skip_ws_append_ws _ _ hw3, skip_ws_cons _ _ hsp3, parser.get, if_true, hv]
        · by_cases c2 : (parser.get (parser.skip_ws s1)).1 ≠ ','
          · rw [if_neg c1, if_pos c2] at h
            cases h
          · rw [if_neg c1, if_neg c2] at h
            have c2' : (parser.get (parser.skip_ws s1)).1 = ',' := by simpa using c2
            obtain ⟨hnum, c4, hc4, hs4, hext4⟩ := ihal _ _ v r h
            obtain ⟨w3, hw3, hs3, hsp3⟩ := get_skip_ws_spec s1 ',' c2' (by decide)
            rw [hs4] at hs3
            refine ⟨hnum, cv ++ (w3 ++ ',' :: c4), by simp [hcv],
              by rw [hs0, hs3]; simp, fun r' => ?_⟩
            have e : (cv ++ (w3 ++ ',' :: c4)) ++ r' = cv ++ (w3 ++ ',' :: (c4 ++ r')) := by simp
            rw [e, hstart _ (fun _ => num_end_ws_sep w3 hw3 ',' (by decide) _)]
            simp only [skip_ws_append_ws _ _ hw3, skip_ws_cons _ _ hsp3, parser.get]
            rw [if_neg (by decide), if_neg (by decide)]
            exact hext4 r'

end json
namespace json

/-! ## Texts that parse, put into a larger text -/

theorem parse_ok_extend {t : List Char} {v : json} (h : parse t = .ok v) :
    ∃ c w, t = c ++ w ∧ (∀ x ∈ w, isspace x = true) ∧
      ∀ (fuel : Nat) (Y : List Char), 3 * t.length + 3 ≤ fuel →
        (is_number v = true → num_end (w ++ Y) = true) →
        parser.parse_value fuel (c ++ (w ++ Y)) = .ok v (w ++ Y) := by
  obtain ⟨r, hpv, hr⟩ := (parse_ok_iff t v).1 h
  obtain ⟨c, -, hc, hext⟩ := (parse_local (3 * t.length + 3)).1 t v r hpv
  have hw : ∀ x ∈ r, isspace x = true := by
    rw [skip_ws_eq_dropWhile, List.dropWhile_eq_nil_iff] at hr
    exact hr
  refine ⟨c, r, hc, hw, fun fuel Y hf hY => ?_⟩
  have h1 := hext (r ++ Y) hY
  rw [parse_value_fuel_mono hf (by rw [h1]; simp), h1]

/-- C16: at the top level `parse` accepts one value followed only by whitespace:
when a text `t` parses to a value `v` that is not a number, `parse(t + x)` succeeds
exactly when `x` consists of whitespace only, and then yields `v`; a
non-whitespace character anywhere in `x` makes it throw "extra characters after
JSON document". -/
theorem parse_trailing (t x : List Char) (v : json) (ht : parse t = .ok v)
    (hv : is_number v = false) :
    (∀ v2, parse (t ++ x) = .ok v2 ↔ (∀ c ∈ x, isspace c = true) ∧ v2 = v) ∧
    ((∃ c ∈ x, isspace c = false) →
      parse (t ++ x) = .error (.runtime_error "extra characters after JSON document")) := by
  obtain ⟨c, w, hc, hw, hext⟩ := parse_ok_extend ht
  have hpv : parser.parse_value (3 * (t ++ x).length + 3) (t ++ x) = .ok v (w ++ x) := by
    have := hext (3 * (t ++ x).length + 3) x (by rw [List.length_append]; omega)
      (fun h => by rw [hv] at h; cases h)
    rw [← List.append_assoc, ← hc] at this
    exact this
  have hsk : parser.skip_ws (w ++ x) = parser.skip_ws x := skip_ws_append_ws w x hw
  have hall : parser.skip_ws x = [] ↔ ∀ c ∈ x, isspace c = true := by
    rw [skip_ws_eq_dropWhile, List.dropWhile_eq_nil_iff]
  constructor
  · intro v2
    rw [parse_ok_iff, hpv]
    constructor
    · rintro ⟨r, h1, h2⟩
      cases h1
      rw [hsk] at h2
      exact ⟨hall.1 h2, rfl⟩
    · rintro ⟨h1, rfl⟩
      exact ⟨w ++ x, rfl, by rw [hsk]; exact hall.2 h1⟩
  · rintro ⟨a, ha, hsp⟩
    have hne : parser.skip_ws x ≠ [] := by
      intro h0
      have := hall.1 h0 a ha
      rw [hsp] at this
      cases this
    unfold parse
    rw [hpv]
    simp only [hsk]
    cases hx : parser.skip_ws x with
    | nil => exact absurd hx hne
    | cons d t2 => simp [parser.eof]

theorem parse_trailing_witness :
    parse "[1, true]".toList = .ok (arr [int 1, bool true]) ∧
    is_number (arr [int 1, bool true]) = false ∧
    parse "[1, true] \n".toList = .ok (arr [int 1, bool true]) ∧
    parse "[1, true] x".toList =
      .error (.runtime_error "extra characters after JSON document") := by
  have ht : parse "[1, true]".toList = .ok (arr [int 1, bool true]) := by rfl
  have h := parse_trailing "[1, true]".toList " \n".toList _ ht rfl
  have h2 := parse_trailing "[1, true]".toList " x".toList _ ht rfl
  refine ⟨ht, rfl, ?_, ?_⟩
  · exact (h.1 _).2 ⟨by decide, rfl⟩
  · exact h2.2 ⟨'x', by decide, by decide⟩

theorem parse_array_loop_parsed :
    ∀ (es : List (List Char × json)), es ≠ [] → (∀ e ∈ es, parse e.1 = .ok e.2) →
      ∀ (fuel : Nat) (a : json_array) (rest : List Char),
        3 * (join_comma (es.map Prod.fst)).length + 4 ≤ fuel →
        parser.parse_array_loop fuel a (join_comma (es.map Prod.fst) ++ ']' :: rest) =
          .ok (arr (a ++ es.map Prod.snd)) rest := by
  intro es
  induction es with
  | nil => intro h; exact absurd rfl h
  | cons e es ih =>
    intro _ hall fuel a rest hf
    obtain ⟨t, v⟩ := e
    have ht : parse t = .ok v := hall (t, v) (by simp)
    obtain ⟨c, w, hc, hw, hext⟩ := parse_ok_extend ht
    obtain ⟨f, rfl⟩ : ∃ f, fuel = f + 1 := ⟨fuel - 1, by omega⟩
    cases es with
    | nil =>
      simp only [List.map, join_comma] at hf ⊢
      have h1 := hext f (']' :: rest) (by omega)
        (fun _ => num_end_ws_sep w hw ']' (by decide) rest)
      rw [← List.append_assoc, ← hc] at h1
      rw [parser.parse_array_loop, h1]
      simp [skip_ws_append_ws _ _ hw, skip_ws_cons _ _ (show isspace ']' = false by decide),
        parser.get]
    | cons e2 es2 =>
      have hlen : (join_comma (List.map Prod.fst ((t, v) :: e2 :: es2))).length =
          t.length + 1 + (join_comma (List.map Prod.fst (e2 :: es2))).length := by
        simp [join_comma]; omega
      have hrec := ih (by simp) (fun e he => hall e (by simp [he]))
        f (a ++ [v]) rest (by omega)
      have htxt : join_comma (List.map Prod.fst ((t, v) :: e2 :: es2)) ++ ']' :: rest =
          t ++ (',' :: (join_comma (List.map Prod.fst (e2 :: es2)) ++ ']' :: rest)) := by
        simp [join_comma]
      have h1 := hext f (',' :: (join_comma (List.map Prod.fst (e2 :: es2)) ++ ']' :: rest))
        (by omega) (fun _ => num_end_ws_sep w hw ',' (by decide) _)
      rw [← List.append_assoc, ← hc] at h1
      rw [htxt, parser.parse_array_loop, h1]
      simp only [skip_ws_append_ws _ _ hw, skip_ws_cons _ _ (show isspace ',' = false by decide),
        parser.get]
      rw [if_neg (by decide), if_neg (by decide), hrec]
      simp

/-- C15: if the texts `t1..tn` (`n ≥ 1`) parse to the values `v1..vn`, then the text
`[t1,...,tn]` parses to the Array `[v1, ..., vn]`: exactly `n` elements, the i-th
being `vi`, none dropped, duplicated or reordered, equal elements all kept. -/
theorem parse_array_order (es : List (List Char × json)) (hne : es ≠ [])
    (h : ∀ e ∈ es, parse e.1 = .ok e.2) :
    parse (array_text (es.map Prod.fst)) = .ok (arr (es.map Prod.snd)) ∧
    size (arr (es.map Prod.snd)) = es.length := by
  refine ⟨?_, by simp [size]⟩
  have hlen : (array_text (es.map Prod.fst)).length
      = (join_comma (es.map Prod.fst)).length + 2 := by
    simp [array_text]
  have hloop := parse_array_loop_parsed es hne h
    (3 * (array_text (es.map Prod.fst)).length + 1) [] [] (by omega)
  have hpk := parse_array_loop_ok_peek hloop
  refine @parse_of_parse_value _ [] _ ?_ (by simp)
  rw [show 3 * (array_text (es.map Prod.fst)).length + 3
    = (3 * (array_text (es.map Prod.fst)).length + 1) + 1 + 1 from rfl]
  conv => lhs; arg 2; rw [array_text]
  simp only [List.cons_append]
  rw [parse_value_dispatch _ _ _ (show isspace '[' = false by decide)]
  simp only [show ¬ ('[' = '{') by decide, if_false, if_true]
  rw [parser.parse_array, (expect_here '[' (by decide) _).1]
  simp only []
  rw [if_neg hpk, parse_array_loop_skip_ws]
  simpa using hloop

theorem parse_array_order_witness :
    (∀ e ∈ [(" 1 ".toList, int 1), ("\"a\"".toList, str ['a']), ("1".toList, int 1),
        ("[ ]".toList, arr [])], parse e.1 = .ok e.2) ∧
    array_text [" 1 ".toList, "\"a\"".toList, "1".toList, "[ ]".toList]
      = "[ 1 ,\"a\",1,[ ]]".toList ∧
    parse "[ 1 ,\"a\",1,[ ]]".toList = .ok (arr [int 1, str ['a'], int 1, arr []]) := by
  have h : ∀ e ∈ [(" 1 ".toList, int 1), ("\"a\"".toList, str ['a']), ("1".toList, int 1),
      ("[ ]".toList, arr [])], parse e.1 = .ok e.2 := by
    intro e he
    simp only [List.mem_cons, List.mem_singleton, List.not_mem_nil, or_false] at he
    rcases he with rfl | rfl | rfl | rfl <;> rfl
  have e : array_text [" 1 ".toList, "\"a\"".toList, "1".toList, "[ ]".toList]
      = "[ 1 ,\"a\",1,[ ]]".toList := by rfl
  refine ⟨h, e, ?_⟩
  rw [← e]
  exact (parse_array_order _ (by simp) h).1

end json
namespace json

/-! ## Integer literals outside the 64-bit range -/

theorem parse_value_integer_literal (n : Int) (k f : Nat) (rest : List Char)
    (hr : num_end rest = true) :
    parser.parse_value (f + 1) (integer_literal n k ++ rest) =
      if inInt64 n then .ok (int n) rest else .error (.out_of_range "stoll") := by
  obtain ⟨hne, hall, hval⟩ := decimal_digits_spec n.natAbs
  have hall2 : ∀ c ∈ List.replicate k '0' ++ decimal_digits n.natAbs, isdigit c = true := by
    intro c hc
    rcases List.mem_append.1 hc with h1 | h1
    · rw [List.eq_of_mem_replicate h1]; decide
    · exact hall c h1
  have hne2 : List.replicate k '0' ++ decimal_digits n.natAbs ≠ [] := by simp [hne]
  obtain ⟨c, t, hct⟩ := List.exists_cons_of_ne_nil hne2
  have hd : isdigit c = true := hall2 c (by rw [hct]; simp)
  have hc := isdigit_not_special c hd
  obtain ⟨p1, p2⟩ := parse_number_digits _ hne2 hall2 rest hr
  obtain ⟨s1, s2⟩ := stoll_digits _ hne2 hall2
  rw [digits_value_zeros, hval] at s1 s2
  by_cases hneg : n < 0
  · have e : integer_literal n k ++ rest
        = '-' :: ((List.replicate k '0' ++ decimal_digits n.natAbs) ++ rest) := by
      simp [integer_literal, hneg]
    have hn : -((n.natAbs : Nat) : Int) = n := by omega
    rw [e, parse_value_dispatch _ _ _ (show isspace '-' = false by decide)]
    simp only [show ¬ ('-' = '{') by decide, show ¬ ('-' = '[') by decide,
      show ¬ ('-' = '"') by decide, show ¬ ('-' = 't' ∨ '-' = 'f') by decide,
      show ¬ ('-' = 'n') by decide, if_false, true_or, if_true]
    rw [p2, s2, hn]
    have hmax : n ≤ INT64_MAX := by unfold INT64_MAX; omega
    by_cases h1 : INT64_MIN ≤ n
    · simp [inInt64, h1, hmax]
    · simp [inInt64, h1]
  · have e : integer_literal n k ++ rest
        = (List.replicate k '0' ++ decimal_digits n.natAbs) ++ rest := by
      simp [integer_literal, hneg]
    have hn : ((n.natAbs : Nat) : Int) = n := by omega
    rw [e]
    conv => lhs; rw [hct]
    rw [List.cons_append, parse_value_dispatch _ _ _ hc.1]
    simp only [hc, hd, if_false, or_true, if_true, false_or]
    rw [← List.cons_append, ← hct, p1, s1, hn]
    have hmin : INT64_MIN ≤ n := by unfold INT64_MIN; omega
    by_cases h1 : n ≤ INT64_MAX
    · simp [inInt64, h1, hmin]
    · simp [inInt64, h1]

/-- C28 (as the code behaves): an integer literal whose value lies outside the signed
64-bit range is rejected: `std::stoll` throws `out_of_range`, so `parse` returns
no Integer at all, clamped or not.  Holds with any number of leading zeros and for
the 30-digit literal of the example. -/
theorem parse_integer_out_of_range (n : Int) (k : Nat) (h : ¬ inInt64 n) :
    parse (integer_literal n k) = .error (.out_of_range "stoll") ∧
    (∀ v, parse (integer_literal n k) ≠ .ok v) ∧
    parse "123456789012345678901234567890".toList = .error (.out_of_range "stoll") ∧
    parse "-9223372036854775809".toList = .error (.out_of_range "stoll") := by
  have hp : parse (integer_literal n k) = .error (.out_of_range "stoll") := by
    apply parse_of_parse_value_error
    have := parse_value_integer_literal n k (3 * (integer_literal n k).length + 2) [] rfl
    simpa [h] using this
  refine ⟨hp, ?_, by rfl, by rfl⟩
  intro v hv
  rw [hp] at hv
  cases hv

theorem parse_integer_out_of_range_witness :
    ¬ inInt64 9223372036854775808 ∧
    integer_literal 9223372036854775808 2 = "009223372036854775808".toList ∧
    parse "009223372036854775808".toList = .error (.out_of_range "stoll") := by
  have h : ¬ inInt64 9223372036854775808 := by decide
  have e : integer_literal 9223372036854775808 2 = "009223372036854775808".toList := by rfl
  refine ⟨h, e, ?_⟩
  rw [← e]
  exact (parse_integer_out_of_range 9223372036854775808 2 h).1

/-- C28 fails as stated: the literal `9223372036854775808` (2^63) is rejected with
the exception `out_of_range` of `std::stoll`; no Integer is returned, in
particular not the clamped value 2^63 - 1. -/
theorem integer_overflow_not_clamped :
    ¬ inInt64 9223372036854775808 ∧
    parse "9223372036854775808".toList = .error (.out_of_range "stoll") ∧
    parse "9223372036854775808".toList ≠ .ok (int INT64_MAX) ∧
    ¬ ∃ i, parse "9223372036854775808".toList = .ok (int i) := by
  have hp : parse "9223372036854775808".toList = .error (.out_of_range "stoll") := by rfl
  refine ⟨by decide, hp, ?_, ?_⟩
  · rw [hp]; intro h; cases h
  · rintro ⟨i, hi⟩
    rw [hp] at hi
    cases hi

end json
namespace json

/-! ## String literals at the top level -/

theorem parse_string_literal (body : List Char) :
    (∀ v r, parser.parse_string_loop [] body = .ok v r →
      parse ('"' :: body) =
        if parser.skip_ws r = [] then .ok v
        else .error (.runtime_error "extra characters after JSON document")) ∧
    (∀ e, parser.parse_string_loop [] body = .error e → parse ('"' :: body) = .error e) := by
  have h : parser.parse_value (3 * ('"' :: body).length + 3) ('"' :: body)
      = parser.parse_string_loop [] body := by
    rw [show 3 * ('"' :: body).length + 3 = (3 * ('"' :: body).length + 2) + 1 from rfl,
      parse_value_dispatch _ _ _ (show isspace '"' = false by decide)]
    simp only [show ¬ ('"' = '{') by decide, show ¬ ('"' = '[') by decide, if_false, if_true]
    rw [parser.parse_string, (expect_here '"' (by decide) _).1]
  constructor
  · intro v r hl
    unfold parse
    rw [h, hl]
    simp only []
    cases hx : parser.skip_ws r with
    | nil => simp [parser.eof]
    | cons d t => simp [parser.eof]
  · intro e hl
    unfold parse
    rw [h, hl]

theorem string_body_nil : string_body [] [] := by
  intro out rest; simp

theorem string_body_append {t1 k1 t2 k2 : List Char} (h1 : string_body t1 k1)
    (h2 : string_body t2 k2) : string_body (t1 ++ t2) (k1 ++ k2) := by
  intro out rest
  rw [List.append_assoc, h1, h2, List.append_assoc]

theorem string_body_plain (b : List Char) (hb : ∀ c ∈ b, c ≠ '"' ∧ c ≠ '\\') :
    string_body b b := by
  induction b with
  | nil => exact string_body_nil
  | cons c b ih =>
    intro out rest
    have hc := hb c (by simp)
    rw [List.cons_append, parse_string_loop_plain c hc.1 hc.2,
      ih (fun x hx => hb x (by simp [hx])) (out ++ [c]) rest]
    simp

theorem string_body_escape (e x : Char) (h : unescape e = some x) :
    string_body ['\\', e] [x] := by
  intro out rest
  have := parse_string_loop_two_char out rest
  unfold unescape at h
  split_ifs at h with e1 e2 e3 e4 e5 e6 e7 e8 <;> cases h <;> subst_vars
  · exact this.1
  · exact this.2.1
  · exact this.2.2.1
  · exact this.2.2.2.1
  · exact this.2.2.2.2.1
  · exact this.2.2.2.2.2.1
  · exact this.2.2.2.2.2.2.1
  · exact this.2.2.2.2.2.2.2

theorem string_body_unicode (h1 h2 h3 h4 : Char)
    (hx : (isxdigit h1 && isxdigit h2 && isxdigit h3 && isxdigit h4) = true) :
    string_body ['\\', 'u', h1, h2, h3, h4] ['?'] := by
  intro out rest
  conv => lhs; rw [parser.parse_string_loop.eq_def]
  simp only [List.cons_append, List.nil_append]
  simp [hx]

theorem parse_string_loop_end (out : List Char) :
    parser.parse_string_loop out [] = .error (.runtime_error "unterminated string") ∧
    parser.parse_string_loop out ['\\'] = .error (.runtime_error "unterminated escape") := by
  constructor
  · rw [parser.parse_string_loop.eq_def]
  · rw [parser.parse_string_loop.eq_def]; simp

theorem parse_string_loop_bad_escape (out tail : List Char) (e : Char)
    (h : unescape e = none) (hu : e ≠ 'u') :
    parser.parse_string_loop out ('\\' :: e :: tail) =
      .error (.runtime_error ("invalid escape \\".push e)) := by
  unfold unescape at h
  split_ifs at h with e1 e2 e3 e4 e5 e6 e7 e8
  rw [parser.parse_string_loop.eq_def]
  simp [e1, e2, e3, e4, e5, e6, e7, e8, hu]

theorem parse_string_loop_bad_unicode (out tail : List Char) (h : four_hex tail = false) :
    parser.parse_string_loop out ('\\' :: 'u' :: tail) =
      .error (.runtime_error "invalid \\u escape") := by
  rcases tail with _ | ⟨h1, _ | ⟨h2, _ | ⟨h3, _ | ⟨h4, s3⟩⟩⟩⟩
  · rw [parser.parse_string_loop.eq_def]; simp
  · rw [parser.parse_string_loop.eq_def]; simp
  · rw [parser.parse_string_loop.eq_def]; simp
  · rw [parser.parse_string_loop.eq_def]; simp
  · simp only [four_hex] at h
    rw [parser.parse_string_loop.eq_def]
    simp only []
    simp [h]

theorem parse_string_loop_ok_quote : ∀ (n : Nat) (s : List Char), s.length ≤ n →
    ∀ (out : List Char) (v : json) (r : List Char),
      parser.parse_string_loop out s = .ok v r → ∃ c, s = c ++ '"' :: r := by
  intro n
  induction n with
  | zero =>
    intro s hs out v r h
    have : s = [] := List.length_eq_zero.1 (by omega)
    subst this
    rw [parser.parse_string_loop.eq_def] at h
    simp at h
  | succ n ih =>
    intro s hs out v r h
    rcases parse_string_loop_cases out s with hno | ⟨r0, rfl, hq⟩ | ⟨p, out2, s1, hp, rfl, hstep⟩
    · exact absurd h (hno v r)
    · rw [hq r0] at h
      cases h
      exact ⟨[], rfl⟩
    · rw [hstep s1] at h
      have hlen : s1.length ≤ n := by
        have : 0 < p.length := List.length_pos.2 hp
        simp only [List.length_append] at hs
        omega
      obtain ⟨c, hc⟩ := ih s1 hlen out2 v r h
      exact ⟨p ++ c, by rw [hc, List.append_assoc]⟩

theorem parse_string_loop_not_exhausted : ∀ (n : Nat) (s : List Char), s.length ≤ n →
    ∀ out : List Char, parser.parse_string_loop out s ≠ .exhausted := by
  intro n
  induction n with
  | zero =>
    intro s hs out
    have : s = [] := List.length_eq_zero.1 (by omega)
    subst this
    rw [(parse_string_loop_end out).1]
    simp
  | succ n ih =>
    intro s hs out h
    rcases s with _ | ⟨c, s2⟩
    · rw [(parse_string_loop_end out).1] at h; cases h
    have hs2 : ∀ o, parser.parse_string_loop o s2 ≠ .exhausted :=
      ih s2 (by simp only [List.length_cons] at hs; omega)
    by_cases hq : c = '"'
    · subst hq; rw [parse_string_loop_quote] at h; cases h
    by_cases hb : c = '\\'
    · subst hb
      rcases s2 with _ | ⟨e, s3⟩
      · rw [(parse_string_loop_end out).2] at h; cases h
      have hs3 : ∀ o, parser.parse_string_loop o s3 ≠ .exhausted :=
        ih s3 (by simp only [List.length_cons] at hs; omega)
      cases hun : unescape e with
      | some x => exact hs3 _ (by rw [← string_body_escape e x hun out s3]; exact h)
      | none =>
        by_cases hu : e = 'u'
        · subst hu
          cases hf : four_hex s3 with
          | false => rw [parse_string_loop_bad_unicode out s3 hf] at h; cases h
          | true =>
            rcases s3 with _ | ⟨h1, _ | ⟨h2, _ | ⟨h3, _ | ⟨h4, s4⟩⟩⟩⟩ <;>
              simp only [four_hex] at hf <;> try cases hf
            have := string_body_unicode h1 h2 h3 h4 hf out s4
            simp only [List.cons_append, List.nil_append] at this
            rw [this] at h
            exact ih s4 (by simp only [List.length_cons] at hs; omega) _ h
        · rw [parse_string_loop_bad_escape out s3 e hun hu] at h; cases h
    · rw [parse_string_loop_plain c hq hb] at h
      exact hs2 _ h

theorem parse_ends_in_backslash (body : List Char) :
    ∃ e, parse ('"' :: (body ++ ['\\'])) = .error e := by
  obtain ⟨hok, herr⟩ := parse_string_literal (body ++ ['\\'])
  cases hl : parser.parse_string_loop [] (body ++ ['\\']) with
  | ok v r =>
    obtain ⟨c, hc⟩ := parse_string_loop_ok_quote _ _ (le_refl _) [] v r hl
    have hr : parser.skip_ws r ≠ [] := by
      intro h0
      rw [skip_ws_eq_dropWhile, List.dropWhile_eq_nil_iff] at h0
      have hrev := congrArg List.reverse hc
      simp only [List.reverse_append, List.reverse_cons, List.reverse_nil, List.nil_append,
        List.singleton_append, List.append_assoc] at hrev
      cases hrr : r.reverse with
      | nil =>
        rw [hrr] at hrev
        simp only [List.nil_append, List.cons.injEq] at hrev
        exact absurd hrev.1 (by decide)
      | cons z zs =>
        rw [hrr] at hrev
        simp only [List.cons_append, List.cons.injEq] at hrev
        have hz : z ∈ r := by
          rw [← List.mem_reverse, hrr]; simp
        have := h0 z hz
        rw [← hrev.1] at this
        exact absurd this (by decide)
    exact ⟨_, by rw [hok v r hl, if_neg hr]⟩
  | error e => exact ⟨e, herr e hl⟩
  | exhausted => exact absurd hl (parse_string_loop_not_exhausted _ _ (le_refl _) [])

theorem parse_body_ok {t k : List Char} (h : string_body t k) :
    parse ('"' :: (t ++ ['"'])) = .ok (str k) := by
  have hl : parser.parse_string_loop [] (t ++ ['"']) = .ok (str k) [] := by
    rw [h, parse_string_loop_quote, List.nil_append]
  rw [(parse_string_literal _).1 _ _ hl]
  simp [parser.skip_ws]

theorem parse_body_error {t k X : List Char} {e : Exn} (h : string_body t k)
    (hX : ∀ out, parser.parse_string_loop out X = .error e) :
    parse ('"' :: (t ++ X)) = .error e := by
  apply (parse_string_literal _).2
  rw [h, hX]

/-- C22: a string literal that is never closed fails: for every `b` without quote and
backslash, and more generally for every body text `pre` of a string literal (escapes
included), the input `"` + body throws "unterminated string"; when the input ends right
after the backslash of an escape the parser throws "unterminated escape"; and any
input that starts with a quote and ends in a backslash is rejected. -/
theorem parse_unterminated_string (b pre kpre body : List Char)
    (hb : ∀ c ∈ b, c ≠ '"' ∧ c ≠ '\\') (hpre : string_body pre kpre) :
    parse ('"' :: b) = .error (.runtime_error "unterminated string") ∧
    parse ('"' :: pre) = .error (.runtime_error "unterminated string") ∧
    parse ('"' :: (pre ++ ['\\'])) = .error (.runtime_error "unterminated escape") ∧
    parse ('"' :: (b ++ ['\\'])) = .error (.runtime_error "unterminated escape") ∧
    ∃ e, parse ('"' :: (body ++ ['\\'])) = .error e := by
  have h1 := @parse_body_error _ _ [] _ hpre (fun out => (parse_string_loop_end out).1)
  have h2 := @parse_body_error _ _ [] _ (string_body_plain b hb)
    (fun out => (parse_string_loop_end out).1)
  rw [List.append_nil] at h1 h2
  exact ⟨h2, h1, parse_body_error hpre (fun out => (parse_string_loop_end out).2),
    parse_body_error (string_body_plain b hb) (fun out => (parse_string_loop_end out).2),
    parse_ends_in_backslash body⟩

theorem parse_unterminated_string_witness :
    (∀ c ∈ ['a', ' ', 'b'], c ≠ '"' ∧ c ≠ '\\') ∧
    string_body ['x', '\\', '"', 'y'] ['x', '"', 'y'] ∧
    parse ['"', 'a', ' ', 'b'] = .error (.runtime_error "unterminated string") ∧
    parse ['"', 'x', '\\', '"', 'y'] = .error (.runtime_error "unterminated string") ∧
    parse ['"', 'x', '\\', '"', 'y', '\\'] = .error (.runtime_error "unterminated escape") ∧
    parse ['"'] = .error (.runtime_error "unterminated string") := by
  have hb : ∀ c ∈ ['a', ' ', 'b'], c ≠ '"' ∧ c ≠ '\\' := by decide
  have hpre : string_body ['x', '\\', '"', 'y'] ['x', '"', 'y'] :=
    string_body_append (string_body_plain ['x'] (by decide))
      (string_body_append (string_body_escape '"' '"' rfl) (string_body_plain ['y'] (by decide)))
  have h := parse_unterminated_string ['a', ' ', 'b'] _ _ [] hb hpre
  exact ⟨hb, hpre, h.1, h.2.1, h.2.2.1, by rfl⟩

/-- C23: inside a string literal a backslash followed by one of the eight characters
`"`, `\`, `/`, `b`, `f`, `n`, `r`, `t` contributes exactly one character: quote,
backslash, slash, backspace, form feed, newline, carriage return, tab; a backslash
followed by any character other than these eight and `u` makes `parse` throw
"invalid escape". -/
theorem parse_escape_decoding (pre kpre post kpost : List Char) (e : Char)
    (hpre : string_body pre kpre) (hpost : string_body post kpost) :
    (∀ x, unescape e = some x →
      parse ('"' :: (pre ++ '\\' :: e :: (post ++ ['"']))) = .ok (str (kpre ++ x :: kpost))) ∧
    (unescape e = none → e ≠ 'u' → ∀ tail,
      parse ('"' :: (pre ++ '\\' :: e :: tail)) =
        .error (.runtime_error ("invalid escape \\".push e))) ∧
    unescape '"' = some '"' ∧ unescape '\\' = some '\\' ∧ unescape '/' = some '/' ∧
    unescape 'b' = some '\x08' ∧ unescape 'f' = some '\x0c' ∧ unescape 'n' = some '\n' ∧
    unescape 'r' = some '\r' ∧ unescape 't' = some '\t' ∧
    (∀ x, unescape e = some x →
      e = '"' ∨ e = '\\' ∨ e = '/' ∨ e = 'b' ∨ e = 'f' ∨ e = 'n' ∨ e = 'r' ∨ e = 't') := by
  refine ⟨fun x hx => ?_, fun hn hu tail => ?_, rfl, rfl, rfl, rfl, rfl, rfl, rfl, rfl,
    fun x hx => ?_⟩
  · have hb := string_body_append hpre (string_body_append (string_body_escape e x hx) hpost)
    have := parse_body_ok hb
    simpa using this
  · exact parse_body_error hpre (fun out => parse_string_loop_bad_escape out tail e hn hu)
  · unfold unescape at hx
    split_ifs at hx <;> simp_all

theorem parse_escape_decoding_witness :
    string_body ['a'] ['a'] ∧ string_body ['\\', '\\', 'z'] ['\\', 'z'] ∧
    parse ['"', 'a', '\\', 'n', '\\', '\\', 'z', '"'] = .ok (str ['a', '\n', '\\', 'z']) ∧
    parse ['"', 'a', '\\', 'x', '4', '1', '"'] = .error (.runtime_error "invalid escape \\x") ∧
    parse ['"', 'a', '\\', 'N', '"'] = .error (.runtime_error "invalid escape \\N") := by
  have h1 : string_body ['a'] ['a'] := string_body_plain ['a'] (by decide)
  have h2 : string_body ['\\', '\\', 'z'] ['\\', 'z'] :=
    string_body_append (string_body_escape '\\' '\\' rfl) (string_body_plain ['z'] (by decide))
  exact ⟨h1, h2, (parse_escape_decoding ['a'] ['a'] _ _ 'n' h1 h2).1 '\n' rfl,
    (parse_escape_decoding ['a'] ['a'] _ _ 'x' h1 h2).2.1 rfl (by decide) ['4', '1', '"'],
    (parse_escape_decoding ['a'] ['a'] _ _ 'N' h1 h2).2.1 rfl (by decide) ['"']⟩

/-- C24: for every four hexadecimal digits (either case) the escape `\u` followed by
them is consumed whole and decoded to the one character `?`, whatever the digits:
the literal made of this escape alone is the String "?"; when the four characters
after `\u` are not all hexadecimal digits, or the input ends before the fourth,
`parse` throws "invalid \u escape". -/
theorem parse_unicode_escape (pre kpre post kpost : List Char) (h1 h2 h3 h4 : Char)
    (hpre : string_body pre kpre) (hpost : string_body post kpost)
    (hx : isxdigit h1 = true ∧ isxdigit h2 = true ∧ isxdigit h3 = true ∧ isxdigit h4 = true) :
    parse ['"', '\\', 'u', h1, h2, h3, h4, '"'] = .ok (str ['?']) ∧
    parse ('"' :: (pre ++ '\\' :: 'u' :: h1 :: h2 :: h3 :: h4 :: (post ++ ['"']))) =
      .ok (str (kpre ++ '?' :: kpost)) ∧
    (∀ tail, four_hex tail = false →
      parse ('"' :: (pre ++ '\\' :: 'u' :: tail)) =
        .error (.runtime_error "invalid \\u escape")) ∧
    (∀ a b c d tail, four_hex (a :: b :: c :: d :: tail) =
      (isxdigit a && isxdigit b && isxdigit c && isxdigit d)) ∧
    (∀ tail : List Char, tail.length < 4 → four_hex tail = false) := by
  have hu : string_body ['\\', 'u', h1, h2, h3, h4] ['?'] :=
    string_body_unicode h1 h2 h3 h4 (by simp [hx])
  refine ⟨?_, ?_, fun tail ht => ?_, fun a b c d tail => rfl, fun tail ht => ?_⟩
  · simpa using parse_body_ok hu
  · simpa using parse_body_ok (string_body_append hpre (string_body_append hu hpost))
  · exact parse_body_error hpre (fun out => parse_string_loop_bad_unicode out tail ht)
  · rcases tail with _ | ⟨a, _ | ⟨b, _ | ⟨c, _ | ⟨d, t⟩⟩⟩⟩
    · rfl
    · rfl
    · rfl
    · rfl
    · simp only [List.length_cons] at ht; omega

theorem parse_unicode_escape_witness :
    string_body ['a'] ['a'] ∧ string_body ['z'] ['z'] ∧
    (isxdigit '0' = true ∧ isxdigit '0' = true ∧ isxdigit 'E' = true ∧ isxdigit '9' = true) ∧
    parse ['"', '\\', 'u', '0', '0', 'E', '9', '"'] = .ok (str ['?']) ∧
    parse ['"', 'a', '\\', 'u', '0', '0', 'E', '9', 'z', '"'] = .ok (str ['a', '?', 'z']) ∧
    parse ['"', '\\', 'u', 'f', 'f', 'F', 'f', '"'] = .ok (str ['?']) ∧
    parse ['"', 'a', '\\', 'u', '0', '0', 'g', '9', '"'] =
      .error (.runtime_error "invalid \\u escape") ∧
    parse ['"', 'a', '\\', 'u', '0', '0', '9'] = .error (.runtime_error "invalid \\u escape") := by
  have h1 : string_body ['a'] ['a'] := string_body_plain ['a'] (by decide)
  have h2 : string_body ['z'] ['z'] := string_body_plain ['z'] (by decide)
  have hx : isxdigit '0' = true ∧ isxdigit '0' = true ∧ isxdigit 'E' = true ∧
      isxdigit '9' = true := by decide
  have h := parse_unicode_escape ['a'] ['a'] ['z'] ['z'] '0' '0' 'E' '9' h1 h2 hx
  exact ⟨h1, h2, hx, h.1, h.2.1, by rfl, h.2.2.1 ['0', '0', 'g', '9', '"'] rfl,
    h.2.2.1 ['0', '0', '9'] rfl⟩

end json
namespace json

/-! ## Number literals: the variant -/

theorem number_body_dot {sign s1 r : List Char} {v : json}
    (h : number_body sign s1 = .ok v r) :
    (is_number_float v = true ∧ is_number_integer v = false ∧ '.' ∈ s1) ∨
    (is_number_integer v = true ∧ is_number_float v = false ∧
      s1 = s1.takeWhile isdigit ++ r) := by
  have hs1 : s1 = s1.takeWhile isdigit ++ s1.dropWhile isdigit :=
    (List.takeWhile_append_dropWhile isdigit s1).symm
  unfold number_body at h
  by_cases hd : parser.peek (s1.dropWhile isdigit) = '.'
  · simp only [hd, if_true] at h
    left
    obtain ⟨s3, hs3⟩ : ∃ s3, s1.dropWhile isdigit = '.' :: s3 := by
      cases hdw : s1.dropWhile isdigit with
      | nil => rw [hdw] at hd; simp [parser.peek] at hd
      | cons c t => rw [hdw] at hd; simp only [parser.peek] at hd; exact ⟨t, by rw [hd]⟩
    have hmem : '.' ∈ s1 := by
      rw [hs1, hs3]; simp
    simp only [List.append_assoc] at h
    cases hst : stod (sign ++ (s1.takeWhile isdigit
        ++ '.' :: (parser.get (s1.dropWhile isdigit)).2.takeWhile isdigit)) with
    | error e => simp [hst] at h
    | ok d =>
      simp only [hst, PResult.ok.injEq] at h
      rw [← h.1]
      exact ⟨rfl, rfl, hmem⟩
  · simp only [hd, if_false] at h
    right
    cases hst : stoll (sign ++ s1.takeWhile isdigit) with
    | error e => simp [hst] at h
    | ok i =>
      simp only [hst, PResult.ok.injEq] at h
      rw [← h.1, ← h.2]
      exact ⟨rfl, rfl, hs1⟩

theorem parse_number_dot {s r : List Char} {v : json} (h : parser.parse_number s = .ok v r) :
    (is_number_float v = true ∧ is_number_integer v = false ∧ '.' ∈ s) ∨
    (is_number_integer v = true ∧ is_number_float v = false ∧
      ∀ x ∈ s, x = '-' ∨ isdigit x = true ∨ x ∈ r) := by
  rw [parse_number_eq_body] at h
  by_cases hm : parser.peek s = '-'
  · simp only [hm, if_true] at h
    obtain ⟨s1, rfl⟩ : ∃ s1, s = '-' :: s1 := by
      cases s with
      | nil => simp [parser.peek] at hm
      | cons c t => simp only [parser.peek] at hm; exact ⟨t, by rw [hm]⟩
    simp only [parser.get] at h
    rcases number_body_dot h with ⟨h1, h2, h3⟩ | ⟨h1, h2, h3⟩
    · exact Or.inl ⟨h1, h2, by simp [h3]⟩
    · refine Or.inr ⟨h1, h2, fun x hx => ?_⟩
      rcases List.mem_cons.1 hx with rfl | hx
      · exact Or.inl rfl
      · rw [h3] at hx
        rcases List.mem_append.1 hx with hx | hx
        · exact Or.inr (Or.inl (List.mem_takeWhile_imp hx))
        · exact Or.inr (Or.inr hx)
  · simp only [hm, if_false] at h
    rcases number_body_dot h with ⟨h1, h2, h3⟩ | ⟨h1, h2, h3⟩
    · exact Or.inl ⟨h1, h2, h3⟩
    · refine Or.inr ⟨h1, h2, fun x hx => ?_⟩
      rw [h3] at hx
      rcases List.mem_append.1 hx with hx | hx
      · exact Or.inr (Or.inl (List.mem_takeWhile_imp hx))
      · exact Or.inr (Or.inr hx)

/-- C21: the variant of a number is decided by the dot alone.  For every input whose
first non-whitespace character is a minus sign or a digit and that parses
successfully, the result is a number; it is a Float exactly when the input contains
a `.`, and an Integer exactly when it contains none.  `3.0` and `3.` are the Float
3, not the Integer 3. -/
theorem parse_number_variant (s : List Char) (c : Char) (v : json)
    (hc : (s.dropWhile isspace).head? = some c) (hd : c = '-' ∨ isdigit c = true)
    (h : parse s = .ok v) :
    is_number v = true ∧
    (is_number_float v = true ↔ '.' ∈ s) ∧ (is_number_integer v = true ↔ '.' ∉ s) ∧
    parse ['3', '.', '0'] = .ok (float (.finite false 6755399441055744 (-51))) ∧
    parse ['3', '.'] = .ok (float (.finite false 6755399441055744 (-51))) ∧
    parse ['3'] = .ok (int 3) ∧
    parse ['3', '.', '0'] ≠ .ok (int 3) := by
  obtain ⟨t, hdw, hsk, hsp⟩ := head_dropWhile_skip_ws hc
  obtain ⟨r, hpv, hr⟩ := (parse_ok_iff s v).1 h
  have hnum : parser.parse_number (c :: t) = .ok v r := by
    rw [← parse_value_skip_ws, hsk,
      show 3 * s.length + 3 = (3 * s.length + 2) + 1 from rfl,
      parse_value_dispatch _ _ _ hsp] at hpv
    rcases hd with rfl | hd
    · simpa using hpv
    · have hn := isdigit_not_special c hd
      simpa [hn, hd] using hpv
  have hrw : ∀ x ∈ r, isspace x = true := by
    rw [skip_ws_eq_dropWhile, List.dropWhile_eq_nil_iff] at hr
    exact hr
  have hsub : ∀ x, x ∈ c :: t → x ∈ s := by
    intro x hx
    rw [← hdw] at hx
    exact (List.dropWhile_sublist _).subset hx
  obtain ⟨w, hw, hs, -⟩ := skip_ws_spec s
  rw [hsk] at hs
  refine ⟨?_, ?_, ?_, by rfl, by rfl, by rfl, by decide⟩
  · rcases parse_number_dot hnum with ⟨h1, -, -⟩ | ⟨h1, -, -⟩ <;> simp [is_number, h1]
  · rcases parse_number_dot hnum with ⟨h1, h2, h3⟩ | ⟨h1, h2, h3⟩
    · exact ⟨fun _ => hsub _ h3, fun _ => h1⟩
    · refine ⟨fun hf => (by rw [h2] at hf; cases hf), fun hdot => ?_⟩
      exfalso
      rw [hs] at hdot
      rcases List.mem_append.1 hdot with hx | hx
      · exact absurd (hw _ hx) (by decide)
      · rcases h3 _ hx with h4 | h4 | h4
        · exact absurd h4 (by decide)
        · exact absurd h4 (by decide)
        · exact absurd (hrw _ h4) (by decide)
  · rcases parse_number_dot hnum with ⟨h1, h2, h3⟩ | ⟨h1, h2, h3⟩
    · exact ⟨fun hi => (by rw [h2] at hi; cases hi), fun hnd => absurd (hsub _ h3) hnd⟩
    · refine ⟨fun _ hdot => ?_, fun _ => h1⟩
      rw [hs] at hdot
      rcases List.mem_append.1 hdot with hx | hx
      · exact absurd (hw _ hx) (by decide)
      · rcases h3 _ hx with h4 | h4 | h4
        · exact absurd h4 (by decide)
        · exact absurd h4 (by decide)
        · exact absurd (hrw _ h4) (by decide)

theorem parse_number_variant_witness :
    ([' ', '-', '1', '2', '.', '5', '0', '\n'].dropWhile isspace).head? = some '-' ∧
    parse [' ', '-', '1', '2', '.', '5', '0', '\n']
      = .ok (float (.finite true 7036874417766400 (-49))) ∧
    (is_number_float (float (.finite true 7036874417766400 (-49))) = true ↔
      '.' ∈ [' ', '-', '1', '2', '.', '5', '0', '\n']) := by
  have hp : parse [' ', '-', '1', '2', '.', '5', '0', '\n']
      = .ok (float (.finite true 7036874417766400 (-49))) := by rfl
  exact ⟨rfl, hp,
    (parse_number_variant [' ', '-', '1', '2', '.', '5', '0', '\n'] '-' _ rfl (Or.inl rfl) hp).2.1⟩

end json
namespace json

/-! ## Collections: the opening bracket and the elements before a given place -/

theorem parse_value_open_bracket (f : Nat) (B : List Char)
    (h : parser.peek (parser.skip_ws B) ≠ ']') :
    parser.parse_value (f + 2) ('[' :: B) = parser.parse_array_loop f [] B := by
  rw [parse_value_dispatch _ _ _ (show isspace '[' = false by decide)]
  simp only [show ¬ ('[' = '{') by decide, if_false, if_true]
  rw [parser.parse_array, (expect_here '[' (by decide) _).1]
  simp only []
  rw [if_neg h, parse_array_loop_skip_ws]

theorem parse_value_open_brace (f : Nat) (B : List Char)
    (h : parser.peek (parser.skip_ws B) ≠ '}') :
    parser.parse_value (f + 2) ('{' :: B) = parser.parse_object_loop f [] B := by
  rw [parse_value_dispatch _ _ _ (show isspace '{' = false by decide)]
  simp only [if_true]
  rw [parser.parse_object, (expect_here '{' (by decide) _).1]
  simp only []
  rw [if_neg h, parse_object_loop_skip_ws]

theorem texts_lead_length (ts : List (List Char)) : ts.length ≤ (texts_lead ts).length := by
  induction ts with
  | nil => simp [texts_lead]
  | cons t ts ih => simp only [texts_lead, List.length_append, List.length_cons]; omega

theorem parse_ok_peek {t : List Char} {v : json} (h : parse t = .ok v) (Y : List Char) :
    parser.peek (parser.skip_ws (t ++ ',' :: Y)) ≠ ']' ∧
    parser.peek (parser.skip_ws (t ++ ',' :: Y)) ≠ '}' := by
  obtain ⟨c, w, hc, hw, hext⟩ := parse_ok_extend h
  have h1 := hext (3 * t.length + 3) (',' :: Y) (le_refl _)
    (fun _ => num_end_ws_sep w hw ',' (by decide) Y)
  rw [← List.append_assoc, ← hc] at h1
  exact parse_value_ok_peek h1

theorem parse_array_loop_lead :
    ∀ (es : List (List Char × json)), (∀ e ∈ es, parse e.1 = .ok e.2) →
      ∀ (fuel : Nat) (a : json_array) (rest : List Char),
        3 * (texts_lead (es.map Prod.fst)).length + 1 ≤ fuel →
        parser.parse_array_loop fuel a (texts_lead (es.map Prod.fst) ++ rest) =
          parser.parse_array_loop (fuel - es.length) (a ++ es.map Prod.snd) rest := by
  intro es
  induction es with
  | nil => intro _ fuel a rest _; simp [texts_lead]
  | cons e es ih =>
    intro hall fuel a rest hf
    obtain ⟨t, v⟩ := e
    have ht : parse t = .ok v := hall (t, v) (by simp)
    obtain ⟨c, w, hc, hw, hext⟩ := parse_ok_extend ht
    obtain ⟨f, rfl⟩ : ∃ f, fuel = f + 1 := ⟨fuel - 1, by omega⟩
    have hlen : (texts_lead (List.map Prod.fst ((t, v) :: es))).length =
        t.length + 1 + (texts_lead (List.map Prod.fst es)).length := by
      simp [texts_lead]; omega
    have hrec := ih (fun e he => hall e (by simp [he])) f (a ++ [v]) rest (by omega)
    have htxt : texts_lead (List.map Prod.fst ((t, v) :: es)) ++ rest =
        t ++ (',' :: (texts_lead (List.map Prod.fst es) ++ rest)) := by
      simp [texts_lead]
    have h1 := hext f (',' :: (texts_lead (List.map Prod.fst es) ++ rest))
      (by omega) (fun _ => num_end_ws_sep w hw ',' (by decide) _)
    rw [← List.append_assoc, ← hc] at h1
    rw [htxt, parser.parse_array_loop, h1]
    simp only [skip_ws_append_ws _ _ hw, skip_ws_cons _ _ (show isspace ',' = false by decide),
      parser.get]
    rw [if_neg (by decide), if_neg (by decide), hrec]
    simp

theorem texts_lead_peek (es : List (List Char × json)) (Y : List Char)
    (hes : ∀ e ∈ es, parse e.1 = .ok e.2) (hY : parser.peek (parser.skip_ws Y) ≠ ']') :
    parser.peek (parser.skip_ws (texts_lead (es.map Prod.fst) ++ Y)) ≠ ']' := by
  cases es with
  | nil => simpa [texts_lead] using hY
  | cons e es =>
    have := (parse_ok_peek (hes e (by simp)) (texts_lead (es.map Prod.fst) ++ Y)).1
    simpa [texts_lead] using this

end json
namespace json

/-! ## Number literals followed by an exponent letter -/

theorem exponent_literal (a f2 : List Char) (x : Char) (ha : a ≠ [])
    (had : ∀ c ∈ a, isdigit c = true) (hf2 : ∀ c ∈ f2, isdigit c = true)
    (hx : isdigit x = false ∧ x ≠ '.') (lit : List Char)
    (hl : lit = a ∨ lit = a ++ '.' :: f2) (rest : List Char) :
    (∃ c0 t0, lit = c0 :: t0 ∧ isdigit c0 = true) ∧
    ((∃ e, ∀ f, parser.parse_value (f + 1) (lit ++ x :: rest) = .error e) ∨
     (∃ v, ∀ f, parser.parse_value (f + 1) (lit ++ x :: rest) = .ok v (x :: rest))) := by
  obtain ⟨c0, t0, hct⟩ := List.exists_cons_of_ne_nil ha
  have hd : isdigit c0 = true := had c0 (by rw [hct]; simp)
  have hn := isdigit_not_special c0 hd
  have hdisp : ∀ f Y, parser.parse_value (f + 1) (c0 :: Y) = parser.parse_number (c0 :: Y) := by
    intro f Y
    rw [parse_value_dispatch _ _ _ hn.1]
    simp [hn, hd]
  have hne : num_end (x :: rest) = true := by
    simp [num_end, hx.1, hx.2]
  rcases hl with rfl | rfl
  · refine ⟨⟨c0, t0, hct, hd⟩, ?_⟩
    have hp := (parse_number_digits lit ha had (x :: rest) hne).1
    have hpv : ∀ f, parser.parse_value (f + 1) (lit ++ x :: rest)
        = parser.parse_number (lit ++ x :: rest) := by
      intro f
      rw [hct, List.cons_append, hdisp]
    cases hst : stoll lit with
    | error e =>
      rw [hst] at hp
      exact Or.inl ⟨e, fun f => by rw [hpv, hp]⟩
    | ok i =>
      rw [hst] at hp
      exact Or.inr ⟨int i, fun f => by rw [hpv, hp]⟩
  · refine ⟨⟨c0, t0 ++ '.' :: f2, by rw [hct]; rfl, hd⟩, ?_⟩
    have hpv : ∀ f, parser.parse_value (f + 1) ((a ++ '.' :: f2) ++ x :: rest)
        = parser.parse_number ((a ++ '.' :: f2) ++ x :: rest) := by
      intro f
      rw [hct]
      simp only [List.cons_append, List.append_assoc]
      rw [hdisp]
    have e1 := span_digits a ('.' :: (f2 ++ x :: rest)) had
      (fun c t hc => by cases hc; decide)
    have e2 := span_digits f2 (x :: rest) hf2 (fun c t hc => by cases hc; exact hx.1)
    have hpk : parser.peek ((a ++ '.' :: f2) ++ x :: rest) ≠ '-' := by
      rw [hct]; simpa [parser.peek] using hn.2.1
    have hnb : parser.parse_number ((a ++ '.' :: f2) ++ x :: rest)
        = number_body [] ((a ++ '.' :: f2) ++ x :: rest) := by
      rw [parse_number_eq_body, if_neg hpk, if_neg hpk]
    cases hst : stod (a ++ '.' :: f2) with
    | error e =>
      refine Or.inl ⟨e, fun f => ?_⟩
      rw [hpv, hnb]
      unfold number_body
      simp only [List.append_assoc, List.cons_append, List.nil_append]
      rw [e1.1, e1.2]
      simp only [parser.peek, parser.get, if_true]
      rw [e2.1, e2.2, hst]
    | ok d =>
      refine Or.inr ⟨float d, fun f => ?_⟩
      rw [hpv, hnb]
      unfold number_body
      simp only [List.append_assoc, List.cons_append, List.nil_append]
      rw [e1.1, e1.2]
      simp only [parser.peek, parser.get, if_true]
      rw [e2.1, e2.2, hst]

/-- C27: there is no exponent syntax.  For every non-empty digit string `a`, with
or without a fraction `.f2` after it, the literal followed by `e` or `E` (and
anything after that, digits included) makes `parse` fail: at the top level, as an
element of an array after any number of elements, and as the value of an object
member after any number of members.  `1e5` and `2.5e3` are the examples. -/
theorem parse_no_exponent (a f2 rest : List Char) (x : Char) (es : List (List Char × json))
    (ms : List member) (key_src key : List Char)
    (ha : a ≠ []) (had : ∀ c ∈ a, isdigit c = true) (hf2 : ∀ c ∈ f2, isdigit c = true)
    (hx : x = 'e' ∨ x = 'E') (hes : ∀ e ∈ es, parse e.1 = .ok e.2)
    (hms : ∀ m ∈ ms, key_text m.key_src m.key ∧ value_text m.val_src m.val)
    (hk : key_text key_src key) :
    (∀ lit, lit = a ∨ lit = a ++ '.' :: f2 →
      (∃ e, parse (lit ++ x :: rest) = .error e) ∧
      (∃ e, parse ('[' :: (texts_lead (es.map Prod.fst) ++ (lit ++ x :: rest))) = .error e) ∧
      (∃ e, parse ('{' :: (members_lead ms ++ (key_src ++ ':' :: (lit ++ x :: rest))))
        = .error e)) ∧
    parse ['1', 'e', '5'] = .error (.runtime_error "extra characters after JSON document") ∧
    parse ['2', '.', '5', 'e', '3']
      = .error (.runtime_error "extra characters after JSON document") ∧
    parse ['[', '1', 'E', '5', ']']
      = .error (.runtime_error "expected \x27,\x27 or \x27]\x27 in array") ∧
    parse ['{', '"', 'k', '"', ':', '1', 'e', '5', '}']
      = .error (.runtime_error "expected \x27,\x27 or \x27\x7d\x27 in object") := by
  refine ⟨fun lit hl => ?_, by rfl, by rfl, by rfl, by rfl⟩
  have hx1 : isdigit x = false ∧ x ≠ '.' := by rcases hx with rfl | rfl <;> decide
  have hx2 : isspace x = false ∧ x ≠ ',' ∧ x ≠ ']' ∧ x ≠ '}' := by
    rcases hx with rfl | rfl <;> decide
  obtain ⟨⟨c0, t0, hct, hd⟩, hres⟩ := exponent_literal a f2 x ha had hf2 hx1 lit hl rest
  have hn := isdigit_not_special c0 hd
  have hsk : parser.skip_ws (x :: rest) = x :: rest := skip_ws_cons _ _ hx2.1
  refine ⟨?_, ?_, ?_⟩
  · -- top level
    rcases hres with ⟨e, he⟩ | ⟨v, hv⟩
    · exact ⟨e, parse_of_parse_value_error (he _)⟩
    · refine ⟨.runtime_error "extra characters after JSON document", ?_⟩
      unfold parse
      rw [show 3 * (lit ++ x :: rest).length + 3 = (3 * (lit ++ x :: rest).length + 2) + 1
        from rfl, hv]
      simp only [hsk, parser.eof]
      rfl
  · -- array element
    generalize htext : '[' :: (texts_lead (es.map Prod.fst) ++ (lit ++ x :: rest)) = text
    have hlen : (texts_lead (es.map Prod.fst)).length + 3 ≤ text.length := by
      rw [← htext, hct]; simp; omega
    have hll := texts_lead_length (es.map Prod.fst)
    rw [List.length_map] at hll
    have hpk : parser.peek (parser.skip_ws
        (texts_lead (es.map Prod.fst) ++ (lit ++ x :: rest))) ≠ ']' := by
      apply texts_lead_peek es _ hes
      rw [hct, List.cons_append, skip_ws_cons _ _ hn.1]
      simp only [parser.peek]
      intro h; rw [h] at hd; revert hd; decide
    have hloop := parse_array_loop_lead es hes (3 * text.length + 1) []
      (lit ++ x :: rest) (by omega)
    obtain ⟨g, hg⟩ : ∃ g, 3 * text.length + 1 - es.length = g + 2 :=
      ⟨3 * text.length + 1 - es.length - 2, by omega⟩
    have hfail : ∃ e, parser.parse_array_loop (g + 2) ([] ++ es.map Prod.snd)
        (lit ++ x :: rest) = .error e := by
      rw [parser.parse_array_loop]
      rcases hres with ⟨e, he⟩ | ⟨v, hv⟩
      · exact ⟨e, by rw [he]⟩
      · refine ⟨.runtime_error "expected \x27,\x27 or \x27]\x27 in array", ?_⟩
        rw [hv]
        simp only [hsk, parser.get]
        rw [if_neg hx2.2.2.1, if_pos hx2.2.1]
    obtain ⟨e, he⟩ := hfail
    refine ⟨e, parse_of_parse_value_error ?_⟩
    subst htext
    rw [show 3 * ('[' :: (texts_lead (es.map Prod.fst) ++ (lit ++ x :: rest))).length + 3
        = (3 * ('[' :: (texts_lead (es.map Prod.fst) ++ (lit ++ x :: rest))).length + 1) + 2
        from rfl, parse_value_open_bracket _ _ hpk, hloop, hg, he]
  · -- object member
    generalize htext :
      '{' :: (members_lead ms ++ (key_src ++ ':' :: (lit ++ x :: rest))) = text
    have hlen : (members_lead ms).length + 3 ≤ text.length := by
      rw [← htext, hct]; simp; omega
    have hll := members_lead_length ms
    have hpk : parser.peek (parser.skip_ws
        (members_lead ms ++ (key_src ++ ':' :: (lit ++ x :: rest)))) ≠ '}' := by
      rw [members_lead_peek ms key_src key _ hms hk]; decide
    have hloop := parse_object_loop_lead ms hms (3 * text.length + 1) []
      (key_src ++ ':' :: (lit ++ x :: rest)) (by omega)
    obtain ⟨g, hg⟩ : ∃ g, 3 * text.length + 1 - ms.length = g + 2 :=
      ⟨3 * text.length + 1 - ms.length - 2, by omega⟩
    have hfail : ∃ e, parser.parse_object_loop (g + 2)
        (emplace_all [] (ms.map fun m => (m.key, m.val)))
        (key_src ++ ':' :: (lit ++ x :: rest)) = .error e := by
      rw [parser.parse_object_loop, parse_string_skip_ws, hk]
      simp only [as_string, get_string, (expect_here ':' (by decide) _).2]
      rcases hres with ⟨e, he⟩ | ⟨v, hv⟩
      · exact ⟨e, by rw [he]⟩
      · refine ⟨.runtime_error "expected \x27,\x27 or \x27\x7d\x27 in object", ?_⟩
        rw [hv]
        simp only [hsk, parser.get]
        rw [if_neg hx2.2.2.2, if_pos hx2.2.1]
    obtain ⟨e, he⟩ := hfail
    refine ⟨e, parse_of_parse_value_error ?_⟩
    subst htext
    rw [show 3 * ('{' :: (members_lead ms ++ (key_src ++ ':' :: (lit ++ x :: rest)))).length + 3
        = (3 * ('{' :: (members_lead ms ++ (key_src ++ ':' :: (lit ++ x :: rest)))).length + 1)
          + 2 from rfl, parse_value_open_brace _ _ hpk, hloop, hg, he]

theorem parse_no_exponent_witness :
    (['1', '2'] : List Char) ≠ [] ∧ (∀ c ∈ ['1', '2'], isdigit c = true) ∧
    (∀ c ∈ ['5'], isdigit c = true) ∧
    (∀ e ∈ [(['7'], int 7)], parse e.1 = .ok e.2) ∧
    key_text ['"', 'k', '"'] ['k'] ∧
    (∃ e, parse "12e3".toList = .error e) ∧ (∃ e, parse "12.5e3".toList = .error e) ∧
    (∃ e, parse "[7,12e3]".toList = .error e) ∧
    (∃ e, parse "[7,12.5e3]".toList = .error e) ∧
    (∃ e, parse "\x7b\"k\":12e3\x7d".toList = .error e) := by
  have ha : (['1', '2'] : List Char) ≠ [] := by simp
  have had : ∀ c ∈ ['1', '2'], isdigit c = true := by decide
  have hf2 : ∀ c ∈ ['5'], isdigit c = true := by decide
  have hes : ∀ e ∈ [(['7'], int 7)], parse e.1 = .ok e.2 := by
    intro e he
    simp only [List.mem_singleton] at he
    subst he
    rfl
  have hk : key_text ['"', 'k', '"'] ['k'] := key_text_quoted ['k'] rfl
  have h := (parse_no_exponent ['1', '2'] ['5'] ['3', ']'] 'e' [(['7'], int 7)] [] _ _
    ha had hf2 (Or.inl rfl) hes (by simp) hk).1
  have h2 := (parse_no_exponent ['1', '2'] ['5'] ['3'] 'e' [] [] _ _
    ha had hf2 (Or.inl rfl) (by simp) (by simp) hk).1
  have h3 := (parse_no_exponent ['1', '2'] ['5'] ['3', '}'] 'e' [] [] _ _
    ha had hf2 (Or.inl rfl) (by simp) (by simp) hk).1
  exact ⟨ha, had, hf2, hes, hk, (h2 _ (Or.inl rfl)).1, (h2 _ (Or.inr rfl)).1,
    (h _ (Or.inl rfl)).2.1, (h _ (Or.inr rfl)).2.1, (h3 _ (Or.inl rfl)).2.2⟩

end json
namespace json

/-! ## The budget of `parse` is never used up -/

theorem skip_ws_length_le (s : List Char) : (parser.skip_ws s).length ≤ s.length := by
  obtain ⟨w, -, hs, -⟩ := skip_ws_spec s
  have := congrArg List.length hs
  rw [List.length_append] at this
  omega

theorem get_length_le (s : List Char) : (parser.get s).2.length ≤ s.length := by
  cases s <;> simp [parser.get]

theorem expect_not_exhausted (ch : Char) (s : List Char) : parser.expect ch s ≠ .exhausted := by
  unfold parser.expect
  split <;> simp

theorem expect_length {ch : Char} {s r : List Char} {u : Unit} (hch : ch ≠ '\x00')
    (h : parser.expect ch s = .ok u r) : r.length < s.length := by
  obtain ⟨w, -, hs, -, -⟩ := expect_spec ch s r u hch h
  rw [hs]; simp; omega

theorem parse_string_not_exhausted (s : List Char) : parser.parse_string s ≠ .exhausted := by
  unfold parser.parse_string
  cases he : parser.expect '"' s with
  | ok u s1 => exact parse_string_loop_not_exhausted _ _ (le_refl _) []
  | error e => simp
  | exhausted => exact absurd he (expect_not_exhausted _ _)

theorem parse_string_length {s r : List Char} {v : json} (h : parser.parse_string s = .ok v r) :
    r.length < s.length := by
  obtain ⟨-, c, hc, hs, -⟩ := parse_string_local h
  have := List.length_pos.2 hc
  rw [hs]; simp; omega

theorem parse_number_not_exhausted (s : List Char) : parser.parse_number s ≠ .exhausted := by
  have hb : ∀ sign s1, number_body sign s1 ≠ .exhausted := by
    intro sign s1
    unfold number_body
    by_cases h : parser.peek (s1.dropWhile isdigit) = '.'
    · rw [if_pos h]
      generalize stod _ = r
      cases r <;> simp
    · rw [if_neg h]
      generalize stoll _ = r
      cases r <;> simp
  rw [parse_number_eq_body]
  exact hb _ _

theorem parse_bool_not_exhausted (s : List Char) : parser.parse_bool s ≠ .exhausted := by
  unfold parser.parse_bool
  split_ifs <;> simp

theorem parse_null_not_exhausted (s : List Char) : parser.parse_null s ≠ .exhausted := by
  unfold parser.parse_null
  split_ifs <;> simp

theorem parse_value_length {f : Nat} {s r : List Char} {v : json}
    (h : parser.parse_value f s = .ok v r) : r.length < s.length := by
  obtain ⟨c, hc, hs, -⟩ := (parse_local f).1 s v r h
  have := List.length_pos.2 hc
  rw [hs]; simp; omega

theorem fuel_adequate : ∀ f : Nat,
    (∀ s, 3 * s.length + 3 ≤ f → parser.parse_value f s ≠ .exhausted) ∧
    (∀ s, 3 * s.length + 2 ≤ f → parser.parse_object f s ≠ .exhausted) ∧
    (∀ o s, 3 * s.length + 4 ≤ f → parser.parse_object_loop f o s ≠ .exhausted) ∧
    (∀ s, 3 * s.length + 2 ≤ f → parser.parse_array f s ≠ .exhausted) ∧
    (∀ a s, 3 * s.length + 4 ≤ f → parser.parse_array_loop f a s ≠ .exhausted) := by
  intro f
  induction f with
  | zero =>
    refine ⟨?_, ?_, ?_, ?_, ?_⟩ <;> intros <;> omega
  | succ f ih =>
    obtain ⟨ihv, iho, ihol, iha, ihal⟩ := ih
    refine ⟨?_, ?_, ?_, ?_, ?_⟩
    · intro s hf
      have hsk := skip_ws_length_le s
      rw [parser.parse_value]
      split_ifs
      · exact iho _ (by omega)
      · exact iha _ (by omega)
      · exact parse_string_not_exhausted _
      · exact parse_bool_not_exhausted _
      · exact parse_null_not_exhausted _
      · exact parse_number_not_exhausted _
      · simp
    · intro s hf
      rw [parser.parse_object]
      cases he : parser.expect '{' s with
      | ok u s1 =>
        have h1 := expect_length (by decide) he
        have hsk := skip_ws_length_le s1
        simp only []
        split_ifs
        · simp
        · exact ihol _ _ (by omega)
      | error e => simp
      | exhausted => exact absurd he (expect_not_exhausted _ _)
    · intro o s hf
      rw [parser.parse_object_loop]
      have hsk := skip_ws_length_le s
      cases hps : parser.parse_string (parser.skip_ws s) with
      | ok k s1 =>
        have h1 := parse_string_length hps
        simp only []
        cases hk : k.as_string with
        | ok key =>
          simp only []
          have hsk1 := skip_ws_length_le s1
          cases he : parser.expect ':' (parser.skip_ws s1) with
          | ok u s2 =>
            have h2 := expect_length (by decide) he
            simp only []
            cases hpv : parser.parse_value f s2 with
            | ok val s3 =>
              have h3 := parse_value_length hpv
              have hsk3 := skip_ws_length_le s3
              have hg := get_length_le (parser.skip_ws s3)
              simp only []
              split_ifs
              · simp
              · simp
              · exact ihol _ _ (by omega)
            | error e => simp
            | exhausted => exact absurd hpv (ihv _ (by omega))
          | error e => simp
          | exhausted => exact absurd he (expect_not_exhausted _ _)
        | error e => simp
      | error e => simp
      | exhausted => exact absurd hps (parse_string_not_exhausted _)
    · intro s hf
      rw [parser.parse_array]
      cases he : parser.expect '[' s with
      | ok u s1 =>
        have h1 := expect_length (by decide) he
        have hsk := skip_ws_length_le s1
        simp only []
        split_ifs
        · simp
        · exact ihal _ _ (by omega)
      | error e => simp
      | exhausted => exact absurd he (expect_not_exhausted _ _)
    · intro a s hf
      rw [parser.parse_array_loop]
      cases hpv : parser.parse_value f s with
      | ok val s1 =>
        have h1 := parse_value_length hpv
        have hsk := skip_ws_length_le s1
        have hg := get_length_le (parser.skip_ws s1)
        simp only []
        split_ifs
        · simp
        · simp
        · exact ihal _ _ (by omega)
      | error e => simp
      | exhausted => exact absurd hpv (ihv _ (by omega))

theorem parse_not_exhausted (s : List Char) : parse s ≠ .exhausted := by
  unfold parse
  cases hpv : parser.parse_value (3 * s.length + 3) s with
  | ok v r => simp only []; split_ifs <;> simp
  | error e => simp
  | exhausted => exact absurd hpv ((fuel_adequate _).1 s (le_refl _))

/-! ## The parser on a call stack of limited size -/

/-- On a stack of limited size the parser functions give what they give without the
limit, unless the stack overflows; with a frame for every step of the budget it
does not overflow. -/
theorem on_stack_agrees : ∀ fuel : Nat,
    (∀ frames s, (fuel ≤ frames →
        on_stack.parse_value fuel frames s = .ret (parser.parse_value fuel s)) ∧
      (on_stack.parse_value fuel frames s = .stack_overflow ∨
        on_stack.parse_value fuel frames s = .ret (parser.parse_value fuel s))) ∧
    (∀ frames s, (fuel ≤ frames →
        on_stack.parse_object fuel frames s = .ret (parser.parse_object fuel s)) ∧
      (on_stack.parse_object fuel frames s = .stack_overflow ∨
        on_stack.parse_object fuel frames s = .ret (parser.parse_object fuel s))) ∧
    (∀ frames o s, (fuel ≤ frames + 1 →
        on_stack.parse_object_loop fuel frames o s = .ret (parser.parse_object_loop fuel o s)) ∧
      (on_stack.parse_object_loop fuel frames o s = .stack_overflow ∨
        on_stack.parse_object_loop fuel frames o s =
          .ret (parser.parse_object_loop fuel o s))) ∧
    (∀ frames s, (fuel ≤ frames →
        on_stack.parse_array fuel frames s = .ret (parser.parse_array fuel s)) ∧
      (on_stack.parse_array fuel frames s = .stack_overflow ∨
        on_stack.parse_array fuel frames s = .ret (parser.parse_array fuel s))) ∧
    (∀ frames a s, (fuel ≤ frames + 1 →
        on_stack.parse_array_loop fuel frames a s = .ret (parser.parse_array_loop fuel a s)) ∧
      (on_stack.parse_array_loop fuel frames a s = .stack_overflow ∨
        on_stack.parse_array_loop fuel frames a s =
          .ret (parser.parse_array_loop fuel a s))) := by
  intro fuel
  induction fuel with
  | zero =>
    refine ⟨?_, ?_, ?_, ?_, ?_⟩ <;> intros <;>
      simp [on_stack.parse_value, on_stack.parse_object, on_stack.parse_object_loop,
        on_stack.parse_array, on_stack.parse_array_loop, parser.parse_value,
        parser.parse_object, parser.parse_object_loop, parser.parse_array,
        parser.parse_array_loop]
  | succ f ih =>
    obtain ⟨ihv, iho, ihol, iha, ihal⟩ := ih
    refine ⟨?_, ?_, ?_, ?_, ?_⟩
    · intro frames s
      cases frames with
      | zero =>
        rw [on_stack.parse_value]
        exact ⟨fun h => absurd h (by omega), Or.inl rfl⟩
      | succ k =>
        rw [on_stack.parse_value, parser.parse_value]
        split_ifs
        · exact ⟨fun h => (iho k _).1 (by omega), (iho k _).2⟩
        · exact ⟨fun h => (iha k _).1 (by omega), (iha k _).2⟩
        all_goals exact ⟨fun _ => rfl, Or.inr rfl⟩
    · intro frames s
      cases frames with
      | zero =>
        rw [on_stack.parse_object]
        exact ⟨fun h => absurd h (by omega), Or.inl rfl⟩
      | succ k =>
        rw [on_stack.parse_object, parser.parse_object]
        cases he : parser.expect '{' s with
        | ok u s1 =>
          simp only []
          split_ifs
          · exact ⟨fun _ => rfl, Or.inr rfl⟩
          · exact ⟨fun h => (ihol k _ _).1 (by omega), (ihol k _ _).2⟩
        | error e => exact ⟨fun _ => rfl, Or.inr rfl⟩
        | exhausted => exact ⟨fun _ => rfl, Or.inr rfl⟩
    · intro frames o s
      rw [on_stack.parse_object_loop, parser.parse_object_loop]
      cases hps : parser.parse_string (parser.skip_ws s) with
      | ok k s1 =>
        simp only []
        cases hk : k.as_string with
        | ok key =>
          simp only []
          cases he : parser.expect ':' (parser.skip_ws s1) with
          | ok u s2 =>
            simp only []
            have hv := ihv frames s2
            cases hos : on_stack.parse_value f frames s2 with
            | stack_overflow =>
              refine ⟨fun h => ?_, Or.inl rfl⟩
              have := hv.1 (by omega)
              rw [hos] at this
              cases this
            | ret r =>
              have hr : r = parser.parse_value f s2 := by
                rcases hv.2 with h | h
                · rw [hos] at h; cases h
                · rw [hos] at h; injection h
              rw [← hr]
              cases r with
              | ok val s3 =>
                simp only []
                split_ifs
                · exact ⟨fun _ => rfl, Or.inr rfl⟩
                · exact ⟨fun _ => rfl, Or.inr rfl⟩
                · exact ⟨fun h => (ihol frames _ _).1 (by omega), (ihol frames _ _).2⟩
              | error e => exact ⟨fun _ => rfl, Or.inr rfl⟩
              | exhausted => exact ⟨fun _ => rfl, Or.inr rfl⟩
          | error e => exact ⟨fun _ => rfl, Or.inr rfl⟩
          | exhausted => exact ⟨fun _ => rfl, Or.inr rfl⟩
        | error e => exact ⟨fun _ => rfl, Or.inr rfl⟩
      | error e => exact ⟨fun _ => rfl, Or.inr rfl⟩
      | exhausted => exact ⟨fun _ => rfl, Or.inr rfl⟩
    · intro frames s
      cases frames with
      | zero =>
        rw [on_stack.parse_array]
        exact ⟨fun h => absurd h (by omega), Or.inl rfl⟩
      | succ k =>
        rw [on_stack.parse_array, parser.parse_array]
        cases he : parser.expect '[' s with
        | ok u s1 =>
          simp only []
          split_ifs
          · exact ⟨fun _ => rfl, Or.inr rfl⟩
          · exact ⟨fun h => (ihal k _ _).1 (by omega), (ihal k _ _).2⟩
        | error e => exact ⟨fun _ => rfl, Or.inr rfl⟩
        | exhausted => exact ⟨fun _ => rfl, Or.inr rfl⟩
    · intro frames a s
      rw [on_stack.parse_array_loop, parser.parse_array_loop]
      have hv := ihv frames s
      cases hos : on_stack.parse_value f frames s with
      | stack_overflow =>
        refine ⟨fun h => ?_, Or.inl rfl⟩
        have := hv.1 (by omega)
        rw [hos] at this
        cases this
      | ret r =>
        have hr : r = parser.parse_value f s := by
          rcases hv.2 with h | h
          · rw [hos] at h; cases h
          · rw [hos] at h; injection h
        rw [← hr]
        cases r with
        | ok val s1 =>
          simp only []
          split_ifs
          · exact ⟨fun _ => rfl, Or.inr rfl⟩
          · exact ⟨fun _ => rfl, Or.inr rfl⟩
          · exact ⟨fun h => (ihal frames _ _).1 (by omega), (ihal frames _ _).2⟩
        | error e => exact ⟨fun _ => rfl, Or.inr rfl⟩
        | exhausted => exact ⟨fun _ => rfl, Or.inr rfl⟩

theorem skip_ws_brackets (n : Nat) :
    parser.skip_ws (List.replicate n '[') = List.replicate n '[' := by
  cases n with
  | zero => rfl
  | succ m => rw [List.replicate_succ, skip_ws_cons _ _ (show isspace '[' = false by decide)]

/-- On `n` opening brackets the chain of nested calls is `2 * n + 1` calls deep: a
call of `parse_value` and one of `parse_array` for each bracket, and the call of
`parse_value` that finds the end of the input. -/
theorem on_stack_brackets : ∀ n frames f : Nat,
    on_stack.parse_value (3 * n + 1 + f) frames (List.replicate n '[') =
      if 2 * n < frames then
        .ret (.error (.runtime_error (("unexpected character \x27".push '\x00').push '\x27')))
      else .stack_overflow := by
  intro n
  induction n with
  | zero =>
    intro frames f
    rw [show 3 * 0 + 1 + f = f + 1 by omega]
    cases frames with
    | zero => rw [on_stack.parse_value]; rfl
    | succ k =>
      rw [if_pos (by omega), on_stack.parse_value]
      rfl
  | succ n ih =>
    intro frames f
    have hpk : parser.peek (parser.skip_ws (List.replicate n '[')) ≠ ']' := by
      rw [skip_ws_brackets]
      cases n with
      | zero => decide
      | succ m => rw [List.replicate_succ]; simp [parser.peek]
    rw [show 3 * (n + 1) + 1 + f = (3 * n + 1 + f) + 1 + 1 + 1 by omega]
    cases frames with
    | zero => rw [on_stack.parse_value, if_neg (by omega)]
    | succ k =>
      rw [on_stack.parse_value, List.replicate_succ,
        skip_ws_cons _ _ (show isspace '[' = false by decide)]
      simp only [parser.peek, show ¬ ('[' = '{') by decide, if_false, if_true]
      cases k with
      | zero => rw [on_stack.parse_array, if_neg (by omega)]
      | succ j =>
        rw [on_stack.parse_array, (expect_here '[' (by decide) _).1]
        simp only []
        rw [if_neg hpk, on_stack.parse_array_loop, skip_ws_brackets, ih j f]
        by_cases h : 2 * n < j
        · rw [if_pos h, if_pos (by omega)]
        · rw [if_neg h, if_neg (by omega)]

theorem on_stack_parse_agrees (frames : Nat) (s : List Char) :
    (3 * s.length + 3 ≤ frames → on_stack.parse frames s = .ret (parse s)) ∧
    (on_stack.parse frames s = .stack_overflow ∨ on_stack.parse frames s = .ret (parse s)) := by
  have key : on_stack.parse_value (3 * s.length + 3) frames s =
      .ret (parser.parse_value (3 * s.length + 3) s) →
      on_stack.parse frames s = .ret (parse s) := by
    intro h
    unfold on_stack.parse parse
    rw [h]
    cases parser.parse_value (3 * s.length + 3) s with
    | ok v r => simp only []; split_ifs <;> rfl
    | error e => rfl
    | exhausted => rfl
  refine ⟨fun h => key (((on_stack_agrees _).1 frames s).1 h), ?_⟩
  rcases ((on_stack_agrees (3 * s.length + 3)).1 frames s).2 with h | h
  · left
    unfold on_stack.parse
    rw [h]
  · exact Or.inr (key h)

theorem on_stack_parse_brackets (n frames : Nat) :
    on_stack.parse frames (List.replicate n '[') =
      if 2 * n < frames then
        .ret (.error (.runtime_error (("unexpected character \x27".push '\x00').push '\x27')))
      else .stack_overflow := by
  unfold on_stack.parse
  have := on_stack_brackets n frames 2
  rw [show 3 * n + 1 + 2 = 3 * (List.replicate n '[').length + 3 by
    rw [List.length_replicate]] at this
  rw [this]
  split_ifs <;> rfl

/-- C25 (as the code behaves): without a limit to the call stack `parse` ends with a
definite outcome, a value or an exception, on every input, and on a stack of limited
size it ends with that outcome or with a stack overflow; a stack with room for
`3 * length + 3` nested calls is always large enough.  A value is only ever returned
with the cursor moved forward (the unread input is a proper suffix of what the call
was given), and the nested calls for the members of a collection start after its
opening bracket.  There is no depth guard: on `n` opening brackets the chain of
nested calls is `2 * n + 1` calls deep, so on a stack with room for more than
`2 * n` nested calls the outcome is the exception "unexpected character" raised at
the end of the input, and on a smaller stack it is a stack overflow. -/
theorem parse_terminates (s : List Char) (n frames : Nat) :
    ((∃ v, parse s = .ok v) ∨ (∃ e, parse s = .error e)) ∧
    (on_stack.parse frames s = .stack_overflow ∨ on_stack.parse frames s = .ret (parse s)) ∧
    (3 * s.length + 3 ≤ frames → on_stack.parse frames s = .ret (parse s)) ∧
    (∀ fuel t, on_stack.parse_value fuel frames t = .stack_overflow ∨
      on_stack.parse_value fuel frames t = .ret (parser.parse_value fuel t)) ∧
    (∀ f t v r, parser.parse_value f t = .ok v r →
      r.length < t.length ∧ ∃ c, t = c ++ r) ∧
    (∀ t r, parser.expect '[' t = .ok () r → r.length < t.length) ∧
    (∀ t r, parser.expect '{' t = .ok () r → r.length < t.length) ∧
    (2 * n < frames → on_stack.parse frames (List.replicate n '[') =
      .ret (.error (.runtime_error (("unexpected character \x27".push '\x00').push '\x27')))) ∧
    (frames ≤ 2 * n → on_stack.parse frames (List.replicate n '[') = .stack_overflow) := by
  refine ⟨?_, (on_stack_parse_agrees frames s).2, (on_stack_parse_agrees frames s).1,
    fun fuel t => ((on_stack_agrees fuel).1 frames t).2, fun f t v r h => ?_,
    fun t r h => expect_length (by decide) h, fun t r h => expect_length (by decide) h,
    fun h => ?_, fun h => ?_⟩
  · cases h : parse s with
    | ok v => exact Or.inl ⟨v, rfl⟩
    | error e => exact Or.inr ⟨e, rfl⟩
    | exhausted => exact absurd h (parse_not_exhausted s)
  · obtain ⟨c, -, hs, -⟩ := (parse_local f).1 t v r h
    exact ⟨parse_value_length h, c, hs⟩
  · rw [on_stack_parse_brackets, if_pos h]
  · rw [on_stack_parse_brackets, if_neg (by omega)]

/-- C25 fails as stated: nothing bounds the depth of the recursion.  On 100000
opening brackets the chain of nested calls is 200001 calls deep: on a stack with
room for 200000 nested calls, or for fewer, `parse` ends in a stack overflow and
raises no exception; only a larger stack lets it raise one.  Whatever the size of
the stack, some input of opening brackets overflows it. -/
theorem parse_overflows_call_stack :
    on_stack.parse 200000 (List.replicate 100000 '[') = .stack_overflow ∧
    (∀ frames, frames ≤ 200000 →
      on_stack.parse frames (List.replicate 100000 '[') = .stack_overflow) ∧
    on_stack.parse 200001 (List.replicate 100000 '[') =
      .ret (.error (.runtime_error (("unexpected character \x27".push '\x00').push '\x27'))) ∧
    (∀ frames, ∃ n, 1 ≤ n ∧
      on_stack.parse frames (List.replicate n '[') = .stack_overflow) := by
  refine ⟨?_, fun frames h => ?_, ?_, fun frames => ⟨frames + 1, by omega, ?_⟩⟩
  · rw [on_stack_parse_brackets, if_neg (by omega)]
  · rw [on_stack_parse_brackets, if_neg (by omega)]
  · rw [on_stack_parse_brackets, if_pos (by omega)]
  · rw [on_stack_parse_brackets, if_neg (by omega)]

end json
namespace json

/-! ## The last member of a collection -/

theorem num_end_append_ws (w Y : List Char) (hw : ∀ x ∈ w, isspace x = true)
    (hY : num_end Y = true) : num_end (w ++ Y) = true := by
  cases w with
  | nil => simpa using hY
  | cons a t =>
    have := isspace_not_digit a (hw a (by simp))
    simp [num_end, this.1, this.2]

theorem parse_value_ok_pos {f : Nat} {s r : List Char} {v : json}
    (h : parser.parse_value f s = .ok v r) : ∃ m, f = m + 1 := by
  cases f with
  | zero => rw [parser.parse_value] at h; cases h
  | succ m => exact ⟨m, rfl⟩

/-! ## The last character of a number literal -/

theorem number_body_last {sign s1 r : List Char} {v : json}
    (hsign : sign = [] ∨ sign = ['-']) (h : number_body sign s1 = .ok v r) :
    ∃ c z, s1 = c ++ z :: r ∧ (isdigit z = true ∨ z = '.') := by
  have hs1 : s1 = s1.takeWhile isdigit ++ s1.dropWhile isdigit :=
    (List.takeWhile_append_dropWhile isdigit s1).symm
  have hlast : ∀ (ds : List Char), ds ≠ [] → (∀ x ∈ ds, isdigit x = true) →
      ∃ L z, ds = L ++ [z] ∧ isdigit z = true := by
    intro ds hne hds
    rcases List.eq_nil_or_concat ds with h0 | ⟨L, z, hz⟩
    · exact absurd h0 hne
    · rw [List.concat_eq_append] at hz
      exact ⟨L, z, hz, hds z (by rw [hz]; simp)⟩
  unfold number_body at h
  by_cases hd : parser.peek (s1.dropWhile isdigit) = '.'
  · simp only [hd, if_true] at h
    obtain ⟨s3, hs3⟩ : ∃ s3, s1.dropWhile isdigit = '.' :: s3 := by
      cases hdw : s1.dropWhile isdigit with
      | nil => rw [hdw] at hd; simp [parser.peek] at hd
      | cons c t => rw [hdw] at hd; simp only [parser.peek] at hd; exact ⟨t, by rw [hd]⟩
    rw [hs3] at h
    simp only [parser.get, List.append_assoc] at h
    have hs3' : s3 = s3.takeWhile isdigit ++ s3.dropWhile isdigit :=
      (List.takeWhile_append_dropWhile isdigit s3).symm
    cases hst : stod (sign ++ (s1.takeWhile isdigit ++ '.' :: s3.takeWhile isdigit)) with
    | error e => simp [hst] at h
    | ok d =>
      simp only [hst, PResult.ok.injEq] at h
      rw [← h.2]
      by_cases hfp : s3.takeWhile isdigit = []
      · refine ⟨s1.takeWhile isdigit, '.', ?_, Or.inr rfl⟩
        conv => lhs; rw [hs1, hs3, hs3', hfp]
        simp
      · obtain ⟨L, z, hz, hzd⟩ := hlast _ hfp (fun x hx => List.mem_takeWhile_imp hx)
        refine ⟨s1.takeWhile isdigit ++ '.' :: L, z, ?_, Or.inl hzd⟩
        conv => lhs; rw [hs1, hs3, hs3', hz]
        simp
  · simp only [hd, if_false] at h
    cases hst : stoll (sign ++ s1.takeWhile isdigit) with
    | error e => simp [hst] at h
    | ok i =>
      simp only [hst, PResult.ok.injEq] at h
      rw [← h.2]
      have hne : s1.takeWhile isdigit ≠ [] := by
        intro hnil
        rw [hnil, List.append_nil] at hst
        have e1 : stoll [] = .error (.invalid_argument "stoll") := by rfl
        have e2 : stoll ['-'] = .error (.invalid_argument "stoll") := by rfl
        rcases hsign with rfl | rfl
        · rw [e1] at hst; cases hst
        · rw [e2] at hst; cases hst
      obtain ⟨L, z, hz, hzd⟩ := hlast _ hne (fun x hx => List.mem_takeWhile_imp hx)
      refine ⟨L, z, ?_, Or.inl hzd⟩
      conv => lhs; rw [hs1, hz]
      simp

theorem parse_number_last {s r : List Char} {v : json} (h : parser.parse_number s = .ok v r) :
    ∃ c z, s = c ++ z :: r ∧ (isdigit z = true ∨ z = '.') := by
  rw [parse_number_eq_body] at h
  by_cases hm : parser.peek s = '-'
  · simp only [hm, if_true] at h
    obtain ⟨s1, rfl⟩ : ∃ s1, s = '-' :: s1 := by
      cases s with
      | nil => simp [parser.peek] at hm
      | cons c t => simp only [parser.peek] at hm; exact ⟨t, by rw [hm]⟩
    simp only [parser.get] at h
    obtain ⟨c, z, hs1, hz⟩ := number_body_last (Or.inr rfl) h
    exact ⟨'-' :: c, z, by rw [hs1]; rfl, hz⟩
  · simp only [hm, if_false] at h
    exact number_body_last (Or.inl rfl) h

theorem parse_value_number_last {f : Nat} {s r : List Char} {v : json}
    (h : parser.parse_value f s = .ok v r) (hn : is_number v = true) :
    ∃ c z, s = c ++ z :: r ∧ (isdigit z = true ∨ z = '.') := by
  obtain ⟨g, rfl⟩ := parse_value_ok_pos h
  obtain ⟨wT, -, hT, -⟩ := skip_ws_spec s
  rw [parser.parse_value] at h
  split_ifs at h
  · rw [((parse_local g).2.1 _ _ _ h).1] at hn; cases hn
  · rw [((parse_local g).2.2.2.1 _ _ _ h).1] at hn; cases hn
  · rw [(parse_string_local h).1] at hn; cases hn
  · rw [(parse_bool_local h).1] at hn; cases hn
  · rw [(parse_null_local h).1] at hn; cases hn
  · obtain ⟨c, z, hs, hz⟩ := parse_number_last h
    exact ⟨wT ++ c, z, by rw [List.append_assoc, ← hs]; exact hT, hz⟩

theorem num_end_after_value {f : Nat} {s s1 c1 w Y : List Char} {val : json}
    (hpv : parser.parse_value f s = .ok val s1) (hs : s = c1 ++ s1)
    (hw : ∀ x ∈ w, isspace x = true)
    (hY : is_number val = true → num_end Y = true ∨
      ∃ z, (c1 ++ w).getLast? = some z ∧ isdigit z = false ∧ z ≠ '.') :
    is_number val = true → num_end (w ++ Y) = true := by
  intro hn
  cases w with
  | nil =>
    rcases hY hn with h | ⟨z, hz, hzd, hzp⟩
    · simpa using h
    · exfalso
      obtain ⟨c0, z0, hs0, hz0⟩ := parse_value_number_last hpv hn
      have e : c1 = c0 ++ [z0] := by
        have e2 : c1 ++ s1 = (c0 ++ [z0]) ++ s1 := by rw [← hs, hs0]; simp
        exact List.append_cancel_right e2
      have hl : (c0 ++ [z0]).getLast? = some z0 := by simp
      rw [List.append_nil, e, hl] at hz
      simp only [Option.some.injEq] at hz
      subst hz
      rcases hz0 with h1 | h1
      · rw [h1] at hzd; cases hzd
      · exact hzp h1
  | cons a t =>
    have := isspace_not_digit a (hw a (by simp))
    simp [num_end, this.1, this.2]

theorem getLast_after_comma (c1 w c2 : List Char) (h : c2 ≠ []) :
    (c1 ++ (w ++ ',' :: c2)).getLast? = c2.getLast? := by
  rw [show c1 ++ (w ++ ',' :: c2) = (c1 ++ (w ++ [','])) ++ c2 by simp,
    List.getLast?_append_of_ne_nil _ h]

theorem parse_array_loop_last : ∀ (f : Nat) (a : json_array) (s : List Char) (v : json)
    (r : List Char), parser.parse_array_loop f a s = .ok v r →
    ∃ (c : List Char) (a0 : json_array) (val : json) (m : Nat),
      c ≠ [] ∧ s = c ++ ']' :: r ∧ v = arr (a0 ++ [val]) ∧
      ∀ (Y : List Char) (d : Nat),
        (is_number val = true → num_end Y = true ∨
          ∃ z, c.getLast? = some z ∧ isdigit z = false ∧ z ≠ '.') →
        parser.parse_array_loop (f + d) a (c ++ Y) =
          if (parser.get (parser.skip_ws Y)).1 = ']' then
            .ok (arr (a0 ++ [val])) (parser.get (parser.skip_ws Y)).2
          else if (parser.get (parser.skip_ws Y)).1 ≠ ',' then
            .error (.runtime_error "expected \x27,\x27 or \x27]\x27 in array")
          else parser.parse_array_loop (m + 1 + d) (a0 ++ [val]) (parser.get (parser.skip_ws Y)).2 := by
  intro f
  induction f with
  | zero => intro a s v r h; rw [parser.parse_array_loop] at h; cases h
  | succ f ih =>
    intro a s v r h
    rw [parser.parse_array_loop] at h
    cases hpv : parser.parse_value f s with
    | error e => simp [hpv] at h
    | exhausted => simp [hpv] at h
    | ok val s1 =>
      simp only [hpv] at h
      obtain ⟨m, hm⟩ := parse_value_ok_pos hpv
      obtain ⟨c1, hc1, hs, hext⟩ := (parse_local f).1 s val s1 hpv
      have hstep : ∀ (Z : List Char) (d : Nat), (is_number val = true → num_end Z = true) →
          parser.parse_value (f + d) (c1 ++ Z) = .ok val Z := by
        intro Z d hZ
        have h1 := hext Z hZ
        rw [parse_value_fuel_mono (Nat.le_add_right f d) (by rw [h1]; simp), h1]
      by_cases c1e : (parser.get (parser.skip_ws s1)).1 = ']'
      · rw [if_pos c1e] at h
        simp only [PResult.ok.injEq] at h
        obtain ⟨w, hw, hs1, -⟩ := get_skip_ws_spec s1 ']' c1e (by decide)
        rw [h.2] at hs1
        refine ⟨c1 ++ w, a, val, m, by simp [hc1], by rw [hs, hs1, List.append_assoc],
          h.1.symm, fun Y d hY => ?_⟩
        rw [show f + 1 + d = (f + d) + 1 by omega, parser.parse_array_loop,
          List.append_assoc, hstep (w ++ Y) d (num_end_after_value hpv hs hw hY)]
        simp only [skip_ws_append_ws w Y hw]
        rw [hm]
      · rw [if_neg c1e] at h
        by_cases c2e : (parser.get (parser.skip_ws s1)).1 ≠ ','
        · rw [if_pos c2e] at h; cases h
        · rw [if_neg c2e] at h
          have c2e' : (parser.get (parser.skip_ws s1)).1 = ',' := not_not.1 c2e
          obtain ⟨w, hw, hs1, -⟩ := get_skip_ws_spec s1 ',' c2e' (by decide)
          obtain ⟨c', a0, val', m', hc', ht, hv, hrec⟩ := ih _ _ _ _ h
          refine ⟨c1 ++ (w ++ ',' :: c'), a0, val', m', by simp [hc1], ?_, hv,
            fun Y d hY => ?_⟩
          · rw [hs, hs1, ht]; simp
          · rw [show f + 1 + d = (f + d) + 1 by omega, parser.parse_array_loop]
            have e : c1 ++ (w ++ ',' :: c') ++ Y = c1 ++ (w ++ ',' :: (c' ++ Y)) := by simp
            rw [e, hstep _ d (fun _ => num_end_ws_sep w hw ',' (by decide) _)]
            simp only [skip_ws_append_ws w _ hw,
              skip_ws_cons _ _ (show isspace ',' = false by decide), parser.get]
            rw [if_neg (by decide), if_neg (by decide)]
            rw [getLast_after_comma c1 w c' hc'] at hY
            exact hrec Y d hY

theorem parse_string_append_ws (w s : List Char) (hw : ∀ x ∈ w, isspace x = true) :
    parser.parse_string (w ++ s) = parser.parse_string s := by
  rw [← parse_string_skip_ws, skip_ws_append_ws w s hw, parse_string_skip_ws]

theorem parse_object_loop_last : ∀ (f : Nat) (o : json_object) (s : List Char) (v : json)
    (r : List Char), parser.parse_object_loop f o s = .ok v r →
    ∃ (c : List Char) (o0 : json_object) (key : List Char) (val : json) (m : Nat),
      c ≠ [] ∧ s = c ++ '}' :: r ∧ v = obj (json_object.emplace o0 key val) ∧
      ∀ (Y : List Char) (d : Nat),
        (is_number val = true → num_end Y = true ∨
          ∃ z, c.getLast? = some z ∧ isdigit z = false ∧ z ≠ '.') →
        parser.parse_object_loop (f + d) o (c ++ Y) =
          if (parser.get (parser.skip_ws Y)).1 = '}' then
            .ok (obj (json_object.emplace o0 key val)) (parser.get (parser.skip_ws Y)).2
          else if (parser.get (parser.skip_ws Y)).1 ≠ ',' then
            .error (.runtime_error "expected \x27,\x27 or \x27\x7d\x27 in object")
          else parser.parse_object_loop (m + 1 + d) (json_object.emplace o0 key val)
            (parser.get (parser.skip_ws Y)).2 := by
  intro f
  induction f with
  | zero => intro o s v r h; rw [parser.parse_object_loop] at h; cases h
  | succ f ih =>
    intro o s v r h
    rw [parser.parse_object_loop, parse_string_skip_ws] at h
    cases hps : parser.parse_string s with
    | error e => simp [hps] at h
    | exhausted => simp [hps] at h
    | ok k s1 =>
      simp only [hps] at h
      obtain ⟨-, cs, hcs, hs, hsext⟩ := parse_string_local hps
      cases hk : k.as_string with
      | error e => simp [hk] at h
      | ok key =>
        simp only [hk] at h
        rw [expect_skip_ws] at h
        cases he : parser.expect ':' s1 with
        | error e => simp [he] at h
        | exhausted => simp [he] at h
        | ok u s2 =>
          simp only [he] at h
          obtain ⟨w1, hw1, hs1, -, heext⟩ := expect_spec ':' s1 s2 u (by decide) he
          cases hpv : parser.parse_value f s2 with
          | error e => simp [hpv] at h
          | exhausted => simp [hpv] at h
          | ok val s3 =>
            simp only [hpv] at h
            obtain ⟨m, hm⟩ := parse_value_ok_pos hpv
            obtain ⟨c2, hc2, hs2, hext⟩ := (parse_local f).1 s2 val s3 hpv
            have hstep : ∀ (Z : List Char) (d : Nat),
                (is_number val = true → num_end Z = true) →
                parser.parse_value (f + d) (c2 ++ Z) = .ok val Z := by
              intro Z d hZ
              have h1 := hext Z hZ
              rw [parse_value_fuel_mono (Nat.le_add_right f d) (by rw [h1]; simp), h1]
            by_cases c1e : (parser.get (parser.skip_ws s3)).1 = '}'
            · rw [if_pos c1e] at h
              simp only [PResult.ok.injEq] at h
              obtain ⟨w, hw, hs3, -⟩ := get_skip_ws_spec s3 '}' c1e (by decide)
              rw [h.2] at hs3
              refine ⟨cs ++ (w1 ++ ':' :: (c2 ++ w)), o, key, val, m, by simp [hcs], ?_,
                h.1.symm, fun Y d hY => ?_⟩
              · rw [hs, hs1, hs2, hs3]; simp
              · rw [show f + 1 + d = (f + d) + 1 by omega, parser.parse_object_loop,
                  parse_string_skip_ws]
                have e : cs ++ (w1 ++ ':' :: (c2 ++ w)) ++ Y
                    = cs ++ (w1 ++ ':' :: (c2 ++ (w ++ Y))) := by simp
                rw [e, hsext]
                simp only [hk]
                rw [expect_skip_ws, heext]
                simp only []
                have hY2 : is_number val = true → num_end Y = true ∨
                    ∃ z, (c2 ++ w).getLast? = some z ∧ isdigit z = false ∧ z ≠ '.' := by
                  intro hn
                  rcases hY hn with h1 | h1
                  · exact Or.inl h1
                  · rw [show cs ++ (w1 ++ ':' :: (c2 ++ w)) = (cs ++ (w1 ++ [':'])) ++ (c2 ++ w)
                      by simp, List.getLast?_append_of_ne_nil _ (by simp [hc2])] at h1
                    exact Or.inr h1
                rw [hstep (w ++ Y) d (num_end_after_value hpv hs2 hw hY2)]
                simp only [skip_ws_append_ws w Y hw]
                rw [hm]
            · rw [if_neg c1e] at h
              by_cases c2e : (parser.get (parser.skip_ws s3)).1 ≠ ','
              · rw [if_pos c2e] at h; cases h
              · rw [if_neg c2e] at h
                have c2e' : (parser.get (parser.skip_ws s3)).1 = ',' := not_not.1 c2e
                obtain ⟨w, hw, hs3, -⟩ := get_skip_ws_spec s3 ',' c2e' (by decide)
                obtain ⟨c', o0, key', val', m', hc', ht, hv, hrec⟩ := ih _ _ _ _ h
                refine ⟨cs ++ (w1 ++ ':' :: (c2 ++ (w ++ ',' :: c'))), o0, key', val', m',
                  by simp [hcs], ?_, hv, fun Y d hY => ?_⟩
                · rw [hs, hs1, hs2, hs3, ht]; simp
                · rw [show f + 1 + d = (f + d) + 1 by omega, parser.parse_object_loop,
                    parse_string_skip_ws]
                  have e : cs ++ (w1 ++ ':' :: (c2 ++ (w ++ ',' :: c'))) ++ Y
                      = cs ++ (w1 ++ ':' :: (c2 ++ (w ++ ',' :: (c' ++ Y)))) := by simp
                  rw [e, hsext]
                  simp only [hk]
                  rw [expect_skip_ws, heext]
                  simp only []
                  rw [hstep _ d (fun _ => num_end_ws_sep w hw ',' (by decide) _)]
                  simp only [skip_ws_append_ws w _ hw,
                    skip_ws_cons _ _ (show isspace ',' = false by decide), parser.get]
                  rw [if_neg (by decide), if_neg (by decide)]
                  rw [show cs ++ (w1 ++ ':' :: (c2 ++ (w ++ ',' :: c')))
                      = (cs ++ (w1 ++ ':' :: (c2 ++ (w ++ [','])))) ++ c' by simp,
                    List.getLast?_append_of_ne_nil _ hc'] at hY
                  exact hrec Y d hY

/-! ## From a value back to the text it was parsed from -/

theorem parse_value_large {s : List Char} {G : Nat} (hG : 3 * s.length + 3 ≤ G) :
    parser.parse_value (3 * s.length + 3) s = parser.parse_value G s :=
  (parse_value_fuel_mono hG ((fuel_adequate _).1 s (le_refl _))).symm

theorem parse_string_loop_kind : ∀ (n : Nat) (s : List Char), s.length ≤ n →
    ∀ (out : List Char) (v : json) (r : List Char),
      parser.parse_string_loop out s = .ok v r → is_string v = true := by
  intro n
  induction n with
  | zero =>
    intro s hs out v r h
    have : s = [] := List.length_eq_zero.1 (by omega)
    subst this
    rw [parser.parse_string_loop.eq_def] at h
    simp at h
  | succ n ih =>
    intro s hs out v r h
    rcases parse_string_loop_cases out s with hno | ⟨r0, rfl, hq⟩ | ⟨p, out2, s1, hp, rfl, hstep⟩
    · exact absurd h (hno v r)
    · rw [hq r0] at h
      cases h
      rfl
    · rw [hstep s1] at h
      have hlen : s1.length ≤ n := by
        have : 0 < p.length := List.length_pos.2 hp
        simp only [List.length_append] at hs
        omega
      exact ih s1 hlen out2 v r h

theorem parse_string_kind {s r : List Char} {v : json} (h : parser.parse_string s = .ok v r) :
    is_string v = true := by
  unfold parser.parse_string at h
  cases he : parser.expect '"' s with
  | ok u s1 =>
    simp only [he] at h
    exact parse_string_loop_kind _ _ (le_refl _) [] v r h
  | error e => simp [he] at h
  | exhausted => simp [he] at h

theorem parse_array_inv {f : Nat} {s r : List Char} {v : json}
    (h : parser.parse_array f s = .ok v r) :
    ∃ (w0 s1 : List Char) (g : Nat), f = g + 1 ∧ (∀ x ∈ w0, isspace x = true) ∧
      s = w0 ++ '[' :: s1 ∧
      ((parser.peek (parser.skip_ws s1) = ']' ∧ v = arr []) ∨
       (parser.peek (parser.skip_ws s1) ≠ ']' ∧ parser.parse_array_loop g [] s1 = .ok v r)) := by
  cases f with
  | zero => rw [parser.parse_array] at h; cases h
  | succ g =>
    rw [parser.parse_array] at h
    cases he : parser.expect '[' s with
    | error e => simp [he] at h
    | exhausted => simp [he] at h
    | ok u s1 =>
      simp only [he] at h
      obtain ⟨w0, hw0, hs, -, -⟩ := expect_spec '[' s s1 u (by decide) he
      refine ⟨w0, s1, g, rfl, hw0, hs, ?_⟩
      by_cases hp : parser.peek (parser.skip_ws s1) = ']'
      · rw [if_pos hp] at h
        simp only [PResult.ok.injEq] at h
        exact Or.inl ⟨hp, h.1.symm⟩
      · rw [if_neg hp, parse_array_loop_skip_ws] at h
        exact Or.inr ⟨hp, h⟩

theorem parse_object_inv {f : Nat} {s r : List Char} {v : json}
    (h : parser.parse_object f s = .ok v r) :
    ∃ (w0 s1 : List Char) (g : Nat), f = g + 1 ∧ (∀ x ∈ w0, isspace x = true) ∧
      s = w0 ++ '{' :: s1 ∧
      ((parser.peek (parser.skip_ws s1) = '}' ∧ v = obj []) ∨
       (parser.peek (parser.skip_ws s1) ≠ '}' ∧ parser.parse_object_loop g [] s1 = .ok v r)) := by
  cases f with
  | zero => rw [parser.parse_object] at h; cases h
  | succ g =>
    rw [parser.parse_object] at h
    cases he : parser.expect '{' s with
    | error e => simp [he] at h
    | exhausted => simp [he] at h
    | ok u s1 =>
      simp only [he] at h
      obtain ⟨w0, hw0, hs, -, -⟩ := expect_spec '{' s s1 u (by decide) he
      refine ⟨w0, s1, g, rfl, hw0, hs, ?_⟩
      by_cases hp : parser.peek (parser.skip_ws s1) = '}'
      · rw [if_pos hp] at h
        simp only [PResult.ok.injEq] at h
        exact Or.inl ⟨hp, h.1.symm⟩
      · rw [if_neg hp, parse_object_loop_skip_ws] at h
        exact Or.inr ⟨hp, h⟩

theorem parse_value_kind {f : Nat} {s r : List Char} {v : json}
    (h : parser.parse_value f s = .ok v r) :
    ∃ g, f = g + 1 ∧
      ((is_array v = true ∧ parser.parse_array g (parser.skip_ws s) = .ok v r) ∨
       (is_object v = true ∧ parser.parse_object g (parser.skip_ws s) = .ok v r) ∨
       (is_array v = false ∧ is_object v = false)) := by
  obtain ⟨g, rfl⟩ := parse_value_ok_pos h
  refine ⟨g, rfl, ?_⟩
  rw [parser.parse_value] at h
  split_ifs at h
  · right; left
    refine ⟨?_, h⟩
    obtain ⟨_, _, _, _, _, _, h1 | h1⟩ := parse_object_inv h
    · rw [h1.2]; rfl
    · obtain ⟨_, _, _, _, _, _, _, hv, _⟩ := parse_object_loop_last _ _ _ _ _ h1.2
      rw [hv]; rfl
  · left
    refine ⟨?_, h⟩
    obtain ⟨_, _, _, _, _, _, h1 | h1⟩ := parse_array_inv h
    · rw [h1.2]; rfl
    · obtain ⟨_, _, _, _, _, _, hv, _⟩ := parse_array_loop_last _ _ _ _ _ h1.2
      rw [hv]; rfl
  · right; right
    have := parse_string_kind h
    cases v <;> simp_all [is_string, is_array, is_object]
  · right; right
    unfold parser.parse_bool at h
    split_ifs at h <;> cases h <;> exact ⟨rfl, rfl⟩
  · right; right
    unfold parser.parse_null at h
    split_ifs at h
    cases h
    exact ⟨rfl, rfl⟩
  · right; right
    have := (parse_number_local h).1
    cases v <;> simp_all [is_number, is_number_integer, is_number_float, is_array, is_object]

theorem split_at_last_unique (ch : Char) :
    ∀ (p1 p2 r1 r2 : List Char), ch ∉ r1 → ch ∉ r2 →
      p1 ++ ch :: r1 = p2 ++ ch :: r2 → p1 = p2 ∧ r1 = r2 := by
  intro p1
  induction p1 with
  | nil =>
    intro p2 r1 r2 h1 h2 h
    cases p2 with
    | nil => simpa using h
    | cons x p2 =>
      simp only [List.nil_append, List.cons_append, List.cons.injEq] at h
      exact absurd (by rw [h.2]; simp) h1
  | cons x p1 ih =>
    intro p2 r1 r2 h1 h2 h
    cases p2 with
    | nil =>
      simp only [List.nil_append, List.cons_append, List.cons.injEq] at h
      exact absurd (by rw [← h.2]; simp) h2
    | cons y p2 =>
      simp only [List.cons_append, List.cons.injEq] at h
      obtain ⟨e1, e2⟩ := ih p2 r1 r2 h1 h2 h.2
      exact ⟨by rw [h.1, e1], e2⟩

theorem peek_skip_ws_append (c Z1 Z2 : List Char) (ch : Char)
    (h : parser.peek (parser.skip_ws (c ++ ch :: Z1)) ≠ ch) (hch : isspace ch = false) :
    parser.peek (parser.skip_ws (c ++ Z2)) ≠ ch := by
  induction c with
  | nil =>
    rw [List.nil_append, skip_ws_cons _ _ hch] at h
    exact absurd rfl h
  | cons x c ih =>
    by_cases hx : isspace x = true
    · simp only [List.cons_append, parser.skip_ws, hx, if_true] at h ⊢
      exact ih h
    · have hx' : isspace x = false := by simpa using hx
      rw [List.cons_append, skip_ws_cons _ _ hx'] at h ⊢
      exact h

theorem parse_array_text_last {pre w : List Char} {a : List json}
    (hw : ∀ x ∈ w, isspace x = true) (h : parse (pre ++ ']' :: w) = .ok (arr a))
    (ha : a ≠ []) :
    ∃ (a0 : json_array) (val : json) (m : Nat), a = a0 ++ [val] ∧
      ∀ (Y : List Char),
        (num_end Y = true ∨ ∃ z, pre.getLast? = some z ∧ isdigit z = false ∧ z ≠ '.') →
        ∀ d, 3 * (pre ++ Y).length + 3 ≤ d →
        parser.parse_value (3 * (pre ++ Y).length + 3) (pre ++ Y) =
          if (parser.get (parser.skip_ws Y)).1 = ']' then
            .ok (arr (a0 ++ [val])) (parser.get (parser.skip_ws Y)).2
          else if (parser.get (parser.skip_ws Y)).1 ≠ ',' then
            .error (.runtime_error "expected \x27,\x27 or \x27]\x27 in array")
          else parser.parse_array_loop (m + 1 + d) (a0 ++ [val])
            (parser.get (parser.skip_ws Y)).2 := by
  obtain ⟨r, hpv, hr⟩ := (parse_ok_iff _ _).1 h
  have hrw : ∀ x ∈ r, isspace x = true := by
    rw [skip_ws_eq_dropWhile, List.dropWhile_eq_nil_iff] at hr
    exact hr
  obtain ⟨g1, hg1, hk⟩ := parse_value_kind hpv
  have harr : parser.parse_array g1 (parser.skip_ws (pre ++ ']' :: w)) = .ok (arr a) r := by
    rcases hk with hk | hk | hk
    · exact hk.2
    · exact absurd hk.1 (by simp [is_object])
    · exact absurd hk.1 (by simp [is_array])
  obtain ⟨w0, s1, g, hg, hw0, hs, hcase⟩ := parse_array_inv harr
  have hloop : parser.peek (parser.skip_ws s1) ≠ ']' ∧
      parser.parse_array_loop g [] s1 = .ok (arr a) r := by
    rcases hcase with hc | hc
    · have := hc.2
      simp only [arr.injEq] at this
      exact absurd this ha
    · exact hc
  obtain ⟨c, a0, val, m, hc, hs1, hv, hlast⟩ := parse_array_loop_last _ _ _ _ _ hloop.2
  obtain ⟨wT, hwT, hT, -⟩ := skip_ws_spec (pre ++ ']' :: w)
  have hsplit : pre ++ ']' :: w = (wT ++ (w0 ++ '[' :: c)) ++ ']' :: r := by
    conv => lhs; rw [hT, hs, hs1]
    simp
  obtain ⟨hpre, -⟩ := split_at_last_unique ']' _ _ _ _
    (fun hm => absurd (hw _ hm) (by decide)) (fun hm => absurd (hrw _ hm) (by decide)) hsplit
  simp only [arr.injEq] at hv
  refine ⟨a0, val, m, hv, fun Y hY d hd => ?_⟩
  have hY2 : num_end Y = true ∨ ∃ z, c.getLast? = some z ∧ isdigit z = false ∧ z ≠ '.' := by
    rcases hY with h1 | h1
    · exact Or.inl h1
    · rw [hpre, show wT ++ (w0 ++ '[' :: c) = (wT ++ (w0 ++ ['['])) ++ c by simp,
        List.getLast?_append_of_ne_nil _ hc] at h1
      exact Or.inr h1
  have hpk : parser.peek (parser.skip_ws (c ++ Y)) ≠ ']' := by
    apply peek_skip_ws_append c r Y ']' _ (by decide)
    rw [← hs1]; exact hloop.1
  rw [parse_value_large (show 3 * (pre ++ Y).length + 3 ≤ g + d + 2 by omega), hpre]
  simp only [List.append_assoc]
  rw [parse_value_append_ws _ _ _ hwT, parse_value_append_ws _ _ _ hw0, List.cons_append,
    parse_value_open_bracket _ _ hpk, hlast Y d (fun _ => hY2)]

theorem parse_object_text_last {pre w : List Char} {o : json_object}
    (hw : ∀ x ∈ w, isspace x = true) (h : parse (pre ++ '}' :: w) = .ok (obj o))
    (ho : o ≠ []) :
    ∃ (o0 : json_object) (key : List Char) (val : json) (m : Nat),
      o = json_object.emplace o0 key val ∧
      ∀ (Y : List Char),
        (num_end Y = true ∨ ∃ z, pre.getLast? = some z ∧ isdigit z = false ∧ z ≠ '.') →
        ∀ d, 3 * (pre ++ Y).length + 3 ≤ d →
        parser.parse_value (3 * (pre ++ Y).length + 3) (pre ++ Y) =
          if (parser.get (parser.skip_ws Y)).1 = '}' then
            .ok (obj (json_object.emplace o0 key val)) (parser.get (parser.skip_ws Y)).2
          else if (parser.get (parser.skip_ws Y)).1 ≠ ',' then
            .error (.runtime_error "expected \x27,\x27 or \x27\x7d\x27 in object")
          else parser.parse_object_loop (m + 1 + d) (json_object.emplace o0 key val)
            (parser.get (parser.skip_ws Y)).2 := by
  obtain ⟨r, hpv, hr⟩ := (parse_ok_iff _ _).1 h
  have hrw : ∀ x ∈ r, isspace x = true := by
    rw [skip_ws_eq_dropWhile, List.dropWhile_eq_nil_iff] at hr
    exact hr
  obtain ⟨g1, hg1, hk⟩ := parse_value_kind hpv
  have hobj : parser.parse_object g1 (parser.skip_ws (pre ++ '}' :: w)) = .ok (obj o) r := by
    rcases hk with hk | hk | hk
    · exact absurd hk.1 (by simp [is_array])
    · exact hk.2
    · exact absurd hk.2 (by simp [is_object])
  obtain ⟨w0, s1, g, hg, hw0, hs, hcase⟩ := parse_object_inv hobj
  have hloop : parser.peek (parser.skip_ws s1) ≠ '}' ∧
      parser.parse_object_loop g [] s1 = .ok (obj o) r := by
    rcases hcase with hc | hc
    · have := hc.2
      simp only [obj.injEq] at this
      exact absurd this ho
    · exact hc
  obtain ⟨c, o0, key, val, m, hc, hs1, hv, hlast⟩ := parse_object_loop_last _ _ _ _ _ hloop.2
  obtain ⟨wT, hwT, hT, -⟩ := skip_ws_spec (pre ++ '}' :: w)
  have hsplit : pre ++ '}' :: w = (wT ++ (w0 ++ '{' :: c)) ++ '}' :: r := by
    conv => lhs; rw [hT, hs, hs1]
    simp
  obtain ⟨hpre, -⟩ := split_at_last_unique '}' _ _ _ _
    (fun hm => absurd (hw _ hm) (by decide)) (fun hm => absurd (hrw _ hm) (by decide)) hsplit
  simp only [obj.injEq] at hv
  refine ⟨o0, key, val, m, hv, fun Y hY d hd => ?_⟩
  have hY2 : num_end Y = true ∨ ∃ z, c.getLast? = some z ∧ isdigit z = false ∧ z ≠ '.' := by
    rcases hY with h1 | h1
    · exact Or.inl h1
    · rw [hpre, show wT ++ (w0 ++ '{' :: c) = (wT ++ (w0 ++ ['{'])) ++ c by simp,
        List.getLast?_append_of_ne_nil _ hc] at h1
      exact Or.inr h1
  have hpk : parser.peek (parser.skip_ws (c ++ Y)) ≠ '}' := by
    apply peek_skip_ws_append c r Y '}' _ (by decide)
    rw [← hs1]; exact hloop.1
  rw [parse_value_large (show 3 * (pre ++ Y).length + 3 ≤ g + d + 2 by omega), hpre]
  simp only [List.append_assoc]
  rw [parse_value_append_ws _ _ _ hwT, parse_value_append_ws _ _ _ hw0, List.cons_append,
    parse_value_open_brace _ _ hpk, hlast Y d (fun _ => hY2)]

/-- C26: trailing commas and unterminated member lists are rejected.  Take any text
that parses to a non-empty Array, written as `pre ] w` with `w` the whitespace after
its closing bracket.  With a comma put right before the bracket, `parse` throws
"unexpected character ']'"; and with the bracket and what follows replaced by any `X`
whose first non-whitespace character is neither `,` nor `]` (or by nothing at all)
it throws "expected ',' or ']' in array".  The same holds for a non-empty Object
with `}`: the trailing comma gives "expected '"'" (a key must follow), another
character "expected ',' or '}' in object".  The only `X` left out are those that
would continue a number literal (a digit or `.` right after a digit or `.`). -/
theorem parse_trailing_comma (pre w X : List Char) (a : List json) (o : json_object)
    (hw : ∀ c ∈ w, isspace c = true)
    (hX : num_end X = true ∨ ∃ z, pre.getLast? = some z ∧ isdigit z = false ∧ z ≠ '.') :
    (parse (pre ++ ']' :: w) = .ok (arr a) → a ≠ [] →
      parse (pre ++ ',' :: ']' :: w) =
        .error (.runtime_error "unexpected character \x27]\x27") ∧
      (parser.peek (parser.skip_ws X) ≠ ',' → parser.peek (parser.skip_ws X) ≠ ']' →
        parse (pre ++ X) =
          .error (.runtime_error "expected \x27,\x27 or \x27]\x27 in array"))) ∧
    (parse (pre ++ '}' :: w) = .ok (obj o) → o ≠ [] →
      parse (pre ++ ',' :: '}' :: w) = .error (.runtime_error "expected \x27\"\x27") ∧
      (parser.peek (parser.skip_ws X) ≠ ',' → parser.peek (parser.skip_ws X) ≠ '}' →
        parse (pre ++ X) =
          .error (.runtime_error "expected \x27,\x27 or \x27\x7d\x27 in object"))) ∧
    parse ['[', '1', ',', ']'] = .error (.runtime_error "unexpected character \x27]\x27") ∧
    parse ['{', '"', 'a', '"', ':', '1', ',', '}'] =
      .error (.runtime_error "expected \x27\"\x27") := by
  refine ⟨fun h ha => ?_, fun h ho => ?_, by rfl, by rfl⟩
  · obtain ⟨a0, val, m, -, hlast⟩ := parse_array_text_last hw h ha
    constructor
    · apply parse_of_parse_value_error
      rw [hlast (',' :: ']' :: w) (Or.inl rfl) _ (le_refl _)]
      simp only [skip_ws_cons _ _ (show isspace ',' = false by decide), parser.get]
      rw [if_neg (by decide), if_neg (by decide),
        show m + 1 + (3 * (pre ++ ',' :: ']' :: w).length + 3)
          = (m + (3 * (pre ++ ',' :: ']' :: w).length + 2) + 1) + 1 by omega,
        parser.parse_array_loop,
        parse_value_unexpected _ _ (by
          rw [skip_ws_cons _ _ (show isspace ']' = false by decide)]; rfl),
        skip_ws_cons _ _ (show isspace ']' = false by decide)]
      rfl
    · intro h1 h2
      apply parse_of_parse_value_error
      rw [hlast X hX _ (le_refl _), ← peek_eq_get, if_neg h2, if_pos h1]
  · obtain ⟨o0, key, val, m, -, hlast⟩ := parse_object_text_last hw h ho
    constructor
    · apply parse_of_parse_value_error
      rw [hlast (',' :: '}' :: w) (Or.inl rfl) _ (le_refl _)]
      simp only [skip_ws_cons _ _ (show isspace ',' = false by decide), parser.get]
      rw [if_neg (by decide), if_neg (by decide),
        show m + 1 + (3 * (pre ++ ',' :: '}' :: w).length + 3)
          = (m + (3 * (pre ++ ',' :: '}' :: w).length + 3)) + 1 by omega,
        parser.parse_object_loop, parse_string_skip_ws]
      have e : parser.parse_string ('}' :: w) = .error (.runtime_error "expected \x27\"\x27") := by
        unfold parser.parse_string parser.expect
        rw [skip_ws_cons _ _ (show isspace '}' = false by decide)]
        rfl
      rw [e]
    · intro h1 h2
      apply parse_of_parse_value_error
      rw [hlast X hX _ (le_refl _), ← peek_eq_get, if_neg h2, if_pos h1]

theorem parse_trailing_comma_witness :
    (∀ c ∈ [' '], isspace c = true) ∧ num_end ['x'] = true ∧ num_end ([] : List Char) = true ∧
    parse "[1, \"b\" ] ".toList = .ok (arr [int 1, str ['b']]) ∧
    parse "[1, \"b\" ,] ".toList = .error (.runtime_error "unexpected character \x27]\x27") ∧
    parse "[1, \"b\" x".toList =
      .error (.runtime_error "expected \x27,\x27 or \x27]\x27 in array") ∧
    parse "[1, \"b\" ".toList =
      .error (.runtime_error "expected \x27,\x27 or \x27]\x27 in array") ∧
    parse "\x7b\"a\":1\x7d ".toList = .ok (obj [(['a'], int 1)]) ∧
    parse "\x7b\"a\":1,\x7d ".toList = .error (.runtime_error "expected \x27\"\x27") ∧
    parse "\x7b\"a\":1".toList =
      .error (.runtime_error "expected \x27,\x27 or \x27\x7d\x27 in object") := by
  have hw : ∀ c ∈ [' '], isspace c = true := by decide
  have ha : parse ("[1, \"b\" ".toList ++ ']' :: [' ']) = .ok (arr [int 1, str ['b']]) := by rfl
  have ho : parse ("\x7b\"a\":1".toList ++ '}' :: [' ']) = .ok (obj [(['a'], int 1)]) := by rfl
  have h1 := (parse_trailing_comma "[1, \"b\" ".toList [' '] ['x'] _ [] hw (Or.inl rfl)).1 ha
    (by simp)
  have h2 := (parse_trailing_comma "[1, \"b\" ".toList [' '] [] _ [] hw (Or.inl rfl)).1 ha
    (by simp)
  have h3 := (parse_trailing_comma "\x7b\"a\":1".toList [' '] [] [] _ hw (Or.inl rfl)).2.1 ho
    (by simp)
  exact ⟨hw, rfl, rfl, ha, h1.1, h1.2 (by decide) (by decide), by
    simpa using h2.2 (by decide) (by decide), ho, h3.1, by
    simpa using h3.2 (by decide) (by decide)⟩

end json
namespace json

/-! ## Reading back what `dump` wrote -/

theorem isxdigit_hex_lower (k : Nat) : isxdigit (hex_lower.getD k '0') = true := by
  by_cases h : k < 16
  · interval_cases k <;> rfl
  · rw [List.getD_eq_default _ _ (by simp [hex_lower]; omega)]
    rfl

theorem string_body_escape_char (c : Char) : string_body (escape_char c) [reparse_char c] := by
  by_cases hl : lossless_char c = true
  · intro out rest
    rw [parse_string_loop_escape_char c hl]
    simp [reparse_char, hl]
  · have hl' : lossless_char c = false := by simpa using hl
    simp only [lossless_char, Bool.or_eq_false_iff, decide_eq_false_iff_not, not_le,
      beq_eq_false_iff_ne, ne_eq] at hl'
    obtain ⟨⟨⟨⟨⟨h0, h1⟩, h2⟩, h3⟩, h4⟩, h5⟩ := hl'
    rw [escape_char_control c h0 h1 h2 h3 h4 h5]
    have := string_body_unicode '0' '0' (hex_lower.getD (c.toNat / 16) '0')
      (hex_lower.getD (c.toNat % 16) '0')
      (by rw [isxdigit_hex_lower, isxdigit_hex_lower]; rfl)
    simpa [reparse_char, hl] using this

theorem string_body_escape_str (s : List Char) :
    string_body (escape_str s) (s.map reparse_char) := by
  induction s with
  | nil => exact string_body_nil
  | cons c s ih =>
    have := string_body_append (string_body_escape_char c) ih
    simpa [escape_str] using this

theorem parse_string_escaped (k rest : List Char) :
    parser.parse_string ('"' :: (escape_str k ++ '"' :: rest))
      = .ok (str (k.map reparse_char)) rest := by
  rw [parser.parse_string, (expect_here '"' (by decide) _).1]
  simp only []
  rw [string_body_escape_str k, parse_string_loop_quote, List.nil_append]

theorem parse_ok_ne_nil {t : List Char} {v : json} (h : parse t = .ok v) : 0 < t.length := by
  cases t with
  | nil =>
    have e : parse [] = .error (.runtime_error (("unexpected character \x27".push '\x00').push '\x27')) :=
      by rfl
    rw [e] at h
    cases h
  | cons c t => simp

theorem num_end_ws (w : List Char) (hw : ∀ x ∈ w, isspace x = true) : num_end w = true := by
  cases w with
  | nil => rfl
  | cons a t =>
    have := isspace_not_digit a (hw a (by simp))
    simp [num_end, this.1, this.2]

theorem spaces_ws (n : Int) : ∀ x ∈ spaces n, isspace x = true := by
  intro x hx
  rw [spaces, List.mem_replicate] at hx
  rw [hx.2]; rfl

theorem parse_array_loop_dump (fmt : Double → List Char) (indent : Int) :
    ∀ (a : List json), a ≠ [] →
      (∀ x ∈ a, ∀ cur, parse (dump_impl fmt x cur indent) = .ok (reparsed x)) →
      ∀ (cur : Int) (fuel : Nat) (acc : json_array) (W1 W2 rest : List Char),
        (∀ x ∈ W1, isspace x = true) → (∀ x ∈ W2, isspace x = true) →
        3 * (dump_array fmt a cur indent).length + 4 ≤ fuel →
        parser.parse_array_loop fuel acc
            (W1 ++ (dump_array fmt a cur indent ++ (W2 ++ ']' :: rest))) =
          .ok (arr (acc ++ reparsed_array a)) rest := by
  intro a
  induction a with
  | nil => intro h; exact absurd rfl h
  | cons x a ih =>
    intro _ hall cur fuel acc W1 W2 rest hW1 hW2 hf
    have hx := hall x (by simp) (cur + indent)
    obtain ⟨c, w, hc, hw, hext⟩ := parse_ok_extend hx
    have hpos := parse_ok_ne_nil hx
    obtain ⟨f, rfl⟩ : ∃ f, fuel = f + 1 := ⟨fuel - 1, by omega⟩
    generalize hS : (if 0 ≤ indent then spaces (cur + indent) else []) = S at *
    generalize hA : (if 0 ≤ indent then ['\n'] else []) = A at *
    have hSw : ∀ y ∈ S, isspace y = true := by
      intro y hy; rw [← hS] at hy
      split_ifs at hy
      · exact spaces_ws _ y hy
      · cases hy
    have hAw : ∀ y ∈ A, isspace y = true := by
      intro y hy; rw [← hA] at hy
      split_ifs at hy
      · simp only [List.mem_singleton] at hy; rw [hy]; rfl
      · cases hy
    have hstep : ∀ Z, num_end (w ++ Z) = true →
        parser.parse_value f (W1 ++ (S ++ (dump_impl fmt x (cur + indent) indent ++ Z)))
          = .ok (reparsed x) (w ++ Z) := by
      intro Z hZ
      rw [parse_value_append_ws _ _ _ hW1, parse_value_append_ws _ _ _ hSw]
      have := hext f Z (by
        simp only [dump_array, hS, hA, List.length_append] at hf
        omega) (fun _ => hZ)
      rw [← List.append_assoc, ← hc] at this
      exact this
    cases a with
    | nil =>
      have e : W1 ++ (dump_array fmt [x] cur indent ++ (W2 ++ ']' :: rest))
          = W1 ++ (S ++ (dump_impl fmt x (cur + indent) indent ++ ((A ++ W2) ++ ']' :: rest))) := by
        simp [dump_array, hS, hA]
      have hAW : ∀ y ∈ A ++ W2, isspace y = true := by
        intro y hy
        rcases List.mem_append.1 hy with h | h
        · exact hAw y h
        · exact hW2 y h
      rw [e, parser.parse_array_loop, hstep _ (by
        rw [← List.append_assoc]
        exact num_end_ws_sep _ (fun y hy => by
          rcases List.mem_append.1 hy with h | h
          · exact hw y h
          · exact hAW y h) ']' (by decide) rest)]
      simp only [skip_ws_append_ws _ _ hw, skip_ws_append_ws _ _ hAW,
        skip_ws_cons _ _ (show isspace ']' = false by decide), parser.get, if_true,
        reparsed_array]
    | cons y a2 =>
      have e : W1 ++ (dump_array fmt (x :: y :: a2) cur indent ++ (W2 ++ ']' :: rest))
          = W1 ++ (S ++ (dump_impl fmt x (cur + indent) indent
              ++ (',' :: (A ++ (dump_array fmt (y :: a2) cur indent ++ (W2 ++ ']' :: rest)))))) := by
        rw [dump_array]
        simp [hS, hA]
      have hlen : (dump_array fmt (x :: y :: a2) cur indent).length
          = S.length + (dump_impl fmt x (cur + indent) indent).length + 1 + A.length
            + (dump_array fmt (y :: a2) cur indent).length := by
        rw [dump_array]
        simp [hS, hA]
        omega
      have hrec := ih (by simp) (fun z hz => hall z (by simp [hz])) cur f
        (acc ++ [reparsed x]) A W2 rest hAw hW2 (by omega)
      rw [e, parser.parse_array_loop, hstep _ (num_end_ws_sep w hw ',' (by decide) _)]
      simp only [skip_ws_append_ws _ _ hw,
        skip_ws_cons _ _ (show isspace ',' = false by decide), parser.get]
      rw [if_neg (by decide), if_neg (by decide), hrec]
      simp [reparsed_array]

theorem parse_object_loop_dump (fmt : Double → List Char) (indent : Int) :
    ∀ (o : List (List Char × json)), o ≠ [] →
      (∀ kv ∈ o, ∀ cur, parse (dump_impl fmt kv.2 cur indent) = .ok (reparsed kv.2)) →
      ∀ (cur : Int) (fuel : Nat) (acc : json_object) (W1 W2 rest : List Char),
        (∀ x ∈ W1, isspace x = true) → (∀ x ∈ W2, isspace x = true) →
        3 * (dump_object fmt o cur indent).length + 4 ≤ fuel →
        parser.parse_object_loop fuel acc
            (W1 ++ (dump_object fmt o cur indent ++ (W2 ++ '}' :: rest))) =
          .ok (obj (emplace_all acc (reparsed_object o))) rest := by
  intro o
  induction o with
  | nil => intro h; exact absurd rfl h
  | cons kv o ih =>
    intro _ hall cur fuel acc W1 W2 rest hW1 hW2 hf
    obtain ⟨k, x⟩ := kv
    have hx : parse (dump_impl fmt x (cur + indent) indent) = .ok (reparsed x) :=
      hall (k, x) (by simp) (cur + indent)
    obtain ⟨c, w, hc, hw, hext⟩ := parse_ok_extend hx
    have hpos := parse_ok_ne_nil hx
    obtain ⟨f, rfl⟩ : ∃ f, fuel = f + 1 := ⟨fuel - 1, by omega⟩
    generalize hS : (if 0 ≤ indent then spaces (cur + indent) else []) = S at *
    generalize hA : (if 0 ≤ indent then ['\n'] else []) = A at *
    have hSw : ∀ y ∈ S, isspace y = true := by
      intro y hy; rw [← hS] at hy
      split_ifs at hy
      · exact spaces_ws _ y hy
      · cases hy
    have hAw : ∀ y ∈ A, isspace y = true := by
      intro y hy; rw [← hA] at hy
      split_ifs at hy
      · simp only [List.mem_singleton] at hy; rw [hy]; rfl
      · cases hy
    have hstep : ∀ Z, num_end (w ++ Z) = true →
        parser.parse_object_loop (f + 1) acc
          (W1 ++ (S ++ ('"' :: (escape_str k ++ '"' :: ':' :: ' ' ::
            (dump_impl fmt x (cur + indent) indent ++ Z))))) =
        (if (parser.get (parser.skip_ws Z)).1 = '}' then
          .ok (obj (json_object.emplace acc (k.map reparse_char) (reparsed x)))
            (parser.get (parser.skip_ws Z)).2
        else if (parser.get (parser.skip_ws Z)).1 ≠ ',' then
          .error (.runtime_error "expected \x27,\x27 or \x27\x7d\x27 in object")
        else parser.parse_object_loop f
          (json_object.emplace acc (k.map reparse_char) (reparsed x))
          (parser.get (parser.skip_ws Z)).2) := by
      intro Z hZ
      rw [parser.parse_object_loop, parse_string_skip_ws, parse_string_append_ws _ _ hW1,
        parse_string_append_ws _ _ hSw, parse_string_escaped]
      simp only [as_string, get_string, (expect_here ':' (by decide) _).2]
      have hv : parser.parse_value f (' ' :: (dump_impl fmt x (cur + indent) indent ++ Z))
          = .ok (reparsed x) (w ++ Z) := by
        rw [show ' ' :: (dump_impl fmt x (cur + indent) indent ++ Z)
          = [' '] ++ (dump_impl fmt x (cur + indent) indent ++ Z) from rfl,
          parse_value_append_ws _ _ _ (by decide)]
        have := hext f Z (by
          simp only [dump_object, hS, hA, List.length_append] at hf
          omega) (fun _ => hZ)
        rw [← List.append_assoc, ← hc] at this
        exact this
      rw [hv]
      simp only [skip_ws_append_ws _ _ hw]
    cases o with
    | nil =>
      have e : W1 ++ (dump_object fmt [(k, x)] cur indent ++ (W2 ++ '}' :: rest))
          = W1 ++ (S ++ ('"' :: (escape_str k ++ '"' :: ':' :: ' ' ::
              (dump_impl fmt x (cur + indent) indent ++ ((A ++ W2) ++ '}' :: rest))))) := by
        simp [dump_object, hS, hA]
      have hAW : ∀ y ∈ A ++ W2, isspace y = true := by
        intro y hy
        rcases List.mem_append.1 hy with h | h
        · exact hAw y h
        · exact hW2 y h
      rw [e, hstep _ (by
        rw [← List.append_assoc]
        exact num_end_ws_sep _ (fun y hy => by
          rcases List.mem_append.1 hy with h | h
          · exact hw y h
          · exact hAW y h) '}' (by decide) rest)]
      simp only [skip_ws_append_ws _ _ hAW,
        skip_ws_cons _ _ (show isspace '}' = false by decide), parser.get, if_true,
        reparsed_object, emplace_all, List.foldl]
    | cons kv2 o2 =>
      have e : W1 ++ (dump_object fmt ((k, x) :: kv2 :: o2) cur indent ++ (W2 ++ '}' :: rest))
          = W1 ++ (S ++ ('"' :: (escape_str k ++ '"' :: ':' :: ' ' ::
              (dump_impl fmt x (cur + indent) indent
                ++ (',' :: (A ++ (dump_object fmt (kv2 :: o2) cur indent
                  ++ (W2 ++ '}' :: rest)))))))) := by
        rw [dump_object]
        simp [hS, hA]
      have hlen : 3 * (dump_object fmt (kv2 :: o2) cur indent).length + 4 ≤ f := by
        rw [dump_object] at hf
        simp only [hS, hA, List.length_append, List.length_cons] at hf
        omega
      have hrec := ih (by simp) (fun z hz => hall z (by simp [hz])) cur f
        (json_object.emplace acc (k.map reparse_char) (reparsed x)) A W2 rest hAw hW2 hlen
      rw [e, hstep _ (num_end_ws_sep w hw ',' (by decide) _)]
      simp only [skip_ws_cons _ _ (show isspace ',' = false by decide), parser.get]
      rw [if_neg (by decide), if_neg (by decide), hrec]
      simp [reparsed_object, emplace_all]

theorem parse_dump_collection_array (fmt : Double → List Char) (indent cur : Int)
    (a : List json) (ha : a ≠ [])
    (hall : ∀ x ∈ a, ∀ cur, parse (dump_impl fmt x cur indent) = .ok (reparsed x)) :
    parse (dump_impl fmt (arr a) cur indent) = .ok (arr (reparsed_array a)) := by
  generalize hA : (if 0 ≤ indent then ['\n'] else []) = A
  generalize hC : (if 0 ≤ indent then spaces cur else []) = C
  have hAw : ∀ y ∈ A, isspace y = true := by
    intro y hy; rw [← hA] at hy
    split_ifs at hy
    · simp only [List.mem_singleton] at hy; rw [hy]; rfl
    · cases hy
  have hCw : ∀ y ∈ C, isspace y = true := by
    intro y hy; rw [← hC] at hy
    split_ifs at hy
    · exact spaces_ws _ y hy
    · cases hy
  have htext : dump_impl fmt (arr a) cur indent
      = '[' :: (A ++ (dump_array fmt a cur indent ++ (C ++ ']' :: []))) := by
    obtain ⟨x, t, rfl⟩ := List.exists_cons_of_ne_nil ha
    rw [dump_impl]
    simp [hA, hC]
  rw [htext]
  have hloop := parse_array_loop_dump fmt indent a ha hall cur
    (3 * ('[' :: (A ++ (dump_array fmt a cur indent ++ (C ++ ']' :: [])))).length + 1) []
    A C [] hAw hCw (by simp; omega)
  have hpk := parse_array_loop_ok_peek hloop
  refine @parse_of_parse_value _ [] _ ?_ (by simp)
  rw [show 3 * ('[' :: (A ++ (dump_array fmt a cur indent ++ (C ++ ']' :: [])))).length + 3
    = (3 * ('[' :: (A ++ (dump_array fmt a cur indent ++ (C ++ ']' :: [])))).length + 1) + 2
    from rfl, parse_value_open_bracket _ _ hpk, hloop, List.nil_append]

theorem parse_dump_collection_object (fmt : Double → List Char) (indent cur : Int)
    (o : List (List Char × json)) (ho : o ≠ [])
    (hall : ∀ kv ∈ o, ∀ cur, parse (dump_impl fmt kv.2 cur indent) = .ok (reparsed kv.2)) :
    parse (dump_impl fmt (obj o) cur indent) = .ok (obj (emplace_all [] (reparsed_object o))) := by
  generalize hA : (if 0 ≤ indent then ['\n'] else []) = A
  generalize hC : (if 0 ≤ indent then spaces cur else []) = C
  have hAw : ∀ y ∈ A, isspace y = true := by
    intro y hy; rw [← hA] at hy
    split_ifs at hy
    · simp only [List.mem_singleton] at hy; rw [hy]; rfl
    · cases hy
  have hCw : ∀ y ∈ C, isspace y = true := by
    intro y hy; rw [← hC] at hy
    split_ifs at hy
    · exact spaces_ws _ y hy
    · cases hy
  have htext : dump_impl fmt (obj o) cur indent
      = '{' :: (A ++ (dump_object fmt o cur indent ++ (C ++ '}' :: []))) := by
    obtain ⟨x, t, rfl⟩ := List.exists_cons_of_ne_nil ho
    rw [dump_impl]
    simp [hA, hC]
  rw [htext]
  have hloop := parse_object_loop_dump fmt indent o ho hall cur
    (3 * ('{' :: (A ++ (dump_object fmt o cur indent ++ (C ++ '}' :: [])))).length + 1) []
    A C [] hAw hCw (by simp; omega)
  have hpk := parse_object_loop_ok_peek hloop
  refine @parse_of_parse_value _ [] _ ?_ (by simp)
  rw [show 3 * ('{' :: (A ++ (dump_object fmt o cur indent ++ (C ++ '}' :: [])))).length + 3
    = (3 * ('{' :: (A ++ (dump_object fmt o cur indent ++ (C ++ '}' :: [])))).length + 1) + 2
    from rfl, parse_value_open_brace _ _ hpk, hloop]

mutual

theorem parse_dump_impl (fmt : Double → List Char) (indent : Int) :
    ∀ (v : json) (cur : Int), float_free v = true → well_formed v = true →
      parse (dump_impl fmt v cur indent) = .ok (reparsed v)
  | null, _, _, _ => by rw [dump_impl, reparsed]; rfl
  | bool true, _, _, _ => by rw [dump_impl, reparsed]; rfl
  | bool false, _, _, _ => by rw [dump_impl, reparsed]; rfl
  | int i, _, _, hw => by
    simp only [well_formed, decide_eq_true_eq] at hw
    rw [dump_impl, reparsed]
    exact parse_of_value_text (value_text_int i hw)
  | float d, _, hf, _ => by simp [float_free] at hf
  | str s, _, _, _ => by
    rw [dump_impl, reparsed]
    exact parse_body_ok (string_body_escape_str s)
  | arr a, cur, hf, hw => by
    simp only [float_free, well_formed] at hf hw
    cases a with
    | nil => rw [dump_impl, reparsed, reparsed_array]; rfl
    | cons x rest =>
      rw [reparsed]
      exact parse_dump_collection_array fmt indent cur (x :: rest) (by simp)
        (parse_dump_array fmt indent (x :: rest) hf hw)
  | obj o, cur, hf, hw => by
    simp only [float_free, well_formed] at hf hw
    cases o with
    | nil => rw [dump_impl, reparsed, reparsed_object]; rfl
    | cons kv rest =>
      rw [reparsed]
      exact parse_dump_collection_object fmt indent cur (kv :: rest) (by simp)
        (parse_dump_object fmt indent (kv :: rest) hf hw)

theorem parse_dump_array (fmt : Double → List Char) (indent : Int) :
    ∀ (a : List json), float_free_array a = true → well_formed_array a = true →
      ∀ x ∈ a, ∀ cur, parse (dump_impl fmt x cur indent) = .ok (reparsed x)
  | [], _, _ => by intro x hx; cases hx
  | y :: rest, hf, hw => by
    simp only [float_free_array, well_formed_array, Bool.and_eq_true] at hf hw
    intro x hx cur
    rcases List.mem_cons.1 hx with rfl | hx
    · exact parse_dump_impl fmt indent x cur hf.1 hw.1
    · exact parse_dump_array fmt indent rest hf.2 hw.2 x hx cur

theorem parse_dump_object (fmt : Double → List Char) (indent : Int) :
    ∀ (o : List (List Char × json)), float_free_object o = true →
      well_formed_object o = true →
      ∀ kv ∈ o, ∀ cur, parse (dump_impl fmt kv.2 cur indent) = .ok (reparsed kv.2)
  | [], _, _ => by intro x hx; cases hx
  | (k, y) :: rest, hf, hw => by
    simp only [float_free_object, well_formed_object, Bool.and_eq_true] at hf hw
    intro x hx cur
    rcases List.mem_cons.1 hx with rfl | hx
    · exact parse_dump_impl fmt indent y cur hf.1 hw.1.2
    · exact parse_dump_object fmt indent rest hf.2 hw.2 x hx cur

end

theorem map_reparse_char_lossless (s : List Char) (h : s.all lossless_char = true) :
    s.map reparse_char = s := by
  induction s with
  | nil => rfl
  | cons c s ih =>
    simp only [List.all_cons, Bool.and_eq_true] at h
    simp [reparse_char, h.1, ih h.2]

mutual

theorem reparsed_lossless :
    ∀ (v : json), well_formed v = true → lossless v = true → reparsed v = v
  | null, _, _ => by rw [reparsed]
  | bool b, _, _ => by rw [reparsed]
  | int i, _, _ => by rw [reparsed]
  | float d, _, _ => by rw [reparsed]
  | str s, _, hl => by
    simp only [lossless] at hl
    rw [reparsed, map_reparse_char_lossless s hl]
  | arr a, hw, hl => by
    simp only [well_formed, lossless] at hw hl
    rw [reparsed, reparsed_array_lossless a hw hl]
  | obj o, hw, hl => by
    simp only [well_formed, lossless] at hw hl
    rw [reparsed, reparsed_object_lossless o hw hl,
      emplace_all_unique o [] (fun _ _ => rfl) (well_formed_object_nodup _ hw)]
    rfl

theorem reparsed_array_lossless :
    ∀ (a : List json), well_formed_array a = true → lossless_array a = true →
      reparsed_array a = a
  | [], _, _ => by rw [reparsed_array]
  | x :: rest, hw, hl => by
    simp only [well_formed_array, lossless_array, Bool.and_eq_true] at hw hl
    rw [reparsed_array, reparsed_lossless x hw.1 hl.1, reparsed_array_lossless rest hw.2 hl.2]

theorem reparsed_object_lossless :
    ∀ (o : List (List Char × json)), well_formed_object o = true → lossless_object o = true →
      reparsed_object o = o
  | [], _, _ => by rw [reparsed_object]
  | (k, x) :: rest, hw, hl => by
    simp only [well_formed_object, lossless_object, Bool.and_eq_true] at hw hl
    rw [reparsed_object, map_reparse_char_lossless k hl.1.1, reparsed_lossless x hw.1.2 hl.1.2,
      reparsed_object_lossless rest hw.2 hl.2]

end

end json
/-! ## Items: conversion to `json` and back -/

theorem int64_to_int_of_inInt32 (x : Int) (h : inInt32 x) : int64_to_int x = x := by
  unfold inInt32 INT_MIN INT_MAX at h
  unfold int64_to_int
  omega

theorem get_int_of_inInt32 (x : Int) (h : inInt32 x) : json.get_int (.int x) = .ok x := by
  rw [json.get_int, int64_to_int_of_inInt32 x h]

theorem stringToItemType_toString (t : ItemType) : stringToItemType t.toString = t := by
  cases t <;> simp [ItemType.toString, stringToItemType]

theorem stringToRarity_toString (r : Rarity) : stringToRarity r.toString = r := by
  cases r <;> simp [Rarity.toString, stringToRarity]

theorem Item.to_json_eq (i : Item) :
    i.to_json = .obj [("id".toList, .str i.id), ("name".toList, .str i.name),
      ("type".toList, .str i.type.toString), ("rarity".toList, .str i.rarity.toString),
      ("levelReq".toList, .int i.levelReq), ("stackSize".toList, .int i.stackSize),
      ("maxStack".toList, .int i.maxStack), ("data".toList, i.data.to_json)] := by
  simp [Item.to_json, json.of_pairs, emplace_all, json_object.emplace, json_object.find,
    json.subscript_assign, json.subscript_mut, json_object.subscript]

theorem weapon_data_from_to_json (d : WeaponData)
    (h : inInt32 d.damage ∧ inInt32 d.durability ∧ inInt32 d.weight) :
    WeaponData.from_json d.to_json = .ok d := by
  simp [WeaponData.from_json, WeaponData.to_json, json.of_pairs, emplace_all,
    json_object.emplace, json_object.find, json.value, get_int_of_inInt32, h.1, h.2.1, h.2.2,
    bind, Except.bind, pure, Except.pure]

theorem armor_data_from_to_json (d : ArmorData) (h : inInt32 d.defense ∧ inInt32 d.weight) :
    ArmorData.from_json d.to_json = .ok d := by
  simp [ArmorData.from_json, ArmorData.to_json, json.of_pairs, emplace_all,
    json_object.emplace, json_object.find, json.value, get_int_of_inInt32, h.1, h.2,
    bind, Except.bind, pure, Except.pure]

theorem consumable_data_from_to_json (d : ConsumableData)
    (h : inInt32 d.healAmount ∧ inInt32 d.weight) :
    ConsumableData.from_json d.to_json = .ok d := by
  simp [ConsumableData.from_json, ConsumableData.to_json, json.of_pairs, emplace_all,
    json_object.emplace, json_object.find, json.value, get_int_of_inInt32, h.1, h.2,
    bind, Except.bind, pure, Except.pure]

theorem material_data_from_to_json (d : MaterialData) (h : inInt32 d.weight) :
    MaterialData.from_json d.to_json = .ok d := by
  simp [MaterialData.from_json, MaterialData.to_json, json.of_pairs, emplace_all,
    json_object.emplace, json_object.find, json.value, get_int_of_inInt32, h,
    bind, Except.bind, pure, Except.pure]

theorem misc_data_from_to_json (d : MiscData) (h : inInt32 d.weight) :
    MiscData.from_json d.to_json = .ok d := by
  simp [MiscData.from_json, MiscData.to_json, json.of_pairs, emplace_all,
    json_object.emplace, json_object.find, json.value, get_int_of_inInt32, h,
    bind, Except.bind, pure, Except.pure]

/-- C30: for every Item whose payload alternative is the one of its type (and whose
`int` fields are 32-bit values, as the C++ type has it), decoding the Value that
encodes it gives the Item back in every field: `from_json(to_json(item)) = item`. -/
theorem item_json_roundtrip (i : Item) (hv : i.valid) (hm : i.payload_matches = true) :
    Item.from_json i.to_json = .ok i := by
  obtain ⟨id, name, type, rarity, l, s, m, data⟩ := i
  obtain ⟨h1, h2, h3, h4⟩ := hv
  simp only at h1 h2 h3 h4
  rw [Item.to_json_eq]
  cases type <;> cases data <;> simp [Item.payload_matches] at hm <;>
    simp only [ItemPayload.valid] at h4 <;>
    simp [Item.from_json, json.at_const, json.subscript_const, json_object.find,
      json.get_string, get_int_of_inInt32, h1, h2, h3, stringToItemType_toString,
      stringToRarity_toString, ItemPayload.to_json, weapon_data_from_to_json,
      armor_data_from_to_json, consumable_data_from_to_json, material_data_from_to_json,
      misc_data_from_to_json, h4, bind, Except.bind, pure, Except.pure, Functor.map, Except.map]

theorem item_json_roundtrip_witness :
    Item.valid ⟨"iron_sword".toList, "Iron Sword".toList, .Weapon, .Rare, 3, 1, 1,
      .weapon ⟨12, -1, 5⟩⟩ ∧
    Item.payload_matches ⟨"iron_sword".toList, "Iron Sword".toList, .Weapon, .Rare, 3, 1, 1,
      .weapon ⟨12, -1, 5⟩⟩ = true ∧
    Item.to_json ⟨"iron_sword".toList, "Iron Sword".toList, .Weapon, .Rare, 3, 1, 1,
      .weapon ⟨12, -1, 5⟩⟩ =
      .obj [("id".toList, .str "iron_sword".toList), ("name".toList, .str "Iron Sword".toList),
        ("type".toList, .str "Weapon".toList), ("rarity".toList, .str "Rare".toList),
        ("levelReq".toList, .int 3), ("stackSize".toList, .int 1), ("maxStack".toList, .int 1),
        ("data".toList, .obj [("damage".toList, .int 12), ("durability".toList, .int (-1)),
          ("weight".toList, .int 5)])] ∧
    Item.from_json (Item.to_json ⟨"iron_sword".toList, "Iron Sword".toList, .Weapon, .Rare,
      3, 1, 1, .weapon ⟨12, -1, 5⟩⟩) =
      .ok ⟨"iron_sword".toList, "Iron Sword".toList, .Weapon, .Rare, 3, 1, 1,
        .weapon ⟨12, -1, 5⟩⟩ := by
  have hv : Item.valid ⟨"iron_sword".toList, "Iron Sword".toList, .Weapon, .Rare, 3, 1, 1,
      .weapon ⟨12, -1, 5⟩⟩ := by
    simp [Item.valid, ItemPayload.valid, inInt32, INT_MIN, INT_MAX]
  refine ⟨hv, rfl, ?_, item_json_roundtrip _ hv rfl⟩
  simp [Item.to_json_eq, ItemPayload.to_json, WeaponData.to_json, json.of_pairs, emplace_all,
    json_object.emplace, json_object.find, ItemType.toString, Rarity.toString]

/-! ## Inventory: weights and counts -/

theorem Item.getWeight_eq (i : Item) : i.getWeight = i.data.weight * i.stackSize := by
  rcases i with ⟨id, name, type, rarity, levelReq, stackSize, maxStack, data⟩
  cases data <;> rfl

theorem Item.getWeight_resized (i : Item) (s : Int) :
    ({ i with stackSize := s } : Item).getWeight = i.data.weight * s := by
  rw [Item.getWeight_eq]

theorem Item.weightPerUnit_some {i : Item} {u : Int} (h : i.weightPerUnit = some u) :
    u = i.data.weight ∧ 0 < i.stackSize := by
  unfold Item.weightPerUnit at h
  by_cases hs : i.stackSize > 0
  · rw [if_pos hs, Item.getWeight_eq, Int.mul_tdiv_cancel _ (by omega)] at h
    exact ⟨(Option.some.inj h).symm, hs⟩
  · rw [if_neg hs] at h
    cases h

theorem Item.weightPerUnit_pos {i : Item} (h : 0 < i.stackSize) :
    i.weightPerUnit = some i.data.weight := by
  unfold Item.weightPerUnit
  rw [if_pos h, Item.getWeight_eq, Int.mul_tdiv_cancel _ (by omega)]

namespace Inventory

theorem stacks_weight_cons (a : Item) (l : List Item) :
    stacks_weight (a :: l) = a.getWeight + stacks_weight l := by
  simp [stacks_weight]

theorem stacks_weight_append (l m : List Item) :
    stacks_weight (l ++ m) = stacks_weight l + stacks_weight m := by
  simp [stacks_weight]

theorem wrap_int_range (i : Int) : inInt32 (wrap_int i) := by
  unfold wrap_int inInt32 INT_MIN INT_MAX
  omega

theorem wrap_int_of_inInt32 {i : Int} (h : inInt32 i) : wrap_int i = i := by
  unfold inInt32 INT_MIN INT_MAX at h
  unfold wrap_int
  omega

theorem wrap_int_add (a b : Int) : wrap_int (wrap_int a + b) = wrap_int (a + b) := by
  unfold wrap_int
  omega

theorem units_cons (id : List Char) (e : Item) (rest : List Item) :
    units id (e :: rest) = (if e.id = id then e.stackSize else 0) + units id rest := rfl

theorem units_filter (id x : List Char) (hx : x ≠ id) (l : List Item) :
    units x (l.filter (fun it => decide (it.id ≠ id))) = units x l := by
  induction l with
  | nil => rfl
  | cons e rest ih =>
    by_cases he : e.id = id
    · have : e.id ≠ x := fun h => hx (h.symm.trans he)
      rw [List.filter_cons_of_neg (by simp [he]), ih, units_cons, if_neg this]
      omega
    · rw [List.filter_cons_of_pos (by simp [he]), units_cons, units_cons, ih]

/-- The loop of `count` forms the number of units, reduced to an `int` at each
addition. -/
theorem count_loop_eq (id : List Char) :
    ∀ (items : List Item) (a : Int), inInt32 a →
      count_loop id items a = wrap_int (a + units id items) := by
  intro items
  induction items with
  | nil => intro a ha; simp [count_loop, units, wrap_int_of_inInt32 ha]
  | cons e rest ih =>
    intro a ha
    simp only [count_loop, units]
    by_cases he : e.id = id
    · rw [if_pos he, if_pos he, ih _ (wrap_int_range _), wrap_int_add, add_assoc]
    · rw [if_neg he, if_neg he, ih _ ha, zero_add]

theorem count_eq (inv : Inventory) (id : List Char) :
    inv.count id = wrap_int (units id inv.items) := by
  unfold count
  rw [count_loop_eq id inv.items 0 (by decide), zero_add]

theorem same_stacks_refl (l : List Item) : same_stacks l l := by
  induction l with
  | nil => exact List.Forall₂.nil
  | cons e rest ih => exact List.Forall₂.cons rfl ih

theorem same_stacks_length {l m : List Item} (h : same_stacks l m) : l.length = m.length :=
  List.Forall₂.length_eq h

/-! ## Inventory: the loops of `addItem` -/

theorem addItem_plan_eq_canAdd (id : List Char) :
    ∀ (items : List Item) (s : Int), canAdd_plan id items s = addItem_plan id items s := by
  intro items
  induction items with
  | nil => intro s; rfl
  | cons e rest ih =>
    intro s
    simp only [canAdd_plan, addItem_plan]
    rw [ih, ih]

theorem addItem_plan_range (id : List Char) :
    ∀ (items : List Item) (s : Int),
      (0 ≤ s → 0 ≤ addItem_plan id items s ∧ addItem_plan id items s ≤ s) ∧
      (s < 0 → addItem_plan id items s = 0 ∨ addItem_plan id items s = s) := by
  intro items
  induction items with
  | nil => intro s; simp [addItem_plan]
  | cons e rest ih =>
    intro s
    simp only [addItem_plan]
    by_cases hc : e.id = id ∧ e.stackSize < e.maxStack
    · rw [if_pos hc]
      by_cases hz : s - min (e.maxStack - e.stackSize) s = 0
      · rw [if_pos hz]
        constructor
        · intro h; omega
        · intro h; left; exact hz
      · rw [if_neg hz]
        have h1 := ih (s - min (e.maxStack - e.stackSize) s)
        constructor
        · intro h
          have := h1.1 (by omega)
          omega
        · intro h
          exfalso
          omega
    · rw [if_neg hc]
      exact ih s

theorem addItem_fill_spec (id : List Char) :
    ∀ (items : List Item) (s tw : Int) (out : List Item) (s1 tw1 : Int),
      addItem_fill id items s tw = some (out, s1, tw1) →
      tw1 - stacks_weight out = tw - stacks_weight items ∧ same_stacks items out ∧
      s1 = addItem_plan id items s ∧
      ∀ x, units x out = units x items + (if x = id then s - s1 else 0) := by
  intro items
  induction items with
  | nil =>
    intro s tw out s1 tw1 h
    simp only [addItem_fill, Option.some.injEq, Prod.mk.injEq] at h
    obtain ⟨rfl, rfl, rfl⟩ := h
    refine ⟨rfl, List.Forall₂.nil, rfl, ?_⟩
    intro x
    split_ifs <;> simp [units]
  | cons e rest ih =>
    intro s tw out s1 tw1 h
    simp only [addItem_fill] at h
    simp only [addItem_plan]
    by_cases hc : e.id = id ∧ e.stackSize < e.maxStack
    · rw [if_pos hc] at h
      rw [if_pos hc]
      cases hw : ({ e with stackSize := e.stackSize + min (e.maxStack - e.stackSize) s } :
          Item).weightPerUnit with
      | none => simp [hw] at h
      | some u =>
        simp only [hw] at h
        have hu := (Item.weightPerUnit_some hw).1
        simp only at hu
        subst hu
        by_cases hz : s - min (e.maxStack - e.stackSize) s = 0
        · rw [if_pos hz] at h
          rw [if_pos hz]
          simp only [Option.some.injEq, Prod.mk.injEq] at h
          obtain ⟨rfl, rfl, rfl⟩ := h
          refine ⟨?_, List.Forall₂.cons rfl (same_stacks_refl rest), rfl, ?_⟩
          · rw [stacks_weight_cons, stacks_weight_cons, Item.getWeight_resized,
              Item.getWeight_eq]
            ring
          · intro x
            rw [units_cons, units_cons]
            simp only
            by_cases hx : x = id
            · subst hx
              rw [if_pos hc.1, if_pos hc.1, if_pos rfl]
              omega
            · have : e.id ≠ x := fun h => hx (h.symm.trans hc.1)
              rw [if_neg this, if_neg this, if_neg hx]
              omega
        · rw [if_neg hz] at h
          rw [if_neg hz]
          cases hr : addItem_fill id rest (s - min (e.maxStack - e.stackSize) s)
              (tw + e.data.weight * min (e.maxStack - e.stackSize) s) with
          | none => simp [hr] at h
          | some p =>
            obtain ⟨o, s2, w2⟩ := p
            simp only [hr] at h
            simp only [Option.some.injEq, Prod.mk.injEq] at h
            obtain ⟨rfl, rfl, rfl⟩ := h
            obtain ⟨i1, i2, i3, i4⟩ := ih _ _ _ _ _ hr
            refine ⟨?_, List.Forall₂.cons rfl i2, i3, ?_⟩
            · rw [stacks_weight_cons, stacks_weight_cons, Item.getWeight_resized,
                Item.getWeight_eq]
              linarith [i1, mul_add e.data.weight e.stackSize (min (e.maxStack - e.stackSize) s)]
            · intro x
              rw [units_cons, units_cons, i4 x]
              simp only
              by_cases hx : x = id
              · subst hx
                rw [if_pos hc.1, if_pos hc.1, if_pos rfl, if_pos rfl]
                omega
              · have : e.id ≠ x := fun h => hx (h.symm.trans hc.1)
                rw [if_neg this, if_neg this, if_neg hx, if_neg hx]
                omega
    · rw [if_neg hc] at h
      rw [if_neg hc]
      cases hr : addItem_fill id rest s tw with
      | none => simp [hr] at h
      | some p =>
        obtain ⟨o, s2, w2⟩ := p
        simp only [hr] at h
        simp only [Option.some.injEq, Prod.mk.injEq] at h
        obtain ⟨rfl, rfl, rfl⟩ := h
        obtain ⟨i1, i2, i3, i4⟩ := ih _ _ _ _ _ hr
        refine ⟨?_, List.Forall₂.cons rfl i2, i3, ?_⟩
        · rw [stacks_weight_cons, stacks_weight_cons]
          omega
        · intro x
          rw [units_cons, units_cons, i4 x]
          omega

end Inventory

namespace Inventory

theorem addItem_fill_total (id : List Char) :
    ∀ (items : List Item) (s tw : Int), (∀ it ∈ items, 1 ≤ it.stackSize) → 0 ≤ s →
      ∃ out s1 tw1, addItem_fill id items s tw = some (out, s1, tw1) := by
  intro items
  induction items with
  | nil => intro s tw _ _; exact ⟨[], s, tw, rfl⟩
  | cons e rest ih =>
    intro s tw hall hs
    have he : 1 ≤ e.stackSize := hall e (List.mem_cons_self _ _)
    have hrest : ∀ it ∈ rest, 1 ≤ it.stackSize := fun it hit => hall it (List.mem_cons_of_mem _ hit)
    simp only [addItem_fill]
    by_cases hc : e.id = id ∧ e.stackSize < e.maxStack
    · rw [if_pos hc]
      have hw : ({ e with stackSize := e.stackSize + min (e.maxStack - e.stackSize) s } :
          Item).weightPerUnit = some e.data.weight :=
        Item.weightPerUnit_pos (i := { e with stackSize := e.stackSize + min (e.maxStack - e.stackSize) s })
          (by simp only; omega)
      simp only [hw]
      by_cases hz : s - min (e.maxStack - e.stackSize) s = 0
      · rw [if_pos hz]; exact ⟨_, _, _, rfl⟩
      · rw [if_neg hz]
        obtain ⟨o, s2, w2, hr⟩ := ih (s - min (e.maxStack - e.stackSize) s)
          (tw + e.data.weight * min (e.maxStack - e.stackSize) s) hrest (by omega)
        simp only [hr]
        exact ⟨_, _, _, rfl⟩
    · rw [if_neg hc]
      obtain ⟨o, s2, w2, hr⟩ := ih s tw hrest hs
      simp only [hr]
      exact ⟨_, _, _, rfl⟩

theorem addItem_fill_bounds (id : List Char) :
    ∀ (items : List Item) (s tw : Int) (out : List Item) (s1 tw1 : Int),
      addItem_fill id items s tw = some (out, s1, tw1) → 0 ≤ s →
      (∀ it ∈ items, 1 ≤ it.stackSize ∧ it.stackSize ≤ it.maxStack) →
      ∀ it ∈ out, 1 ≤ it.stackSize ∧ it.stackSize ≤ it.maxStack := by
  intro items
  induction items with
  | nil =>
    intro s tw out s1 tw1 h _ _
    simp only [addItem_fill, Option.some.injEq, Prod.mk.injEq] at h
    obtain ⟨rfl, rfl, rfl⟩ := h
    intro it hit; cases hit
  | cons e rest ih =>
    intro s tw out s1 tw1 h hs hall
    have he := hall e (List.mem_cons_self _ _)
    have hrest : ∀ it ∈ rest, 1 ≤ it.stackSize ∧ it.stackSize ≤ it.maxStack :=
      fun it hit => hall it (List.mem_cons_of_mem _ hit)
    simp only [addItem_fill] at h
    by_cases hc : e.id = id ∧ e.stackSize < e.maxStack
    · rw [if_pos hc] at h
      cases hw : ({ e with stackSize := e.stackSize + min (e.maxStack - e.stackSize) s } :
          Item).weightPerUnit with
      | none => simp [hw] at h
      | some u =>
        simp only [hw] at h
        by_cases hz : s - min (e.maxStack - e.stackSize) s = 0
        · rw [if_pos hz] at h
          simp only [Option.some.injEq, Prod.mk.injEq] at h
          obtain ⟨rfl, rfl, rfl⟩ := h
          intro it hit
          rcases List.mem_cons.1 hit with rfl | hit
          · simp only; omega
          · exact hrest it hit
        · rw [if_neg hz] at h
          cases hr : addItem_fill id rest (s - min (e.maxStack - e.stackSize) s)
              (tw + u * min (e.maxStack - e.stackSize) s) with
          | none => simp [hr] at h
          | some p =>
            obtain ⟨o, s2, w2⟩ := p
            simp only [hr] at h
            simp only [Option.some.injEq, Prod.mk.injEq] at h
            obtain ⟨rfl, rfl, rfl⟩ := h
            intro it hit
            rcases List.mem_cons.1 hit with rfl | hit
            · simp only; omega
            · exact ih _ _ _ _ _ hr (by omega) hrest it hit
    · rw [if_neg hc] at h
      cases hr : addItem_fill id rest s tw with
      | none => simp [hr] at h
      | some p =>
        obtain ⟨o, s2, w2⟩ := p
        simp only [hr] at h
        simp only [Option.some.injEq, Prod.mk.injEq] at h
        obtain ⟨rfl, rfl, rfl⟩ := h
        intro it hit
        rcases List.mem_cons.1 hit with rfl | hit
        · exact he
        · exact ih _ _ _ _ _ hr hs hrest it hit

theorem stacks_needed_nonpos {s m : Int} (hs : s ≤ 0) (hm : 1 ≤ m) : stacks_needed s m = 0 := by
  unfold stacks_needed
  have : (s + m - 1) / m < 1 := Int.ediv_lt_of_lt_mul (by omega) (by omega)
  omega

theorem stacks_needed_step {s m : Int} (hs : 0 < s) (hm : 1 ≤ m) :
    stacks_needed s m = stacks_needed (s - min s m) m + 1 := by
  by_cases h : s ≤ m
  · rw [min_eq_left h, sub_self, stacks_needed_nonpos (le_refl 0) hm]
    unfold stacks_needed
    have e : s + m - 1 = (s - 1) + 1 * m := by ring
    rw [e, Int.add_mul_ediv_right _ _ (by omega), Int.ediv_eq_zero_of_lt (by omega) (by omega)]
    rfl
  · rw [min_eq_right (by omega)]
    unfold stacks_needed
    have e : s + m - 1 = (s - m + m - 1) + 1 * m := by ring
    rw [e, Int.add_mul_ediv_right _ _ (by omega)]
    have : 0 ≤ (s - m + m - 1) / m := Int.ediv_nonneg (by omega) (by omega)
    omega

theorem addItem_push_spec :
    ∀ (fuel : Nat) (toAdd : Item) (items : List Item) (tw : Int) (out : List Item) (tw1 : Int),
      addItem_push fuel toAdd items tw = some (out, tw1) →
      ∃ fresh, out = items ++ fresh ∧ tw1 = tw + stacks_weight fresh ∧
        (∀ f ∈ fresh, f = { toAdd with stackSize := f.stackSize }) ∧
        (0 ≤ toAdd.stackSize → units toAdd.id fresh = toAdd.stackSize) ∧
        (toAdd.stackSize ≤ 0 → fresh = []) := by
  intro fuel
  induction fuel with
  | zero =>
    intro toAdd items tw out tw1 h
    simp only [addItem_push] at h
    by_cases hs : toAdd.stackSize > 0
    · rw [if_pos hs] at h; cases h
    · rw [if_neg hs] at h
      simp only [Option.some.injEq, Prod.mk.injEq] at h
      obtain ⟨rfl, rfl⟩ := h
      refine ⟨[], by simp, by simp [stacks_weight], by simp, ?_, fun _ => rfl⟩
      intro h0
      simp only [units]
      omega
  | succ n ih =>
    intro toAdd items tw out tw1 h
    simp only [addItem_push] at h
    by_cases hs : toAdd.stackSize > 0
    · rw [if_pos hs] at h
      obtain ⟨fresh, h1, h2, h3, h4, h5⟩ := ih _ _ _ _ _ h
      simp only at h3 h4 h5
      refine ⟨{ toAdd with stackSize := min toAdd.stackSize toAdd.maxStack } :: fresh, ?_, ?_, ?_,
        ?_, ?_⟩
      · rw [h1]; simp
      · rw [h2, stacks_weight_cons]; ring
      · intro f hf
        rcases List.mem_cons.1 hf with rfl | hf
        · rfl
        · exact h3 f hf
      · intro _
        rw [units_cons]
        simp only [if_true]
        by_cases hle : toAdd.stackSize ≤ toAdd.maxStack
        · rw [min_eq_left hle] at h5 ⊢
          rw [h5 (by omega)]
          simp [units]
        · rw [min_eq_right (by omega)] at h4 ⊢
          rw [h4 (by omega)]
          omega
      · intro h0; omega
    · rw [if_neg hs] at h
      simp only [Option.some.injEq, Prod.mk.injEq] at h
      obtain ⟨rfl, rfl⟩ := h
      refine ⟨[], by simp, by simp [stacks_weight], by simp, ?_, fun _ => rfl⟩
      intro h0
      simp only [units]
      omega

theorem addItem_push_adequate :
    ∀ (fuel : Nat) (toAdd : Item) (items : List Item) (tw : Int),
      1 ≤ toAdd.maxStack → stacks_needed toAdd.stackSize toAdd.maxStack ≤ fuel →
      ∃ fresh, addItem_push fuel toAdd items tw = some (items ++ fresh, tw + stacks_weight fresh) ∧
        fresh.length = stacks_needed toAdd.stackSize toAdd.maxStack ∧
        ∀ f ∈ fresh, 1 ≤ f.stackSize ∧ f.stackSize ≤ f.maxStack := by
  intro fuel
  induction fuel with
  | zero =>
    intro toAdd items tw hm hf
    simp only [addItem_push]
    by_cases hs : toAdd.stackSize > 0
    · have := stacks_needed_step hs hm
      omega
    · rw [if_neg hs]
      refine ⟨[], by simp [stacks_weight], ?_, by simp⟩
      rw [stacks_needed_nonpos (by omega) hm]
      rfl
  | succ n ih =>
    intro toAdd items tw hm hf
    simp only [addItem_push]
    by_cases hs : toAdd.stackSize > 0
    · rw [if_pos hs]
      have hstep := stacks_needed_step hs hm
      obtain ⟨fresh, h1, h2, h3⟩ := ih
        { toAdd with stackSize := toAdd.stackSize - min toAdd.stackSize toAdd.maxStack }
        (items ++ [{ toAdd with stackSize := min toAdd.stackSize toAdd.maxStack }])
        (tw + ({ toAdd with stackSize := min toAdd.stackSize toAdd.maxStack } : Item).getWeight)
        hm (by simp only; omega)
      simp only at h2
      refine ⟨{ toAdd with stackSize := min toAdd.stackSize toAdd.maxStack } :: fresh, ?_, ?_, ?_⟩
      · rw [h1, stacks_weight_cons]
        simp only [List.append_assoc, List.singleton_append, Option.some.injEq, Prod.mk.injEq,
          true_and]
        ring
      · rw [List.length_cons, h2, hstep]
      · intro f hf
        rcases List.mem_cons.1 hf with rfl | hf
        · simp only
          omega
        · exact h3 f hf
    · rw [if_neg hs]
      refine ⟨[], by simp [stacks_weight], ?_, by simp⟩
      rw [stacks_needed_nonpos (by omega) hm]
      rfl

theorem addItem_push_mono :
    ∀ (fuel : Nat) (toAdd : Item) (items : List Item) (tw : Int) (r : List Item × Int),
      addItem_push fuel toAdd items tw = some r →
      ∀ more, fuel ≤ more → addItem_push more toAdd items tw = some r := by
  intro fuel
  induction fuel with
  | zero =>
    intro toAdd items tw r h more _
    simp only [addItem_push] at h
    by_cases hs : toAdd.stackSize > 0
    · rw [if_pos hs] at h; cases h
    · rw [if_neg hs] at h
      cases more with
      | zero => simp only [addItem_push]; rw [if_neg hs]; exact h
      | succ k => simp only [addItem_push]; rw [if_neg hs]; exact h
  | succ n ih =>
    intro toAdd items tw r h more hle
    cases more with
    | zero => omega
    | succ k =>
      simp only [addItem_push] at h ⊢
      by_cases hs : toAdd.stackSize > 0
      · rw [if_pos hs] at h ⊢
        exact ih _ _ _ _ h k (by omega)
      · rw [if_neg hs] at h ⊢
        exact h

theorem addItem_push_diverges :
    ∀ (fuel : Nat) (toAdd : Item) (items : List Item) (tw : Int),
      toAdd.maxStack ≤ 0 → 0 < toAdd.stackSize → addItem_push fuel toAdd items tw = none := by
  intro fuel
  induction fuel with
  | zero =>
    intro toAdd items tw _ hs
    simp only [addItem_push]
    rw [if_pos hs]
  | succ n ih =>
    intro toAdd items tw hm hs
    simp only [addItem_push]
    rw [if_pos hs]
    exact ih _ _ _ hm (by simp only; omega)

end Inventory

namespace Inventory

/-- The stacks, the quantity left and the weight that the filling part of `addItem`
hands to the `while` loop. -/
theorem addItem_filled_spec {inv : Inventory} {item : Item} {grown : List Item} {s1 tw1 : Int}
    (h : (if item.maxStack > 1 then
        addItem_fill item.id inv.items item.stackSize inv.totalWeight
      else some (inv.items, item.stackSize, inv.totalWeight)) = some (grown, s1, tw1)) :
    tw1 - stacks_weight grown = inv.totalWeight - stacks_weight inv.items ∧
    same_stacks inv.items grown ∧
    s1 = (if item.maxStack > 1 then addItem_plan item.id inv.items item.stackSize
      else item.stackSize) ∧
    ∀ x, units x grown =
      units x inv.items + (if x = item.id then item.stackSize - s1 else 0) := by
  by_cases hm : item.maxStack > 1
  · rw [if_pos hm] at h
    rw [if_pos hm]
    exact addItem_fill_spec _ _ _ _ _ _ _ h
  · rw [if_neg hm] at h
    rw [if_neg hm]
    simp only [Option.some.injEq, Prod.mk.injEq] at h
    obtain ⟨rfl, rfl, rfl⟩ := h
    refine ⟨rfl, same_stacks_refl _, rfl, ?_⟩
    intro x
    split_ifs <;> omega

theorem addItem_fuel_ok {fuel : Nat} {inv : Inventory} {item : Item} {inv1 : Inventory}
    (h : addItem_fuel fuel inv item = .ret (.ok ()) inv1) :
    inv.totalWeight + item.getWeight ≤ inv.weightLimit ∧
    (inv.items.length + addItem_neededSlots inv item) % SIZE_MOD ≤ inv.slotLimit ∧
    ∃ grown s1 tw1 out tw2,
      (if item.maxStack > 1 then
          addItem_fill item.id inv.items item.stackSize inv.totalWeight
        else some (inv.items, item.stackSize, inv.totalWeight)) = some (grown, s1, tw1) ∧
      addItem_push fuel { item with stackSize := s1 } grown tw1 = some (out, tw2) ∧
      inv1 = { inv with items := out, totalWeight := tw2 } := by
  unfold addItem_fuel at h
  simp only at h
  by_cases hw : inv.totalWeight + item.getWeight > inv.weightLimit
  · rw [if_pos hw] at h; cases h
  · rw [if_neg hw] at h
    by_cases hsl : (inv.items.length + addItem_neededSlots inv item) % SIZE_MOD > inv.slotLimit
    · rw [if_pos hsl] at h; cases h
    · rw [if_neg hsl] at h
      refine ⟨by omega, by omega, ?_⟩
      cases hf : (if item.maxStack > 1 then
          addItem_fill item.id inv.items item.stackSize inv.totalWeight
        else some (inv.items, item.stackSize, inv.totalWeight)) with
      | none => simp [hf] at h
      | some p =>
        obtain ⟨grown, s1, tw1⟩ := p
        simp only [hf] at h
        cases hp : addItem_push fuel { item with stackSize := s1 } grown tw1 with
        | none => simp [hp] at h
        | some q =>
          obtain ⟨out, tw2⟩ := q
          simp only [hp] at h
          refine ⟨grown, s1, tw1, out, tw2, rfl, hp, ?_⟩
          injection h with _ h2
          exact h2.symm

theorem addItem_fuel_err {fuel : Nat} {inv : Inventory} {item : Item} {e : List Char}
    {inv1 : Inventory} (h : addItem_fuel fuel inv item = .ret (.error e) inv1) :
    inv1 = inv ∧
    ((e = "weight limit exceeded".toList ∧ inv.totalWeight + item.getWeight > inv.weightLimit) ∨
     (e = "slot limit reached".toList ∧ ¬ inv.totalWeight + item.getWeight > inv.weightLimit ∧
      (inv.items.length + addItem_neededSlots inv item) % SIZE_MOD > inv.slotLimit)) := by
  unfold addItem_fuel at h
  simp only at h
  by_cases hw : inv.totalWeight + item.getWeight > inv.weightLimit
  · rw [if_pos hw] at h
    injection h with h1 h2
    injection h1 with h1
    exact ⟨h2.symm, Or.inl ⟨h1.symm, hw⟩⟩
  · rw [if_neg hw] at h
    by_cases hsl : (inv.items.length + addItem_neededSlots inv item) % SIZE_MOD > inv.slotLimit
    · rw [if_pos hsl] at h
      injection h with h1 h2
      injection h1 with h1
      exact ⟨h2.symm, Or.inr ⟨h1.symm, hw, hsl⟩⟩
    · rw [if_neg hsl] at h
      cases hf : (if item.maxStack > 1 then
          addItem_fill item.id inv.items item.stackSize inv.totalWeight
        else some (inv.items, item.stackSize, inv.totalWeight)) with
      | none => simp [hf] at h
      | some p =>
        obtain ⟨grown, s1, tw1⟩ := p
        simp only [hf] at h
        cases hp : addItem_push fuel { item with stackSize := s1 } grown tw1 with
        | none => simp [hp] at h
        | some q =>
          obtain ⟨out, tw2⟩ := q
          simp only [hp] at h
          injection h with h1 _
          cases h1

/-- What every returning call of `addItem` keeps: the difference between
`totalWeight_` and the weight of the stacks, the equipment, the limits and the
stacks that were there (as positions). -/
theorem addItem_fuel_ret {fuel : Nat} {inv : Inventory} {item : Item} {r : Result Unit}
    {inv1 : Inventory} (h : addItem_fuel fuel inv item = .ret r inv1) :
    inv1.totalWeight - stacks_weight inv1.items = inv.totalWeight - stacks_weight inv.items ∧
    inv1.equipped = inv.equipped ∧ inv1.slotLimit = inv.slotLimit ∧
    inv1.weightLimit = inv.weightLimit ∧ inv.items.length ≤ inv1.items.length := by
  cases r with
  | error e =>
    obtain ⟨rfl, _⟩ := addItem_fuel_err h
    exact ⟨rfl, rfl, rfl, rfl, le_refl _⟩
  | ok u =>
    cases u
    obtain ⟨_, _, grown, s1, tw1, out, tw2, hf, hp, rfl⟩ := addItem_fuel_ok h
    obtain ⟨f1, f2, _, _⟩ := addItem_filled_spec hf
    obtain ⟨fresh, rfl, rfl, _, _, _⟩ := addItem_push_spec _ _ _ _ _ _ hp
    refine ⟨?_, rfl, rfl, rfl, ?_⟩
    · simp only [stacks_weight_append]
      omega
    · simp only [List.length_append]
      have := same_stacks_length f2
      omega

/-! ## Inventory: the loop of `removeItem` -/

theorem removeItem_loop_total (id : List Char) :
    ∀ (items : List Item) (q tw : Int),
      ∃ out r tw1, removeItem_loop id items q tw = some (out, r, tw1) := by
  intro items
  induction items with
  | nil => intro q tw; exact ⟨[], q, tw, rfl⟩
  | cons e rest ih =>
    intro q tw
    simp only [removeItem_loop]
    by_cases hq : q > 0
    · rw [if_pos hq]
      by_cases he : e.id = id
      · rw [if_pos he]
        by_cases hs : e.stackSize > q
        · rw [if_pos hs, Item.weightPerUnit_pos (by omega)]
          exact ⟨_, _, _, rfl⟩
        · rw [if_neg hs]
          exact ih _ _
      · rw [if_neg he]
        obtain ⟨o, r, w, hr⟩ := ih q tw
        simp only [hr]
        exact ⟨_, _, _, rfl⟩
    · rw [if_neg hq]
      exact ⟨_, _, _, rfl⟩

theorem removeItem_loop_spec (id : List Char) :
    ∀ (items : List Item) (q tw : Int) (out : List Item) (r tw1 : Int),
      removeItem_loop id items q tw = some (out, r, tw1) →
      tw1 - stacks_weight out = tw - stacks_weight items ∧
      out.filter (fun it => decide (it.id ≠ id)) = items.filter (fun it => decide (it.id ≠ id)) ∧
      out.length ≤ items.length ∧
      (0 < r → out = items.filter (fun it => decide (it.id ≠ id))) ∧
      (q ≤ 0 → out = items ∧ r = q) := by
  intro items
  induction items with
  | nil =>
    intro q tw out r tw1 h
    simp only [removeItem_loop, Option.some.injEq, Prod.mk.injEq] at h
    obtain ⟨rfl, rfl, rfl⟩ := h
    simp
  | cons e rest ih =>
    intro q tw out r tw1 h
    simp only [removeItem_loop] at h
    by_cases hq : q > 0
    · rw [if_pos hq] at h
      by_cases he : e.id = id
      · rw [if_pos he] at h
        by_cases hs : e.stackSize > q
        · rw [if_pos hs, Item.weightPerUnit_pos (by omega)] at h
          simp only [Option.some.injEq, Prod.mk.injEq] at h
          obtain ⟨rfl, rfl, rfl⟩ := h
          refine ⟨?_, ?_, le_refl _, fun h0 => absurd h0 (by omega), fun h0 => absurd h0 (by omega)⟩
          · rw [stacks_weight_cons, stacks_weight_cons, Item.getWeight_resized, Item.getWeight_eq]
            ring
          · rw [List.filter_cons_of_neg (by simp [he]), List.filter_cons_of_neg (by simp [he])]
        · rw [if_neg hs] at h
          obtain ⟨i1, i2, i3, i4, _⟩ := ih _ _ _ _ _ h
          refine ⟨?_, ?_, ?_, ?_, fun h0 => absurd h0 (by omega)⟩
          · rw [stacks_weight_cons]; omega
          · rw [List.filter_cons_of_neg (by simp [he])]; exact i2
          · simp only [List.length_cons]; omega
          · intro h0
            rw [List.filter_cons_of_neg (by simp [he])]
            exact i4 h0
      · rw [if_neg he] at h
        cases hr : removeItem_loop id rest q tw with
        | none => simp [hr] at h
        | some p =>
          obtain ⟨o, r2, w2⟩ := p
          simp only [hr] at h
          simp only [Option.some.injEq, Prod.mk.injEq] at h
          obtain ⟨rfl, rfl, rfl⟩ := h
          obtain ⟨i1, i2, i3, i4, _⟩ := ih _ _ _ _ _ hr
          refine ⟨?_, ?_, ?_, ?_, fun h0 => absurd h0 (by omega)⟩
          · rw [stacks_weight_cons, stacks_weight_cons]; omega
          · rw [List.filter_cons_of_pos (by simp [he]), List.filter_cons_of_pos (by simp [he]), i2]
          · simp only [List.length_cons]; omega
          · intro h0
            rw [List.filter_cons_of_pos (by simp [he]), ← i4 h0]
    · rw [if_neg hq] at h
      simp only [Option.some.injEq, Prod.mk.injEq] at h
      obtain ⟨rfl, rfl, rfl⟩ := h
      exact ⟨rfl, rfl, le_refl _, fun h0 => absurd h0 (by omega), fun _ => ⟨rfl, rfl⟩⟩

theorem units_nonneg (id : List Char) :
    ∀ (l : List Item), (∀ it ∈ l, 1 ≤ it.stackSize) → 0 ≤ units id l := by
  intro l
  induction l with
  | nil => intro _; simp [units]
  | cons a l ih =>
    intro h
    rw [units_cons]
    have h1 := ih (fun it hit => h it (List.mem_cons_of_mem _ hit))
    have h2 := h a (List.mem_cons_self _ _)
    split_ifs <;> omega

/-- With stacks of at least one unit the loop of `removeItem` takes exactly
`min quantity count` units of the id. -/
theorem removeItem_loop_count (id : List Char) :
    ∀ (items : List Item) (q tw : Int) (out : List Item) (r tw1 : Int),
      removeItem_loop id items q tw = some (out, r, tw1) →
      (∀ it ∈ items, 1 ≤ it.stackSize) → 0 < q →
      (∀ it ∈ out, 1 ≤ it.stackSize) ∧
      (q ≤ units id items → r = 0 ∧ units id out = units id items - q) ∧
      (units id items < q → r = q - units id items) ∧
      0 ≤ units id items := by
  intro items
  induction items with
  | nil =>
    intro q tw out r tw1 h _ hq
    simp only [removeItem_loop, Option.some.injEq, Prod.mk.injEq] at h
    obtain ⟨rfl, rfl, rfl⟩ := h
    simp only [units]
    refine ⟨by simp, fun h0 => absurd h0 (by omega), fun _ => by omega, le_refl _⟩
  | cons e rest ih =>
    intro q tw out r tw1 h hall hq
    have he1 : 1 ≤ e.stackSize := hall e (List.mem_cons_self _ _)
    have hrest : ∀ it ∈ rest, 1 ≤ it.stackSize := fun it hit => hall it (List.mem_cons_of_mem _ hit)
    simp only [removeItem_loop] at h
    rw [if_pos hq] at h
    rw [units_cons]
    by_cases he : e.id = id
    · rw [if_pos he] at h
      rw [if_pos he]
      by_cases hs : e.stackSize > q
      · rw [if_pos hs, Item.weightPerUnit_pos (by omega)] at h
        simp only [Option.some.injEq, Prod.mk.injEq] at h
        obtain ⟨rfl, rfl, rfl⟩ := h
        have hnn : 0 ≤ units id rest := units_nonneg id rest hrest
        refine ⟨?_, ?_, fun h0 => absurd h0 (by omega), by omega⟩
        · intro it hit
          rcases List.mem_cons.1 hit with rfl | hit
          · simp only; omega
          · exact hrest it hit
        · intro _
          refine ⟨rfl, ?_⟩
          rw [units_cons, if_pos (show ({ e with stackSize := e.stackSize - q } : Item).id = id
            from he)]
          simp only
          omega
      · rw [if_neg hs] at h
        by_cases hq2 : q - e.stackSize > 0
        · obtain ⟨i1, i2, i3, i4⟩ := ih _ _ _ _ _ h hrest hq2
          refine ⟨i1, ?_, ?_, by omega⟩
          · intro h0
            have := i2 (by omega)
            omega
          · intro h0
            have := i3 (by omega)
            omega
        · have hqe : q = e.stackSize := by omega
          obtain ⟨_, _, _, _, j5⟩ := removeItem_loop_spec _ _ _ _ _ _ _ h
          obtain ⟨rfl, rfl⟩ := j5 (by omega)
          have hnn : 0 ≤ units id out := units_nonneg id out hrest
          refine ⟨hrest, fun _ => by omega, fun h0 => absurd h0 (by omega), by omega⟩
    · rw [if_neg he] at h
      rw [if_neg he]
      cases hr : removeItem_loop id rest q tw with
      | none => simp [hr] at h
      | some p =>
        obtain ⟨o, r2, w2⟩ := p
        simp only [hr] at h
        simp only [Option.some.injEq, Prod.mk.injEq] at h
        obtain ⟨rfl, rfl, rfl⟩ := h
        obtain ⟨i1, i2, i3, i4⟩ := ih _ _ _ _ _ hr hrest hq
        refine ⟨?_, ?_, ?_, by omega⟩
        · intro it hit
          rcases List.mem_cons.1 hit with rfl | hit
          · exact he1
          · exact i1 it hit
        · intro h0
          have := i2 (by omega)
          rw [units_cons, if_neg he]
          omega
        · intro h0
          have := i3 (by omega)
          omega

end Inventory

namespace Inventory

/-! ## Inventory: equipment -/

end Inventory

namespace Inventory

theorem grown_capacity_ge : ∀ (n capacity size : Nat), size ≤ capacity →
    size + n ≤ grown_capacity capacity size n := by
  intro n
  induction n with
  | zero => intro capacity size h; simpa [grown_capacity] using h
  | succ n ih =>
    intro capacity size h
    rw [grown_capacity]
    have := ih (push_back_capacity capacity size) (size + 1) (by
      unfold push_back_capacity
      split_ifs <;> omega)
    omega

theorem removeItem_length {inv : Inventory} {id : List Char} {q : Int} {r : Result Unit}
    {inv1 : Inventory} (h : inv.removeItem id q = .ret r inv1) :
    inv1.items.length ≤ inv.items.length := by
  unfold removeItem at h
  by_cases hq : q ≤ 0
  · rw [if_pos hq] at h
    injection h with _ h2
    subst h2
    exact le_refl _
  · rw [if_neg hq] at h
    cases hl : removeItem_loop id inv.items q inv.totalWeight with
    | none => simp [hl] at h
    | some p =>
      obtain ⟨out, rem, tw⟩ := p
      obtain ⟨_, _, hlen, _⟩ := removeItem_loop_spec id _ _ _ _ _ _ hl
      simp only [hl] at h
      split_ifs at h <;>
      · injection h with _ h2
        subst h2
        exact hlen

theorem equip_move_length {inv : Inventory} {k : Nat} {it : Item} {slot : EquipSlot}
    {r : Result Unit} {inv1 : Inventory} (h : equip_move inv k it slot = .ret r inv1) :
    inv1.items.length ≤ inv.items.length := by
  unfold equip_move at h
  split_ifs at h
  · cases hu : it.weightPerUnit with
    | none => simp [hu] at h
    | some u =>
      simp only [hu] at h
      injection h with _ h2
      subst h2
      simp
  · injection h with _ h2
    subst h2
    simp only [List.length_eraseIdx]
    split_ifs <;> omega

/-- A returning call of `equip` leaves the vector within its capacity. -/
theorem equip_length {inv : Inventory} {capacity : Nat} {id : List Char} {playerLevel : Int}
    {r : Result Unit} {inv1 : Inventory} (h : inv.equip capacity id playerLevel = .ret r inv1)
    (hc : inv.items.length ≤ capacity) : inv1.items.length ≤ capacity := by
  unfold equip at h
  cases hf : find_id id inv.items with
  | none =>
    simp only [hf] at h
    injection h with _ h2
    subst h2; exact hc
  | some p =>
    obtain ⟨k, it⟩ := p
    simp only [hf] at h
    by_cases hl : it.levelReq > playerLevel
    · rw [if_pos hl] at h
      injection h with _ h2
      subst h2; exact hc
    · rw [if_neg hl] at h
      by_cases hs : slotForItem it = .None
      · rw [if_pos hs] at h
        injection h with _ h2
        subst h2; exact hc
      · rw [if_neg hs] at h
        cases hcur : inv.equipped (slotForItem it) with
        | none =>
          simp only [hcur] at h
          exact le_trans (equip_move_length h) hc
        | some cur =>
          simp only [hcur] at h
          cases ha : addItem { inv with totalWeight := inv.totalWeight - cur.getWeight } cur with
          | assert_failed => simp [ha] at h
          | no_return => simp [ha] at h
          | undefined => simp [ha] at h
          | ret r2 back =>
            cases r2 with
            | error e =>
              obtain ⟨b1, _⟩ := addItem_fuel_err ha
              simp only [ha] at h
              injection h with _ h2
              subst h2
              rw [b1]
              exact hc
            | ok u =>
              cases u
              simp only [ha] at h
              by_cases hcap : back.items.length > capacity
              · rw [if_pos hcap] at h
                cases h
              rw [if_neg hcap] at h
              exact le_trans (equip_move_length h) (by omega)

theorem unequip_length {inv : Inventory} {slot : EquipSlot} {r : Result Unit}
    {inv1 : Inventory} (h : inv.unequip slot = .ret r inv1) :
    inv.items.length ≤ inv1.items.length := by
  unfold unequip at h
  cases hcur : inv.equipped slot with
  | none =>
    simp only [hcur] at h
    injection h with _ h2
    subst h2; exact le_refl _
  | some cur =>
    simp only [hcur] at h
    cases ha : addItem { inv with totalWeight := inv.totalWeight - cur.getWeight } cur with
    | assert_failed => simp [ha] at h
    | no_return => simp [ha] at h
    | undefined => simp [ha] at h
    | ret r2 back =>
      obtain ⟨_, _, _, _, b5⟩ := addItem_fuel_ret ha
      simp only at b5
      cases r2 with
      | error e =>
        simp only [ha] at h
        injection h with _ h2
        subst h2
        exact b5
      | ok u =>
        cases u
        simp only [ha] at h
        injection h with _ h2
        subst h2
        exact b5

/-- In every reachable state the vector holds no more stacks than its capacity, so
a call of `addItem` reallocates it exactly when the stacks afterwards are more than
the capacity before. -/
theorem Reachable.length_le_capacity {inv : Inventory} {capacity : Nat}
    (h : inv.Reachable capacity) : inv.items.length ≤ capacity := by
  induction h with
  | create slotLimit weightLimit => simp [Inventory.create]
  | @addItem inv0 cap0 item r0 inv1 _ _ _ hrun ih =>
    obtain ⟨_, _, _, _, b5⟩ := addItem_fuel_ret hrun
    have := grown_capacity_ge (inv1.items.length - inv0.items.length) cap0 inv0.items.length ih
    omega
  | removeItem id quantity _ hrun ih => exact le_trans (removeItem_length hrun) ih
  | equip id playerLevel _ hrun ih => exact equip_length hrun ih
  | @unequip inv0 cap0 slot r0 inv1 _ hrun ih =>
    have b5 := unequip_length hrun
    have := grown_capacity_ge (inv1.items.length - inv0.items.length) cap0 inv0.items.length ih
    omega

end Inventory

/-- The call of `equip` that has no defined result: the sword is equipped, the
vector holds the axe and is full (capacity 1), and `equip` of the axe puts the
sword back with `push_back`, which reallocates the vector before the iterator to
the axe is used again. -/
theorem equip_invalidated_iterator :
    (⟨30, 300, 16, [sample_axe],
      Inventory.set_slot (fun _ => none) .Weapon (some sample_sword)⟩ : Inventory).Reachable 1 ∧
    (⟨30, 300, 16, [sample_axe],
      Inventory.set_slot (fun _ => none) .Weapon (some sample_sword)⟩ : Inventory).equip 1
        "battle_axe".toList 5 = .undefined := by
  have h1 : (sample_inventory 7 [sample_sword]).Reachable 1 :=
    Inventory.Reachable.addItem sample_sword (Inventory.Reachable.create 30 300)
      (by decide) (by decide) rfl
  have h2 : (⟨30, 300, 7, [],
      Inventory.set_slot (fun _ => none) .Weapon (some sample_sword)⟩ : Inventory).Reachable 1 :=
    Inventory.Reachable.equip "iron_sword".toList 5 h1 rfl
  have h3 : (⟨30, 300, 16, [sample_axe],
      Inventory.set_slot (fun _ => none) .Weapon (some sample_sword)⟩ : Inventory).Reachable 1 :=
    Inventory.Reachable.addItem sample_axe h2 (by decide) (by decide) rfl
  exact ⟨h3, rfl⟩

/-- C33: for every inventory and every item, when `addItem(item)` returns an error
the error is "weight limit exceeded" or "slot limit reached" and the inventory is
exactly as before the call: the same stacks with the same sizes in the same
order, the same equipment, the same limits and the same `totalWeight()`. -/
theorem Inventory.addItem_atomic_on_failure (inv : Inventory) (item : Item) (e : List Char)
    (inv1 : Inventory) (h : inv.addItem item = .ret (.error e) inv1) :
    inv1 = inv ∧
    (e = "weight limit exceeded".toList ∨ e = "slot limit reached".toList) := by
  obtain ⟨h1, h2⟩ := Inventory.addItem_fuel_err h
  refine ⟨h1, ?_⟩
  rcases h2 with h2 | h2
  · exact Or.inl h2.1
  · exact Or.inr h2.1

theorem addItem_atomic_on_failure_witness :
    (sample_inventory 296 [sample_ore 2 18 20, sample_ore 13 20 20]).addItem
        (sample_ore 2 3 20) =
      .ret (.error "weight limit exceeded".toList)
        (sample_inventory 296 [sample_ore 2 18 20, sample_ore 13 20 20]) ∧
    (sample_inventory 296 [sample_ore 2 18 20, sample_ore 13 20 20] =
        sample_inventory 296 [sample_ore 2 18 20, sample_ore 13 20 20] ∧
      ("weight limit exceeded".toList = "weight limit exceeded".toList ∨
        "weight limit exceeded".toList = "slot limit reached".toList)) :=
  ⟨rfl, Inventory.addItem_atomic_on_failure _ (sample_ore 2 3 20) _ _ rfl⟩

namespace Inventory

theorem to_size_t_of_nonneg {i : Int} (h0 : 0 ≤ i) (h1 : i ≤ INT_MAX) : to_size_t i = i.toNat := by
  unfold to_size_t
  unfold INT_MAX at h1
  rw [Int.emod_eq_of_lt h0 (by omega)]

theorem stacks_needed_le {s m : Int} (hs : 0 ≤ s) (hm : 1 ≤ m) : stacks_needed s m ≤ s.toNat := by
  rcases (by omega : s = 0 ∨ 0 < s) with h0 | h0
  · rw [h0, stacks_needed_nonpos (le_refl 0) hm]
    exact Nat.zero_le _
  · unfold stacks_needed
    have h1 : (s + m - 1) / m ≤ s := by
      apply Int.ediv_le_of_le_mul (by omega)
      nlinarith [mul_nonneg (show (0 : Int) ≤ s - 1 by omega) (show (0 : Int) ≤ m - 1 by omega)]
    omega

theorem stacks_needed_mono {s t m : Int} (h : s ≤ t) (hm : 1 ≤ m) :
    stacks_needed s m ≤ stacks_needed t m := by
  unfold stacks_needed
  have := Int.ediv_le_ediv (show (0 : Int) < m by omega) (show s + m - 1 ≤ t + m - 1 by omega)
  omega

/-- The quantity that the `while` loop of `addItem` has to place. -/
theorem addItem_left_range (inv : Inventory) (item : Item) :
    (0 ≤ item.stackSize →
      0 ≤ (if item.maxStack > 1 then addItem_plan item.id inv.items item.stackSize
        else item.stackSize) ∧
      (if item.maxStack > 1 then addItem_plan item.id inv.items item.stackSize
        else item.stackSize) ≤ item.stackSize) ∧
    (item.stackSize < 0 →
      (if item.maxStack > 1 then addItem_plan item.id inv.items item.stackSize
        else item.stackSize) ≤ 0) := by
  have := addItem_plan_range item.id inv.items item.stackSize
  constructor
  · intro h
    split_ifs
    · exact this.1 h
    · omega
  · intro h
    split_ifs
    · rcases this.2 h with h1 | h1 <;> omega
    · omega

/-- The sum `remaining + maxStack - 1` of the slot check when it stays within the
range of `int`. -/
theorem wrap_int_ceil_sum {p m : Int} (hp : 0 ≤ p) (hm : 1 ≤ m) (h : p + m - 1 ≤ INT_MAX) :
    wrap_int (wrap_int (p + m) - 1) = p + m - 1 := by
  unfold INT_MAX at h
  unfold wrap_int
  omega

/-- The capacity check of `addItem` counts the stacks that the `while` loop makes,
as long as its sum stays within the range of `int`. -/
theorem addItem_neededSlots_eq (inv : Inventory) (item : Item) (hs : 0 ≤ item.stackSize)
    (hsum : item.stackSize + item.maxStack - 1 ≤ INT_MAX) (hm : 1 ≤ item.maxStack) :
    addItem_neededSlots inv item =
      stacks_needed (if item.maxStack > 1 then addItem_plan item.id inv.items item.stackSize
        else item.stackSize) item.maxStack := by
  have hrange := (addItem_left_range inv item).1 hs
  have hr : item.stackSize ≤ INT_MAX := by omega
  unfold addItem_neededSlots
  by_cases h1 : item.maxStack > 1
  · rw [if_pos h1] at hrange ⊢
    rw [if_pos h1]
    simp only
    by_cases hp : addItem_plan item.id inv.items item.stackSize > 0
    · rw [if_pos hp, wrap_int_ceil_sum (by omega) hm (by omega),
        Int.tdiv_eq_ediv (by omega) (by omega)]
      have hle := stacks_needed_le hrange.1 hm
      have h0 : 0 ≤ (addItem_plan item.id inv.items item.stackSize + item.maxStack - 1) /
          item.maxStack := Int.ediv_nonneg (by omega) (by omega)
      unfold stacks_needed at hle ⊢
      rw [to_size_t_of_nonneg h0 (by omega)]
    · rw [if_neg hp, stacks_needed_nonpos (by omega) hm]
  · rw [if_neg h1, if_neg h1]
    have e1 : item.maxStack = 1 := by omega
    rw [to_size_t_of_nonneg hs hr, e1]
    unfold stacks_needed
    simp

theorem addItem_neededSlots_le (inv : Inventory) (item : Item) (hs : 0 ≤ item.stackSize)
    (hsum : item.stackSize + item.maxStack - 1 ≤ INT_MAX) (hm : 1 ≤ item.maxStack) :
    addItem_neededSlots inv item ≤ 2147483647 := by
  rw [addItem_neededSlots_eq inv item hs hsum hm]
  have hrange := (addItem_left_range inv item).1 hs
  have := stacks_needed_le hrange.1 hm
  unfold INT_MAX at hsum
  omega

end Inventory

/-- C34, the claim fails: an inventory of 30 slots holds 30 swords, so every stack
has `1 ≤ stackSize ≤ maxStack` and `usedSlots() ≤ slotLimit`.  For two units of an
item with `maxStack = INT_MAX` the slot check forms `2 + INT_MAX - 1` in an `int`,
which comes out as `INT_MIN`; divided by `maxStack` and cast to `std::size_t` that
is `neededSlots = 2 ^ 64 - 1`, and `30 + neededSlots` wraps to 29.  `addItem`
returns ok with a 31st stack: `usedSlots()` is above `slotLimit` and one stack was
made, not `neededSlots`. -/
theorem Inventory.addItem_exceeds_slot_limit :
    ((∀ it ∈ (sample_inventory 210 (List.replicate 30 sample_sword)).items,
        1 ≤ it.stackSize ∧ it.stackSize ≤ it.maxStack) ∧
      (sample_inventory 210 (List.replicate 30 sample_sword)).usedSlots ≤
        (sample_inventory 210 (List.replicate 30 sample_sword)).slotLimit ∧
      1 ≤ (sample_ore 0 2 2147483647).stackSize ∧ 1 ≤ (sample_ore 0 2 2147483647).maxStack ∧
      (sample_ore 0 2 2147483647).valid) ∧
    (sample_inventory 210 (List.replicate 30 sample_sword)).addItem (sample_ore 0 2 2147483647) =
      .ret (.ok ())
        (sample_inventory 210 (List.replicate 30 sample_sword ++ [sample_ore 0 2 2147483647])) ∧
    Inventory.addItem_neededSlots (sample_inventory 210 (List.replicate 30 sample_sword))
      (sample_ore 0 2 2147483647) = 18446744073709551615 ∧
    (sample_inventory 210
      (List.replicate 30 sample_sword ++ [sample_ore 0 2 2147483647])).usedSlots = 31 ∧
    ¬ (sample_inventory 210
        (List.replicate 30 sample_sword ++ [sample_ore 0 2 2147483647])).usedSlots ≤
      (sample_inventory 210
        (List.replicate 30 sample_sword ++ [sample_ore 0 2 2147483647])).slotLimit := by
  refine ⟨⟨by decide, by decide, by decide, by decide, ?_⟩, rfl, rfl, rfl, by decide⟩
  simp [Item.valid, ItemPayload.valid, inInt32, INT_MIN, INT_MAX, sample_ore]

/-- C34 as the code has it: if every stack has `1 ≤ stackSize ≤ maxStack` and
`usedSlots() ≤ slotLimit`, then after a successful `addItem` of an item with
`stackSize ≥ 1` and `maxStack ≥ 1` whose `stackSize + maxStack - 1` is at most
`INT_MAX` (so that the `int` sum of the slot check does not overflow) both still
hold, and the number of stacks has grown by exactly the `neededSlots` that the
capacity check computed.  (The vector has fewer than `2 ^ 63` elements.) -/
theorem Inventory.addItem_slot_invariant (inv : Inventory) (item : Item) (inv1 : Inventory)
    (hst : ∀ it ∈ inv.items, 1 ≤ it.stackSize ∧ it.stackSize ≤ it.maxStack)
    (_hsl : inv.usedSlots ≤ inv.slotLimit) (hfit : inv.fits)
    (hs : 1 ≤ item.stackSize) (hm : 1 ≤ item.maxStack)
    (hsum : item.stackSize + item.maxStack - 1 ≤ INT_MAX)
    (h : inv.addItem item = .ret (.ok ()) inv1) :
    (∀ it ∈ inv1.items, 1 ≤ it.stackSize ∧ it.stackSize ≤ it.maxStack) ∧
    inv1.usedSlots ≤ inv1.slotLimit ∧
    inv1.usedSlots = inv.usedSlots + Inventory.addItem_neededSlots inv item := by
  obtain ⟨_, hslot, grown, s1, tw1, out, tw2, hf, hp, rfl⟩ := Inventory.addItem_fuel_ok h
  obtain ⟨_, f2, f3, _⟩ := Inventory.addItem_filled_spec hf
  have hneed := Inventory.addItem_neededSlots_eq inv item (by omega) hsum hm
  have hle := Inventory.addItem_neededSlots_le inv item (by omega) hsum hm
  rw [← f3] at hneed
  have hrange := (Inventory.addItem_left_range inv item).1 (by omega)
  rw [← f3] at hrange
  obtain ⟨fresh, hpush, hlen, hfresh⟩ := Inventory.addItem_push_adequate item.stackSize.toNat
    { item with stackSize := s1 } grown tw1 hm
    (le_trans (Inventory.stacks_needed_le hrange.1 hm) (by simp only; omega))
  rw [hpush] at hp
  simp only [Option.some.injEq, Prod.mk.injEq] at hp
  obtain ⟨rfl, rfl⟩ := hp
  simp only at hlen
  have hgrown : ∀ it ∈ grown, 1 ≤ it.stackSize ∧ it.stackSize ≤ it.maxStack := by
    by_cases h1 : item.maxStack > 1
    · rw [if_pos h1] at hf
      exact Inventory.addItem_fill_bounds _ _ _ _ _ _ _ hf (by omega) hst
    · rw [if_neg h1] at hf
      simp only [Option.some.injEq, Prod.mk.injEq] at hf
      rw [← hf.1]
      exact hst
  have hl := Inventory.same_stacks_length f2
  unfold Inventory.fits at hfit
  have hcount : (grown ++ fresh).length = inv.items.length + Inventory.addItem_neededSlots inv item := by
    rw [List.length_append, hlen, hneed, hl]
  have hnowrap : (inv.items.length + Inventory.addItem_neededSlots inv item) % SIZE_MOD =
      inv.items.length + Inventory.addItem_neededSlots inv item := by
    apply Nat.mod_eq_of_lt
    unfold SIZE_MOD
    omega
  rw [hnowrap] at hslot
  refine ⟨?_, ?_, ?_⟩
  · intro it hit
    rcases List.mem_append.1 hit with hit | hit
    · exact hgrown it hit
    · exact hfresh it hit
  · simp only [Inventory.usedSlots]
    omega
  · simp only [Inventory.usedSlots]
    exact hcount

theorem addItem_slot_invariant_witness :
    (sample_inventory 131 [sample_ore 2 20 20, sample_sword, sample_ore 2 20 20,
        sample_ore 2 20 20, sample_ore 2 2 20]).usedSlots =
      (sample_inventory 81 [sample_ore 2 18 20, sample_sword, sample_ore 2 19 20]).usedSlots +
        Inventory.addItem_neededSlots
          (sample_inventory 81 [sample_ore 2 18 20, sample_sword, sample_ore 2 19 20])
          (sample_ore 2 25 20) ∧
    Inventory.addItem_neededSlots
      (sample_inventory 81 [sample_ore 2 18 20, sample_sword, sample_ore 2 19 20])
      (sample_ore 2 25 20) = 2 :=
  ⟨(Inventory.addItem_slot_invariant
      (sample_inventory 81 [sample_ore 2 18 20, sample_sword, sample_ore 2 19 20])
      (sample_ore 2 25 20) _ (by decide) (by decide)
      (by simp [Inventory.fits, sample_inventory])
      (by decide) (by decide) (by decide) rfl).2.2,
    rfl⟩

/-- C35: the failing input.  An inventory with weight limit 300 holds one unit of
ore of unit weight 100 (put there by `addItem`), so `totalWeight()` is 100.
`addItem` of five units with the same id and unit weight 0 passes the weight check
(100 + 0 ≤ 300) and returns ok, the five units are merged into the stack and
charged at the unit weight of that stack: `totalWeight()` is 600, above the limit. -/
theorem Inventory.addItem_exceeds_weight_limit :
    (Inventory.create 30 300).addItem (sample_ore 100 1 10) =
      .ret (.ok ()) (sample_inventory 100 [sample_ore 100 1 10]) ∧
    (sample_inventory 100 [sample_ore 100 1 10]).totalWeight ≤
      (sample_inventory 100 [sample_ore 100 1 10]).weightLimit ∧
    1 ≤ (sample_ore 0 5 10).stackSize ∧ 1 ≤ (sample_ore 0 5 10).maxStack ∧
    (sample_inventory 100 [sample_ore 100 1 10]).addItem (sample_ore 0 5 10) =
      .ret (.ok ()) (sample_inventory 600 [sample_ore 100 6 10]) ∧
    ¬ (sample_inventory 600 [sample_ore 100 6 10]).totalWeight ≤
      (sample_inventory 600 [sample_ore 100 6 10]).weightLimit :=
  ⟨rfl, by decide, by decide, by decide, rfl, by decide⟩

namespace Inventory

theorem removeItem_loop_ok {inv : Inventory} {id : List Char} {q : Int} :
    ∃ out r tw, removeItem_loop id inv.items q inv.totalWeight = some (out, r, tw) ∧
      (0 < q → inv.removeItem id q =
        if r > 0 then .ret (.error "item not found in inventory".toList)
          { inv with items := out, totalWeight := tw }
        else .ret (.ok ()) { inv with items := out, totalWeight := tw }) := by
  obtain ⟨out, r, tw, h⟩ := removeItem_loop_total id inv.items q inv.totalWeight
  refine ⟨out, r, tw, h, ?_⟩
  intro hq
  unfold removeItem
  rw [if_neg (by omega)]
  simp only [h]

end Inventory

/-- C36, the claim fails: an inventory holds two full stacks of `2 ^ 30` units of ore
(put there by `addItem`), so `count` of the ore, an `int` sum, is `-2 ^ 31`.
`removeItem` of one unit returns ok although `count(id) ≥ 1` does not hold. -/
theorem Inventory.removeItem_ok_below_count :
    (sample_inventory 0 [sample_bulk]).addItem sample_bulk =
      .ret (.ok ()) (sample_inventory 0 [sample_bulk, sample_bulk]) ∧
    (∀ it ∈ (sample_inventory 0 [sample_bulk, sample_bulk]).items, 1 ≤ it.stackSize) ∧
    (sample_inventory 0 [sample_bulk, sample_bulk]).removeItem sample_bulk.id 1 =
      .ret (.ok ())
        (sample_inventory 0 [sample_ore 0 1073741823 1073741824, sample_bulk]) ∧
    (sample_inventory 0 [sample_bulk, sample_bulk]).count sample_bulk.id = -2147483648 ∧
    ¬ (sample_inventory 0 [sample_bulk, sample_bulk]).count sample_bulk.id ≥ 1 :=
  ⟨rfl, by decide, rfl, rfl, by decide⟩

/-- C36 as the code has it: for every inventory whose stacks have `stackSize ≥ 1`,
every id and every quantity `q`: for `q ≤ 0` `removeItem(id, q)` returns ok and
changes nothing; for `q > 0` it returns, and it returns ok exactly when the stacks
of `id` hold at least `q` units; when it returns ok, they hold exactly `q` units
less, the count of every other id is the same, and the stacks of the other ids
are unchanged and in the same order.  As long as the stacks of `id` hold at most
`INT_MAX` units, `count(id)` is that number: the call returns ok exactly when
`count(id) ≥ q`, and `count(id)` goes down by exactly `q`. -/
theorem Inventory.removeItem_result_and_effect (inv : Inventory) (id : List Char) (q : Int)
    (hst : ∀ it ∈ inv.items, 1 ≤ it.stackSize) :
    (q ≤ 0 → inv.removeItem id q = .ret (.ok ()) inv) ∧
    (0 < q → ∃ r inv1, inv.removeItem id q = .ret r inv1 ∧
      (r = .ok () ↔ q ≤ Inventory.units id inv.items) ∧
      (r = .ok () →
        Inventory.units id inv1.items = Inventory.units id inv.items - q ∧
        (∀ x, x ≠ id → inv1.count x = inv.count x) ∧
        inv1.items.filter (fun it => decide (it.id ≠ id)) =
          inv.items.filter (fun it => decide (it.id ≠ id))) ∧
      (Inventory.units id inv.items ≤ INT_MAX →
        inv.count id = Inventory.units id inv.items ∧
        (r = .ok () ↔ q ≤ inv.count id) ∧
        (r = .ok () → inv1.count id = inv.count id - q))) := by
  constructor
  · intro hq
    unfold Inventory.removeItem
    rw [if_pos hq]
  · intro hq
    obtain ⟨out, r, tw, hl, hrun⟩ := @Inventory.removeItem_loop_ok inv id q
    obtain ⟨_, l2, _, _, _⟩ := Inventory.removeItem_loop_spec _ _ _ _ _ _ _ hl
    obtain ⟨_, c2, c3, c5⟩ := Inventory.removeItem_loop_count _ _ _ _ _ _ _ hl hst hq
    rw [hrun hq]
    have hcnt : Inventory.units id inv.items ≤ INT_MAX →
        inv.count id = Inventory.units id inv.items := by
      intro hmax
      rw [Inventory.count_eq]
      exact Inventory.wrap_int_of_inInt32 ⟨by unfold INT_MIN; omega, hmax⟩
    by_cases hc : q ≤ Inventory.units id inv.items
    · obtain ⟨rfl, c4⟩ := c2 hc
      rw [if_neg (by omega)]
      refine ⟨_, _, rfl, ⟨fun _ => hc, fun _ => rfl⟩, fun _ => ⟨c4, ?_, l2⟩, ?_⟩
      · intro x hx
        rw [Inventory.count_eq, Inventory.count_eq]
        simp only
        rw [← Inventory.units_filter id x hx out, l2, Inventory.units_filter id x hx]
      · intro hmax
        refine ⟨hcnt hmax, ⟨fun _ => by rw [hcnt hmax]; exact hc, fun _ => rfl⟩, fun _ => ?_⟩
        rw [hcnt hmax, Inventory.count_eq]
        simp only
        rw [c4]
        exact Inventory.wrap_int_of_inInt32 ⟨by unfold INT_MIN; omega, by omega⟩
    · have hr := c3 (by omega)
      rw [if_pos (by omega)]
      refine ⟨_, _, rfl, ⟨fun h => (by cases h), fun h => absurd h hc⟩, fun h => (by cases h),
        ?_⟩
      intro hmax
      exact ⟨hcnt hmax, ⟨fun h => (by cases h), fun h => absurd (hcnt hmax ▸ h) hc⟩,
        fun h => (by cases h)⟩

theorem removeItem_result_and_effect_witness :
    (sample_inventory 55 [sample_ore 2 4 20, sample_sword, sample_ore 2 20 20]).removeItem
        "iron_ore".toList 7 =
      .ret (.ok ()) (sample_inventory 41 [sample_sword, sample_ore 2 17 20]) ∧
    (sample_inventory 55 [sample_ore 2 4 20, sample_sword, sample_ore 2 20 20]).removeItem
        "iron_ore".toList 25 =
      .ret (.error "item not found in inventory".toList) (sample_inventory 7 [sample_sword]) ∧
    (sample_inventory 55 [sample_ore 2 4 20, sample_sword, sample_ore 2 20 20]).removeItem
        "iron_ore".toList 0 =
      .ret (.ok ()) (sample_inventory 55 [sample_ore 2 4 20, sample_sword, sample_ore 2 20 20]) ∧
    ∃ r inv1,
      (sample_inventory 55 [sample_ore 2 4 20, sample_sword, sample_ore 2 20 20]).removeItem
        "iron_ore".toList 7 = .ret r inv1 ∧
      (r = .ok () ↔
        7 ≤ (sample_inventory 55 [sample_ore 2 4 20, sample_sword, sample_ore 2 20 20]).count
          "iron_ore".toList) := by
  have h := Inventory.removeItem_result_and_effect
    (sample_inventory 55 [sample_ore 2 4 20, sample_sword, sample_ore 2 20 20])
    "iron_ore".toList
  obtain ⟨r, inv1, h1, _, _, h4⟩ := (h 7 (by decide)).2 (by decide)
  exact ⟨rfl, rfl, (h 0 (by decide)).1 (by decide), r, inv1, h1, (h4 (by decide)).2.1⟩

namespace Inventory

theorem canAdd_eq (inv : Inventory) (item : Item) :
    inv.canAdd item =
      if inv.totalWeight + item.getWeight > inv.weightLimit then
        .error "weight limit would be exceeded".toList
      else if (inv.items.length + addItem_neededSlots inv item) % SIZE_MOD > inv.slotLimit then
        .error "no free inventory slot for the item".toList
      else .ok () := by
  unfold canAdd addItem_neededSlots
  simp only [addItem_plan_eq_canAdd]

/-- More iterations than `⌈stackSize / maxStack⌉` change nothing, and that many are
enough for the `while` loop to end. -/
theorem addItem_fuel_stable (inv : Inventory) (item : Item) (hm : 1 ≤ item.maxStack)
    (fuel : Nat) (hf : stacks_needed item.stackSize item.maxStack ≤ fuel) :
    addItem_fuel fuel inv item ≠ .no_return ∧
    addItem_fuel fuel inv item =
      addItem_fuel (stacks_needed item.stackSize item.maxStack) inv item := by
  unfold addItem_fuel
  simp only
  by_cases hw : inv.totalWeight + item.getWeight > inv.weightLimit
  · rw [if_pos hw, if_pos hw]
    exact ⟨fun h => (by cases h), rfl⟩
  · rw [if_neg hw, if_neg hw]
    by_cases hsl : (inv.items.length + addItem_neededSlots inv item) % SIZE_MOD > inv.slotLimit
    · rw [if_pos hsl, if_pos hsl]
      exact ⟨fun h => (by cases h), rfl⟩
    · rw [if_neg hsl, if_neg hsl]
      cases hfill : (if item.maxStack > 1 then
          addItem_fill item.id inv.items item.stackSize inv.totalWeight
        else some (inv.items, item.stackSize, inv.totalWeight)) with
      | none => exact ⟨fun h => (by cases h), rfl⟩
      | some p =>
        obtain ⟨grown, s1, tw1⟩ := p
        simp only
        obtain ⟨_, _, f3, _⟩ := addItem_filled_spec hfill
        have hrange := addItem_left_range inv item
        rw [← f3] at hrange
        have hneed : stacks_needed s1 item.maxStack ≤ stacks_needed item.stackSize item.maxStack := by
          by_cases h0 : 0 ≤ item.stackSize
          · exact stacks_needed_mono (hrange.1 h0).2 hm
          · rw [stacks_needed_nonpos (hrange.2 (by omega)) hm]
            exact Nat.zero_le _
        obtain ⟨fresh, hp, _, _⟩ := addItem_push_adequate
          (stacks_needed item.stackSize item.maxStack) { item with stackSize := s1 } grown tw1 hm
          hneed
        rw [hp, addItem_push_mono _ _ _ _ _ hp fuel hf]
        exact ⟨fun h => (by cases h), rfl⟩

/-- On stacks of at least one unit `addItem` of an item with `stackSize ≥ 0` and
`maxStack ≥ 1` returns, and what it returns is decided by the two checks. -/
theorem addItem_returns (inv : Inventory) (item : Item)
    (hst : ∀ it ∈ inv.items, 1 ≤ it.stackSize) (hs : 0 ≤ item.stackSize)
    (hm : 1 ≤ item.maxStack) :
    ∃ inv1, inv.addItem item =
      .ret (if inv.totalWeight + item.getWeight > inv.weightLimit then
          .error "weight limit exceeded".toList
        else if (inv.items.length + addItem_neededSlots inv item) % SIZE_MOD > inv.slotLimit then
          .error "slot limit reached".toList
        else .ok ()) inv1 := by
  unfold addItem addItem_fuel
  simp only
  by_cases hw : inv.totalWeight + item.getWeight > inv.weightLimit
  · rw [if_pos hw, if_pos hw]
    exact ⟨_, rfl⟩
  · rw [if_neg hw, if_neg hw]
    by_cases hsl : (inv.items.length + addItem_neededSlots inv item) % SIZE_MOD > inv.slotLimit
    · rw [if_pos hsl, if_pos hsl]
      exact ⟨_, rfl⟩
    · rw [if_neg hsl, if_neg hsl]
      have hfill : ∃ grown s1 tw1, (if item.maxStack > 1 then
          addItem_fill item.id inv.items item.stackSize inv.totalWeight
        else some (inv.items, item.stackSize, inv.totalWeight)) = some (grown, s1, tw1) := by
        split_ifs
        · exact addItem_fill_total _ _ _ _ hst hs
        · exact ⟨_, _, _, rfl⟩
      obtain ⟨grown, s1, tw1, hfill⟩ := hfill
      obtain ⟨_, _, f3, _⟩ := addItem_filled_spec hfill
      have hrange := (addItem_left_range inv item).1 hs
      rw [← f3] at hrange
      obtain ⟨fresh, hp, _, _⟩ := addItem_push_adequate item.stackSize.toNat
        { item with stackSize := s1 } grown tw1 hm
        (le_trans (stacks_needed_le hrange.1 hm) (by simp only; omega))
      simp only [hfill, hp]
      exact ⟨_, rfl⟩

/-- The outcome `no_return` of `addItem` is a loop that no number of iterations
ends. -/
theorem addItem_no_return (inv : Inventory) (item : Item) (h : inv.addItem item = .no_return) :
    ∀ fuel, inv.addItem_fuel fuel item = .no_return := by
  have hm : item.maxStack ≤ 0 := by
    by_contra hn
    have hle : stacks_needed item.stackSize item.maxStack ≤ item.stackSize.toNat := by
      by_cases h0 : 0 ≤ item.stackSize
      · exact stacks_needed_le h0 (by omega)
      · rw [stacks_needed_nonpos (by omega) (by omega)]
        exact Nat.zero_le _
    exact (addItem_fuel_stable inv item (by omega) _ hle).1 h
  intro fuel
  unfold addItem addItem_fuel at h
  unfold addItem_fuel
  simp only at h ⊢
  by_cases hw : inv.totalWeight + item.getWeight > inv.weightLimit
  · rw [if_pos hw] at h; cases h
  · rw [if_neg hw] at h ⊢
    by_cases hsl : (inv.items.length + addItem_neededSlots inv item) % SIZE_MOD > inv.slotLimit
    · rw [if_pos hsl] at h; cases h
    · rw [if_neg hsl, if_neg (by omega)] at h ⊢
      simp only at h ⊢
      by_cases hs : 0 < item.stackSize
      · rw [addItem_push_diverges fuel _ _ _ hm hs]
      · exfalso
        cases hz : item.stackSize.toNat with
        | zero =>
          rw [hz] at h
          simp only [addItem_push] at h
          rw [if_neg (by simpa using hs)] at h
          cases h
        | succ n => omega

end Inventory

/-- C38, the claim fails: on the empty inventory `canAdd` returns ok for one unit of
an item with `maxStack = 0`, and `addItem` of that item never returns: however many
iterations its `while` loop is allowed, the loop has not ended. -/
theorem Inventory.canAdd_ok_addItem_no_return :
    (Inventory.create 30 300).canAdd (sample_ore 1 1 0) = .ok () ∧
    ∀ fuel, (Inventory.create 30 300).addItem_fuel fuel (sample_ore 1 1 0) = .no_return := by
  refine ⟨rfl, ?_⟩
  intro fuel
  have hp := Inventory.addItem_push_diverges fuel (sample_ore 1 1 0) [] 0 (by decide) (by decide)
  have hw : ¬ (Inventory.create 30 300).totalWeight + (sample_ore 1 1 0).getWeight >
      (Inventory.create 30 300).weightLimit := by decide
  have hsl : ¬ ((Inventory.create 30 300).items.length +
      Inventory.addItem_neededSlots (Inventory.create 30 300) (sample_ore 1 1 0)) % SIZE_MOD >
      (Inventory.create 30 300).slotLimit := by decide
  unfold Inventory.addItem_fuel
  simp only
  rw [if_neg hw, if_neg hsl, if_neg (by decide)]
  simp only
  have e : ({ sample_ore 1 1 0 with stackSize := (sample_ore 1 1 0).stackSize } : Item) =
      sample_ore 1 1 0 := rfl
  rw [e]
  have e2 : (Inventory.create 30 300).items = [] := rfl
  have e3 : (Inventory.create 30 300).totalWeight = 0 := rfl
  rw [e2, e3, hp]

/-- C38 as the code has it: for every inventory whose stacks have `stackSize ≥ 1` and
every item with `stackSize ≥ 0` and `maxStack ≥ 1`, `addItem(item)` returns, and
`canAdd(item)` on the same state returns ok exactly when `addItem` returns ok,
fails on the weight exactly when `addItem` fails on the weight and fails on the
slots exactly when `addItem` fails on the slots.  (`canAdd` is a `const` member
that gives back a result only, so it changes nothing.) -/
theorem Inventory.canAdd_predicts_addItem (inv : Inventory) (item : Item)
    (hst : ∀ it ∈ inv.items, 1 ≤ it.stackSize) (hs : 0 ≤ item.stackSize)
    (hm : 1 ≤ item.maxStack) :
    ∃ r inv1, inv.addItem item = .ret r inv1 ∧
      (inv.canAdd item = .ok () ↔ r = .ok ()) ∧
      (inv.canAdd item = .error "weight limit would be exceeded".toList ↔
        r = .error "weight limit exceeded".toList) ∧
      (inv.canAdd item = .error "no free inventory slot for the item".toList ↔
        r = .error "slot limit reached".toList) := by
  obtain ⟨inv1, h⟩ := Inventory.addItem_returns inv item hst hs hm
  refine ⟨_, inv1, h, ?_⟩
  rw [Inventory.canAdd_eq]
  by_cases hw : inv.totalWeight + item.getWeight > inv.weightLimit
  · rw [if_pos hw, if_pos hw]
    refine ⟨⟨fun h => (by cases h), fun h => (by cases h)⟩, ⟨fun _ => rfl, fun _ => rfl⟩, ?_⟩
    constructor
    · intro h
      injection h with h
      exact absurd h (by decide)
    · intro h
      injection h with h
      exact absurd h (by decide)
  · rw [if_neg hw, if_neg hw]
    by_cases hsl : (inv.items.length + Inventory.addItem_neededSlots inv item) % SIZE_MOD >
        inv.slotLimit
    · rw [if_pos hsl, if_pos hsl]
      refine ⟨⟨fun h => (by cases h), fun h => (by cases h)⟩, ?_, ⟨fun _ => rfl, fun _ => rfl⟩⟩
      constructor
      · intro h
        injection h with h
        exact absurd h (by decide)
      · intro h
        injection h with h
        exact absurd h (by decide)
    · rw [if_neg hsl, if_neg hsl]
      exact ⟨⟨fun _ => rfl, fun _ => rfl⟩, ⟨fun h => (by cases h), fun h => (by cases h)⟩,
        ⟨fun h => (by cases h), fun h => (by cases h)⟩⟩

theorem canAdd_predicts_addItem_witness :
    (sample_inventory 296 [sample_ore 2 18 20, sample_ore 13 20 20]).canAdd (sample_ore 2 3 20) =
      .error "weight limit would be exceeded".toList ∧
    (sample_inventory 296 [sample_ore 2 18 20, sample_ore 13 20 20]).addItem (sample_ore 2 3 20) =
      .ret (.error "weight limit exceeded".toList)
        (sample_inventory 296 [sample_ore 2 18 20, sample_ore 13 20 20]) ∧
    (sample_inventory 296 [sample_ore 2 18 20, sample_ore 13 20 20]).canAdd (sample_ore 2 2 20) =
      .ok () ∧
    ∃ r inv1,
      (sample_inventory 296 [sample_ore 2 18 20, sample_ore 13 20 20]).addItem
        (sample_ore 2 2 20) = .ret r inv1 ∧
      ((sample_inventory 296 [sample_ore 2 18 20, sample_ore 13 20 20]).canAdd
        (sample_ore 2 2 20) = .ok () ↔ r = .ok ()) := by
  obtain ⟨r, inv1, h1, h2, _⟩ := Inventory.canAdd_predicts_addItem
    (sample_inventory 296 [sample_ore 2 18 20, sample_ore 13 20 20]) (sample_ore 2 2 20)
    (by decide) (by decide) (by decide)
  exact ⟨rfl, rfl, rfl, r, inv1, h1, h2⟩

namespace Inventory

/-! ## Inventory: `craft` -/

end Inventory

namespace Inventory

end Inventory


